import Mathlib

/-! # Constraint elimination: a shallow embedding

An embedding of `llvm/lib/Transforms/Scalar/ConstraintElimination.cpp`.

* SSA values are constants or references (`Value.ref id`) to an instruction or
  argument; the instruction behind an identifier is found in a definition table
  (`Defs`), so that identity of values is identity of identifiers, as it is
  identity of addresses in the source, and so that rewriting uses and
  predicates in place is a change of the table.
* `int64_t` quantities are `Int`s; every arithmetic step of the source that can
  leave the 64-bit range goes through `wrap64` or an explicit overflow test.
* `DenseMap<Value *, unsigned>` is an association list in insertion order.
* The linear-arithmetic engine (`ConstraintSystem`) is a parameter: its rows are
  a list of coefficient vectors and its two decisions (does a new row change the
  system, is a row implied) are the fields of `Oracle`.
-/

namespace ConstraintElimination

/-! ## Machine integers -/

/-- The value of `std::numeric_limits<int64_t>::max()`. -/
def MaxConstraintValue : Int := 2 ^ 63 - 1

/-- The value of `std::numeric_limits<int64_t>::min()`. -/
def MinSignedConstraintValue : Int := -(2 ^ 63)

/-- Two's complement reduction of an integer to the `int64_t` range. -/
def wrap64 (x : Int) : Int := (x + 2 ^ 63) % 2 ^ 64 - 2 ^ 63

/-- Whether an exact integer result is representable as an `int64_t`. -/
def fitsInt64 (x : Int) : Bool :=
  decide (MinSignedConstraintValue ≤ x) && decide (x ≤ MaxConstraintValue)

/-- The helper `AddOverflow(X, Y, Result)` of MathExtras: the flag tells whether
the exact sum leaves the range, the result is the wrapped sum. -/
def AddOverflow (x y : Int) : Bool × Int := (!fitsInt64 (x + y), wrap64 (x + y))

/-! ## Types, values, predicates -/

/-- The first-class types the pass distinguishes. -/
inductive Ty where
  | int (bits : Nat)
  | ptr
  | other
  deriving DecidableEq, Repr

/-- An SSA value: a uniqued constant, or an instruction or argument known by
its identity. -/
inductive Value where
  | constInt (bits : Nat) (val : Nat)
  | constNull
  | poison (ty : Ty)
  | ref (id : Nat)
  deriving DecidableEq, Repr

/-- The predicates of `CmpInst::Predicate`: the ten integer ones and the
floating-point ones, the latter told apart by their code. -/
inductive Predicate where
  | ICMP_EQ | ICMP_NE
  | ICMP_UGT | ICMP_UGE | ICMP_ULT | ICMP_ULE
  | ICMP_SGT | ICMP_SGE | ICMP_SLT | ICMP_SLE
  | FCMP (code : Nat)
  deriving DecidableEq, Repr

namespace Predicate

/-- The predicate `CmpInst::getSwappedPredicate` gives: the one that holds of
`(b, a)` exactly when the given one holds of `(a, b)`. -/
def getSwappedPredicate : Predicate → Predicate
  | ICMP_UGT => ICMP_ULT
  | ICMP_UGE => ICMP_ULE
  | ICMP_ULT => ICMP_UGT
  | ICMP_ULE => ICMP_UGE
  | ICMP_SGT => ICMP_SLT
  | ICMP_SGE => ICMP_SLE
  | ICMP_SLT => ICMP_SGT
  | ICMP_SLE => ICMP_SGE
  | p => p

/-- The predicate `CmpInst::getInversePredicate` gives: the logical negation. -/
def getInversePredicate : Predicate → Predicate
  | ICMP_EQ => ICMP_NE
  | ICMP_NE => ICMP_EQ
  | ICMP_UGT => ICMP_ULE
  | ICMP_UGE => ICMP_ULT
  | ICMP_ULT => ICMP_UGE
  | ICMP_ULE => ICMP_UGT
  | ICMP_SGT => ICMP_SLE
  | ICMP_SGE => ICMP_SLT
  | ICMP_SLT => ICMP_SGE
  | ICMP_SLE => ICMP_SGT
  | FCMP c => FCMP c

/-- The test `CmpInst::isSigned`. -/
def isSigned : Predicate → Bool
  | ICMP_SGT | ICMP_SGE | ICMP_SLT | ICMP_SLE => true
  | _ => false

end Predicate

/-- What an instruction is, as far as the pass looks into it.  Everything it
does not inspect is `other`, with its operands: arguments, loads, calls,
multiplications, and so on; `transfers` records
`isGuaranteedToTransferExecutionToSuccessor`. -/
inductive InstKind where
  | other (transfers : Bool) (operands : List Value)
  | zext (op : Value)
  | add (nuw nsw : Bool) (lhs rhs : Value)
  | sub (nuw nsw : Bool) (lhs rhs : Value)
  | shl (nuw nsw : Bool) (lhs rhs : Value)
  | gep (inbounds : Bool) (ptr : Value) (indices : List Value)
  | bitcast (op : Value)
  | icmp (pred : Predicate) (lhs rhs : Value)
  | and (lhs rhs : Value)
  | or (lhs rhs : Value)
  | select (cond tval fval : Value)
  | assume (cond : Value)
  | ssubWithOverflow (lhs rhs : Value)
  | otherWithOverflow (lhs rhs : Value)
  | extractvalue (agg : Value) (indices : List Nat)
  | br (dest : Nat)
  | condBr (cond : Value) (ifTrue ifFalse : Nat)
  | otherTerminator (succs : List Nat) (operands : List Value)
  deriving DecidableEq, Repr

/-- An instruction (or argument): its result type and what it is. -/
structure Instruction where
  ty : Ty
  kind : InstKind
  deriving DecidableEq, Repr

/-- The definition table: the instructions and arguments of a function, each
under its identifier. -/
abbrev Defs := List (Nat × Instruction)

/-- The instruction behind an identifier. -/
def Defs.get : Defs → Nat → Option Instruction
  | [], _ => none
  | (k, i) :: rest, id => if k = id then some i else Defs.get rest id

/-- The kind of the instruction a value refers to, if it is one. -/
def kindOf (defs : Defs) : Value → Option InstKind
  | .ref id => (defs.get id).map (·.kind)
  | _ => none

/-- The result of `Value::getType`. -/
def getType (defs : Defs) : Value → Ty
  | .constInt bits _ => .int bits
  | .constNull => .ptr
  | .poison ty => ty
  | .ref id => ((defs.get id).map (·.ty)).getD .other

/-! ## Integer constants -/

/-- The result of `ConstantInt::getZExtValue` (of `APInt::getZExtValue`). -/
def getZExtValue (bits val : Nat) : Int := ((val % 2 ^ bits : Nat) : Int)

/-- The test `ConstantInt::isNegative`: the sign bit is set. -/
def isNegative (bits val : Nat) : Bool := decide (2 ^ (bits - 1) ≤ val % 2 ^ bits)

/-- The result of `ConstantInt::getSExtValue`: the two's complement reading. -/
def getSExtValue (bits val : Nat) : Int :=
  if isNegative bits val then getZExtValue bits val - 2 ^ bits else getZExtValue bits val

/-- The test `CI->uge(MaxConstraintValue)`, an unsigned comparison. -/
def ugeMax (bits val : Nat) : Bool := decide (MaxConstraintValue ≤ getZExtValue bits val)

/-- The lambda `CanUseSExt` of `decompose`: the signed value lies strictly
between the two limits. -/
def CanUseSExt (bits val : Nat) : Bool :=
  decide (MinSignedConstraintValue < getSExtValue bits val) &&
    decide (getSExtValue bits val < MaxConstraintValue)

/-- The constant `ConstantInt::get(Ty, V)`: `V` is taken as a `uint64_t` and
cut (or zero-extended) to the width of the type.  The source only asks for it
at integer types; at any other type LLVM stops on a failed cast, and the model
gives a poison value. -/
def ConstantInt.get (ty : Ty) (v : Int) : Value :=
  match ty with
  | .int bits => .constInt bits (v % 2 ^ 64 % 2 ^ bits).toNat
  | t => .poison t

/-- The matcher `m_Zero()`: a null constant. -/
def isZero : Value → Bool
  | .constInt bits val => decide (val % 2 ^ bits = 0)
  | .constNull => true
  | _ => false

/-- The conversion to `int64_t` of `std::pow(int64_t(2), e)`, which is computed
in `double`: exact for `0 ≤ e ≤ 62`, zero after truncation of a fraction for
negative `e`; for larger `e` the conversion is out of range, where the model
takes the value x86-64 produces. -/
def powTwo (e : Int) : Int :=
  if e < 0 then 0
  else if e ≤ 62 then 2 ^ e.toNat
  else MinSignedConstraintValue

/-! ## Decomposition -/

/-- Struct to express a pre-condition of the form `Op0 Pred Op1`. -/
structure PreconditionTy where
  Pred : Predicate
  Op0 : Value
  Op1 : Value
  deriving DecidableEq, Repr

/-- The matcher `m_ZExt(m_Value(Op0))`. -/
def matchZExt (defs : Defs) (v : Value) : Option Value :=
  match kindOf defs v with
  | some (.zext op) => some op
  | _ => none

/-- The matcher `m_NUWShl(m_Value(X), m_ConstantInt(CI))`: operand, width and
value of the constant. -/
def matchNUWShlConst (defs : Defs) (v : Value) : Option (Value × Nat × Nat) :=
  match kindOf defs v with
  | some (.shl true _ x (.constInt bits val)) => some (x, bits, val)
  | _ => none

/-- The matcher `m_NSWAdd(m_Value(X), m_ConstantInt(CI))`. -/
def matchNSWAddConst (defs : Defs) (v : Value) : Option (Value × Nat × Nat) :=
  match kindOf defs v with
  | some (.add _ true x (.constInt bits val)) => some (x, bits, val)
  | _ => none

/-- The matcher `m_NUWAdd(m_Value(X), m_ConstantInt(CI))`. -/
def matchNUWAddConst (defs : Defs) (v : Value) : Option (Value × Nat × Nat) :=
  match kindOf defs v with
  | some (.add true _ x (.constInt bits val)) => some (x, bits, val)
  | _ => none

/-- The matcher `m_Add(m_Value(X), m_ConstantInt(CI))`. -/
def matchAddConst (defs : Defs) (v : Value) : Option (Value × Nat × Nat) :=
  match kindOf defs v with
  | some (.add _ _ x (.constInt bits val)) => some (x, bits, val)
  | _ => none

/-- The matcher `m_NUWAdd(m_Value(X), m_Value(Y))`. -/
def matchNUWAdd (defs : Defs) (v : Value) : Option (Value × Value) :=
  match kindOf defs v with
  | some (.add true _ x y) => some (x, y)
  | _ => none

/-- The matcher `m_NUWSub(m_Value(X), m_ConstantInt(CI))`. -/
def matchNUWSubConst (defs : Defs) (v : Value) : Option (Value × Nat × Nat) :=
  match kindOf defs v with
  | some (.sub true _ x (.constInt bits val)) => some (x, bits, val)
  | _ => none

/-- The matcher `m_NUWSub(m_Value(X), m_Value(Y))`. -/
def matchNUWSub (defs : Defs) (v : Value) : Option (Value × Value) :=
  match kindOf defs v with
  | some (.sub true _ x y) => some (x, y)
  | _ => none

/-- The test `GEP && GEP->getNumOperands() == 2 && GEP->isInBounds()`: pointer
operand and the one index. -/
def matchInBoundsGEP (defs : Defs) (v : Value) : Option (Value × Value) :=
  match kindOf defs v with
  | some (.gep true ptr [idx]) => some (ptr, idx)
  | _ => none

/-- The pairs `{ c, X }` that `decompose` returns; the constant factor comes
first and has no value. -/
abbrev Decomposition := List (Int × Option Value)

/-- The part of `decompose` that handles an in-bounds GEP of one index. -/
def decomposeGEP (defs : Defs) (ptr idx : Value) : Decomposition × List PreconditionTy :=
  match matchZExt defs idx with
  | some op0 =>
    -- If the index is zero-extended, it is guaranteed to be positive.
    match (matchNUWShlConst defs op0).filter (fun m => CanUseSExt m.2.1 m.2.2) with
    | some (op1, bits, val) =>
      ([(0, none), (1, some ptr), (powTwo (getSExtValue bits val), some op1)], [])
    | none =>
      match (matchNSWAddConst defs op0).filter (fun m => CanUseSExt m.2.1 m.2.2) with
      | some (op1, bits, val) =>
        ([(getSExtValue bits val, none), (1, some ptr), (1, some op1)], [])
      | none => ([(0, none), (1, some ptr), (1, some op0)], [])
  | none =>
    match idx with
    | .constInt bits val =>
      if !isNegative bits val && CanUseSExt bits val then
        ([(getSExtValue bits val, none), (1, some ptr)], [])
      else
        -- no later matcher applies to a constant index
        ([(0, none), (1, some ptr), (1, some idx)],
          [⟨.ICMP_SGE, idx, ConstantInt.get (getType defs idx) 0⟩])
    | _ =>
      match (matchNUWShlConst defs idx).filter (fun m => CanUseSExt m.2.1 m.2.2) with
      | some (op0, bits, val) =>
        ([(0, none), (1, some ptr), (powTwo (getSExtValue bits val), some op0)],
          [⟨.ICMP_SGE, op0, ConstantInt.get (getType defs op0) 0⟩])
      | none =>
        match (matchNSWAddConst defs idx).filter (fun m => CanUseSExt m.2.1 m.2.2) with
        | some (op0, bits, val) =>
          ([(getSExtValue bits val, none), (1, some ptr), (1, some op0)],
            [⟨.ICMP_SGE, op0, ConstantInt.get (getType defs op0) 0⟩])
        | none =>
          ([(0, none), (1, some ptr), (1, some idx)],
            [⟨.ICMP_SGE, idx, ConstantInt.get (getType defs idx) 0⟩])

/-- The part of `decompose` after the GEP case, for a value that is not a
constant: look through a zero-extension, then try the additions and
subtractions. -/
def decomposeArith (defs : Defs) (v0 : Value) : Decomposition × List PreconditionTy :=
  let v := (matchZExt defs v0).getD v0
  match (matchNUWAddConst defs v).filter (fun m => !ugeMax m.2.1 m.2.2) with
  | some (op0, bits, val) => ([(getZExtValue bits val, none), (1, some op0)], [])
  | none =>
    match (matchAddConst defs v).filter
        (fun m => isNegative m.2.1 m.2.2 && CanUseSExt m.2.1 m.2.2) with
    | some (op0, bits, val) =>
      ([(getSExtValue bits val, none), (1, some op0)],
        [⟨.ICMP_UGE, op0,
          ConstantInt.get (getType defs op0) (wrap64 (getSExtValue bits val * -1))⟩])
    | none =>
      match matchNUWAdd defs v with
      | some (op0, op1) => ([(0, none), (1, some op0), (1, some op1)], [])
      | none =>
        match (matchNUWSubConst defs v).filter (fun m => CanUseSExt m.2.1 m.2.2) with
        | some (op0, bits, val) =>
          ([(wrap64 (-1 * getSExtValue bits val), none), (1, some op0)], [])
        | none =>
          match matchNUWSub defs v with
          | some (op0, op1) => ([(0, none), (1, some op0), (-1, some op1)], [])
          | none => ([(0, none), (1, some v)], [])

/-- Decomposes `V` into a vector of pairs of the form `{ c, X }`, together with
the preconditions it appends.  If the expression cannot be decomposed, the
vector is empty. -/
def decompose (defs : Defs) (V : Value) (IsSigned : Bool) :
    Decomposition × List PreconditionTy :=
  if IsSigned then
    -- Decompose V used with a signed predicate.
    match V with
    | .constInt bits val =>
      if CanUseSExt bits val then ([(getSExtValue bits val, none)], [])
      else ([(0, none), (1, some V)], [])
    | _ => ([(0, none), (1, some V)], [])
  else
    match V with
    | .constInt bits val =>
      if ugeMax bits val then ([], []) else ([(getZExtValue bits val, none)], [])
    | _ =>
      match matchInBoundsGEP defs V with
      | some (ptr, idx) => decomposeGEP defs ptr idx
      | none => decomposeArith defs V

/-! ## Rows and the two constraint systems -/

/-- The map `DenseMap<Value *, unsigned>`, in insertion order. -/
abbrev DenseMap := List (Value × Nat)

/-- The lookup `DenseMap::find`. -/
def DenseMap.find : DenseMap → Value → Option Nat
  | [], _ => none
  | (k, i) :: rest, v => if k = v then some i else DenseMap.find rest v

/-- The insertion `DenseMap::insert`, which keeps an entry already present. -/
def DenseMap.insert (m : DenseMap) (v : Value) (i : Nat) : DenseMap :=
  match m.find v with
  | some _ => m
  | none => m ++ [(v, i)]

/-- The removal `DenseMap::erase`. -/
def DenseMap.erase (m : DenseMap) (v : Value) : DenseMap :=
  m.filter (fun kv => decide (kv.1 ≠ v))

/-- A constraint as `getConstraint` returns it. -/
structure ConstraintTy where
  Coefficients : List Int := []
  Preconditions : List PreconditionTy := []
  IsSigned : Bool := false
  IsEq : Bool := false
  deriving DecidableEq, Repr

/-- The size query `ConstraintTy::size`. -/
def ConstraintTy.size (R : ConstraintTy) : Nat := R.Coefficients.length

/-- The emptiness query `ConstraintTy::empty`. -/
def ConstraintTy.empty (R : ConstraintTy) : Bool := R.Coefficients.isEmpty

/-- The loop of `ConstraintTy::needsNewIndices`: pop one coefficient per new
index, stopping at the first non-zero one.  A `pop_back_val` on an empty vector
is outside the model and leaves the vector empty. -/
def needsNewIndicesLoop : Nat → List Int → Bool × List Int
  | 0, coeffs => (false, coeffs)
  | n + 1, coeffs =>
    if coeffs.getLast?.getD 0 ≠ 0 then (true, coeffs.dropLast)
    else needsNewIndicesLoop n coeffs.dropLast

/-- The method `ConstraintTy::needsNewIndices`: its answer and the constraint
with the popped coefficients gone. -/
def ConstraintTy.needsNewIndices (R : ConstraintTy) (NewIndices : DenseMap) :
    Bool × ConstraintTy :=
  let r := needsNewIndicesLoop NewIndices.length R.Coefficients
  (r.1, { R with Coefficients := r.2 })

/-- The two decisions of the engine `ConstraintSystem` the pass relies on, as
functions of the rows the system holds: whether adding a row changes the
system, and whether a row is implied by it. -/
structure Oracle where
  addsRow : List (List Int) → List Int → Bool
  isConditionImplied : List (List Int) → List Int → Bool

/-- Modelled from the spec: the engine `ConstraintSystem` (§4.4), which holds an
ordered list of accepted rows; the source file only calls it.  The insertion
`addVariableRowFill` reports whether the state changed and, when it did, has
the new row last and all rows at the width of the new one. -/
def addVariableRowFill (O : Oracle) (rows : List (List Int)) (R : List Int) :
    Bool × List (List Int) :=
  if O.addsRow rows R then
    (true, rows.map (fun row => row ++ List.replicate (R.length - row.length) 0) ++ [R])
  else (false, rows)

/-- Modelled from the spec: `popLastRow` of §4.4 (`popLastConstraint`). -/
def popLastConstraint (rows : List (List Int)) : List (List Int) := rows.dropLast

/-- Modelled from the spec: `popLastVariables(n)` of §4.4 (`popLastNVariables`),
which retires the `n` most recently introduced atoms from every row. -/
def popLastNVariables (rows : List (List Int)) (N : Nat) : List (List Int) :=
  rows.map (fun row => row.take (row.length - N))

/-- Modelled from the spec: the helper `negate` of §4.4, producing the negated
inequality: over the integers, not `a·x ≤ c` is `-a·x ≤ -(c + 1)`. -/
def negate (R : List Int) : List Int :=
  match R with
  | [] => []
  | c :: rest => (wrap64 (c + 1) :: rest).map (fun x => wrap64 (x * -1))

/-- The class `ConstraintInfo`: value mappings and constraint systems for both
unsigned and signed information. -/
structure ConstraintInfo where
  UnsignedValue2Index : DenseMap := []
  SignedValue2Index : DenseMap := []
  UnsignedCS : List (List Int) := []
  SignedCS : List (List Int) := []
  deriving DecidableEq, Repr

namespace ConstraintInfo

/-- The accessor `getValue2Index`. -/
def getValue2Index (Info : ConstraintInfo) (Signed : Bool) : DenseMap :=
  if Signed then Info.SignedValue2Index else Info.UnsignedValue2Index

/-- The accessor `getCS`. -/
def getCS (Info : ConstraintInfo) (Signed : Bool) : List (List Int) :=
  if Signed then Info.SignedCS else Info.UnsignedCS

/-- Assignment through the reference `getValue2Index` returns. -/
def setValue2Index (Info : ConstraintInfo) (Signed : Bool) (m : DenseMap) : ConstraintInfo :=
  if Signed then { Info with SignedValue2Index := m } else { Info with UnsignedValue2Index := m }

/-- Assignment through the reference `getCS` returns. -/
def setCS (Info : ConstraintInfo) (Signed : Bool) (rows : List (List Int)) : ConstraintInfo :=
  if Signed then { Info with SignedCS := rows } else { Info with UnsignedCS := rows }

end ConstraintInfo

/-- Modelled from the spec: `stripPointerCastsSameRepresentation`, which strips
representation-only pointer casts (§4.2, step 3); a chain of casts is no longer
than the definition table. -/
def stripCasts (defs : Defs) : Nat → Value → Value
  | 0, v => v
  | n + 1, v =>
    match kindOf defs v with
    | some (.bitcast op) => stripCasts defs n op
    | _ => v

/-- The call `V->stripPointerCastsSameRepresentation()`. -/
def stripPointerCastsSameRepresentation (defs : Defs) (v : Value) : Value :=
  stripCasts defs defs.length v

/-- The lambda `GetOrAddIndex` of `getConstraint`: the index of a value and the
new-index table after the call. -/
def GetOrAddIndex (Value2Index NewIndices : DenseMap) (V : Value) : Nat × DenseMap :=
  match Value2Index.find V with
  | some i => (i, NewIndices)
  | none =>
    match NewIndices.find V with
    | some i => (i, NewIndices)
    | none =>
      (Value2Index.length + NewIndices.length + 1,
        NewIndices ++ [(V, Value2Index.length + NewIndices.length + 1)])

/-- The loop that makes sure all variables have entries in `Value2Index` or
`NewIndices`. -/
def addIndices (Value2Index : DenseMap) : Decomposition → DenseMap → DenseMap
  | [], NewIndices => NewIndices
  | (_, some v) :: rest, NewIndices =>
    addIndices Value2Index rest (GetOrAddIndex Value2Index NewIndices v).2
  | (_, none) :: rest, NewIndices => addIndices Value2Index rest NewIndices

/-- The update `R[I] = f(R[I])` of one coefficient. -/
def updateAt (R : List Int) (I : Nat) (f : Int → Int) : List Int :=
  match R, I with
  | [], _ => []
  | x :: xs, 0 => f x :: xs
  | x :: xs, i + 1 => x :: updateAt xs i f

/-- The loops `R[GetOrAddIndex(KV.second)] += KV.first` (with `sign = 1`) and
`R[GetOrAddIndex(KV.second)] -= KV.first` (with `sign = -1`). -/
def addCoefficients (Value2Index NewIndices : DenseMap) (sign : Int) :
    Decomposition → List Int → List Int
  | [], R => R
  | (c, some v) :: rest, R =>
    addCoefficients Value2Index NewIndices sign rest
      (updateAt R (GetOrAddIndex Value2Index NewIndices v).1 (fun x => wrap64 (x + sign * c)))
  | (_, none) :: rest, R => addCoefficients Value2Index NewIndices sign rest R

/-- The first part of `getConstraint`: converting the predicate to one of
ULE/ULT/SLE/SLT, with the operands in their final order and the equality flag;
`none` where the source returns the empty constraint. -/
def normalizePredicate (Pred : Predicate) (Op0 Op1 : Value) :
    Option (Predicate × Value × Value × Bool) :=
  match Pred with
  | .ICMP_UGT | .ICMP_UGE | .ICMP_SGT | .ICMP_SGE =>
    some (Pred.getSwappedPredicate, Op1, Op0, false)
  | .ICMP_EQ =>
    if isZero Op1 then some (.ICMP_ULE, Op0, Op1, false)
    else some (.ICMP_ULE, Op0, Op1, true)
  | .ICMP_NE =>
    if !isZero Op1 then none
    else some (Predicate.getSwappedPredicate .ICMP_UGT, Op1, Op0, false)
  | p => some (p, Op0, Op1, false)

/-- The method `ConstraintInfo::getConstraint`: turn a comparison into a
constraint, using indices from the corresponding system; additional indices for
newly discovered values are added to `NewIndices`, which is returned too. -/
def ConstraintInfo.getConstraint (Info : ConstraintInfo) (defs : Defs) (Pred : Predicate)
    (Op0 Op1 : Value) (NewIndices : DenseMap) : ConstraintTy × DenseMap :=
  match normalizePredicate Pred Op0 Op1 with
  | none => ({}, NewIndices)
  | some (Pred, Op0, Op1, IsEq) =>
    -- Only ULE and ULT predicates are supported at the moment.
    if Pred ≠ .ICMP_ULE ∧ Pred ≠ .ICMP_ULT ∧ Pred ≠ .ICMP_SLE ∧ Pred ≠ .ICMP_SLT then
      ({}, NewIndices)
    else
      let IsSigned := Pred.isSigned
      let Value2Index := Info.getValue2Index IsSigned
      let ADec := decompose defs (stripPointerCastsSameRepresentation defs Op0) IsSigned
      let BDec := decompose defs (stripPointerCastsSameRepresentation defs Op1) IsSigned
      let Preconditions := ADec.2 ++ BDec.2
      -- Skip if decomposing either of the values failed.
      match ADec.1, BDec.1 with
      | [], _ => ({}, NewIndices)
      | _ :: _, [] => ({}, NewIndices)
      | (a0, _) :: VariablesA, (b0, _) :: VariablesB =>
        let Offset1 := wrap64 (a0 * -1)
        let Offset2 := b0
        let NewIndices := addIndices Value2Index (VariablesA ++ VariablesB) NewIndices
        let R := List.replicate (Value2Index.length + NewIndices.length + 1) (0 : Int)
        let R := addCoefficients Value2Index NewIndices 1 VariablesA R
        let R := addCoefficients Value2Index NewIndices (-1) VariablesB R
        let Sum := AddOverflow Offset1 Offset2
        if Sum.1 then ({}, NewIndices)
        else
          let Strict := decide (Pred = (if IsSigned then .ICMP_SLT else .ICMP_ULT))
          let Sum2 := AddOverflow Sum.2 (-1)
          if Strict && Sum2.1 then ({}, NewIndices)
          else
            ({ Coefficients := updateAt R 0 (fun _ => if Strict then Sum2.2 else Sum.2),
               Preconditions := Preconditions, IsSigned := IsSigned, IsEq := IsEq },
             NewIndices)

/-! ## The dual-domain store -/

/-- An entry of the scope stack `DFSInStack`.  The stack is a list whose head
is the top (`back()`) of the vector in the source. -/
structure StackEntry where
  NumIn : Nat
  NumOut : Nat
  IsNot : Bool
  IsSigned : Bool
  /-- Variables that can be removed from the system once the stack entry gets
  removed. -/
  ValuesToRelease : List Value
  deriving DecidableEq, Repr

/-- The method `ConstraintInfo::doesHold`. -/
def ConstraintInfo.doesHold (O : Oracle) (Info : ConstraintInfo) (defs : Defs)
    (Pred : Predicate) (A B : Value) : Bool :=
  let r := Info.getConstraint defs Pred A B []
  let R := r.1
  let NewIndices := r.2
  if !NewIndices.isEmpty then false
  else
    NewIndices.isEmpty && R.Preconditions.isEmpty && !R.IsEq && !R.empty &&
      O.isConditionImplied (Info.getCS Pred.isSigned) R.Coefficients

/-- The method `ConstraintTy::isValid`: the constraint is not empty and all its
preconditions hold. -/
def ConstraintTy.isValid (O : Oracle) (R : ConstraintTy) (Info : ConstraintInfo)
    (defs : Defs) : Bool :=
  decide (R.Coefficients.length > 0) &&
    R.Preconditions.all (fun C => Info.doesHold O defs C.Pred C.Op0 C.Op1)

/-- The loop of `addFact` that commits the new indices to the mapping. -/
def insertAll (m : DenseMap) : DenseMap → DenseMap
  | [] => m
  | (v, i) :: rest => insertAll (m.insert v i) rest

/-- The method `ConstraintInfo::addFact`: the store and the scope stack after
the call. -/
def ConstraintInfo.addFact (O : Oracle) (Info : ConstraintInfo) (defs : Defs)
    (Pred : Predicate) (A B : Value) (IsNegated : Bool) (NumIn NumOut : Nat)
    (DFSInStack : List StackEntry) : ConstraintInfo × List StackEntry :=
  -- If the constraint has a pre-condition, skip the constraint if it does not
  -- hold.
  let r := Info.getConstraint defs Pred A B []
  let R := r.1
  let NewIndices := r.2
  if !R.isValid O Info defs then (Info, DFSInStack)
  else if R.Coefficients.isEmpty then (Info, DFSInStack)
  else
    let added := addVariableRowFill O (Info.getCS R.IsSigned) R.Coefficients
    let Info := Info.setCS R.IsSigned added.2
    -- If R has been added to the system, queue it for removal once it goes
    -- out-of-scope.
    if added.1 then
      let Info := Info.setValue2Index R.IsSigned
        (insertAll (Info.getValue2Index R.IsSigned) NewIndices)
      let ValuesToRelease := NewIndices.map (·.1)
      let DFSInStack := ⟨NumIn, NumOut, IsNegated, R.IsSigned, ValuesToRelease⟩ :: DFSInStack
      if R.IsEq then
        -- Also add the inverted constraint for equality constraints.
        let inverted := R.Coefficients.map (fun c => wrap64 (c * -1))
        let Info := Info.setCS R.IsSigned
          (addVariableRowFill O (Info.getCS R.IsSigned) inverted).2
        (Info, ⟨NumIn, NumOut, IsNegated, R.IsSigned, []⟩ :: DFSInStack)
      else (Info, DFSInStack)
    else (Info, DFSInStack)

/-- The test `A->getType()->isIntegerTy()`. -/
def isIntegerTy : Ty → Bool
  | .int _ => true
  | _ => false

/-- The method `ConstraintInfo::transferToOtherSystem`: try to add information
from `A Pred B` to the unsigned system if `Pred` is signed. -/
def ConstraintInfo.transferToOtherSystem (O : Oracle) (Info : ConstraintInfo) (defs : Defs)
    (Pred : Predicate) (A B : Value) (IsNegated : Bool) (NumIn NumOut : Nat)
    (DFSInStack : List StackEntry) : ConstraintInfo × List StackEntry :=
  -- Check if we can combine facts from the signed and unsigned systems to
  -- derive additional facts.
  if !isIntegerTy (getType defs A) then (Info, DFSInStack)
  else
    match Pred with
    | .ICMP_SLT =>
      if Info.doesHold O defs .ICMP_SGE A (ConstantInt.get (getType defs B) 0) then
        Info.addFact O defs .ICMP_ULT A B IsNegated NumIn NumOut DFSInStack
      else (Info, DFSInStack)
    | .ICMP_SGT =>
      if Info.doesHold O defs .ICMP_SGE B (ConstantInt.get (getType defs B) (-1)) then
        Info.addFact O defs .ICMP_UGE A (ConstantInt.get (getType defs B) 0)
          IsNegated NumIn NumOut DFSInStack
      else (Info, DFSInStack)
    | .ICMP_SGE =>
      if Info.doesHold O defs .ICMP_SGE B (ConstantInt.get (getType defs B) 0) then
        Info.addFact O defs .ICMP_UGE A B IsNegated NumIn NumOut DFSInStack
      else (Info, DFSInStack)
    | _ => (Info, DFSInStack)

/-! ## Functions, dominator tree, worklist -/

/-- A basic block: its identity and its instructions in order, the terminator
last. -/
structure BasicBlock where
  id : Nat
  insts : List Nat
  deriving DecidableEq, Repr

/-- A function: the instructions and arguments, and the blocks in layout
order. -/
structure Function where
  defs : Defs
  blocks : List BasicBlock
  deriving DecidableEq, Repr

/-- A node of the dominator tree with its depth-first numbers. -/
structure DomTreeNode where
  Block : Nat
  DFSNumIn : Nat
  DFSNumOut : Nat
  deriving DecidableEq, Repr

/-- The dominator tree, as the nodes of the reachable blocks. -/
structure DominatorTree where
  nodes : List DomTreeNode
  deriving DecidableEq, Repr

/-- The lookup `DT.getNode`, which fails for an unreachable block. -/
def DominatorTree.getNode (DT : DominatorTree) (BB : Nat) : Option DomTreeNode :=
  DT.nodes.find? (fun n => decide (n.Block = BB))

/-- Modelled from the spec: the query `dominates(A, B)` (§1), which holds iff
`NumIn(A) ≤ NumIn(B) ≤ NumOut(B) ≤ NumOut(A)`; a block dominates itself, and a
block without a node is dominated by every block and dominates no other. -/
def DominatorTree.dominates (DT : DominatorTree) (A B : Nat) : Bool :=
  if A = B then true
  else
    match DT.getNode B with
    | none => true
    | some nb =>
      match DT.getNode A with
      | none => false
      | some na =>
        decide (na.DFSNumIn ≤ nb.DFSNumIn) && decide (nb.DFSNumIn ≤ nb.DFSNumOut) &&
          decide (nb.DFSNumOut ≤ na.DFSNumOut)

/-- Modelled from the spec: the query `properlyDominates(A, B)` (§1). -/
def DominatorTree.properlyDominates (DT : DominatorTree) (A B : Nat) : Bool :=
  decide (A ≠ B) && DT.dominates A B

/-- Whether an instruction ends a block. -/
def isTerminator : InstKind → Bool
  | .br _ | .condBr _ _ _ | .otherTerminator _ _ => true
  | _ => false

/-- The kind of the instruction with a given identifier. -/
def Function.kind (F : Function) (id : Nat) : Option InstKind :=
  (F.defs.get id).map (·.kind)

/-- The terminator `BB.getTerminator()`. -/
def Function.getTerminator (F : Function) (BB : BasicBlock) : Option InstKind :=
  match BB.insts.getLast? with
  | none => none
  | some id =>
    match F.kind id with
    | some k => if isTerminator k then some k else none
    | none => none

/-- The range `successors(&BB)`. -/
def Function.successors (F : Function) (BB : BasicBlock) : List Nat :=
  match F.getTerminator BB with
  | some (.br dest) => [dest]
  | some (.condBr _ ifTrue ifFalse) => [ifTrue, ifFalse]
  | some (.otherTerminator succs _) => succs
  | _ => []

/-- The range `predecessors(Succ)`, one entry per block. -/
def Function.predecessors (F : Function) (Succ : Nat) : List Nat :=
  (F.blocks.filter (fun B => decide (Succ ∈ F.successors B))).map (·.id)

/-- The query `BB.getSingleSuccessor()`: the successor of a block that has
exactly one successor edge. -/
def Function.getSingleSuccessor (F : Function) (BB : BasicBlock) : Option Nat :=
  match F.successors BB with
  | [s] => some s
  | _ => none

/-- Represents either a condition that holds on entry to a block or a basic
block, with their respective dominator DFS in and out numbers. -/
structure ConstraintOrBlock where
  NumIn : Nat
  NumOut : Nat
  IsBlock : Bool
  Not : Bool
  /-- The block, for a block entry. -/
  BB : Nat
  /-- The compare instruction, for a condition entry. -/
  Condition : Nat
  deriving DecidableEq, Repr

/-- The constructor `ConstraintOrBlock(DTN)`. -/
def ConstraintOrBlock.ofBlock (DTN : DomTreeNode) : ConstraintOrBlock :=
  ⟨DTN.DFSNumIn, DTN.DFSNumOut, true, false, DTN.Block, 0⟩

/-- The constructor `ConstraintOrBlock(DTN, Condition, Not)`. -/
def ConstraintOrBlock.ofCondition (DTN : DomTreeNode) (Condition : Nat) (Not : Bool) :
    ConstraintOrBlock :=
  ⟨DTN.DFSNumIn, DTN.DFSNumOut, false, Not, 0, Condition⟩

/-- The method `State::canAddSuccessor`: whether a known condition from `BB`
can be added to its successor block `Succ`. -/
def canAddSuccessor (F : Function) (DT : DominatorTree) (BB : BasicBlock) (Succ : Nat) : Bool :=
  match F.getSingleSuccessor BB with
  | some _ => DT.properlyDominates BB.id Succ
  | none =>
    (F.successors BB).any (fun S => decide (S ≠ Succ)) &&
      (F.predecessors Succ).all (fun Pred => decide (Pred = BB.id) || DT.dominates Succ Pred)

/-- The call `WorkList.emplace_back(DT.getNode(BB), Condition, Not)`; a block
without a node, which a successor of a reachable block never is, adds
nothing. -/
def emplaceCondition (DT : DominatorTree) (BB : Nat) (Condition : Nat) (Not : Bool) :
    List ConstraintOrBlock :=
  match DT.getNode BB with
  | some DTN => [ConstraintOrBlock.ofCondition DTN Condition Not]
  | none => []

/-- The test `isa<ICmpInst>(V)`, with the identifier of the compare. -/
def asICmp (F : Function) : Value → Option Nat
  | .ref id =>
    match F.kind id with
    | some (.icmp _ _ _) => some id
    | _ => none
  | _ => none

/-- The function `isGuaranteedToTransferExecutionToSuccessor`, which is given
for the instructions the pass does not inspect and holds of the others. -/
def transfersExecution : InstKind → Bool
  | .other transfers _ => transfers
  | _ => true

/-- The scan of `addInfoFor` for assume calls: the entries it queues, given
whether the current instruction is guaranteed to execute. -/
def scanAssumes (F : Function) (DT : DominatorTree) (BB : BasicBlock) :
    List Nat → Bool → List ConstraintOrBlock
  | [], _ => []
  | I :: rest, GuaranteedToExecute =>
    let k := F.kind I
    let queued :=
      match k with
      | some (.assume Cond) =>
        match asICmp F Cond with
        | some cmp =>
          if GuaranteedToExecute then
            -- The assume is guaranteed to execute when BB is entered, hence Cond
            -- holds on entry to BB.
            emplaceCondition DT BB.id cmp false
          else
            -- Otherwise the condition only holds in the successors.
            ((F.successors BB).filter (fun Succ => canAddSuccessor F DT BB Succ)).flatMap
              (fun Succ => emplaceCondition DT Succ cmp false)
        | none => []
      | _ => []
    queued ++ scanAssumes F DT BB rest
      (GuaranteedToExecute && (k.map transfersExecution).getD true)

/-- The matcher `m_LogicalOr(m_Value(Op0), m_Value(Op1))` on a value of type
`i1`: an `or`, or a select whose true value is the constant one. -/
def matchLogicalOr (F : Function) (v : Value) : Option (Value × Value) :=
  match v with
  | .ref id =>
    match F.defs.get id with
    | some ⟨.int 1, .or a b⟩ => some (a, b)
    | some ⟨.int 1, .select c (.constInt bits val) f⟩ =>
      if getType F.defs c = .int 1 ∧ val % 2 ^ bits = 1 then some (c, f) else none
    | _ => none
  | _ => none

/-- The matcher `m_LogicalAnd(m_Value(Op0), m_Value(Op1))` on a value of type
`i1`: an `and`, or a select whose false value is the null constant. -/
def matchLogicalAnd (F : Function) (v : Value) : Option (Value × Value) :=
  match v with
  | .ref id =>
    match F.defs.get id with
    | some ⟨.int 1, .and a b⟩ => some (a, b)
    | some ⟨.int 1, .select c t (.constInt bits val)⟩ =>
      if getType F.defs c = .int 1 ∧ val % 2 ^ bits = 0 then some (c, t) else none
    | _ => none
  | _ => none

/-- The part of `addInfoFor` that looks at a conditional branch. -/
def branchFacts (F : Function) (DT : DominatorTree) (BB : BasicBlock) (Cond : Value)
    (TrueSuccessor FalseSuccessor : Nat) : List ConstraintOrBlock :=
  -- If the condition is an OR of 2 compares and the false successor only has
  -- the current block as predecessor, queue both negated conditions for the
  -- false successor.
  match (matchLogicalOr F Cond).bind (fun m => (asICmp F m.1).bind (fun c0 =>
      (asICmp F m.2).map (fun c1 => (c0, c1)))) with
  | some (c0, c1) =>
    if canAddSuccessor F DT BB FalseSuccessor then
      emplaceCondition DT FalseSuccessor c0 true ++ emplaceCondition DT FalseSuccessor c1 true
    else []
  | none =>
    -- If the condition is an AND of 2 compares and the true successor only has
    -- the current block as predecessor, queue both conditions for the true
    -- successor.
    match (matchLogicalAnd F Cond).bind (fun m => (asICmp F m.1).bind (fun c0 =>
        (asICmp F m.2).map (fun c1 => (c0, c1)))) with
    | some (c0, c1) =>
      if canAddSuccessor F DT BB TrueSuccessor then
        emplaceCondition DT TrueSuccessor c0 false ++ emplaceCondition DT TrueSuccessor c1 false
      else []
    | none =>
      match asICmp F Cond with
      | none => []
      | some CmpI =>
        (if canAddSuccessor F DT BB TrueSuccessor then
          emplaceCondition DT TrueSuccessor CmpI false else []) ++
        (if canAddSuccessor F DT BB FalseSuccessor then
          emplaceCondition DT FalseSuccessor CmpI true else [])

/-- The method `State::addInfoFor`: process block `BB` and give the entries it
adds to the work-list. -/
def addInfoFor (F : Function) (DT : DominatorTree) (BB : BasicBlock) : List ConstraintOrBlock :=
  let marker :=
    match DT.getNode BB.id with
    | some DTN => [ConstraintOrBlock.ofBlock DTN]
    | none => []
  let assumes := scanAssumes F DT BB BB.insts true
  let branch :=
    match F.getTerminator BB with
    | some (.condBr Cond ifTrue ifFalse) => branchFacts F DT BB Cond ifTrue ifFalse
    | _ => []
  marker ++ assumes ++ branch

/-- The first loop of `eliminateConstraints`: collect conditions implied by
branches and blocks, skipping the blocks without a node. -/
def collectWorkList (F : Function) (DT : DominatorTree) : List ConstraintOrBlock :=
  (F.blocks.filter (fun BB => (DT.getNode BB.id).isSome)).flatMap (addInfoFor F DT)

/-- The comparison the work-list is sorted by:
`std::tie(A.NumIn, A.IsBlock) < std::tie(B.NumIn, B.IsBlock)`. -/
def worklistLess (A B : ConstraintOrBlock) : Bool :=
  decide (A.NumIn < B.NumIn) || (decide (A.NumIn = B.NumIn) && !A.IsBlock && B.IsBlock)

/-- Insertion of an entry before the entries that came after it and are not
smaller; one step of a stable sort. -/
def insertSorted (x : ConstraintOrBlock) : List ConstraintOrBlock → List ConstraintOrBlock
  | [] => [x]
  | y :: ys => if worklistLess y x then y :: insertSorted x ys else x :: y :: ys

/-- The call `stable_sort(S.WorkList, ...)`. -/
def stableSort : List ConstraintOrBlock → List ConstraintOrBlock
  | [] => []
  | x :: xs => insertSorted x (stableSort xs)

/-! ## Rewriting the function -/

/-- The operands of an instruction. -/
def InstKind.operands : InstKind → List Value
  | .other _ ops => ops
  | .zext op => [op]
  | .add _ _ a b => [a, b]
  | .sub _ _ a b => [a, b]
  | .shl _ _ a b => [a, b]
  | .gep _ ptr idx => ptr :: idx
  | .bitcast op => [op]
  | .icmp _ a b => [a, b]
  | .and a b => [a, b]
  | .or a b => [a, b]
  | .select c t f => [c, t, f]
  | .assume c => [c]
  | .ssubWithOverflow a b => [a, b]
  | .otherWithOverflow a b => [a, b]
  | .extractvalue agg _ => [agg]
  | .br _ => []
  | .condBr c _ _ => [c]
  | .otherTerminator _ ops => ops

/-- An instruction with every operand rewritten. -/
def InstKind.mapOperands (f : Value → Value) : InstKind → InstKind
  | .other t ops => .other t (ops.map f)
  | .zext op => .zext (f op)
  | .add nuw nsw a b => .add nuw nsw (f a) (f b)
  | .sub nuw nsw a b => .sub nuw nsw (f a) (f b)
  | .shl nuw nsw a b => .shl nuw nsw (f a) (f b)
  | .gep inb ptr idx => .gep inb (f ptr) (idx.map f)
  | .bitcast op => .bitcast (f op)
  | .icmp p a b => .icmp p (f a) (f b)
  | .and a b => .and (f a) (f b)
  | .or a b => .or (f a) (f b)
  | .select c t e => .select (f c) (f t) (f e)
  | .assume c => .assume (f c)
  | .ssubWithOverflow a b => .ssubWithOverflow (f a) (f b)
  | .otherWithOverflow a b => .otherWithOverflow (f a) (f b)
  | .extractvalue agg idx => .extractvalue (f agg) idx
  | .br d => .br d
  | .condBr c t e => .condBr (f c) t e
  | .otherTerminator s ops => .otherTerminator s (ops.map f)

/-- Whether a user is a call of the assume intrinsic. -/
def isAssume : InstKind → Bool
  | .assume _ => true
  | _ => false

/-- The call `Old->replaceUsesWithIf(New, ShouldReplace)`, the test being one on
the user. -/
def replaceUsesWithIf (defs : Defs) (Old : Nat) (New : Value) (ShouldReplace : InstKind → Bool) :
    Defs :=
  defs.map (fun e =>
    if ShouldReplace e.2.kind then
      (e.1, { e.2 with kind := e.2.kind.mapOperands (fun v => if v = .ref Old then New else v) })
    else e)

/-- The call `Old->replaceAllUsesWith(New)`. -/
def replaceAllUsesWith (defs : Defs) (Old : Nat) (New : Value) : Defs :=
  replaceUsesWithIf defs Old New (fun _ => true)

/-- The users of a value: the instructions with the value among their
operands. -/
def users (defs : Defs) (V : Nat) : List Nat :=
  (defs.filter (fun e => decide (Value.ref V ∈ e.2.kind.operands))).map (·.1)

/-- The call `I->setPredicate(P)` on a compare. -/
def setPredicate (defs : Defs) (I : Nat) (P : Predicate) : Defs :=
  defs.map (fun e =>
    if e.1 = I then
      match e.2.kind with
      | .icmp _ a b => (e.1, { e.2 with kind := .icmp P a b })
      | _ => e
    else e)

/-- The call `I->setOperand(0, V)` on an extractvalue. -/
def setAggregateOperand (defs : Defs) (I : Nat) (V : Value) : Defs :=
  defs.map (fun e =>
    if e.1 = I then
      match e.2.kind with
      | .extractvalue _ idx => (e.1, { e.2 with kind := .extractvalue V idx })
      | _ => e
    else e)

/-- The call `I->eraseFromParent()`. -/
def Function.eraseFromParent (F : Function) (I : Nat) : Function :=
  { defs := F.defs.filter (fun e => decide (e.1 ≠ I)),
    blocks := F.blocks.map (fun B => { B with insts := B.insts.filter (fun i => decide (i ≠ I)) }) }

/-- An identifier no instruction of the function has. -/
def Function.freshId (F : Function) : Nat :=
  (F.defs.map (·.1)).foldl max 0 + 1

/-- Insertion of a new instruction before instruction `Before`. -/
def Function.insertBefore (F : Function) (Before : Nat) (id : Nat) (I : Instruction) : Function :=
  { defs := F.defs ++ [(id, I)],
    blocks := F.blocks.map (fun B =>
      { B with insts := B.insts.flatMap (fun i => if i = Before then [id, i] else [i]) }) }

/-- The call `Builder.CreateSub(A, B)` with the builder placed before `II`: two
constants are folded, anything else gives a new subtraction. -/
def CreateSub (F : Function) (II : Nat) (A B : Value) : Function × Value :=
  match A, B with
  | .constInt bits a, .constInt _ b =>
    (F, .constInt bits ((a % 2 ^ bits + (2 ^ bits - b % 2 ^ bits)) % 2 ^ bits))
  | .constInt bits _, .poison _ => (F, .poison (.int bits))
  | .poison ty, .constInt _ _ => (F, .poison ty)
  | .poison ty, .poison _ => (F, .poison ty)
  | _, _ =>
    (F.insertBefore II F.freshId ⟨getType F.defs A, .sub false false A B⟩, .ref F.freshId)

/-- The lambda `DoesConditionHold` of `tryToSimplifyOverflowMath`. -/
def DoesConditionHold (O : Oracle) (Pred : Predicate) (A B : Value) (Info : ConstraintInfo)
    (defs : Defs) : Bool :=
  let r := Info.getConstraint defs Pred A B []
  if decide (r.1.size < 2) then false
  else
    let n := r.1.needsNewIndices r.2
    if n.1 then false
    else if !n.2.isValid O Info defs then false
    else O.isConditionImplied (Info.getCS Pred.isSigned) n.2.Coefficients

/-- The loop of `tryToSimplifyOverflowMath` over the users of the intrinsic:
the function, the subtraction created so far and the instructions to remove. -/
def simplifyUsers (II : Nat) (IITy : Ty) (A B : Value) :
    List Nat → Function → Option Value → List Nat → Function × Option Value × List Nat
  | [], F, Sub, ToRemove => (F, Sub, ToRemove)
  | U :: rest, F, Sub, ToRemove =>
    let replaced : Option (Function × Option Value) :=
      match F.kind U with
      | some (.extractvalue _ [0]) =>
        let s := match Sub with
          | some v => (F, v)
          | none => CreateSub F II A B
        some ({ s.1 with defs := replaceAllUsesWith s.1.defs U s.2 }, some s.2)
      | some (.extractvalue _ [1]) =>
        some ({ F with defs := replaceAllUsesWith F.defs U (.constInt 1 0) }, Sub)
      | _ => none
    match replaced with
    | none => simplifyUsers II IITy A B rest F Sub ToRemove
    | some (F, Sub) =>
      if (users F.defs U).isEmpty then
        simplifyUsers II IITy A B rest
          { F with defs := setAggregateOperand F.defs U (.poison IITy) } Sub (ToRemove ++ [U])
      else simplifyUsers II IITy A B rest F Sub ToRemove

/-- The function `tryToSimplifyOverflowMath`. -/
def tryToSimplifyOverflowMath (O : Oracle) (II : Nat) (Info : ConstraintInfo) (F : Function)
    (ToRemove : List Nat) : Function × List Nat :=
  match F.kind II with
  | some (.ssubWithOverflow A B) =>
    -- If A s>= B && B s>= 0, ssub.with.overflow(a, b) should not overflow and
    -- can be simplified to a regular sub.
    if !DoesConditionHold O .ICMP_SGE A B Info F.defs ||
        !DoesConditionHold O .ICMP_SGE B (ConstantInt.get (getType F.defs A) 0) Info F.defs then
      (F, ToRemove)
    else
      let r := simplifyUsers II (getType F.defs (.ref II)) A B (users F.defs II) F none ToRemove
      if (users r.1.defs II).isEmpty then (r.1.eraseFromParent II, r.2.2)
      else (r.1, r.2.2)
  | _ => (F, ToRemove)

/-! ## The elimination driver -/

/-- The local state of `eliminateConstraints` during the walk of the work-list.
`Counter` is the number of queries made to the debug counter so far. -/
structure DriverState where
  F : Function
  Info : ConstraintInfo := {}
  DFSInStack : List StackEntry := []
  ToRemove : List Nat := []
  Changed : Bool := false
  NumCondsRemoved : Nat := 0
  Counter : Nat := 0
  deriving DecidableEq, Repr

/-- The loop that pops entries from the stack that are out-of-scope for the
work-list entry with out-number `NumOut`, removing the corresponding rows and
variables from the constraint systems. -/
def popOutOfScope (NumOut : Nat) (Info : ConstraintInfo) :
    List StackEntry → ConstraintInfo × List StackEntry
  | [] => (Info, [])
  | E :: rest =>
    if NumOut ≤ E.NumOut then (Info, E :: rest)
    else
      let Info := Info.setCS E.IsSigned (popLastConstraint (Info.getCS E.IsSigned))
      -- Remove variables in the system that went out of scope.
      let Info := Info.setValue2Index E.IsSigned
        (E.ValuesToRelease.foldl DenseMap.erase (Info.getValue2Index E.IsSigned))
      let Info := Info.setCS E.IsSigned
        (popLastNVariables (Info.getCS E.IsSigned) E.ValuesToRelease.length)
      popOutOfScope NumOut Info rest

/-- The constant `ConstantInt::getTrue`. -/
def getTrue : Value := .constInt 1 1

/-- The constant `ConstantInt::getFalse`. -/
def getFalse : Value := .constInt 1 0

/-- The body of the loop over the instructions of a block.  The function
`shouldExecute` answers the queries `DebugCounter::shouldExecute`, by their
number. -/
def processInstruction (O : Oracle) (shouldExecute : Nat → Bool) (S : DriverState)
    (I : Nat) : DriverState :=
  match S.F.kind I with
  | some (.ssubWithOverflow _ _) | some (.otherWithOverflow _ _) =>
    let r := tryToSimplifyOverflowMath O I S.Info S.F S.ToRemove
    { S with F := r.1, ToRemove := r.2 }
  | some (.icmp Pred A B) =>
    let r := S.Info.getConstraint S.F.defs Pred A B []
    if r.1.IsEq || r.1.empty then S
    else
      let n := r.1.needsNewIndices r.2
      if n.1 || !n.2.isValid O S.Info S.F.defs then S
      else
        let R := n.2
        let CSToUse := S.Info.getCS R.IsSigned
        let implied := O.isConditionImplied CSToUse R.Coefficients
        if implied && !shouldExecute S.Counter then { S with Counter := S.Counter + 1 }
        else
          let S :=
            if implied then
              { S with
                F := { S.F with defs := replaceUsesWithIf S.F.defs I getTrue (fun k => !isAssume k) },
                NumCondsRemoved := S.NumCondsRemoved + 1,
                Changed := true,
                Counter := S.Counter + 1 }
            else S
          let impliedNot := O.isConditionImplied CSToUse (negate R.Coefficients)
          if impliedNot && !shouldExecute S.Counter then { S with Counter := S.Counter + 1 }
          else if impliedNot then
            { S with
              F := { S.F with defs := replaceAllUsesWith S.F.defs I getFalse },
              NumCondsRemoved := S.NumCondsRemoved + 1,
              Changed := true,
              Counter := S.Counter + 1 }
          else S
  | _ => S

/-- The part of the loop body for a condition: negate the predicate in place
if required, add the condition to the system and the stack, and restore the
predicate at the end of the scope. -/
def processCondition (O : Oracle) (S : DriverState) (CB : ConstraintOrBlock) : DriverState :=
  match S.F.kind CB.Condition with
  | some (.icmp Original _ _) =>
    let defs :=
      if CB.Not then setPredicate S.F.defs CB.Condition Original.getInversePredicate
      else S.F.defs
    match kindOf defs (.ref CB.Condition) with
    | some (.icmp Pred A B) =>
      let r := S.Info.addFact O defs Pred A B CB.Not CB.NumIn CB.NumOut S.DFSInStack
      let r := r.1.transferToOtherSystem O defs Pred A B CB.Not CB.NumIn CB.NumOut r.2
      let defs :=
        if CB.Not then setPredicate defs CB.Condition Pred.getInversePredicate else defs
      { S with F := { S.F with defs := defs }, Info := r.1, DFSInStack := r.2 }
    | _ => S
  | _ => S

/-- The body of the loop over the ordered work-list. -/
def processEntry (O : Oracle) (shouldExecute : Nat → Bool) (S : DriverState)
    (CB : ConstraintOrBlock) : DriverState :=
  -- First, pop entries from the stack that are out-of-scope for CB.
  let p := popOutOfScope CB.NumOut S.Info S.DFSInStack
  let S := { S with Info := p.1, DFSInStack := p.2 }
  if CB.IsBlock then
    -- For a block, check if any CmpInsts become known based on the current set
    -- of constraints.
    match S.F.blocks.find? (fun B => decide (B.id = CB.BB)) with
    | some BB => BB.insts.foldl (processInstruction O shouldExecute) S
    | none => S
  else processCondition O S CB

/-- The walk of `eliminateConstraints` over a work-list. -/
def runWorkList (O : Oracle) (shouldExecute : Nat → Bool) (S : DriverState)
    (WorkList : List ConstraintOrBlock) : DriverState :=
  WorkList.foldl (processEntry O shouldExecute) S

/-- The function `eliminateConstraints`: the flag it returns and the function
it leaves. -/
def eliminateConstraints (O : Oracle) (shouldExecute : Nat → Bool) (F : Function)
    (DT : DominatorTree) : Bool × Function :=
  let WorkList := stableSort (collectWorkList F DT)
  let S := runWorkList O shouldExecute { F := F } WorkList
  (S.Changed, S.ToRemove.foldl Function.eraseFromParent S.F)

/-- The debug counter when it is not set: every query is answered yes. -/
def counterUnset : Nat → Bool := fun _ => true

/-- An engine that decides only what needs no elimination: it takes a row
unless all its variable coefficients are zero, and reports a row implied when
the row is held by the system or has no variable and a non-negative constant. -/
def syntacticOracle : Oracle where
  addsRow := fun _ R => R.tail.any (fun c => decide (c ≠ 0))
  isConditionImplied := fun rows R =>
    decide (R ∈ rows) || (R.tail.all (fun c => decide (c = 0)) && decide (0 ≤ R.headD 0))

/-! ## The meaning of rows and the contract of the engine -/

/-- The sum `R[i]·x_i + R[i+1]·x_(i+1) + …` of a tail of a row whose first
entry has index `i`, under an assignment of integers to the indices. -/
def dotFrom : Nat → List Int → (Nat → Int) → Int
  | _, [], _ => 0
  | i, c :: cs, σ => c * σ i + dotFrom (i + 1) cs σ

/-- A row `R` holds under an assignment when `Σ_(i≥1) R[i]·x_i ≤ R[0]`. -/
def rowHolds (R : List Int) (σ : Nat → Int) : Prop :=
  dotFrom 1 R.tail σ ≤ R.headD 0

/-- Modelled from the spec: one half of the contract of `isImplied` (§4.4): a
row reported implied holds at every integer point that satisfies all the rows
the system holds. -/
def Oracle.Sound (O : Oracle) : Prop :=
  ∀ rows R, O.isConditionImplied rows R = true →
    ∀ σ : Nat → Int, (∀ r ∈ rows, rowHolds r σ) → rowHolds R σ

/-- Modelled from the spec: a consequence of the other half of the contract of
`isImplied` (§4.4): a row the system holds is reported implied. -/
def Oracle.ImpliesHeldRows (O : Oracle) : Prop :=
  ∀ rows R, R ∈ rows → O.isConditionImplied rows R = true

/-- Modelled from the spec: a consequence of the other half of the contract of
`isImplied` (§4.4): a row without variables and with a non-negative constant, a
tautology, is reported implied whatever the system holds. -/
def Oracle.ImpliesTautologies (O : Oracle) : Prop :=
  ∀ rows c zeros, 0 ≤ c → (∀ z ∈ zeros, z = (0 : Int)) →
    O.isConditionImplied rows (c :: zeros) = true


/-! ## Closed forms used in the proofs -/

/-- The row of `c s< x` or `c s<= x` for an in-range constant `c` and an atom
`x`, in closed form: the constant term is `k`. -/
def constAtomRow (Info : ConstraintInfo) (x : Value) (k : Int) (NI : DenseMap) :
    ConstraintTy × DenseMap :=
  ({ Coefficients :=
       updateAt
         (addCoefficients (Info.getValue2Index true)
           (addIndices (Info.getValue2Index true) [(1, some x)] NI) (-1) [(1, some x)]
           (List.replicate
             ((Info.getValue2Index true).length +
               (addIndices (Info.getValue2Index true) [(1, some x)] NI).length + 1) 0))
         0 (fun _ => k),
     Preconditions := [], IsSigned := true, IsEq := false },
   addIndices (Info.getValue2Index true) [(1, some x)] NI)


/-! ## Concrete functions -/

/-- The scenario of the spec (§8) at width 32, with `x` the value `0`:
block 0 (`Entry`) branches on `x s> 0` to block 1 (`Then`) and block 2
(`Else`), each of which returns the result of its own `x s>= 1`. -/
def scenario : Function where
  defs := [(0, ⟨.int 32, .other true []⟩),
           (1, ⟨.int 1, .icmp .ICMP_SGT (.ref 0) (.constInt 32 0)⟩),
           (2, ⟨.other, .condBr (.ref 1) 1 2⟩),
           (3, ⟨.int 1, .icmp .ICMP_SGE (.ref 0) (.constInt 32 1)⟩),
           (4, ⟨.other, .otherTerminator [] [.ref 3]⟩),
           (5, ⟨.int 1, .icmp .ICMP_SGE (.ref 0) (.constInt 32 1)⟩),
           (6, ⟨.other, .otherTerminator [] [.ref 5]⟩)]
  blocks := [⟨0, [1, 2]⟩, ⟨1, [3, 4]⟩, ⟨2, [5, 6]⟩]

/-- The dominator tree of `scenario` with its depth-first numbers. -/
def scenarioDT : DominatorTree := ⟨[⟨0, 0, 5⟩, ⟨1, 1, 2⟩, ⟨2, 3, 4⟩]⟩

/-- Two 32-bit arguments, the values `0` and `1`. -/
def twoArguments : Defs :=
  [(0, ⟨.int 32, .other true []⟩), (1, ⟨.int 32, .other true []⟩)]

/-- The store after the fact `%0 s>= 0` was added to the empty store. -/
def nonNegativeStore : ConstraintInfo :=
  (({} : ConstraintInfo).addFact syntacticOracle twoArguments .ICMP_SGE (.ref 0)
    (.constInt 32 0) false 0 1 []).1

/-! ## The meaning of signed comparisons -/

/-- The index an atom has: the one of the atom table, else the one of the
new-index table. -/
def atomIndex (Value2Index NewIndices : DenseMap) (v : Value) : Nat :=
  match Value2Index.find v with
  | some i => i
  | none => (NewIndices.find v).getD 0

/-- The integer an operand of a signed comparison stands for under an
assignment of integers to the atoms: a constant stands for its signed value,
any other value for the integer assigned to its atom. -/
def signedOperandValue (defs : Defs) (Value2Index NewIndices : DenseMap) (σ : Nat → Int)
    (v : Value) : Int :=
  match stripPointerCastsSameRepresentation defs v with
  | .constInt bits val => getSExtValue bits val
  | atom => σ (atomIndex Value2Index NewIndices atom)

/-- The relation a signed predicate denotes on the integers. -/
def signedHolds : Predicate → Int → Int → Prop
  | .ICMP_SLT, a, b => a < b
  | .ICMP_SLE, a, b => a ≤ b
  | .ICMP_SGT, a, b => a > b
  | .ICMP_SGE, a, b => a ≥ b
  | _, _, _ => False

/-- An operand that is an in-range constant or not a constant at all. -/
def InRangeOrAtom (defs : Defs) (v : Value) : Prop :=
  ∀ bits val, stripPointerCastsSameRepresentation defs v = .constInt bits val →
    CanUseSExt bits val = true

/-- Every index of an atom table lies between 1 and the size of the table. -/
def DenseMap.IndicesInRange (m : DenseMap) : Prop :=
  ∀ kv ∈ m, 1 ≤ kv.2 ∧ kv.2 ≤ m.length

/-- The invariant of an atom table: distinct values, distinct indices, and all
indices between 1 and the size of the table. -/
def DenseMap.Dense (m : DenseMap) : Prop :=
  (m.map (·.1)).Nodup ∧ (m.map (·.2)).Nodup ∧ m.IndicesInRange

/-- The new indices lie right above those of an atom table of size `n`. -/
def DenseMap.NewInRange (n : Nat) (NI : DenseMap) : Prop :=
  ∀ kv ∈ NI, n + 1 ≤ kv.2 ∧ kv.2 ≤ n + NI.length

/-- The row of a signed `<` (with `strict`) or `<=` between two operands whose
decompositions have constant terms `a0`, `b0` and variables `VA`, `VB`. -/
def signedRow (Info : ConstraintInfo) (strict : Bool) (a0 b0 : Int) (VA VB : Decomposition)
    (NI : DenseMap) : ConstraintTy × DenseMap :=
  (if fitsInt64 (-a0 + b0) && (!strict || fitsInt64 (-a0 + b0 + -1)) then
     { Coefficients :=
         updateAt
           (addCoefficients (Info.getValue2Index true)
             (addIndices (Info.getValue2Index true) (VA ++ VB) NI) (-1) VB
             (addCoefficients (Info.getValue2Index true)
               (addIndices (Info.getValue2Index true) (VA ++ VB) NI) 1 VA
               (List.replicate
                 ((Info.getValue2Index true).length +
                   (addIndices (Info.getValue2Index true) (VA ++ VB) NI).length + 1) 0)))
           0 (fun _ => if strict then wrap64 (-a0 + b0 + -1) else wrap64 (-a0 + b0)),
       Preconditions := [], IsSigned := true, IsEq := false }
   else {},
   addIndices (Info.getValue2Index true) (VA ++ VB) NI)

/-- The integer the variables of a decomposition stand for under an assignment
of integers to the indices. -/
def varsValue (Value2Index NewIndices : DenseMap) (σ : Nat → Int) : Decomposition → Int
  | [] => 0
  | (c, some v) :: rest =>
    c * σ (GetOrAddIndex Value2Index NewIndices v).1 + varsValue Value2Index NewIndices σ rest
  | (_, none) :: rest => varsValue Value2Index NewIndices σ rest

/-! ## The value of integer expressions -/

/-- The two's complement reading of a `bits`-wide pattern. -/
def toSigned (bits x : Nat) : Int :=
  if 2 ^ (bits - 1) ≤ x % 2 ^ bits then (x % 2 ^ bits : Nat) - 2 ^ bits else (x % 2 ^ bits : Nat)

/-- The relation an integer predicate denotes on two `bits`-wide patterns. -/
def evalPredicate (P : Predicate) (bits x y : Nat) : Option Bool :=
  match P with
  | .ICMP_EQ => some (decide (x = y))
  | .ICMP_NE => some (decide (x ≠ y))
  | .ICMP_UGT => some (decide (x > y))
  | .ICMP_UGE => some (decide (x ≥ y))
  | .ICMP_ULT => some (decide (x < y))
  | .ICMP_ULE => some (decide (x ≤ y))
  | .ICMP_SGT => some (decide (toSigned bits x > toSigned bits y))
  | .ICMP_SGE => some (decide (toSigned bits x ≥ toSigned bits y))
  | .ICMP_SLT => some (decide (toSigned bits x < toSigned bits y))
  | .ICMP_SLE => some (decide (toSigned bits x ≤ toSigned bits y))
  | .FCMP _ => none

/-- The bit pattern an integer value takes in an execution, following the
language reference, when the values the pass does not look into are given by
`ρ`: constants, zero-extension, addition and subtraction with their no-wrap
flags, and integer comparison.  The answer is `none` for poison and for what is
not covered; the first argument bounds the depth of the expression. -/
def evalInt (defs : Defs) (ρ : Nat → Nat) : Nat → Value → Option Nat
  | _, .constInt bits val => some (val % 2 ^ bits)
  | _, .constNull => none
  | _, .poison _ => none
  | 0, .ref _ => none
  | n + 1, .ref id =>
    match defs.get id with
    | some ⟨.int bits, .other _ _⟩ => some (ρ id % 2 ^ bits)
    | some ⟨.int _, .zext op⟩ => evalInt defs ρ n op
    | some ⟨.int bits, .add nuw nsw a b⟩ =>
      match evalInt defs ρ n a, evalInt defs ρ n b with
      | some x, some y =>
        if nuw && decide (2 ^ bits ≤ x + y) then none
        else if nsw && !(decide (-(2 ^ (bits - 1) : Int) ≤ toSigned bits x + toSigned bits y) &&
            decide (toSigned bits x + toSigned bits y < 2 ^ (bits - 1))) then none
        else some ((x + y) % 2 ^ bits)
      | _, _ => none
    | some ⟨.int bits, .sub nuw nsw a b⟩ =>
      match evalInt defs ρ n a, evalInt defs ρ n b with
      | some x, some y =>
        if nuw && decide (x < y) then none
        else if nsw && !(decide (-(2 ^ (bits - 1) : Int) ≤ toSigned bits x - toSigned bits y) &&
            decide (toSigned bits x - toSigned bits y < 2 ^ (bits - 1))) then none
        else some ((x + (2 ^ bits - y)) % 2 ^ bits)
      | _, _ => none
    | some ⟨.int 1, .icmp P a b⟩ =>
      match getType defs a, evalInt defs ρ n a, evalInt defs ρ n b with
      | .int bits, some x, some y => (evalPredicate P bits x y).map (fun r => if r then 1 else 0)
      | _, _, _ => none
    | _ => none

/-- A function whose only block computes `%1 = sub nuw i8 %0, 200` and
`%2 = icmp uge i8 %1, %0` and returns `%2`. -/
def subNuwCompare : Function where
  defs := [(0, ⟨.int 8, .other true []⟩),
           (1, ⟨.int 8, .sub true false (.ref 0) (.constInt 8 200)⟩),
           (2, ⟨.int 1, .icmp .ICMP_UGE (.ref 1) (.ref 0)⟩),
           (3, ⟨.other, .otherTerminator [] [.ref 2]⟩)]
  blocks := [⟨0, [1, 2, 3]⟩]

/-- The dominator tree of a function of one block. -/
def oneBlockDT : DominatorTree := ⟨[⟨0, 0, 1⟩]⟩

/-! ## The outcome of testing one comparison -/

/-- The state after the comparison `I` was tested with the debug counter unset,
given the two answers of the engine: whether the row is implied and whether the
negated row is. -/
def foldCompare (S : DriverState) (I : Nat) (implied impliedNot : Bool) : DriverState :=
  let S1 :=
    if implied then
      { S with
        F := { S.F with defs := replaceUsesWithIf S.F.defs I getTrue (fun k => !isAssume k) },
        NumCondsRemoved := S.NumCondsRemoved + 1,
        Changed := true,
        Counter := S.Counter + 1 }
    else S
  if impliedNot then
    { S1 with
      F := { S1.F with defs := replaceAllUsesWith S1.F.defs I getFalse },
      NumCondsRemoved := S1.NumCondsRemoved + 1,
      Changed := true,
      Counter := S1.Counter + 1 }
  else S1

/-- Whether the loop over a block looks at an instruction: a comparison or an
overflow intrinsic. -/
def isTested : Option InstKind → Bool
  | some (.icmp _ _ _) => true
  | some (.ssubWithOverflow _ _) => true
  | some (.otherWithOverflow _ _) => true
  | _ => false

/-- A function whose entry block branches on `%0 s>= %1 && %1 s>= 0` to block 1,
which computes `ssub.with.overflow(%0, %1)` and passes its two components to
an instruction the pass does not look into. -/
def overflowOnly : Function where
  defs := [(0, ⟨.int 32, .other true []⟩),
           (1, ⟨.int 32, .other true []⟩),
           (2, ⟨.int 1, .icmp .ICMP_SGE (.ref 0) (.ref 1)⟩),
           (3, ⟨.int 1, .icmp .ICMP_SGE (.ref 1) (.constInt 32 0)⟩),
           (4, ⟨.int 1, .and (.ref 2) (.ref 3)⟩),
           (5, ⟨.other, .condBr (.ref 4) 1 2⟩),
           (6, ⟨.other, .ssubWithOverflow (.ref 0) (.ref 1)⟩),
           (7, ⟨.int 32, .extractvalue (.ref 6) [0]⟩),
           (8, ⟨.int 1, .extractvalue (.ref 6) [1]⟩),
           (9, ⟨.other, .other true [.ref 7, .ref 8]⟩),
           (10, ⟨.other, .otherTerminator [] []⟩),
           (11, ⟨.other, .otherTerminator [] []⟩)]
  blocks := [⟨0, [2, 3, 4, 5]⟩, ⟨1, [6, 7, 8, 9, 10]⟩, ⟨2, [11]⟩]

/-- The function `overflowOnly` after the overflow intrinsic was rewritten: the
subtraction `%12` stands for the result, the constant false for the flag, and
the intrinsic and its two extractions are gone. -/
def overflowOnlyRewritten : Function where
  defs := [(0, ⟨.int 32, .other true []⟩),
           (1, ⟨.int 32, .other true []⟩),
           (2, ⟨.int 1, .icmp .ICMP_SGE (.ref 0) (.ref 1)⟩),
           (3, ⟨.int 1, .icmp .ICMP_SGE (.ref 1) (.constInt 32 0)⟩),
           (4, ⟨.int 1, .and (.ref 2) (.ref 3)⟩),
           (5, ⟨.other, .condBr (.ref 4) 1 2⟩),
           (9, ⟨.other, .other true [.ref 12, .constInt 1 0]⟩),
           (10, ⟨.other, .otherTerminator [] []⟩),
           (11, ⟨.other, .otherTerminator [] []⟩),
           (12, ⟨.int 32, .sub false false (.ref 0) (.ref 1)⟩)]
  blocks := [⟨0, [2, 3, 4, 5]⟩, ⟨1, [12, 9, 10]⟩, ⟨2, [11]⟩]

/-- A function of one block: `%2 = icmp ule i8 %0, %0`,
`%3 = icmp ule i1 %2, %1`, `assume(%3)`, and the return of `%3`. -/
def assumeAfterCompare : Function where
  defs := [(0, ⟨.int 8, .other true []⟩),
           (1, ⟨.int 1, .other true []⟩),
           (2, ⟨.int 1, .icmp .ICMP_ULE (.ref 0) (.ref 0)⟩),
           (3, ⟨.int 1, .icmp .ICMP_ULE (.ref 2) (.ref 1)⟩),
           (4, ⟨.other, .assume (.ref 3)⟩),
           (5, ⟨.other, .otherTerminator [] [.ref 3]⟩)]
  blocks := [⟨0, [2, 3, 4, 5]⟩]

/-! ## The frames pushed during the walk -/

/-- The interval of the frame `E` contains the interval of the entry `CB`. -/
def frameContains (E : StackEntry) (CB : ConstraintOrBlock) : Bool :=
  decide (E.NumIn ≤ CB.NumIn) && decide (CB.NumOut ≤ E.NumOut)

/-- The result of `getConstraint` for a normalised predicate (`<` when `strict`,
else `<=`) once the two operands are decomposed: constant terms `a0`, `b0`,
variables `VA`, `VB`, preconditions `Pre`. -/
def leRow (Info : ConstraintInfo) (IsSigned strict IsEq : Bool) (a0 b0 : Int)
    (VA VB : Decomposition) (Pre : List PreconditionTy) (NI : DenseMap) :
    ConstraintTy × DenseMap :=
  if (AddOverflow (wrap64 (a0 * -1)) b0).1 then
    ({}, addIndices (Info.getValue2Index IsSigned) (VA ++ VB) NI)
  else if strict && (AddOverflow (AddOverflow (wrap64 (a0 * -1)) b0).2 (-1)).1 then
    ({}, addIndices (Info.getValue2Index IsSigned) (VA ++ VB) NI)
  else
    ({ Coefficients :=
         updateAt
           (addCoefficients (Info.getValue2Index IsSigned)
             (addIndices (Info.getValue2Index IsSigned) (VA ++ VB) NI) (-1) VB
             (addCoefficients (Info.getValue2Index IsSigned)
               (addIndices (Info.getValue2Index IsSigned) (VA ++ VB) NI) 1 VA
               (List.replicate
                 ((Info.getValue2Index IsSigned).length +
                   (addIndices (Info.getValue2Index IsSigned) (VA ++ VB) NI).length + 1) 0)))
           0 (fun _ => if strict then (AddOverflow (AddOverflow (wrap64 (a0 * -1)) b0).2 (-1)).2
                       else (AddOverflow (wrap64 (a0 * -1)) b0).2),
       Preconditions := Pre, IsSigned := IsSigned, IsEq := IsEq },
     addIndices (Info.getValue2Index IsSigned) (VA ++ VB) NI)

/-- A row is implied by a list of rows: it holds at every integer point at
which all of them hold. -/
def RowsImply (rows : List (List Int)) (R : List Int) : Prop :=
  ∀ σ : Nat → Int, (∀ r ∈ rows, rowHolds r σ) → rowHolds R σ

/-- The new indices are for values the atom table does not know, one entry for
each. -/
def NewIndicesFresh (T NI : DenseMap) : Prop :=
  (∀ kv ∈ NI, T.find kv.1 = none) ∧ (NI.map (·.1)).Nodup

/-- The values `0` and `1` are 64-bit arguments,
`%2 = add nuw i64 %0, 9223372036854775806` and `%3 = sub nuw i64 %1, 2`. -/
def minOffsets : Defs :=
  [(0, ⟨.int 64, .other true []⟩),
   (1, ⟨.int 64, .other true []⟩),
   (2, ⟨.int 64, .add true false (.ref 0) (.constInt 64 9223372036854775806)⟩),
   (3, ⟨.int 64, .sub true false (.ref 1) (.constInt 64 2)⟩)]

/-- An execution of `minOffsets`: `%0 = 0` and `%1 = 2^63`. -/
def minOffsetsRun : Nat → Nat := fun id => if id = 1 then 2 ^ 63 else 0

/-- The values of the atoms of `minOffsets` in that execution: `%0` has index 1
and `%1` has index 2 in the unsigned table. -/
def minOffsetsPoint : Nat → Int := fun i => if i = 2 then 2 ^ 63 else 0

/-! ## The overflow simplification in closed form -/

/-- Which field of an aggregate an instruction extracts, as the loop of
`tryToSimplifyOverflowMath` tells: `some false` for `extractvalue` with the one
index 0 (the result), `some true` with the one index 1 (the overflow flag). -/
def extractedField : Option InstKind → Option Bool
  | some (.extractvalue _ [0]) => some false
  | some (.extractvalue _ [1]) => some true
  | _ => none

/-- What a value is replaced by once the users `us` of the intrinsic are
rewritten: a result extraction by `Sub`, a flag extraction by false. -/
def overflowSubst (F : Function) (us : List Nat) (Sub : Value) : Value → Value
  | .ref u =>
    if u ∈ us then
      match extractedField (F.kind u) with
      | some false => Sub
      | some true => getFalse
      | none => .ref u
    else .ref u
  | v => v

/-- An entry of the definition table once the users `us` of the intrinsic are
rewritten: an extraction among `us` has lost its aggregate operand, any other
instruction has its operands replaced. -/
def rewriteEntry (F : Function) (us : List Nat) (Sub : Value) (IITy : Ty)
    (e : Nat × Instruction) : Nat × Instruction :=
  if e.1 ∈ us ∧ (extractedField (F.kind e.1)).isSome then
    (e.1, { e.2 with kind :=
      match e.2.kind with
      | .extractvalue _ idx => .extractvalue (.poison IITy) idx
      | k => k })
  else (e.1, { e.2 with kind := e.2.kind.mapOperands (overflowSubst F us Sub) })

/-- The state of the loop of `tryToSimplifyOverflowMath` after the users `us`
of the intrinsic `II`, in closed form: the subtraction exists once a result
extraction was met. -/
def overflowState (F : Function) (II : Nat) (A B : Value) (ToRemove : List Nat)
    (us : List Nat) : Function × Option Value × List Nat :=
  ({ (if us.any (fun u => extractedField (F.kind u) == some false) then (CreateSub F II A B).1
      else F) with
     defs := (if us.any (fun u => extractedField (F.kind u) == some false) then
         (CreateSub F II A B).1 else F).defs.map
       (rewriteEntry F us (CreateSub F II A B).2 (getType F.defs (.ref II))) },
   if us.any (fun u => extractedField (F.kind u) == some false) then
     some (CreateSub F II A B).2 else none,
   ToRemove ++ us.filter (fun u => (extractedField (F.kind u)).isSome))

/-- The rewrite of `ssub.with.overflow(A, B)` in closed form: every use of a
result extraction becomes the one subtraction `A - B` placed before the
intrinsic, every use of a flag extraction becomes false, the extractions are to
be removed, and the intrinsic is erased when it has no other user. -/
def rewrittenOverflow (F : Function) (II : Nat) (A B : Value) (ToRemove : List Nat) :
    Function × List Nat :=
  if (users (overflowState F II A B ToRemove (users F.defs II)).1.defs II).isEmpty then
    ((overflowState F II A B ToRemove (users F.defs II)).1.eraseFromParent II,
      (overflowState F II A B ToRemove (users F.defs II)).2.2)
  else ((overflowState F II A B ToRemove (users F.defs II)).1,
    (overflowState F II A B ToRemove (users F.defs II)).2.2)

/-- A function of one block that computes `ssub.with.overflow(i32 7, i32 5)`
and passes its two components to the return. -/
def overflowOfConstants : Function where
  defs := [(0, ⟨.other, .ssubWithOverflow (.constInt 32 7) (.constInt 32 5)⟩),
           (1, ⟨.int 32, .extractvalue (.ref 0) [0]⟩),
           (2, ⟨.int 1, .extractvalue (.ref 0) [1]⟩),
           (3, ⟨.other, .otherTerminator [] [.ref 1, .ref 2]⟩)]
  blocks := [⟨0, [0, 1, 2, 3]⟩]

/-- The store with which the walk of `overflowOnly` enters block 1: the signed
rows of `%0 s>= %1` and `%1 s>= 0`, and the unsigned row of `%1 u>= 0`. -/
def overflowOnlyStore : ConstraintInfo where
  UnsignedValue2Index := [(.ref 1, 1)]
  SignedValue2Index := [(.ref 1, 1), (.ref 0, 2)]
  UnsignedCS := [[0, -1]]
  SignedCS := [[0, 1, -1], [0, -1, 0]]

/-- The value `0` is a pointer argument and `1` a 32-bit argument,
`%2 = shl nuw i32 %1, 1`, `%3 = zext i32 %2 to i64`,
`%4 = getelementptr inbounds i8, ptr %0, i64 %3` and
`%5 = getelementptr inbounds i8, ptr %0, i64 1`. -/
def parityOffsets : Defs :=
  [(0, ⟨.ptr, .other true []⟩),
   (1, ⟨.int 32, .other true []⟩),
   (2, ⟨.int 32, .shl true false (.ref 1) (.constInt 32 1)⟩),
   (3, ⟨.int 64, .zext (.ref 2)⟩),
   (4, ⟨.ptr, .gep true (.ref 0) [.ref 3]⟩),
   (5, ⟨.ptr, .gep true (.ref 0) [.constInt 64 1]⟩)]

/-- A function of one block: `%1 = icmp ne i8 %0, 5` and the return of `%1`. -/
def neCompare : Function where
  defs := [(0, ⟨.int 8, .other true []⟩),
           (1, ⟨.int 1, .icmp .ICMP_NE (.ref 0) (.constInt 8 5)⟩),
           (2, ⟨.other, .otherTerminator [] [.ref 1]⟩)]
  blocks := [⟨0, [1, 2]⟩]

/-- Whether `decompose` looks into a value: an integer constant, or an
instruction that is a GEP, a zero-extension, an addition or a subtraction. -/
def recognized (defs : Defs) (V : Value) : Bool :=
  match V with
  | .constInt _ _ => true
  | _ =>
    match kindOf defs V with
    | some (.gep _ _ _) => true
    | some (.zext _) => true
    | some (.add _ _ _ _) => true
    | some (.sub _ _ _ _) => true
    | _ => false

/-- The value `0` is an 8-bit argument, `%1 = zext i8 %0 to i16`,
`%2 = zext i16 %1 to i32`, `%3 = zext i8 7 to i32`, `%4 = add nuw i8 %0, 3` and
`%5 = zext i8 %4 to i32`. -/
def zextChain : Defs :=
  [(0, ⟨.int 8, .other true []⟩),
   (1, ⟨.int 16, .zext (.ref 0)⟩),
   (2, ⟨.int 32, .zext (.ref 1)⟩),
   (3, ⟨.int 32, .zext (.constInt 8 7)⟩),
   (4, ⟨.int 8, .add true false (.ref 0) (.constInt 8 3)⟩),
   (5, ⟨.int 32, .zext (.ref 4)⟩)]

/-- The values `0` and `1` are 8-bit arguments and `%2 = add i8 %0, -1`. -/
def minusOne : Defs :=
  [(0, ⟨.int 8, .other true []⟩),
   (1, ⟨.int 8, .other true []⟩),
   (2, ⟨.int 8, .add false false (.ref 0) (.constInt 8 255)⟩)]

/-- A function whose entry block has the assume of `%1 = icmp ult i32 %0, 10`,
then a call `%3` that may not return, then the assume of
`%4 = icmp ult i32 %0, 5`, and branches on `%1` to the blocks 1 and 2, which
return. -/
def assumeBlock : Function where
  defs := [(0, ⟨.int 32, .other true []⟩),
           (1, ⟨.int 1, .icmp .ICMP_ULT (.ref 0) (.constInt 32 10)⟩),
           (2, ⟨.other, .assume (.ref 1)⟩),
           (3, ⟨.other, .other false []⟩),
           (4, ⟨.int 1, .icmp .ICMP_ULT (.ref 0) (.constInt 32 5)⟩),
           (5, ⟨.other, .assume (.ref 4)⟩),
           (6, ⟨.other, .condBr (.ref 1) 1 2⟩),
           (7, ⟨.other, .otherTerminator [] []⟩),
           (8, ⟨.other, .otherTerminator [] []⟩)]
  blocks := [⟨0, [1, 2, 3, 4, 5, 6]⟩, ⟨1, [7]⟩, ⟨2, [8]⟩]

/-- The row the driver tests for the comparison `Pred A B`: whether it needs a
new index with a non-zero coefficient, and the row of `getConstraint` with the
coefficients of the new indices dropped. -/
def testedRow (Info : ConstraintInfo) (defs : Defs) (Pred : Predicate) (A B : Value) :
    Bool × ConstraintTy :=
  (Info.getConstraint defs Pred A B []).1.needsNewIndices (Info.getConstraint defs Pred A B []).2

/-- The test the driver makes before it asks the engine about a comparison:
the row is not an equality, is not empty, does not need a new index, and is
valid. -/
def isTestable (O : Oracle) (Info : ConstraintInfo) (defs : Defs) (Pred : Predicate)
    (A B : Value) : Bool :=
  !((Info.getConstraint defs Pred A B []).1.IsEq || (Info.getConstraint defs Pred A B []).1.empty) &&
    !((testedRow Info defs Pred A B).1 || !(testedRow Info defs Pred A B).2.isValid O Info defs)

/-- A function whose entry block branches on `%0 u<= %1 && %0 u> %1` to block 1,
which computes `%6 = icmp ule i32 %0, %1`, assumes it and returns it; block 2
returns. -/
def bothImplied : Function where
  defs := [(0, ⟨.int 32, .other true []⟩),
           (1, ⟨.int 32, .other true []⟩),
           (2, ⟨.int 1, .icmp .ICMP_ULE (.ref 0) (.ref 1)⟩),
           (3, ⟨.int 1, .icmp .ICMP_UGT (.ref 0) (.ref 1)⟩),
           (4, ⟨.int 1, .and (.ref 2) (.ref 3)⟩),
           (5, ⟨.other, .condBr (.ref 4) 1 2⟩),
           (6, ⟨.int 1, .icmp .ICMP_ULE (.ref 0) (.ref 1)⟩),
           (7, ⟨.other, .assume (.ref 6)⟩),
           (8, ⟨.other, .otherTerminator [] [.ref 6]⟩),
           (9, ⟨.other, .otherTerminator [] []⟩)]
  blocks := [⟨0, [2, 3, 4, 5]⟩, ⟨1, [6, 7, 8]⟩, ⟨2, [9]⟩]

/-! ## Paths in the control-flow graph -/

/-- A path of the control-flow graph that starts at the block `entry`: each
block of the list is a predecessor of the next. -/
def IsPath (F : Function) (entry : Nat) (path : List Nat) : Prop :=
  path.head? = some entry ∧ path.Chain' (fun a b => a ∈ F.predecessors b)

/-- The dominator tree answers `dominates` soundly for the function with entry
block `entry`: a block it reports as dominating a block `B` lies on every path
from the entry to `B`. -/
def DominatorTree.SoundFor (DT : DominatorTree) (F : Function) (entry : Nat) : Prop :=
  ∀ A B path, IsPath F entry path → path.getLast? = some B → DT.dominates A B = true →
    A ∈ path

/-! ## The checked subtraction -/

/-- The value of `llvm.ssub.with.overflow` on two `bits`-wide patterns,
following the language reference: the wrapped difference, and whether the
exact signed difference leaves the signed range of the width. -/
def ssubWithOverflow (bits a b : Nat) : Nat × Bool :=
  ((a % 2 ^ bits + (2 ^ bits - b % 2 ^ bits)) % 2 ^ bits,
    !(decide (-(2 ^ (bits - 1) : Int) ≤ toSigned bits a - toSigned bits b) &&
      decide (toSigned bits a - toSigned bits b < 2 ^ (bits - 1))))

/-! ## The store and the scope stack together -/

/-- The body of the pop loop for the frame `E`: the last row of the system of
the frame's domain is retired, the values of the frame are erased from the
atom table of that domain, and as many variables are retired. -/
def popFrame (Info : ConstraintInfo) (E : StackEntry) : ConstraintInfo :=
  let Info := Info.setCS E.IsSigned (popLastConstraint (Info.getCS E.IsSigned))
  let Info := Info.setValue2Index E.IsSigned
    (E.ValuesToRelease.foldl DenseMap.erase (Info.getValue2Index E.IsSigned))
  Info.setCS E.IsSigned (popLastNVariables (Info.getCS E.IsSigned) E.ValuesToRelease.length)

/-- The two assertions at the end of `eliminateConstraints`: each system holds
as many rows as the stack has frames of its domain. -/
def RowsInSync (Info : ConstraintInfo) (st : List StackEntry) : Prop :=
  Info.SignedCS.length = (st.filter (fun E => E.IsSigned)).length ∧
    Info.UnsignedCS.length = (st.filter (fun E => !E.IsSigned)).length

/-- The engine takes the inverse of every row of 64-bit coefficients it
takes, whatever rows it holds. -/
def Oracle.TakesInverse (O : Oracle) : Prop :=
  ∀ (rows rows2 : List (List Int)) (R : List Int),
    (∀ c ∈ R, MinSignedConstraintValue ≤ c ∧ c ≤ MaxConstraintValue) →
    O.addsRow rows R = true → O.addsRow rows2 (R.map (fun c => wrap64 (c * -1))) = true

/-- Modelled from the spec: an engine that, as §4.3 and §4.4 allow, reports no
change for a row it already holds; otherwise it behaves as `syntacticOracle`. -/
def dedupOracle : Oracle where
  addsRow := fun rows R => R.tail.any (fun c => decide (c ≠ 0)) && !decide (R ∈ rows)
  isConditionImplied := syntacticOracle.isConditionImplied

/-- A function whose entry block branches on `%2 = icmp uge i32 %0, %1` to
block 1, which branches on `%4 = icmp eq i32 %0, %1` to block 3; the blocks 2,
3 and 4 return. -/
def equalityAfterBound : Function where
  defs := [(0, ⟨.int 32, .other true []⟩),
           (1, ⟨.int 32, .other true []⟩),
           (2, ⟨.int 1, .icmp .ICMP_UGE (.ref 0) (.ref 1)⟩),
           (3, ⟨.other, .condBr (.ref 2) 1 2⟩),
           (4, ⟨.int 1, .icmp .ICMP_EQ (.ref 0) (.ref 1)⟩),
           (5, ⟨.other, .condBr (.ref 4) 3 4⟩),
           (6, ⟨.other, .otherTerminator [] []⟩),
           (7, ⟨.other, .otherTerminator [] []⟩),
           (8, ⟨.other, .otherTerminator [] []⟩)]
  blocks := [⟨0, [2, 3]⟩, ⟨1, [4, 5]⟩, ⟨2, [6]⟩, ⟨3, [7]⟩, ⟨4, [8]⟩]

/-- The dominator tree of `equalityAfterBound` with its depth-first numbers. -/
def equalityAfterBoundDT : DominatorTree :=
  ⟨[⟨0, 0, 9⟩, ⟨1, 1, 6⟩, ⟨3, 2, 3⟩, ⟨4, 4, 5⟩, ⟨2, 7, 8⟩]⟩

/-- The values the frames of one domain own, the oldest frame first. -/
def ownedValues (s : Bool) (st : List StackEntry) : List Value :=
  (st.reverse.filter (fun E => E.IsSigned == s)).flatMap (·.ValuesToRelease)

/-- An atom table in the order in which its values were committed: distinct
values, with the indices `1, 2, …, n`. -/
def DenseMap.InOrder (m : DenseMap) : Prop :=
  (m.map (·.1)).Nodup ∧ m.map (·.2) = List.range' 1 m.length

/-- The atom tables and the scope stack agree: each table is in order and
holds exactly the values the frames of its domain own, the oldest first. -/
def TablesOwned (Info : ConstraintInfo) (st : List StackEntry) : Prop :=
  ∀ s : Bool, (Info.getValue2Index s).InOrder ∧
    (Info.getValue2Index s).map (·.1) = ownedValues s st

/-! ## The predicates of the compares -/

/-- The predicate an instruction carries: that of a compare, none for anything
else and for no instruction. -/
def predicateOf : Option InstKind → Option Predicate
  | some (.icmp P _ _) => some P
  | _ => none

/-- A compare with its predicate replaced, the effect of `setPredicate` on one
instruction; anything else is left as it is. -/
def InstKind.withPredicate (P : Predicate) : InstKind → InstKind
  | .icmp _ a b => .icmp P a b
  | k => k

/-- Relative to the function `F0` the pass was given: every identifier carries
in `F` the predicate it carries in `F0`, and no instruction set aside for
removal is a compare. -/
def PredicatesKept (F0 F : Function) (ToRemove : List Nat) : Prop :=
  (∀ j, predicateOf (F.kind j) = predicateOf (F0.kind j)) ∧
    ∀ u ∈ ToRemove, predicateOf (F0.kind u) = none

/-! ## Facts in an execution -/

/-- Whether the comparison `A Pred B` is true in an execution in which the
values the pass does not look into are given by `ρ`, computed as the `icmp`
case of `evalInt` computes it; false when the operands are not integers or an
operand has no value. -/
def factHolds (defs : Defs) (ρ : Nat → Nat) (n : Nat) (Pred : Predicate) (A B : Value) : Bool :=
  match getType defs A, evalInt defs ρ n A, evalInt defs ρ n B with
  | .int bits, some x, some y => evalPredicate Pred bits x y == some true
  | _, _, _ => false

/-! ## The store as the sum of the live facts -/

set_option maxRecDepth 100000

/-! ## Machine integers and constants -/

theorem wrap64_of_fits (x : Int) (h1 : MinSignedConstraintValue ≤ x)
    (h2 : x ≤ MaxConstraintValue) : wrap64 x = x := by
  unfold wrap64 MinSignedConstraintValue MaxConstraintValue at *
  omega

theorem fitsInt64_iff (x : Int) :
    fitsInt64 x = true ↔ MinSignedConstraintValue ≤ x ∧ x ≤ MaxConstraintValue := by
  simp [fitsInt64]

theorem canUseSExt_iff (bits val : Nat) : CanUseSExt bits val = true ↔
    MinSignedConstraintValue < getSExtValue bits val ∧
      getSExtValue bits val < MaxConstraintValue := by
  simp [CanUseSExt]

theorem addOverflow_of_fits (x y : Int) (h1 : MinSignedConstraintValue ≤ x + y)
    (h2 : x + y ≤ MaxConstraintValue) : AddOverflow x y = (false, x + y) := by
  have h3 : fitsInt64 (x + y) = true := (fitsInt64_iff _).2 ⟨h1, h2⟩
  simp only [AddOverflow, h3, wrap64_of_fits _ h1 h2, Bool.not_true]

/-! ## Decomposition in the signed domain -/

theorem stripCasts_constInt (defs : Defs) (n bits val : Nat) :
    stripCasts defs n (.constInt bits val) = .constInt bits val := by
  cases n <;> simp [stripCasts, kindOf]

theorem strip_constInt (defs : Defs) (bits val : Nat) :
    stripPointerCastsSameRepresentation defs (.constInt bits val) = .constInt bits val :=
  stripCasts_constInt defs _ bits val

theorem decompose_signed_atom (defs : Defs) (v : Value)
    (h : ∀ bits val, v ≠ .constInt bits val) :
    decompose defs v true = ([(0, none), (1, some v)], []) := by
  cases v <;> simp_all [decompose]

theorem decompose_signed_const (defs : Defs) (bits val : Nat) (h : CanUseSExt bits val = true) :
    decompose defs (.constInt bits val) true = ([(getSExtValue bits val, none)], []) := by
  simp [decompose, h]

theorem getConstraint_sgt_const (Info : ConstraintInfo) (defs : Defs) (x : Value)
    (w v : Nat) (NI : DenseMap)
    (hx : ∀ bits val, stripPointerCastsSameRepresentation defs x ≠ .constInt bits val)
    (hc : MinSignedConstraintValue < getSExtValue w v)
    (hc1 : getSExtValue w v + 1 < MaxConstraintValue) :
    Info.getConstraint defs .ICMP_SGT x (.constInt w v) NI =
      constAtomRow Info (stripPointerCastsSameRepresentation defs x)
        (- getSExtValue w v - 1) NI := by
  have hcan : CanUseSExt w v = true := by
    rw [canUseSExt_iff]; constructor
    · exact hc
    · omega
  have e0 : wrap64 (getSExtValue w v * -1) = - getSExtValue w v := by
    rw [wrap64_of_fits] <;> unfold MinSignedConstraintValue MaxConstraintValue at * <;> omega
  have e1 : AddOverflow (wrap64 (getSExtValue w v * -1)) 0 = (false, - getSExtValue w v) := by
    rw [e0, addOverflow_of_fits] <;>
      unfold MinSignedConstraintValue MaxConstraintValue at * <;> simp <;> omega
  have e2 : AddOverflow (- getSExtValue w v) (-1) = (false, - getSExtValue w v - 1) := by
    rw [addOverflow_of_fits] <;>
      unfold MinSignedConstraintValue MaxConstraintValue at * <;> first | rfl | omega
  simp only [ConstraintInfo.getConstraint, normalizePredicate, Predicate.getSwappedPredicate,
    Predicate.isSigned, strip_constInt, decompose_signed_const _ _ _ hcan,
    decompose_signed_atom defs _ hx, e1, e2, ne_eq, reduceCtorEq, not_false_eq_true,
    not_true_eq_false, and_false, and_true, false_and, ↓reduceIte, decide_True, decide_False,
    Bool.and_true, Bool.false_and, Bool.and_false, Bool.true_and, List.nil_append,
    Bool.false_eq_true, constAtomRow]
  rfl

theorem getConstraint_sge_const (Info : ConstraintInfo) (defs : Defs) (x : Value)
    (w v : Nat) (NI : DenseMap)
    (hx : ∀ bits val, stripPointerCastsSameRepresentation defs x ≠ .constInt bits val)
    (hc : MinSignedConstraintValue < getSExtValue w v)
    (hc1 : getSExtValue w v < MaxConstraintValue) :
    Info.getConstraint defs .ICMP_SGE x (.constInt w v) NI =
      constAtomRow Info (stripPointerCastsSameRepresentation defs x)
        (- getSExtValue w v) NI := by
  have hcan : CanUseSExt w v = true := (canUseSExt_iff _ _).2 ⟨hc, hc1⟩
  have e0 : wrap64 (getSExtValue w v * -1) = - getSExtValue w v := by
    rw [wrap64_of_fits] <;> unfold MinSignedConstraintValue MaxConstraintValue at * <;> omega
  have e1 : AddOverflow (wrap64 (getSExtValue w v * -1)) 0 = (false, - getSExtValue w v) := by
    rw [e0, addOverflow_of_fits] <;>
      unfold MinSignedConstraintValue MaxConstraintValue at * <;> simp <;> omega
  simp only [ConstraintInfo.getConstraint, normalizePredicate, Predicate.getSwappedPredicate,
    Predicate.isSigned, strip_constInt, decompose_signed_const _ _ _ hcan,
    decompose_signed_atom defs _ hx, e1, ne_eq, reduceCtorEq, not_false_eq_true,
    not_true_eq_false, and_false, and_true, false_and, ↓reduceIte, decide_True, decide_False,
    Bool.and_true, Bool.false_and, Bool.and_false, Bool.true_and, List.nil_append,
    Bool.false_eq_true, constAtomRow]
  rfl

/-! ## Tables and rows -/

theorem updateAt_length (R : List Int) (i : Nat) (f : Int → Int) :
    (updateAt R i f).length = R.length := by
  induction R generalizing i with
  | nil => cases i <;> rfl
  | cons x xs ih => cases i <;> simp [updateAt, ih]

theorem addCoefficients_length (T NI : DenseMap) (s : Int) (vars : Decomposition) (R : List Int) :
    (addCoefficients T NI s vars R).length = R.length := by
  induction vars generalizing R with
  | nil => rfl
  | cons p rest ih =>
    obtain ⟨c, v⟩ := p
    cases v <;> simp [addCoefficients, ih, updateAt_length]

theorem find_append_self (T : DenseMap) (x : Value) (i : Nat) (h : T.find x = none) :
    DenseMap.find (T ++ [(x, i)]) x = some i := by
  induction T with
  | nil => simp [DenseMap.find]
  | cons p rest ih =>
    obtain ⟨k, j⟩ := p
    simp only [DenseMap.find] at h
    split at h
    · cases h
    · rename_i hk
      simp [DenseMap.find, hk, ih h]

/-- Once the new indices of the row of `c s< x` are committed, building the
row again gives the same coefficients and asks for no new index. -/
theorem constAtomRow_committed (Info Info2 : ConstraintInfo) (x : Value) (k : Int)
    (h : Info2.getValue2Index true =
      insertAll (Info.getValue2Index true) (constAtomRow Info x k []).2) :
    (constAtomRow Info2 x k []).1.Coefficients = (constAtomRow Info x k []).1.Coefficients ∧
      (constAtomRow Info2 x k []).2 = [] := by
  cases hf : (Info.getValue2Index true).find x with
  | some i =>
    have hNI : (constAtomRow Info x k []).2 = [] := by
      simp [constAtomRow, addIndices, GetOrAddIndex, hf]
    rw [hNI] at h
    simp only [insertAll] at h
    simp [constAtomRow, addIndices, GetOrAddIndex, hf, h]
  | none =>
    have hNI : (constAtomRow Info x k []).2 = [(x, (Info.getValue2Index true).length + 1)] := by
      simp [constAtomRow, addIndices, GetOrAddIndex, hf, DenseMap.find]
    rw [hNI] at h
    simp only [insertAll, DenseMap.insert, hf] at h
    have hf2 := find_append_self _ x ((Info.getValue2Index true).length + 1) hf
    simp [constAtomRow, addIndices, GetOrAddIndex, hf, h, hf2, DenseMap.find, addCoefficients]

/-! ## C3: the `Then` branch of the scenario -/

/-- What `addFact` does with the row of `x s> c` when the engine takes it. -/
theorem addFact_sgt_const (O : Oracle) (Info : ConstraintInfo) (defs : Defs) (x : Value)
    (w v : Nat) (IsNegated : Bool) (NumIn NumOut : Nat) (st : List StackEntry)
    (hx : ∀ bits val, stripPointerCastsSameRepresentation defs x ≠ .constInt bits val)
    (hc : MinSignedConstraintValue < getSExtValue w v)
    (hc1 : getSExtValue w v + 1 < MaxConstraintValue)
    (hadds : O.addsRow (Info.getCS true)
      (Info.getConstraint defs .ICMP_SGT x (.constInt w v) []).1.Coefficients = true) :
    ((Info.addFact O defs .ICMP_SGT x (.constInt w v) IsNegated NumIn NumOut st).1.getValue2Index
        true =
      insertAll (Info.getValue2Index true)
        (Info.getConstraint defs .ICMP_SGT x (.constInt w v) []).2) ∧
    (Info.getConstraint defs .ICMP_SGT x (.constInt w v) []).1.Coefficients ∈
      (Info.addFact O defs .ICMP_SGT x (.constInt w v) IsNegated NumIn NumOut st).1.getCS true := by
  have hrow := getConstraint_sgt_const Info defs x w v [] hx hc hc1
  have hne : (constAtomRow Info (stripPointerCastsSameRepresentation defs x)
      (- getSExtValue w v - 1) []).1.Coefficients ≠ [] := by
    intro h
    have := congrArg List.length h
    simp [constAtomRow, updateAt_length, addCoefficients_length] at this
  rw [hrow] at hadds ⊢
  have hlen : 0 < (constAtomRow Info (stripPointerCastsSameRepresentation defs x)
      (- getSExtValue w v - 1) []).1.Coefficients.length := by
    exact List.length_pos.2 hne
  have hvalid : (constAtomRow Info (stripPointerCastsSameRepresentation defs x)
      (- getSExtValue w v - 1) []).1.isValid O Info defs = true := by
    simp only [ConstraintTy.isValid, gt_iff_lt, hlen, decide_True, Bool.true_and]
    simp [constAtomRow]
  have hsig : (constAtomRow Info (stripPointerCastsSameRepresentation defs x)
      (- getSExtValue w v - 1) []).1.IsSigned = true := rfl
  have heq : (constAtomRow Info (stripPointerCastsSameRepresentation defs x)
      (- getSExtValue w v - 1) []).1.IsEq = false := rfl
  simp only [ConstraintInfo.addFact, hrow, hvalid, Bool.not_true, Bool.false_eq_true,
    ↓reduceIte, List.isEmpty_eq_true, hne, hsig, addVariableRowFill, hadds, heq]
  constructor
  · simp [ConstraintInfo.getValue2Index, ConstraintInfo.setValue2Index, ConstraintInfo.setCS]
  · simp [ConstraintInfo.getCS, ConstraintInfo.setValue2Index, ConstraintInfo.setCS]

theorem syntacticOracle_impliesHeldRows : syntacticOracle.ImpliesHeldRows := by
  intro rows R h
  simp [syntacticOracle, h]

theorem syntacticOracle_impliesTautologies : syntacticOracle.ImpliesTautologies := by
  intro rows c zeros hc hz
  have : zeros.all (fun c => decide (c = 0)) = true := by
    simpa [List.all_eq_true] using hz
  simp [syntacticOracle, this, hc]

/-! ## C6: transfer of a signed `<` -/

/-- C6 (domain separation with transfer): for an integer-typed left operand,
`transferToOtherSystem(SLT, A, B, …)` is exactly `addFact(ULT, A, B, …)` with the
same negation flag and interval when `doesHold(SGE, A, 0)` is true in the
current store, and changes nothing (neither atom table, neither system, nor
the scope stack) when it is false. -/
theorem transfer_slt_iff_nonneg (O : Oracle) (Info : ConstraintInfo) (defs : Defs)
    (A B : Value) (IsNegated : Bool) (NumIn NumOut : Nat) (DFSInStack : List StackEntry)
    (hty : isIntegerTy (getType defs A) = true) :
    (Info.doesHold O defs .ICMP_SGE A (ConstantInt.get (getType defs B) 0) = true →
      Info.transferToOtherSystem O defs .ICMP_SLT A B IsNegated NumIn NumOut DFSInStack =
        Info.addFact O defs .ICMP_ULT A B IsNegated NumIn NumOut DFSInStack) ∧
    (Info.doesHold O defs .ICMP_SGE A (ConstantInt.get (getType defs B) 0) = false →
      Info.transferToOtherSystem O defs .ICMP_SLT A B IsNegated NumIn NumOut DFSInStack =
        (Info, DFSInStack)) := by
  constructor <;> intro h <;> simp [ConstraintInfo.transferToOtherSystem, hty, h]

/-- Witness of `transfer_slt_iff_nonneg`: with `%0 s>= 0` in the store, the
fact `%0 s< %1` puts the row of `%0 u< %1` into the unsigned system. -/
theorem transfer_slt_iff_nonneg_witness :
    isIntegerTy (getType twoArguments (.ref 0)) = true ∧
    nonNegativeStore.transferToOtherSystem syntacticOracle twoArguments .ICMP_SLT (.ref 0) (.ref 1)
        false 0 1 [] =
      nonNegativeStore.addFact syntacticOracle twoArguments .ICMP_ULT (.ref 0) (.ref 1)
        false 0 1 [] ∧
    (nonNegativeStore.addFact syntacticOracle twoArguments .ICMP_ULT (.ref 0) (.ref 1)
        false 0 1 []).1.UnsignedCS = [[-1, 1, -1]] :=
  ⟨by decide,
   (transfer_slt_iff_nonneg syntacticOracle nonNegativeStore twoArguments (.ref 0) (.ref 1)
      false 0 1 [] (by decide)).1 (by decide),
   by decide⟩

/-! ## C10: the meaning of a signed row -/

theorem getConstraint_signed_closed (Info : ConstraintInfo) (defs : Defs) (strict : Bool)
    (A B : Value) (a0 b0 : Int) (VA VB : Decomposition) (NI : DenseMap)
    (hA : decompose defs (stripPointerCastsSameRepresentation defs A) true = ((a0, none) :: VA, []))
    (hB : decompose defs (stripPointerCastsSameRepresentation defs B) true = ((b0, none) :: VB, []))
    (ha : MinSignedConstraintValue < a0) (ha2 : a0 ≤ MaxConstraintValue) :
    Info.getConstraint defs (if strict then .ICMP_SLT else .ICMP_SLE) A B NI =
      signedRow Info strict a0 b0 VA VB NI := by
  have e0 : wrap64 (-a0) = - a0 := by
    rw [wrap64_of_fits] <;> unfold MinSignedConstraintValue MaxConstraintValue at * <;> omega
  cases strict
  · by_cases h1 : fitsInt64 (-a0 + b0) = true
    · simp [ConstraintInfo.getConstraint, normalizePredicate, Predicate.isSigned, hA, hB,
        e0, AddOverflow, signedRow, h1]
    · simp [ConstraintInfo.getConstraint, normalizePredicate, Predicate.isSigned, hA, hB,
        e0, AddOverflow, signedRow, h1]
  · by_cases h1 : fitsInt64 (-a0 + b0) = true
    · have h1' := wrap64_of_fits _ ((fitsInt64_iff _).1 h1).1 ((fitsInt64_iff _).1 h1).2
      by_cases h2 : fitsInt64 (-a0 + b0 + -1) = true
      · simp [ConstraintInfo.getConstraint, normalizePredicate, Predicate.isSigned, hA, hB,
          e0, AddOverflow, signedRow, h1, h2, h1']
      · simp [ConstraintInfo.getConstraint, normalizePredicate, Predicate.isSigned, hA, hB,
          e0, AddOverflow, signedRow, h1, h2, h1']
    · simp [ConstraintInfo.getConstraint, normalizePredicate, Predicate.isSigned, hA, hB,
        e0, AddOverflow, signedRow, h1]

theorem find_mem (T : DenseMap) (v : Value) (i : Nat) (h : T.find v = some i) : (v, i) ∈ T := by
  induction T with
  | nil => simp [DenseMap.find] at h
  | cons p rest ih =>
    obtain ⟨k, j⟩ := p
    simp only [DenseMap.find] at h
    split at h
    · rename_i hk
      cases h
      simp [hk]
    · exact List.mem_cons_of_mem _ (ih h)

theorem find_append (T U : DenseMap) (v : Value) :
    DenseMap.find (T ++ U) v = match T.find v with
      | some i => some i
      | none => U.find v := by
  induction T with
  | nil => simp [DenseMap.find]
  | cons p rest ih =>
    obtain ⟨k, j⟩ := p
    by_cases hk : k = v
    · simp [DenseMap.find, hk]
    · simp [DenseMap.find, hk, ih]

theorem getOrAddIndex_newInRange (T NI : DenseMap) (v : Value)
    (h : DenseMap.NewInRange T.length NI) :
    DenseMap.NewInRange T.length (GetOrAddIndex T NI v).2 := by
  unfold GetOrAddIndex
  cases hT : T.find v with
  | some i => simpa using h
  | none =>
    cases hN : NI.find v with
    | some i => simpa using h
    | none =>
      intro kv hkv
      simp only [List.mem_append, List.mem_singleton] at hkv
      rcases hkv with hkv | hkv
      · have := h kv hkv
        simp only [List.length_append, List.length_singleton]
        omega
      · subst hkv
        simp only [List.length_append, List.length_singleton]
        omega

theorem addIndices_newInRange (T : DenseMap) (V : Decomposition) (NI : DenseMap)
    (h : DenseMap.NewInRange T.length NI) :
    DenseMap.NewInRange T.length (addIndices T V NI) := by
  induction V generalizing NI with
  | nil => simpa [addIndices] using h
  | cons p rest ih =>
    obtain ⟨c, v⟩ := p
    cases v with
    | none => simpa [addIndices] using ih NI h
    | some v => simpa [addIndices] using ih _ (getOrAddIndex_newInRange T NI v h)

theorem getOrAddIndex_known (T NI : DenseMap) (v : Value)
    (h : T.find v ≠ none ∨ NI.find v ≠ none) : (GetOrAddIndex T NI v).2 = NI := by
  unfold GetOrAddIndex
  cases hT : T.find v with
  | some i => rfl
  | none =>
    cases hN : NI.find v with
    | some i => rfl
    | none => simp [hT, hN] at h

/-- A value that has an index keeps it when further indices are added. -/
theorem getOrAddIndex_stable (T NI : DenseMap) (v w : Value)
    (h : T.find v ≠ none ∨ NI.find v ≠ none) :
    (T.find v ≠ none ∨ (GetOrAddIndex T NI w).2.find v ≠ none) ∧
      (GetOrAddIndex T (GetOrAddIndex T NI w).2 v).1 = (GetOrAddIndex T NI v).1 := by
  cases hT : T.find v with
  | some i => simp [GetOrAddIndex, hT]
  | none =>
    have hN : NI.find v ≠ none := by simpa [hT] using h
    obtain ⟨i, hi⟩ := Option.ne_none_iff_exists'.1 hN
    have key : (GetOrAddIndex T NI w).2.find v = some i := by
      unfold GetOrAddIndex
      cases hTw : T.find w with
      | some j => simpa using hi
      | none =>
        cases hNw : NI.find w with
        | some j => simpa using hi
        | none => simp [find_append, hi]
    generalize (GetOrAddIndex T NI w).2 = NI2 at key ⊢
    simp [GetOrAddIndex, hT, key, hi]

theorem getOrAddIndex_self (T NI : DenseMap) (v : Value) :
    (T.find v ≠ none ∨ (GetOrAddIndex T NI v).2.find v ≠ none) ∧
      (GetOrAddIndex T (GetOrAddIndex T NI v).2 v).1 = (GetOrAddIndex T NI v).1 := by
  cases hT : T.find v with
  | some i => simp [GetOrAddIndex, hT]
  | none =>
    cases hN : NI.find v with
    | some i => simp [GetOrAddIndex, hT, hN]
    | none =>
      have key : (GetOrAddIndex T NI v).2.find v = some (T.length + NI.length + 1) := by
        simp [GetOrAddIndex, hT, hN, find_append, DenseMap.find]
      have key1 : (GetOrAddIndex T NI v).1 = T.length + NI.length + 1 := by
        simp [GetOrAddIndex, hT, hN]
      rw [key1]
      generalize (GetOrAddIndex T NI v).2 = NI2 at key ⊢
      simp [GetOrAddIndex, hT, key]

/-- After `addIndices`, every variable of the decomposition has an index, in
the atom table or among the new indices. -/
theorem addIndices_known (T : DenseMap) (V : Decomposition) (NI : DenseMap) (v : Value) :
    ((T.find v ≠ none ∨ NI.find v ≠ none) ∨ (∃ c, (c, some v) ∈ V)) →
      (T.find v ≠ none ∨ (addIndices T V NI).find v ≠ none) := by
  induction V generalizing NI with
  | nil =>
    intro h
    rcases h with h | ⟨c, hc⟩
    · simpa [addIndices] using h
    · simp at hc
  | cons p rest ih =>
    obtain ⟨c, w⟩ := p
    intro h
    cases w with
    | none =>
      simp only [addIndices]
      apply ih
      rcases h with h | ⟨c', hc'⟩
      · exact Or.inl h
      · simp only [List.mem_cons, Prod.mk.injEq, reduceCtorEq, and_false, false_or] at hc'
        exact Or.inr ⟨c', hc'⟩
    | some w =>
      simp only [addIndices]
      apply ih
      rcases h with h | ⟨c', hc'⟩
      · exact Or.inl (getOrAddIndex_stable T NI v w h).1
      · simp only [List.mem_cons, Prod.mk.injEq, Option.some.injEq] at hc'
        rcases hc' with ⟨_, rfl⟩ | hc'
        · exact Or.inl (getOrAddIndex_self T NI v).1
        · exact Or.inr ⟨c', hc'⟩

/-- The index `GetOrAddIndex` gives for a value that has one lies inside the
row built by `getConstraint`. -/
theorem getOrAddIndex_bounds (T NI : DenseMap) (v : Value) (hT : T.IndicesInRange)
    (hN : DenseMap.NewInRange T.length NI) (h : T.find v ≠ none ∨ NI.find v ≠ none) :
    1 ≤ (GetOrAddIndex T NI v).1 ∧ (GetOrAddIndex T NI v).1 ≤ T.length + NI.length := by
  cases hf : T.find v with
  | some i =>
    have := hT _ (find_mem T v i hf)
    simp only [GetOrAddIndex, hf]
    omega
  | none =>
    have hN2 : NI.find v ≠ none := by simpa [hf] using h
    obtain ⟨i, hi⟩ := Option.ne_none_iff_exists'.1 hN2
    have := hN _ (find_mem NI v i hi)
    simp only [GetOrAddIndex, hf, hi]
    omega

theorem dotFrom_replicate_zero (b n : Nat) (σ : Nat → Int) :
    dotFrom b (List.replicate n 0) σ = 0 := by
  induction n generalizing b with
  | zero => rfl
  | succ n ih => simp [List.replicate, dotFrom, ih]

theorem getD_replicate_zero (n j : Nat) : ((List.replicate n (0 : Int))[j]?).getD 0 = 0 := by
  induction n generalizing j with
  | zero => simp
  | succ n ih => cases j <;> simp [List.replicate, ih]

theorem getD_updateAt (R : List Int) (i j : Nat) (f : Int → Int) :
    ((updateAt R i f)[j]?).getD 0 =
      if j = i ∧ i < R.length then f ((R[i]?).getD 0) else (R[j]?).getD 0 := by
  induction R generalizing i j with
  | nil => cases i <;> simp [updateAt]
  | cons x xs ih =>
    cases i with
    | zero => cases j <;> simp [updateAt]
    | succ i =>
      cases j with
      | zero => simp [updateAt]
      | succ j => simp [updateAt, ih]

theorem dotFrom_updateAt (b : Nat) (R : List Int) (i : Nat) (f : Int → Int) (σ : Nat → Int)
    (h : i < R.length) :
    dotFrom b (updateAt R i f) σ =
      dotFrom b R σ + (f ((R[i]?).getD 0) - (R[i]?).getD 0) * σ (b + i) := by
  induction R generalizing b i with
  | nil => simp at h
  | cons x xs ih =>
    cases i with
    | zero => simp [updateAt, dotFrom]; ring
    | succ i =>
      have h' : i < xs.length := by simpa using h
      simp only [updateAt, dotFrom, ih (b + 1) i h', List.getElem?_cons_succ]
      have : b + 1 + i = b + (i + 1) := by omega
      rw [this]; ring

theorem dot_tail_updateAt (R : List Int) (i : Nat) (f : Int → Int) (σ : Nat → Int)
    (h1 : 1 ≤ i) (h2 : i < R.length) :
    dotFrom 1 (updateAt R i f).tail σ =
      dotFrom 1 R.tail σ + (f ((R[i]?).getD 0) - (R[i]?).getD 0) * σ i := by
  cases R with
  | nil => simp at h2
  | cons x xs =>
    obtain ⟨j, rfl⟩ : ∃ j, i = j + 1 := ⟨i - 1, by omega⟩
    have h' : j < xs.length := by simpa using h2
    simp only [updateAt, List.tail_cons, dotFrom_updateAt 1 xs j f σ h', List.getElem?_cons_succ]
    have : 1 + j = j + 1 := by omega
    rw [this]

theorem dot_tail_updateAt_zero (R : List Int) (f : Int → Int) (σ : Nat → Int) :
    dotFrom 1 (updateAt R 0 f).tail σ = dotFrom 1 R.tail σ := by
  cases R <;> rfl

theorem headD_updateAt_zero (R : List Int) (k : Int) (h : R ≠ []) :
    (updateAt R 0 (fun _ => k)).headD 0 = k := by
  cases R with
  | nil => exact absurd rfl h
  | cons x xs => rfl

theorem wrap64_zero_add_one : wrap64 (0 + 1 * 1) = 1 := by decide

theorem wrap64_zero_sub_one : wrap64 (0 + -1 * 1) = -1 := by decide

theorem wrap64_one_sub_one : wrap64 (1 + -1 * 1) = 0 := by decide

theorem atomIndex_eq (T NI : DenseMap) (v : Value) (h : T.find v ≠ none ∨ NI.find v ≠ none) :
    atomIndex T NI v = (GetOrAddIndex T NI v).1 := by
  cases hT : T.find v with
  | some i => simp [atomIndex, GetOrAddIndex, hT]
  | none =>
    have hN : NI.find v ≠ none := by simpa [hT] using h
    obtain ⟨i, hi⟩ := Option.ne_none_iff_exists'.1 hN
    simp [atomIndex, GetOrAddIndex, hT, hi]

/-- The variables of a signed decomposition: none, or one with coefficient 1. -/
theorem dot_signed_vars (T : DenseMap) (VA VB : Decomposition) (σ : Nat → Int)
    (hT : T.IndicesInRange)
    (hA : VA = [] ∨ ∃ a, VA = [(1, some a)]) (hB : VB = [] ∨ ∃ b, VB = [(1, some b)]) :
    dotFrom 1
        (addCoefficients T (addIndices T (VA ++ VB) []) (-1) VB
          (addCoefficients T (addIndices T (VA ++ VB) []) 1 VA
            (List.replicate (T.length + (addIndices T (VA ++ VB) []).length + 1) 0))).tail σ =
      varsValue T (addIndices T (VA ++ VB) []) σ VA -
        varsValue T (addIndices T (VA ++ VB) []) σ VB := by
  have hNew : DenseMap.NewInRange T.length (addIndices T (VA ++ VB) []) :=
    addIndices_newInRange T _ [] (by intro kv h; simp at h)
  have hb : ∀ v, (∃ c, (c, some v) ∈ VA ++ VB) →
      1 ≤ (GetOrAddIndex T (addIndices T (VA ++ VB) []) v).1 ∧
        (GetOrAddIndex T (addIndices T (VA ++ VB) []) v).1 <
          (List.replicate (T.length + (addIndices T (VA ++ VB) []).length + 1) (0 : Int)).length := by
    intro v hv
    have := getOrAddIndex_bounds T _ v hT hNew (addIndices_known T _ [] v (Or.inr hv))
    simp only [List.length_replicate]
    omega
  generalize addIndices T (VA ++ VB) [] = NI at hb ⊢
  generalize hR : List.replicate (T.length + NI.length + 1) (0 : Int) = R0 at hb ⊢
  have hz : ∀ j : Nat, (R0[j]?).getD 0 = 0 := by
    intro j; rw [← hR]; exact getD_replicate_zero _ j
  have hd : dotFrom 1 R0.tail σ = 0 := by
    rw [← hR]
    simp only [List.replicate, List.tail_cons]
    exact dotFrom_replicate_zero _ _ σ
  rcases hA with rfl | ⟨a, rfl⟩ <;> rcases hB with rfl | ⟨b, rfl⟩
  · simp [addCoefficients, varsValue, hd]
  · have h1 := hb b ⟨1, by simp⟩
    simp only [addCoefficients, varsValue]
    rw [dot_tail_updateAt _ _ _ _ h1.1 h1.2, hz, hd, wrap64_zero_sub_one]
    ring
  · have h1 := hb a ⟨1, by simp⟩
    simp only [addCoefficients, varsValue]
    rw [dot_tail_updateAt _ _ _ _ h1.1 h1.2, hz, hd, wrap64_zero_add_one]
    ring
  · have h1 := hb a ⟨1, by simp⟩
    have h2 := hb b ⟨1, by simp⟩
    simp only [addCoefficients, varsValue]
    rw [dot_tail_updateAt _ _ _ _ h2.1 (by rw [updateAt_length]; exact h2.2),
      dot_tail_updateAt _ _ _ _ h1.1 h1.2, getD_updateAt, hz, hd, wrap64_zero_add_one]
    split
    · rw [wrap64_one_sub_one]; ring
    · rw [hz, wrap64_zero_sub_one]; ring

theorem signedRow_holds (Info : ConstraintInfo) (strict : Bool) (a0 b0 : Int)
    (VA VB : Decomposition) (σ : Nat → Int)
    (hT : (Info.getValue2Index true).IndicesInRange)
    (hA : VA = [] ∨ ∃ a, VA = [(1, some a)]) (hB : VB = [] ∨ ∃ b, VB = [(1, some b)])
    (hne : (signedRow Info strict a0 b0 VA VB []).1.Coefficients ≠ []) :
    rowHolds (signedRow Info strict a0 b0 VA VB []).1.Coefficients σ ↔
      (if strict then
        a0 + varsValue (Info.getValue2Index true) (signedRow Info strict a0 b0 VA VB []).2 σ VA <
          b0 + varsValue (Info.getValue2Index true) (signedRow Info strict a0 b0 VA VB []).2 σ VB
      else
        a0 + varsValue (Info.getValue2Index true) (signedRow Info strict a0 b0 VA VB []).2 σ VA ≤
          b0 + varsValue (Info.getValue2Index true) (signedRow Info strict a0 b0 VA VB []).2 σ VB) := by
  have hdot := dot_signed_vars (Info.getValue2Index true) VA VB σ hT hA hB
  by_cases hf : (fitsInt64 (-a0 + b0) && (!strict || fitsInt64 (-a0 + b0 + -1))) = true
  · have hc : (signedRow Info strict a0 b0 VA VB []).1.Coefficients =
        updateAt
          (addCoefficients (Info.getValue2Index true)
            (addIndices (Info.getValue2Index true) (VA ++ VB) []) (-1) VB
            (addCoefficients (Info.getValue2Index true)
              (addIndices (Info.getValue2Index true) (VA ++ VB) []) 1 VA
              (List.replicate
                ((Info.getValue2Index true).length +
                  (addIndices (Info.getValue2Index true) (VA ++ VB) []).length + 1) 0)))
          0 (fun _ => if strict then wrap64 (-a0 + b0 + -1) else wrap64 (-a0 + b0)) := by
      simp only [signedRow, hf, ↓reduceIte]
    have hNI : (signedRow Info strict a0 b0 VA VB []).2 =
        addIndices (Info.getValue2Index true) (VA ++ VB) [] := rfl
    rw [hc, hNI]
    have hne2 : addCoefficients (Info.getValue2Index true)
            (addIndices (Info.getValue2Index true) (VA ++ VB) []) (-1) VB
            (addCoefficients (Info.getValue2Index true)
              (addIndices (Info.getValue2Index true) (VA ++ VB) []) 1 VA
              (List.replicate
                ((Info.getValue2Index true).length +
                  (addIndices (Info.getValue2Index true) (VA ++ VB) []).length + 1) 0)) ≠ [] := by
      intro h
      have := congrArg List.length h
      simp [addCoefficients_length] at this
    unfold rowHolds
    rw [dot_tail_updateAt_zero, headD_updateAt_zero _ _ hne2, hdot]
    simp only [Bool.and_eq_true, Bool.or_eq_true, Bool.not_eq_true'] at hf
    have hw1 := wrap64_of_fits _ ((fitsInt64_iff _).1 hf.1).1 ((fitsInt64_iff _).1 hf.1).2
    cases strict
    · simp only [Bool.false_eq_true, ↓reduceIte, hw1]
      constructor <;> intro h <;> omega
    · have hf2 : fitsInt64 (-a0 + b0 + -1) = true := by simpa using hf.2
      have hw2 := wrap64_of_fits _ ((fitsInt64_iff _).1 hf2).1 ((fitsInt64_iff _).1 hf2).2
      simp only [↓reduceIte, hw2]
      constructor <;> intro h <;> omega
  · exfalso
    apply hne
    simp only [signedRow, hf, Bool.false_eq_true, ↓reduceIte]

theorem getConstraint_sgt_swap (Info : ConstraintInfo) (defs : Defs) (a b : Value)
    (NI : DenseMap) :
    Info.getConstraint defs .ICMP_SGT a b NI = Info.getConstraint defs .ICMP_SLT b a NI := by
  simp [ConstraintInfo.getConstraint, normalizePredicate, Predicate.getSwappedPredicate]

theorem getConstraint_sge_swap (Info : ConstraintInfo) (defs : Defs) (a b : Value)
    (NI : DenseMap) :
    Info.getConstraint defs .ICMP_SGE a b NI = Info.getConstraint defs .ICMP_SLE b a NI := by
  simp [ConstraintInfo.getConstraint, normalizePredicate, Predicate.getSwappedPredicate]

/-- The shape of the signed decomposition of an in-range constant or an atom,
and the integer the operand stands for in terms of it. -/
theorem signed_operand_shape (defs : Defs) (v : Value) (σ : Nat → Int)
    (hv : InRangeOrAtom defs v) :
    ∃ c V, decompose defs (stripPointerCastsSameRepresentation defs v) true = ((c, none) :: V, []) ∧
      (V = [] ∨ ∃ a, V = [(1, some a)]) ∧
      MinSignedConstraintValue < c ∧ c ≤ MaxConstraintValue ∧
      ∀ T NI : DenseMap, (∀ w, (∃ k, (k, some w) ∈ V) → (T.find w ≠ none ∨ NI.find w ≠ none)) →
        signedOperandValue defs T NI σ v = c + varsValue T NI σ V := by
  cases hs : stripPointerCastsSameRepresentation defs v with
  | constInt bits val =>
    have hcan := hv bits val hs
    have hr := (canUseSExt_iff _ _).1 hcan
    refine ⟨getSExtValue bits val, [], decompose_signed_const defs bits val hcan, Or.inl rfl,
      hr.1, le_of_lt hr.2, ?_⟩
    intro T NI _
    simp [signedOperandValue, hs, varsValue]
  | constNull =>
    refine ⟨0, [(1, some .constNull)], by simp [decompose], Or.inr ⟨_, rfl⟩, by decide,
      by decide, ?_⟩
    intro T NI h
    have hk := atomIndex_eq T NI _ (h _ ⟨1, List.mem_singleton.2 rfl⟩)
    simp [signedOperandValue, hs, varsValue, hk]
  | poison ty =>
    refine ⟨0, [(1, some (.poison ty))], by simp [decompose], Or.inr ⟨_, rfl⟩, by decide,
      by decide, ?_⟩
    intro T NI h
    have hk := atomIndex_eq T NI _ (h _ ⟨1, List.mem_singleton.2 rfl⟩)
    simp [signedOperandValue, hs, varsValue, hk]
  | ref id =>
    refine ⟨0, [(1, some (.ref id))], by simp [decompose], Or.inr ⟨_, rfl⟩, by decide,
      by decide, ?_⟩
    intro T NI h
    have hk := atomIndex_eq T NI _ (h _ ⟨1, List.mem_singleton.2 rfl⟩)
    simp [signedOperandValue, hs, varsValue, hk]

theorem signed_lt_le_semantics (Info : ConstraintInfo) (defs : Defs) (strict : Bool)
    (a b : Value) (σ : Nat → Int)
    (hT : (Info.getValue2Index true).IndicesInRange)
    (ha : InRangeOrAtom defs a) (hb : InRangeOrAtom defs b)
    (hne : (Info.getConstraint defs (if strict then .ICMP_SLT else .ICMP_SLE) a b []).1.Coefficients
      ≠ []) :
    rowHolds (Info.getConstraint defs (if strict then .ICMP_SLT else .ICMP_SLE) a b []).1.Coefficients
        σ ↔
      (if strict then
        signedOperandValue defs (Info.getValue2Index true)
            (Info.getConstraint defs (if strict then .ICMP_SLT else .ICMP_SLE) a b []).2 σ a <
          signedOperandValue defs (Info.getValue2Index true)
            (Info.getConstraint defs (if strict then .ICMP_SLT else .ICMP_SLE) a b []).2 σ b
      else
        signedOperandValue defs (Info.getValue2Index true)
            (Info.getConstraint defs (if strict then .ICMP_SLT else .ICMP_SLE) a b []).2 σ a ≤
          signedOperandValue defs (Info.getValue2Index true)
            (Info.getConstraint defs (if strict then .ICMP_SLT else .ICMP_SLE) a b []).2 σ b) := by
  obtain ⟨a0, VA, hA, hVA, ha1, ha2, hvalA⟩ := signed_operand_shape defs a σ ha
  obtain ⟨b0, VB, hB, hVB, _, _, hvalB⟩ := signed_operand_shape defs b σ hb
  have hclosed := getConstraint_signed_closed Info defs strict a b a0 b0 VA VB [] hA hB ha1 ha2
  rw [hclosed] at hne ⊢
  have hknown : ∀ w, (∃ k, (k, some w) ∈ VA ++ VB) →
      ((Info.getValue2Index true).find w ≠ none ∨
        (signedRow Info strict a0 b0 VA VB []).2.find w ≠ none) := by
    intro w hw
    exact addIndices_known _ _ [] w (Or.inr hw)
  rw [hvalA _ _ (fun w ⟨k, hk⟩ => hknown w ⟨k, List.mem_append_left _ hk⟩),
    hvalB _ _ (fun w ⟨k, hk⟩ => hknown w ⟨k, List.mem_append_right _ hk⟩)]
  exact signedRow_holds Info strict a0 b0 VA VB σ hT hVA hVB hne

/-- C10 (row semantics): for a signed predicate `P` among SLT, SLE, SGT, SGE and
operands `a`, `b` that are in-range constants or values other than constants,
against an atom table whose indices lie between 1 and its size: if
`getConstraint(P, a, b)` returns a non-empty row `R`, then under every
assignment of integers to the atoms `Σ_(i≥1) R[i]·x_i ≤ R[0]` holds if and only
if `a P b` holds, a constant standing for its signed value and any other
operand for the integer assigned to its atom. -/
theorem signed_row_semantics (Info : ConstraintInfo) (defs : Defs) (P : Predicate)
    (a b : Value) (σ : Nat → Int)
    (hP : P = .ICMP_SLT ∨ P = .ICMP_SLE ∨ P = .ICMP_SGT ∨ P = .ICMP_SGE)
    (hT : (Info.getValue2Index true).IndicesInRange)
    (ha : InRangeOrAtom defs a) (hb : InRangeOrAtom defs b)
    (hne : (Info.getConstraint defs P a b []).1.Coefficients ≠ []) :
    rowHolds (Info.getConstraint defs P a b []).1.Coefficients σ ↔
      signedHolds P
        (signedOperandValue defs (Info.getValue2Index true)
          (Info.getConstraint defs P a b []).2 σ a)
        (signedOperandValue defs (Info.getValue2Index true)
          (Info.getConstraint defs P a b []).2 σ b) := by
  rcases hP with rfl | rfl | rfl | rfl
  · simpa [signedHolds] using signed_lt_le_semantics Info defs true a b σ hT ha hb hne
  · simpa [signedHolds] using signed_lt_le_semantics Info defs false a b σ hT ha hb hne
  · rw [getConstraint_sgt_swap] at hne ⊢
    simpa [signedHolds] using signed_lt_le_semantics Info defs true b a σ hT hb ha hne
  · rw [getConstraint_sge_swap] at hne ⊢
    simpa [signedHolds] using signed_lt_le_semantics Info defs false b a σ hT hb ha hne

/-- Witness of `signed_row_semantics`: the row of `%0 s< %1` against the store
that knows `%0`, under the assignment `%0 = 3`, `%1 = 5`. -/
theorem signed_row_semantics_witness :
    (nonNegativeStore.getConstraint twoArguments .ICMP_SLT (.ref 0) (.ref 1) []).1.Coefficients =
      [-1, 1, -1] ∧
    (rowHolds
        (nonNegativeStore.getConstraint twoArguments .ICMP_SLT (.ref 0) (.ref 1) []).1.Coefficients
        (fun i => if i = 1 then 3 else 5) ↔
      signedHolds .ICMP_SLT
        (signedOperandValue twoArguments (nonNegativeStore.getValue2Index true)
          (nonNegativeStore.getConstraint twoArguments .ICMP_SLT (.ref 0) (.ref 1) []).2
          (fun i => if i = 1 then 3 else 5) (.ref 0))
        (signedOperandValue twoArguments (nonNegativeStore.getValue2Index true)
          (nonNegativeStore.getConstraint twoArguments .ICMP_SLT (.ref 0) (.ref 1) []).2
          (fun i => if i = 1 then 3 else 5) (.ref 1))) :=
  ⟨by decide,
   signed_row_semantics nonNegativeStore twoArguments .ICMP_SLT (.ref 0) (.ref 1)
    (fun i => if i = 1 then 3 else 5) (Or.inl rfl)
    (by intro kv h
        have : kv = (.ref 0, 1) := by
          have h2 : kv ∈ [(Value.ref 0, 1)] := h
          simpa using h2
        subst this
        decide)
    (by intro bits val h
        have h2 : stripPointerCastsSameRepresentation twoArguments (.ref 0) = .ref 0 := by decide
        rw [h2] at h; cases h)
    (by intro bits val h
        have h2 : stripPointerCastsSameRepresentation twoArguments (.ref 1) = .ref 1 := by decide
        rw [h2] at h; cases h)
    (by decide)⟩

/-! ## Testing one comparison -/

/-- A comparison whose row needs no precondition and no new index with a
non-zero coefficient is folded according to the two answers of the engine. -/
theorem processInstruction_icmp (O : Oracle) (S : DriverState) (I : Nat) (P : Predicate)
    (A B : Value) (R : ConstraintTy) (NI : DenseMap) (C : List Int)
    (hk : S.F.kind I = some (.icmp P A B))
    (hr : S.Info.getConstraint S.F.defs P A B [] = (R, NI))
    (heq : R.IsEq = false)
    (hn : needsNewIndicesLoop NI.length R.Coefficients = (false, C))
    (hne : R.Coefficients ≠ []) (hC : C ≠ []) (hp : R.Preconditions = []) :
    processInstruction O counterUnset S I =
      foldCompare S I (O.isConditionImplied (S.Info.getCS R.IsSigned) C)
        (O.isConditionImplied (S.Info.getCS R.IsSigned) (negate C)) := by
  obtain ⟨Co, Pre, Sg, Eqf⟩ := R
  simp only at heq hp hne hn
  subst heq hp
  have hemp : ConstraintTy.empty ⟨Co, [], Sg, false⟩ = false := by
    simp [ConstraintTy.empty, hne]
  have hvalid : ConstraintTy.isValid O ⟨C, [], Sg, false⟩ S.Info S.F.defs = true := by
    simp [ConstraintTy.isValid, List.length_pos.2 hC]
  simp only [processInstruction, hk, hr, hemp, Bool.or_self, Bool.false_eq_true,
    ↓reduceIte, ConstraintTy.needsNewIndices, hn, hvalid, Bool.not_true, counterUnset,
    Bool.and_false, foldCompare]

/-- An instruction that is neither a comparison nor an overflow intrinsic is
passed over. -/
theorem processInstruction_other (O : Oracle) (g : Nat → Bool) (S : DriverState) (I : Nat)
    (h : isTested (S.F.kind I) = false) : processInstruction O g S I = S := by
  unfold processInstruction
  split <;> simp_all [isTested]

/-! ## C1: soundness -/

/-- C1 (soundness) fails on the code: for every engine that reports tautologies
implied, `eliminateConstraints` on the function `%1 = sub nuw i8 %0, 200;
%2 = icmp uge i8 %1, %0; ret %2` reports a change and replaces the use of `%2`
by the constant true, with no fact in the store, although for `%0 = 250` no
value is poison and `%2` evaluates to false. -/
theorem soundness_fails_on_sub_nuw (O : Oracle) (hO : O.ImpliesTautologies) :
    (eliminateConstraints O counterUnset subNuwCompare oneBlockDT).1 = true ∧
    (eliminateConstraints O counterUnset subNuwCompare oneBlockDT).2.kind 3 =
      some (.otherTerminator [] [getTrue]) ∧
    subNuwCompare.kind 3 = some (.otherTerminator [] [.ref 2]) ∧
    evalInt subNuwCompare.defs (fun _ => 250) 2 (.ref 1) = some 50 ∧
    evalInt subNuwCompare.defs (fun _ => 250) 3 (.ref 2) = some 0 := by
  have hwl : stableSort (collectWorkList subNuwCompare oneBlockDT) =
      [⟨0, 1, true, false, 0, 0⟩] := by decide
  have h56 : O.isConditionImplied [] [56] = true := hO [] 56 [] (by decide) (by simp)
  have e1 : processInstruction O counterUnset { F := subNuwCompare } 1 =
      { F := subNuwCompare } :=
    processInstruction_other O _ _ 1 (by decide)
  have e2 : processInstruction O counterUnset { F := subNuwCompare } 2 =
      foldCompare { F := subNuwCompare } 2 (O.isConditionImplied [] [56])
        (O.isConditionImplied [] [-57]) :=
    processInstruction_icmp O { F := subNuwCompare } 2 .ICMP_UGE (.ref 1) (.ref 0)
      ⟨[56, 0], [], false, false⟩ [(.ref 0, 1)] [56]
      (by decide) (by decide) rfl (by decide) (by decide) (by decide) rfl
  rw [h56] at e2
  have e3 : ∀ b, processInstruction O counterUnset (foldCompare { F := subNuwCompare } 2 true b) 3 =
      foldCompare { F := subNuwCompare } 2 true b := by
    intro b
    apply processInstruction_other
    cases b <;> decide
  have hrun : runWorkList O counterUnset { F := subNuwCompare }
      (stableSort (collectWorkList subNuwCompare oneBlockDT)) =
      foldCompare { F := subNuwCompare } 2 true (O.isConditionImplied [] [-57]) := by
    rw [hwl]
    have hb : (subNuwCompare.blocks.find? (fun B => decide (B.id = 0))) = some ⟨0, [1, 2, 3]⟩ := by
      decide
    simp only [runWorkList, List.foldl, processEntry, popOutOfScope, ↓reduceIte, hb, e1, e2, e3]
  refine ⟨?_, ?_, by decide, by decide, by decide⟩
  · simp only [eliminateConstraints, hrun]
    cases O.isConditionImplied [] [-57] <;> decide
  · simp only [eliminateConstraints, hrun]
    cases O.isConditionImplied [] [-57] <;> decide

/-- Witness of `soundness_fails_on_sub_nuw`. -/
theorem soundness_fails_on_sub_nuw_witness :
    (eliminateConstraints syntacticOracle counterUnset subNuwCompare oneBlockDT).1 = true ∧
    (eliminateConstraints syntacticOracle counterUnset subNuwCompare oneBlockDT).2.kind 3 =
      some (.otherTerminator [] [getTrue]) ∧
    subNuwCompare.kind 3 = some (.otherTerminator [] [.ref 2]) ∧
    evalInt subNuwCompare.defs (fun _ => 250) 2 (.ref 1) = some 50 ∧
    evalInt subNuwCompare.defs (fun _ => 250) 3 (.ref 2) = some 0 :=
  soundness_fails_on_sub_nuw syntacticOracle syntacticOracle_impliesTautologies

/-! ## Adding a fact -/

/-- What `addFact` does with a row without preconditions that is not an
equality, when the engine takes it. -/
theorem addFact_of_row (O : Oracle) (Info : ConstraintInfo) (defs : Defs) (P : Predicate)
    (A B : Value) (IsNegated : Bool) (NumIn NumOut : Nat) (st : List StackEntry)
    (R : ConstraintTy) (NI : DenseMap)
    (hr : Info.getConstraint defs P A B [] = (R, NI))
    (hne : R.Coefficients ≠ []) (hp : R.Preconditions = []) (heq : R.IsEq = false)
    (hadds : O.addsRow (Info.getCS R.IsSigned) R.Coefficients = true) :
    Info.addFact O defs P A B IsNegated NumIn NumOut st =
      ((Info.setCS R.IsSigned
          ((Info.getCS R.IsSigned).map
            (fun row => row ++ List.replicate (R.Coefficients.length - row.length) 0) ++
            [R.Coefficients])).setValue2Index R.IsSigned
          (insertAll (Info.getValue2Index R.IsSigned) NI),
        ⟨NumIn, NumOut, IsNegated, R.IsSigned, NI.map (·.1)⟩ :: st) := by
  obtain ⟨Co, Pre, Sg, Eqf⟩ := R
  simp only at hne hp heq hadds
  subst hp heq
  have hvalid : ConstraintTy.isValid O ⟨Co, [], Sg, false⟩ Info defs = true := by
    simp [ConstraintTy.isValid, List.length_pos.2 hne]
  simp only [ConstraintInfo.addFact, hr, hvalid, Bool.not_true, Bool.false_eq_true, ↓reduceIte,
    List.isEmpty_eq_true, hne, addVariableRowFill, hadds]
  cases Sg <;> rfl

/-! ## C4: the `Else` branch of the scenario -/

theorem map_updateAt (f g h : Int → Int) (hfg : ∀ x, f (g x) = h (f x)) (R : List Int) (i : Nat) :
    (updateAt R i g).map f = updateAt (R.map f) i h := by
  induction R generalizing i with
  | nil => cases i <;> rfl
  | cons x xs ih => cases i <;> simp [updateAt, hfg, ih]

theorem wrap64_neg_sub_one (x : Int) :
    wrap64 (wrap64 (x + -1 * 1) * -1) = wrap64 (wrap64 (x * -1) + 1 * 1) := by
  unfold wrap64
  omega

theorem map_neg_replicate_zero (n : Nat) :
    (List.replicate n (0 : Int)).map (fun x => wrap64 (x * -1)) = List.replicate n 0 := by
  induction n with
  | zero => rfl
  | succ n ih =>
    simp only [List.replicate, List.map_cons, ih]
    rfl

/-- The negation of the row of `c1 s<= x` is the row of `x s<= c1 - 1`. -/
theorem negate_constAtomRow (T NI : DenseMap) (x : Value) (n : Nat) (c : Int)
    (hc : MinSignedConstraintValue < c) (hc1 : c + 1 < MaxConstraintValue) :
    negate (updateAt (addCoefficients T NI (-1) [(1, some x)] (List.replicate (n + 1) 0)) 0
        (fun _ => - c - 1)) =
      updateAt (addCoefficients T NI 1 [(1, some x)] (List.replicate (n + 1) 0)) 0 (fun _ => c) := by
  have e1 : wrap64 (wrap64 (-c - 1 + 1) * -1) = c := by
    have : -c - 1 + 1 = -c := by ring
    rw [this, wrap64_of_fits (-c), wrap64_of_fits] <;>
      unfold MinSignedConstraintValue MaxConstraintValue at * <;> omega
  simp only [addCoefficients, List.replicate]
  cases hi : (GetOrAddIndex T NI x).1 with
  | zero =>
    simp only [updateAt, negate, List.map_cons, e1, map_neg_replicate_zero]
  | succ j =>
    simp only [updateAt, negate, List.map_cons, e1]
    rw [map_updateAt _ _ (fun y => wrap64 (y + 1 * 1)) wrap64_neg_sub_one,
      map_neg_replicate_zero]

theorem getConstraint_sle_const (Info : ConstraintInfo) (defs : Defs) (x : Value)
    (w v : Nat) (NI : DenseMap)
    (hx : ∀ bits val, stripPointerCastsSameRepresentation defs x ≠ .constInt bits val)
    (hc : MinSignedConstraintValue < getSExtValue w v)
    (hc1 : getSExtValue w v < MaxConstraintValue) :
    Info.getConstraint defs .ICMP_SLE x (.constInt w v) NI =
      ({ Coefficients :=
           updateAt
             (addCoefficients (Info.getValue2Index true)
               (addIndices (Info.getValue2Index true)
                 [(1, some (stripPointerCastsSameRepresentation defs x))] NI) 1
               [(1, some (stripPointerCastsSameRepresentation defs x))]
               (List.replicate
                 ((Info.getValue2Index true).length +
                   (addIndices (Info.getValue2Index true)
                     [(1, some (stripPointerCastsSameRepresentation defs x))] NI).length + 1) 0))
             0 (fun _ => getSExtValue w v),
         Preconditions := [], IsSigned := true, IsEq := false },
       addIndices (Info.getValue2Index true)
         [(1, some (stripPointerCastsSameRepresentation defs x))] NI) := by
  have hcan : CanUseSExt w v = true := (canUseSExt_iff _ _).2 ⟨hc, hc1⟩
  have h := getConstraint_signed_closed Info defs false x (.constInt w v) 0 (getSExtValue w v)
    [(1, some (stripPointerCastsSameRepresentation defs x))] [] NI
    (decompose_signed_atom defs _ hx)
    (by rw [strip_constInt]; exact decompose_signed_const defs w v hcan)
    (by decide) (by decide)
  have hf : fitsInt64 (getSExtValue w v) = true :=
    (fitsInt64_iff _).2 ⟨le_of_lt hc, le_of_lt hc1⟩
  have hw : wrap64 (getSExtValue w v) = getSExtValue w v :=
    wrap64_of_fits _ (le_of_lt hc) (le_of_lt hc1)
  simp only [Bool.false_eq_true, ↓reduceIte] at h
  rw [h]
  simp [signedRow, hf, hw, addCoefficients]

/-- C4 as stated fails: in the scenario the use of the comparison `x s>= 1` of
the `Else` block is replaced by the constant false. -/
theorem else_branch_not_unchanged :
    scenario.kind 6 = some (.otherTerminator [] [.ref 5]) ∧
    (eliminateConstraints syntacticOracle counterUnset scenario scenarioDT).2.kind 6 =
      some (.otherTerminator [] [getFalse]) := by
  decide

/-- C4 (amended): the row of the negated branch fact, `x s<= c`, is the
negation of the row of the comparison `x s>= c + 1`; hence, when that fact is
the only one in the signed system, an engine that is sound and reports held
rows implied makes the driver replace every use of the comparison by the
constant false, and none by the constant true. -/
theorem else_branch_folded_to_false (Info : ConstraintInfo) (defs : Defs) (x : Value)
    (w v v1 : Nat) (NI : DenseMap)
    (hx : ∀ bits val, stripPointerCastsSameRepresentation defs x ≠ .constInt bits val)
    (hc : MinSignedConstraintValue < getSExtValue w v)
    (hsucc : getSExtValue w v1 = getSExtValue w v + 1)
    (hc1 : getSExtValue w v1 < MaxConstraintValue) :
    negate (Info.getConstraint defs .ICMP_SGE x (.constInt w v1) NI).1.Coefficients =
      (Info.getConstraint defs (Predicate.getInversePredicate .ICMP_SGT) x
        (.constInt w v) NI).1.Coefficients ∧
    ∀ (O : Oracle) (S : DriverState) (I : Nat) (NumIn NumOut : Nat) (st : List StackEntry),
      O.Sound → O.ImpliesHeldRows →
      Info.getValue2Index true = [] → Info.getCS true = [] →
      S.F.defs = defs →
      S.F.kind I = some (.icmp .ICMP_SGE x (.constInt w v1)) →
      O.addsRow []
        (Info.getConstraint defs .ICMP_SLE x (.constInt w v) []).1.Coefficients = true →
      S.Info.getValue2Index true =
        (Info.addFact O defs .ICMP_SLE x (.constInt w v) true NumIn NumOut st).1.getValue2Index
          true →
      S.Info.getCS true =
        (Info.addFact O defs .ICMP_SLE x (.constInt w v) true NumIn NumOut st).1.getCS true →
      (processInstruction O counterUnset S I).Changed = true ∧
      (processInstruction O counterUnset S I).F.defs = replaceAllUsesWith defs I getFalse := by
  have hc1' : getSExtValue w v + 1 < MaxConstraintValue := by omega
  have hc2 : MinSignedConstraintValue < getSExtValue w v1 := by omega
  have hc3 : getSExtValue w v < MaxConstraintValue := by omega
  have hk : - getSExtValue w v1 = - getSExtValue w v - 1 := by omega
  constructor
  · rw [getConstraint_sge_const Info defs x w v1 NI hx hc2 hc1, hk]
    simp only [Predicate.getInversePredicate]
    rw [getConstraint_sle_const Info defs x w v NI hx hc hc3]
    simp only [constAtomRow]
    exact negate_constAtomRow _ _ _ _ _ hc hc1'
  · intro O S I NumIn NumOut st hS hmem hT hCS hdefs hkind hadds hT2 hCS2
    have hfact := getConstraint_sle_const Info defs x w v [] hx hc hc3
    rw [hT] at hfact
    have hfact2 : Info.getConstraint defs .ICMP_SLE x (.constInt w v) [] =
        (⟨[getSExtValue w v, 1], [], true, false⟩,
          [(stripPointerCastsSameRepresentation defs x, 1)]) := by
      rw [hfact]
      simp [addIndices, GetOrAddIndex, DenseMap.find, addCoefficients, updateAt, List.replicate]
      decide
    rw [hfact2] at hadds
    have hadd := addFact_of_row O Info defs .ICMP_SLE x (.constInt w v) true NumIn NumOut st
      _ _ hfact2 (by simp) rfl rfl (by simpa [hCS] using hadds)
    rw [hadd] at hT2 hCS2
    simp only [ConstraintInfo.getValue2Index, ConstraintInfo.setValue2Index,
      ConstraintInfo.setCS, ConstraintInfo.getCS, ↓reduceIte] at hT2 hCS2 hT hCS
    rw [hT] at hT2
    rw [hCS] at hCS2
    simp only [insertAll, DenseMap.insert, DenseMap.find, List.nil_append, List.map_nil] at hT2 hCS2
    have hcheck : S.Info.getConstraint S.F.defs .ICMP_SGE x (.constInt w v1) [] =
        (⟨[- getSExtValue w v - 1, -1], [], true, false⟩, []) := by
      rw [hdefs, getConstraint_sge_const S.Info defs x w v1 [] hx hc2 hc1, hk]
      simp only [constAtomRow, ConstraintInfo.getValue2Index, ↓reduceIte, hT2]
      simp [addIndices, GetOrAddIndex, DenseMap.find, addCoefficients, updateAt, List.replicate]
      decide
    have hstep := processInstruction_icmp O S I .ICMP_SGE x (.constInt w v1) _ _
      [- getSExtValue w v - 1, -1] hkind hcheck rfl rfl (by simp) (by simp) rfl
    have hcs : S.Info.getCS true = [[getSExtValue w v, 1]] := by
      simp only [ConstraintInfo.getCS, ↓reduceIte, hCS2]
    rw [hcs] at hstep
    have hneg : negate [- getSExtValue w v - 1, -1] = [getSExtValue w v, 1] := by
      have e1 : wrap64 (wrap64 (- getSExtValue w v - 1 + 1) * -1) = getSExtValue w v := by
        have : - getSExtValue w v - 1 + 1 = - getSExtValue w v := by ring
        rw [this, wrap64_of_fits (- getSExtValue w v), wrap64_of_fits] <;>
          unfold MinSignedConstraintValue MaxConstraintValue at * <;> omega
      simp only [negate, List.map_cons, List.map_nil, e1]
      rfl
    have h1 : O.isConditionImplied [[getSExtValue w v, 1]] [- getSExtValue w v - 1, -1] = false := by
      cases h : O.isConditionImplied [[getSExtValue w v, 1]] [- getSExtValue w v - 1, -1] with
      | false => rfl
      | true =>
        have := hS _ _ h (fun _ => getSExtValue w v)
          (by intro r hr
              simp only [List.mem_singleton] at hr
              subst hr
              simp [rowHolds, dotFrom])
        simp [rowHolds, dotFrom] at this
    have h2 : O.isConditionImplied [[getSExtValue w v, 1]] [getSExtValue w v, 1] = true :=
      hmem _ _ (by simp)
    rw [hneg, h1, h2] at hstep
    rw [hstep]
    simp [foldCompare, hdefs]

theorem dotFrom_all_zero (b : Nat) (cs : List Int) (σ : Nat → Int) (h : ∀ c ∈ cs, c = 0) :
    dotFrom b cs σ = 0 := by
  induction cs generalizing b with
  | nil => rfl
  | cons c cs ih =>
    have hc : c = 0 := h c (by simp)
    have := ih (b + 1) (fun d hd => h d (List.mem_cons_of_mem _ hd))
    simp [dotFrom, hc, this]

theorem syntacticOracle_sound : syntacticOracle.Sound := by
  intro rows R h σ hrows
  simp only [syntacticOracle, Bool.or_eq_true, decide_eq_true_eq, Bool.and_eq_true,
    List.all_eq_true] at h
  rcases h with h | ⟨hz, hc⟩
  · exact hrows R h
  · unfold rowHolds
    rw [dotFrom_all_zero 1 R.tail σ hz]
    cases R with
    | nil => simp
    | cons c cs => simpa using hc

/-- Witness of `else_branch_folded_to_false`: the negated fact `x s<= 0` and the
check `x s>= 1` of the `Else` block of the scenario. -/
theorem else_branch_folded_to_false_witness :
    negate (({} : ConstraintInfo).getConstraint scenario.defs .ICMP_SGE (.ref 0)
        (.constInt 32 1) []).1.Coefficients =
      (({} : ConstraintInfo).getConstraint scenario.defs (Predicate.getInversePredicate .ICMP_SGT)
        (.ref 0) (.constInt 32 0) []).1.Coefficients ∧
    (processInstruction syntacticOracle counterUnset
        { F := scenario,
          Info := (({} : ConstraintInfo).addFact syntacticOracle scenario.defs .ICMP_SLE (.ref 0)
            (.constInt 32 0) true 3 4 []).1 } 5).F.defs =
      replaceAllUsesWith scenario.defs 5 getFalse :=
  have h := else_branch_folded_to_false {} scenario.defs (.ref 0) 32 0 1 []
    (by intro b v h
        have h2 : stripPointerCastsSameRepresentation scenario.defs (.ref 0) = .ref 0 := by decide
        rw [h2] at h; cases h)
    (by decide) (by decide) (by decide)
  ⟨h.1, (h.2 syntacticOracle
    { F := scenario,
      Info := (({} : ConstraintInfo).addFact syntacticOracle scenario.defs .ICMP_SLE (.ref 0)
        (.constInt 32 0) true 3 4 []).1 } 5 3 4 []
    syntacticOracle_sound syntacticOracle_impliesHeldRows rfl rfl rfl (by decide) (by decide)
    rfl rfl).2⟩

/-! ## C8: the flag and the overflow intrinsic -/

/-- C8 fails on the code: on `overflowOnly` the walk rewrites the overflow
intrinsic (its result extraction becomes the new subtraction `%12`, its flag
extraction the constant false, and the intrinsic and both extractions are
deleted), yet `eliminateConstraints` returns false. -/
theorem changed_flag_misses_overflow_rewrite :
    eliminateConstraints syntacticOracle counterUnset overflowOnly scenarioDT =
      (false, overflowOnlyRewritten) ∧
    overflowOnlyRewritten ≠ overflowOnly ∧
    overflowOnly.kind 9 = some (.other true [.ref 7, .ref 8]) ∧
    overflowOnlyRewritten.kind 9 = some (.other true [.ref 12, getFalse]) := by
  decide

/-! ## C9: running the pass twice -/

/-- C9 as stated fails: on the output of a first run on `assumeAfterCompare`, a
second run returns true and changes the function again (the returned value
`%3` becomes the constant true). -/
theorem second_run_changes_again :
    (eliminateConstraints syntacticOracle counterUnset
      (eliminateConstraints syntacticOracle counterUnset assumeAfterCompare oneBlockDT).2
      oneBlockDT).1 = true ∧
    (eliminateConstraints syntacticOracle counterUnset assumeAfterCompare oneBlockDT).2.kind 5 =
      some (.otherTerminator [] [.ref 3]) ∧
    (eliminateConstraints syntacticOracle counterUnset
      (eliminateConstraints syntacticOracle counterUnset assumeAfterCompare oneBlockDT).2
      oneBlockDT).2.kind 5 = some (.otherTerminator [] [getTrue]) := by
  decide

theorem processInstruction_flag (O : Oracle) (g : Nat → Bool) (S : DriverState) (I : Nat)
    (h : S.Changed = true ↔ 0 < S.NumCondsRemoved) :
    (processInstruction O g S I).Changed = true ↔
      0 < (processInstruction O g S I).NumCondsRemoved := by
  unfold processInstruction
  split
  · exact h
  · exact h
  · dsimp only
    split_ifs <;> simp_all
  · exact h

theorem foldl_processInstruction_flag (O : Oracle) (g : Nat → Bool) (insts : List Nat)
    (S : DriverState) (h : S.Changed = true ↔ 0 < S.NumCondsRemoved) :
    (insts.foldl (processInstruction O g) S).Changed = true ↔
      0 < (insts.foldl (processInstruction O g) S).NumCondsRemoved := by
  induction insts generalizing S with
  | nil => exact h
  | cons I rest ih => exact ih _ (processInstruction_flag O g S I h)

theorem processEntry_flag (O : Oracle) (g : Nat → Bool) (S : DriverState)
    (CB : ConstraintOrBlock) (h : S.Changed = true ↔ 0 < S.NumCondsRemoved) :
    (processEntry O g S CB).Changed = true ↔ 0 < (processEntry O g S CB).NumCondsRemoved := by
  unfold processEntry
  dsimp only
  split
  · split
    · exact foldl_processInstruction_flag O g _ _ h
    · exact h
  · unfold processCondition
    dsimp only
    split
    · split
      · exact h
      · exact h
    · exact h

/-- C9 (amended): the flag `eliminateConstraints` returns is true exactly when
its walk decided at least one comparison (the count `NumCondsRemoved` is
positive), whether or not any use was rewritten.  A second run on the output
of a first one therefore returns false only if its own walk decides no
comparison; it can decide again the comparisons the first run folded, which
stay in their blocks. -/
theorem changed_iff_condition_decided (O : Oracle) (g : Nat → Bool) (F : Function)
    (DT : DominatorTree) :
    (eliminateConstraints O g F DT).1 = true ↔
      0 < (runWorkList O g { F := F } (stableSort (collectWorkList F DT))).NumCondsRemoved := by
  have key : ∀ (WL : List ConstraintOrBlock) (S : DriverState),
      (S.Changed = true ↔ 0 < S.NumCondsRemoved) →
      ((runWorkList O g S WL).Changed = true ↔ 0 < (runWorkList O g S WL).NumCondsRemoved) := by
    intro WL
    induction WL with
    | nil => intro S h; exact h
    | cons CB rest ih =>
      intro S h
      exact ih _ (processEntry_flag O g S CB h)
  exact key _ { F := F } (by simp)

/-! ## C2: the scope stack mirrors dominance -/

theorem addFact_stack (O : Oracle) (Info : ConstraintInfo) (defs : Defs) (P : Predicate)
    (A B : Value) (neg : Bool) (i o : Nat) (st : List StackEntry) :
    ∃ new, (Info.addFact O defs P A B neg i o st).2 = new ++ st ∧
      ∀ E ∈ new, E.NumIn = i ∧ E.NumOut = o := by
  unfold ConstraintInfo.addFact
  dsimp only
  split_ifs
  · exact ⟨[], rfl, by simp⟩
  · exact ⟨[], rfl, by simp⟩
  · exact ⟨[_, _], rfl, by simp⟩
  · exact ⟨[_], rfl, by simp⟩
  · exact ⟨[], rfl, by simp⟩

theorem transfer_stack (O : Oracle) (Info : ConstraintInfo) (defs : Defs) (P : Predicate)
    (A B : Value) (neg : Bool) (i o : Nat) (st : List StackEntry) :
    ∃ new, (Info.transferToOtherSystem O defs P A B neg i o st).2 = new ++ st ∧
      ∀ E ∈ new, E.NumIn = i ∧ E.NumOut = o := by
  unfold ConstraintInfo.transferToOtherSystem
  split
  · exact ⟨[], rfl, by simp⟩
  · split
    · split
      · exact addFact_stack ..
      · exact ⟨[], rfl, by simp⟩
    · split
      · exact addFact_stack ..
      · exact ⟨[], rfl, by simp⟩
    · split
      · exact addFact_stack ..
      · exact ⟨[], rfl, by simp⟩
    · exact ⟨[], rfl, by simp⟩

theorem processInstruction_stack (O : Oracle) (g : Nat → Bool) (S : DriverState) (I : Nat) :
    (processInstruction O g S I).DFSInStack = S.DFSInStack := by
  unfold processInstruction
  split
  · rfl
  · rfl
  · dsimp only
    split_ifs <;> rfl
  · rfl

theorem foldl_processInstruction_stack (O : Oracle) (g : Nat → Bool) (insts : List Nat)
    (S : DriverState) :
    (insts.foldl (processInstruction O g) S).DFSInStack = S.DFSInStack := by
  induction insts generalizing S with
  | nil => rfl
  | cons I rest ih => simp only [List.foldl, ih, processInstruction_stack]

theorem processCondition_stack (O : Oracle) (S : DriverState) (CB : ConstraintOrBlock) :
    ∃ new, (processCondition O S CB).DFSInStack = new ++ S.DFSInStack ∧
      ∀ E ∈ new, E.NumIn = CB.NumIn ∧ E.NumOut = CB.NumOut := by
  unfold processCondition
  split
  · dsimp only
    generalize (if CB.Not = true then _ else S.F.defs) = d
    split
    · rename_i Pred A B _
      obtain ⟨n1, h1, hn1⟩ :=
        addFact_stack O S.Info d Pred A B CB.Not CB.NumIn CB.NumOut S.DFSInStack
      obtain ⟨n2, h2, hn2⟩ := transfer_stack O
        (S.Info.addFact O d Pred A B CB.Not CB.NumIn CB.NumOut S.DFSInStack).1 d Pred A B
        CB.Not CB.NumIn CB.NumOut
        (S.Info.addFact O d Pred A B CB.Not CB.NumIn CB.NumOut S.DFSInStack).2
      refine ⟨n2 ++ n1, ?_, ?_⟩
      · dsimp only
        rw [h2, h1, List.append_assoc]
      · intro E hE
        rcases List.mem_append.1 hE with h | h
        · exact hn2 E h
        · exact hn1 E h
    · exact ⟨[], rfl, by simp⟩
  · exact ⟨[], rfl, by simp⟩

/-- The stack after an entry is the stack after the pop loop with the frames
the entry pushed on top; these carry the interval of the entry, and a block
marker pushes none. -/
theorem processEntry_stack (O : Oracle) (g : Nat → Bool) (S : DriverState)
    (CB : ConstraintOrBlock) :
    ∃ new, (processEntry O g S CB).DFSInStack =
        new ++ (popOutOfScope CB.NumOut S.Info S.DFSInStack).2 ∧
      (∀ E ∈ new, E.NumIn = CB.NumIn ∧ E.NumOut = CB.NumOut) ∧
      (CB.IsBlock = true → new = []) := by
  unfold processEntry
  dsimp only
  split
  · split
    · exact ⟨[], by simp [foldl_processInstruction_stack], by simp, fun _ => rfl⟩
    · exact ⟨[], rfl, by simp, fun _ => rfl⟩
  · rename_i hb
    obtain ⟨new, h1, h2⟩ := processCondition_stack O
      { S with Info := (popOutOfScope CB.NumOut S.Info S.DFSInStack).1,
               DFSInStack := (popOutOfScope CB.NumOut S.Info S.DFSInStack).2 } CB
    exact ⟨new, h1, h2, fun h => absurd h hb⟩

theorem runWorkList_append (O : Oracle) (g : Nat → Bool) (S : DriverState)
    (pre : List ConstraintOrBlock) (P : ConstraintOrBlock) :
    runWorkList O g S (pre ++ [P]) = processEntry O g (runWorkList O g S pre) P := by
  simp [runWorkList, List.foldl_append]

/-- The tail of `getConstraint` in closed form, for the predicates it accepts
after normalisation. -/
theorem getConstraint_le_closed (Info : ConstraintInfo) (defs : Defs) (sgn strict : Bool)
    (A B : Value) (a0 b0 : Int) (oa ob : Option Value) (VA VB : Decomposition)
    (PA PB : List PreconditionTy) (NI : DenseMap)
    (hA : decompose defs (stripPointerCastsSameRepresentation defs A) sgn = ((a0, oa) :: VA, PA))
    (hB : decompose defs (stripPointerCastsSameRepresentation defs B) sgn = ((b0, ob) :: VB, PB)) :
    Info.getConstraint defs
        (if sgn then (if strict then .ICMP_SLT else .ICMP_SLE)
         else (if strict then .ICMP_ULT else .ICMP_ULE)) A B NI =
      leRow Info sgn strict false a0 b0 VA VB (PA ++ PB) NI := by
  cases sgn <;> cases strict <;>
    simp only [ConstraintInfo.getConstraint, normalizePredicate, Predicate.isSigned, hA, hB,
      leRow, Bool.false_eq_true, ↓reduceIte, ne_eq, reduceCtorEq, not_false_eq_true,
      not_true_eq_false, and_false, and_true, false_and, decide_True, decide_False,
      Bool.false_and, Bool.true_and]

theorem getConstraint_eq_closed (Info : ConstraintInfo) (defs : Defs)
    (A B : Value) (a0 b0 : Int) (oa ob : Option Value) (VA VB : Decomposition)
    (PA PB : List PreconditionTy) (NI : DenseMap)
    (hA : decompose defs (stripPointerCastsSameRepresentation defs A) false =
      ((a0, oa) :: VA, PA))
    (hB : decompose defs (stripPointerCastsSameRepresentation defs B) false =
      ((b0, ob) :: VB, PB)) :
    Info.getConstraint defs .ICMP_EQ A B NI =
      leRow Info false false (!isZero B) a0 b0 VA VB (PA ++ PB) NI := by
  cases hz : isZero B <;>
    simp only [ConstraintInfo.getConstraint, normalizePredicate, Predicate.isSigned, hA, hB,
      leRow, Bool.false_eq_true, ↓reduceIte, ne_eq, reduceCtorEq, not_false_eq_true,
      not_true_eq_false, and_false, and_true, false_and, decide_True, decide_False,
      Bool.false_and, Bool.true_and, hz, Bool.not_true, Bool.not_false]

theorem getConstraint_uge_swap (Info : ConstraintInfo) (defs : Defs) (a b : Value)
    (NI : DenseMap) :
    Info.getConstraint defs .ICMP_UGE a b NI = Info.getConstraint defs .ICMP_ULE b a NI := by
  simp [ConstraintInfo.getConstraint, normalizePredicate, Predicate.getSwappedPredicate]

/-- For a predicate `getConstraint` accepts, an empty decomposition gives the
empty row. -/
theorem getConstraint_eq_nonempty (Info : ConstraintInfo) (defs : Defs) (A B : Value)
    (NI : DenseMap)
    (h : (Info.getConstraint defs .ICMP_EQ A B NI).1.Coefficients ≠ []) :
    ∃ a0 oa VA PA b0 ob VB PB,
      decompose defs (stripPointerCastsSameRepresentation defs A) false = ((a0, oa) :: VA, PA) ∧
      decompose defs (stripPointerCastsSameRepresentation defs B) false = ((b0, ob) :: VB, PB) := by
  rcases hA : decompose defs (stripPointerCastsSameRepresentation defs A) false with ⟨_ | ⟨⟨a0, oa⟩, VA⟩, PA⟩
  · exfalso; apply h
    cases hz : isZero B <;>
      simp [ConstraintInfo.getConstraint, normalizePredicate, Predicate.isSigned, hA, hz]
  · rcases hB : decompose defs (stripPointerCastsSameRepresentation defs B) false with ⟨_ | ⟨⟨b0, ob⟩, VB⟩, PB⟩
    · exfalso; apply h
      cases hz : isZero B <;>
        simp [ConstraintInfo.getConstraint, normalizePredicate, Predicate.isSigned, hA, hB, hz]
    · exact ⟨a0, oa, VA, PA, b0, ob, VB, PB, rfl, rfl⟩

theorem find_eq_none_iff (T : DenseMap) (v : Value) :
    T.find v = none ↔ v ∉ T.map (·.1) := by
  induction T with
  | nil => simp [DenseMap.find]
  | cons p rest ih =>
    obtain ⟨k, j⟩ := p
    by_cases hk : k = v
    · simp [DenseMap.find, hk]
    · simp only [DenseMap.find, hk, ↓reduceIte, ih, List.map_cons, List.mem_cons, not_or]
      constructor
      · intro h; exact ⟨fun h2 => hk h2.symm, h⟩
      · intro h; exact h.2

theorem getOrAddIndex_fresh (T NI : DenseMap) (v : Value) (h : NewIndicesFresh T NI) :
    NewIndicesFresh T (GetOrAddIndex T NI v).2 := by
  unfold GetOrAddIndex
  cases hT : T.find v with
  | some i => simpa using h
  | none =>
    cases hN : NI.find v with
    | some i => simpa using h
    | none =>
      constructor
      · intro kv hkv
        simp only [List.mem_append, List.mem_singleton] at hkv
        rcases hkv with hkv | hkv
        · exact h.1 kv hkv
        · subst hkv; exact hT
      · simp only [List.map_append, List.map_cons, List.map_nil]
        rw [List.nodup_append]
        refine ⟨h.2, by simp, ?_⟩
        intro a ha hb
        simp only [List.mem_singleton] at hb
        subst hb
        exact (find_eq_none_iff NI a).1 hN ha

theorem addIndices_fresh (T : DenseMap) (V : Decomposition) (NI : DenseMap)
    (h : NewIndicesFresh T NI) : NewIndicesFresh T (addIndices T V NI) := by
  induction V generalizing NI with
  | nil => simpa [addIndices] using h
  | cons p rest ih =>
    obtain ⟨c, v⟩ := p
    cases v with
    | none => simpa [addIndices] using ih NI h
    | some v => simpa [addIndices] using ih _ (getOrAddIndex_fresh T NI v h)

theorem insertAll_fresh (T NI : DenseMap) (h : NewIndicesFresh T NI) :
    insertAll T NI = T ++ NI := by
  induction NI generalizing T with
  | nil => simp [insertAll]
  | cons p rest ih =>
    obtain ⟨v, i⟩ := p
    have hv : T.find v = none := h.1 (v, i) (by simp)
    have hnd := h.2
    simp only [List.map_cons, List.nodup_cons] at hnd
    simp only [insertAll, DenseMap.insert, hv]
    rw [ih]
    · simp
    · constructor
      · intro kv hkv
        rw [find_append, h.1 kv (List.mem_cons_of_mem _ hkv)]
        have hne : v ≠ kv.1 := by
          intro heq
          apply hnd.1
          rw [heq]
          exact List.mem_map_of_mem _ hkv
        simp [DenseMap.find, hne]
      · exact hnd.2

/-- Once the new indices of a decomposition are committed to the atom table,
every variable of it has its old index in the table and no new index is asked
for. -/
theorem committed_indices (T : DenseMap) (V : Decomposition) :
    (∀ v, (∃ c, (c, some v) ∈ V) →
      (GetOrAddIndex (insertAll T (addIndices T V [])) [] v).1 =
        (GetOrAddIndex T (addIndices T V []) v).1 ∧
      (insertAll T (addIndices T V [])).find v ≠ none) ∧
    (insertAll T (addIndices T V [])).length = T.length + (addIndices T V []).length := by
  have hfresh : NewIndicesFresh T (addIndices T V []) :=
    addIndices_fresh T V [] ⟨by simp, by simp⟩
  rw [insertAll_fresh T _ hfresh]
  refine ⟨?_, by simp⟩
  intro v hv
  have hk := addIndices_known T V [] v (Or.inr hv)
  cases hT : T.find v with
  | some i => simp [GetOrAddIndex, find_append, hT]
  | none =>
    have hN : (addIndices T V []).find v ≠ none := by simpa [hT] using hk
    obtain ⟨j, hj⟩ := Option.ne_none_iff_exists'.1 hN
    simp [GetOrAddIndex, find_append, hT, hj]

theorem addIndices_all_known (T : DenseMap) (V : Decomposition) (NI : DenseMap)
    (h : ∀ v, (∃ c, (c, some v) ∈ V) → T.find v ≠ none) : addIndices T V NI = NI := by
  induction V generalizing NI with
  | nil => rfl
  | cons p rest ih =>
    obtain ⟨c, v⟩ := p
    cases v with
    | none =>
      simp only [addIndices]
      exact ih NI (fun w ⟨k, hk⟩ => h w ⟨k, List.mem_cons_of_mem _ hk⟩)
    | some v =>
      simp only [addIndices]
      rw [getOrAddIndex_known T NI v (Or.inl (h v ⟨c, by simp⟩))]
      exact ih NI (fun w ⟨k, hk⟩ => h w ⟨k, List.mem_cons_of_mem _ hk⟩)

theorem addCoefficients_congr (T NI T2 NI2 : DenseMap) (s : Int) (V : Decomposition)
    (R : List Int)
    (h : ∀ v, (∃ c, (c, some v) ∈ V) → (GetOrAddIndex T2 NI2 v).1 = (GetOrAddIndex T NI v).1) :
    addCoefficients T2 NI2 s V R = addCoefficients T NI s V R := by
  induction V generalizing R with
  | nil => rfl
  | cons p rest ih =>
    obtain ⟨c, v⟩ := p
    cases v with
    | none =>
      simp only [addCoefficients]
      exact ih R (fun w ⟨k, hk⟩ => h w ⟨k, List.mem_cons_of_mem _ hk⟩)
    | some v =>
      simp only [addCoefficients]
      rw [h v ⟨c, by simp⟩]
      exact ih _ (fun w ⟨k, hk⟩ => h w ⟨k, List.mem_cons_of_mem _ hk⟩)

/-- What `addFact` does with an equality row without preconditions, when the
engine takes the row and its inverse. -/
theorem addFact_of_eq_row (O : Oracle) (Info : ConstraintInfo) (defs : Defs) (P : Predicate)
    (A B : Value) (IsNegated : Bool) (NumIn NumOut : Nat) (st : List StackEntry)
    (R : ConstraintTy) (NI : DenseMap)
    (hr : Info.getConstraint defs P A B [] = (R, NI))
    (hne : R.Coefficients ≠ []) (hp : R.Preconditions = []) (heq : R.IsEq = true)
    (hadds : O.addsRow (Info.getCS R.IsSigned) R.Coefficients = true)
    (hadds2 : O.addsRow
      ((Info.getCS R.IsSigned).map
          (fun row => row ++ List.replicate (R.Coefficients.length - row.length) 0) ++
        [R.Coefficients])
      (R.Coefficients.map (fun c => wrap64 (c * -1))) = true) :
    Info.addFact O defs P A B IsNegated NumIn NumOut st =
      ((Info.setCS R.IsSigned
          (((Info.getCS R.IsSigned).map
              (fun row => row ++ List.replicate (R.Coefficients.length - row.length) 0) ++
            [R.Coefficients]).map
              (fun row => row ++ List.replicate
                ((R.Coefficients.map (fun c => wrap64 (c * -1))).length - row.length) 0) ++
            [R.Coefficients.map (fun c => wrap64 (c * -1))])).setValue2Index R.IsSigned
          (insertAll (Info.getValue2Index R.IsSigned) NI),
        ⟨NumIn, NumOut, IsNegated, R.IsSigned, []⟩ ::
          ⟨NumIn, NumOut, IsNegated, R.IsSigned, NI.map (·.1)⟩ :: st) := by
  obtain ⟨Co, Pre, Sg, Eqf⟩ := R
  simp only at hne hp heq hadds hadds2
  subst hp heq
  have hvalid : ConstraintTy.isValid O ⟨Co, [], Sg, true⟩ Info defs = true := by
    simp [ConstraintTy.isValid, List.length_pos.2 hne]
  cases Sg
  · simp only [ConstraintInfo.getCS, Bool.false_eq_true, ↓reduceIte] at hadds hadds2
    simp only [ConstraintInfo.addFact, hr, hvalid, Bool.not_true, Bool.false_eq_true, ↓reduceIte,
      List.isEmpty_eq_true, hne, addVariableRowFill, hadds, ConstraintInfo.getCS,
      ConstraintInfo.setCS, ConstraintInfo.setValue2Index, ConstraintInfo.getValue2Index, hadds2]
  · simp only [ConstraintInfo.getCS, ↓reduceIte] at hadds hadds2
    simp only [ConstraintInfo.addFact, hr, hvalid, Bool.not_true, Bool.false_eq_true, ↓reduceIte,
      List.isEmpty_eq_true, hne, addVariableRowFill, hadds, ConstraintInfo.getCS,
      ConstraintInfo.setCS, ConstraintInfo.setValue2Index, ConstraintInfo.getValue2Index, hadds2]

/-- The inverse row of an equality is built without an overflow test.  For
`a = add nuw i64 %x, 9223372036854775806` and `b = sub nuw i64 %y, 2`, and
every engine that takes the two rows, `addFact(EQ, a, b)` on the empty store
pushes two frames and two rows; the first is the row of `a u<= b`, but the
second, obtained by multiplying the coefficients by -1 in 64 bits, keeps the
constant term `-2^63`: it is not the row of `a u>= b` (which `getConstraint`
refuses, the offset sum overflowing) and it is false in the execution
`%x = 0`, `%y = 2^63`, in which `a` and `b` are equal and not poison.  The two
rows together imply the row of `%y u< %x`, which is false in that execution. -/
theorem equality_inverse_row_overflows (O : Oracle)
    (h1 : O.addsRow [] [-9223372036854775808, 1, -1] = true)
    (h2 : O.addsRow [[-9223372036854775808, 1, -1]] [-9223372036854775808, -1, 1] = true) :
    (({} : ConstraintInfo).addFact O minOffsets .ICMP_EQ (.ref 2) (.ref 3) false 0 1 []).1.UnsignedCS =
      [[-9223372036854775808, 1, -1], [-9223372036854775808, -1, 1]] ∧
    (({} : ConstraintInfo).addFact O minOffsets .ICMP_EQ (.ref 2) (.ref 3) false 0 1 []).2.length = 2 ∧
    ((({} : ConstraintInfo).addFact O minOffsets .ICMP_EQ (.ref 2) (.ref 3) false 0 1 []).1.getConstraint
      minOffsets .ICMP_ULE (.ref 2) (.ref 3) []).1.Coefficients = [-9223372036854775808, 1, -1] ∧
    ((({} : ConstraintInfo).addFact O minOffsets .ICMP_EQ (.ref 2) (.ref 3) false 0 1 []).1.getConstraint
      minOffsets .ICMP_UGE (.ref 2) (.ref 3) []).1.Coefficients = [] ∧
    evalInt minOffsets minOffsetsRun 2 (.ref 2) = some 9223372036854775806 ∧
    evalInt minOffsets minOffsetsRun 2 (.ref 3) = some 9223372036854775806 ∧
    rowHolds [-9223372036854775808, 1, -1] minOffsetsPoint ∧
    ¬ rowHolds [-9223372036854775808, -1, 1] minOffsetsPoint ∧
    ((({} : ConstraintInfo).addFact O minOffsets .ICMP_EQ (.ref 2) (.ref 3) false 0 1 []).1.getConstraint
      minOffsets .ICMP_ULT (.ref 1) (.ref 0) []).1.Coefficients = [-1, -1, 1] ∧
    RowsImply
      (({} : ConstraintInfo).addFact O minOffsets .ICMP_EQ (.ref 2) (.ref 3) false 0 1 []).1.UnsignedCS
      [-1, -1, 1] ∧
    evalPredicate .ICMP_ULT 64 (minOffsetsRun 1) (minOffsetsRun 0) = some false := by
  have hr : ({} : ConstraintInfo).getConstraint minOffsets .ICMP_EQ (.ref 2) (.ref 3) [] =
      (⟨[-9223372036854775808, 1, -1], [], false, true⟩, [(.ref 0, 1), (.ref 1, 2)]) := by
    decide
  have hpost : ({} : ConstraintInfo).addFact O minOffsets .ICMP_EQ (.ref 2) (.ref 3) false 0 1 [] =
      ({ UnsignedValue2Index := [(.ref 0, 1), (.ref 1, 2)],
         UnsignedCS := [[-9223372036854775808, 1, -1], [-9223372036854775808, -1, 1]] },
       [⟨0, 1, false, false, []⟩, ⟨0, 1, false, false, [.ref 0, .ref 1]⟩]) := by
    rw [addFact_of_eq_row O {} minOffsets .ICMP_EQ (.ref 2) (.ref 3) false 0 1 [] _ _ hr
      (by decide) rfl rfl h1 h2]
    decide
  rw [hpost]
  refine ⟨rfl, rfl, by decide, by decide, by decide, by decide, by unfold rowHolds; decide,
    by unfold rowHolds; decide, by decide, ?_, by decide⟩
  intro σ hσ
  have ha := hσ [-9223372036854775808, 1, -1] (by simp)
  have hb := hσ [-9223372036854775808, -1, 1] (by simp)
  simp only [rowHolds, dotFrom, List.tail_cons, List.headD_cons] at ha hb ⊢
  omega

/-- The theorem `equality_inverse_row_overflows` for the engine `syntacticOracle`. -/
theorem equality_inverse_row_overflows_witness :
    (({} : ConstraintInfo).addFact syntacticOracle minOffsets .ICMP_EQ (.ref 2) (.ref 3) false 0 1 []).1.UnsignedCS =
      [[-9223372036854775808, 1, -1], [-9223372036854775808, -1, 1]] ∧
    (({} : ConstraintInfo).addFact syntacticOracle minOffsets .ICMP_EQ (.ref 2) (.ref 3) false 0 1 []).2.length = 2 ∧
    ((({} : ConstraintInfo).addFact syntacticOracle minOffsets .ICMP_EQ (.ref 2) (.ref 3) false 0 1 []).1.getConstraint
      minOffsets .ICMP_ULE (.ref 2) (.ref 3) []).1.Coefficients = [-9223372036854775808, 1, -1] ∧
    ((({} : ConstraintInfo).addFact syntacticOracle minOffsets .ICMP_EQ (.ref 2) (.ref 3) false 0 1 []).1.getConstraint
      minOffsets .ICMP_UGE (.ref 2) (.ref 3) []).1.Coefficients = [] ∧
    evalInt minOffsets minOffsetsRun 2 (.ref 2) = some 9223372036854775806 ∧
    evalInt minOffsets minOffsetsRun 2 (.ref 3) = some 9223372036854775806 ∧
    rowHolds [-9223372036854775808, 1, -1] minOffsetsPoint ∧
    ¬ rowHolds [-9223372036854775808, -1, 1] minOffsetsPoint ∧
    ((({} : ConstraintInfo).addFact syntacticOracle minOffsets .ICMP_EQ (.ref 2) (.ref 3) false 0 1 []).1.getConstraint
      minOffsets .ICMP_ULT (.ref 1) (.ref 0) []).1.Coefficients = [-1, -1, 1] ∧
    RowsImply
      (({} : ConstraintInfo).addFact syntacticOracle minOffsets .ICMP_EQ (.ref 2) (.ref 3) false 0 1 []).1.UnsignedCS
      [-1, -1, 1] ∧
    evalPredicate .ICMP_ULT 64 (minOffsetsRun 1) (minOffsetsRun 0) = some false :=
  equality_inverse_row_overflows syntacticOracle (by decide) (by decide)

theorem updateAt_comm (R : List Int) (i j : Nat) (f g : Int → Int)
    (hfg : ∀ x, f (g x) = g (f x)) :
    updateAt (updateAt R i g) j f = updateAt (updateAt R j f) i g := by
  induction R generalizing i j with
  | nil => cases i <;> cases j <;> rfl
  | cons x xs ih =>
    cases i <;> cases j <;> simp [updateAt, hfg, ih]

theorem wrap64_add_comm (a b x : Int) :
    wrap64 (wrap64 (x + a) + b) = wrap64 (wrap64 (x + b) + a) := by
  unfold wrap64
  omega

theorem addCoefficients_updateAt (T NI : DenseMap) (s : Int) (V : Decomposition) (R : List Int)
    (i : Nat) (a : Int) :
    addCoefficients T NI s V (updateAt R i (fun x => wrap64 (x + a))) =
      updateAt (addCoefficients T NI s V R) i (fun x => wrap64 (x + a)) := by
  induction V generalizing R with
  | nil => rfl
  | cons p rest ih =>
    obtain ⟨c, v⟩ := p
    cases v with
    | none => simp only [addCoefficients]; exact ih R
    | some v =>
      simp only [addCoefficients]
      rw [updateAt_comm R i _ (fun x => wrap64 (x + s * c)) (fun x => wrap64 (x + a))
        (fun x => wrap64_add_comm a (s * c) x)]
      exact ih _

theorem addCoefficients_comm (T NI : DenseMap) (s t : Int) (V W : Decomposition) (R : List Int) :
    addCoefficients T NI s V (addCoefficients T NI t W R) =
      addCoefficients T NI t W (addCoefficients T NI s V R) := by
  induction W generalizing R with
  | nil => rfl
  | cons p rest ih =>
    obtain ⟨c, v⟩ := p
    cases v with
    | none => simp only [addCoefficients]; exact ih R
    | some v =>
      simp only [addCoefficients]
      rw [ih, addCoefficients_updateAt]

theorem wrap64_neg_add (x c : Int) :
    wrap64 (wrap64 (x + 1 * c) * -1) = wrap64 (wrap64 (x * -1) + -1 * c) := by
  unfold wrap64
  omega

theorem wrap64_neg_sub (x c : Int) :
    wrap64 (wrap64 (x + -1 * c) * -1) = wrap64 (wrap64 (x * -1) + 1 * c) := by
  unfold wrap64
  omega

theorem map_neg_addCoefficients_pos (T NI : DenseMap) (V : Decomposition) (R : List Int) :
    (addCoefficients T NI 1 V R).map (fun c => wrap64 (c * -1)) =
      addCoefficients T NI (-1) V (R.map (fun c => wrap64 (c * -1))) := by
  induction V generalizing R with
  | nil => rfl
  | cons p rest ih =>
    obtain ⟨c, v⟩ := p
    cases v with
    | none => simp only [addCoefficients]; exact ih R
    | some v =>
      simp only [addCoefficients]
      rw [ih, map_updateAt (fun c => wrap64 (c * -1)) _ (fun x => wrap64 (x + -1 * c))
        (fun x => wrap64_neg_add x c)]

theorem map_neg_addCoefficients_neg (T NI : DenseMap) (V : Decomposition) (R : List Int) :
    (addCoefficients T NI (-1) V R).map (fun c => wrap64 (c * -1)) =
      addCoefficients T NI 1 V (R.map (fun c => wrap64 (c * -1))) := by
  induction V generalizing R with
  | nil => rfl
  | cons p rest ih =>
    obtain ⟨c, v⟩ := p
    cases v with
    | none => simp only [addCoefficients]; exact ih R
    | some v =>
      simp only [addCoefficients]
      rw [ih, map_updateAt (fun c => wrap64 (c * -1)) _ (fun x => wrap64 (x + 1 * c))
        (fun x => wrap64_neg_sub x c)]

theorem wrap64_range (x : Int) :
    MinSignedConstraintValue ≤ wrap64 x ∧ wrap64 x ≤ MaxConstraintValue := by
  unfold wrap64 MinSignedConstraintValue MaxConstraintValue
  omega

theorem mem_updateAt (R : List Int) (i : Nat) (f : Int → Int) (c : Int)
    (h : c ∈ updateAt R i f) : c ∈ R ∨ ∃ x, c = f x := by
  induction R generalizing i with
  | nil => cases i <;> simp [updateAt] at h
  | cons x xs ih =>
    cases i with
    | zero =>
      simp only [updateAt, List.mem_cons] at h
      rcases h with h | h
      · exact Or.inr ⟨x, h⟩
      · exact Or.inl (List.mem_cons_of_mem _ h)
    | succ i =>
      simp only [updateAt, List.mem_cons] at h
      rcases h with h | h
      · exact Or.inl (by simp [h])
      · rcases ih i h with h2 | h2
        · exact Or.inl (List.mem_cons_of_mem _ h2)
        · exact Or.inr h2

theorem mem_addCoefficients (T NI : DenseMap) (s : Int) (V : Decomposition) (R : List Int)
    (c : Int) (h : c ∈ addCoefficients T NI s V R) : c ∈ R ∨ ∃ x, c = wrap64 x := by
  induction V generalizing R with
  | nil => exact Or.inl h
  | cons p rest ih =>
    obtain ⟨k, v⟩ := p
    cases v with
    | none => exact ih R h
    | some v =>
      simp only [addCoefficients] at h
      rcases ih _ h with h2 | h2
      · rcases mem_updateAt _ _ _ _ h2 with h3 | ⟨x, h3⟩
        · exact Or.inl h3
        · exact Or.inr ⟨_, h3⟩
      · exact Or.inr h2

theorem dotFrom_map_neg (i : Nat) (t : List Int) (σ : Nat → Int)
    (h : ∀ c ∈ t, wrap64 (c * -1) = -c) :
    dotFrom i (t.map (fun c => wrap64 (c * -1))) σ = - dotFrom i t σ := by
  induction t generalizing i with
  | nil => simp [dotFrom]
  | cons c cs ih =>
    simp only [List.map_cons, dotFrom]
    rw [h c (by simp), ih (i + 1) (fun d hd => h d (List.mem_cons_of_mem _ hd))]
    ring

theorem wrap64_neg_of_range (c : Int) (h1 : MinSignedConstraintValue < c)
    (h2 : c ≤ MaxConstraintValue) : wrap64 (c * -1) = -c := by
  unfold wrap64 MinSignedConstraintValue MaxConstraintValue at *
  omega

/-- The rows `k :: t`, its inverse and `(k - 1) :: t`: the third is implied by
the first two exactly when these have no common solution. -/
theorem strict_row_not_implied (k : Int) (t : List Int)
    (h : ∀ c ∈ k :: t, wrap64 (c * -1) = -c) :
    ¬ RowsImply [k :: t, (k :: t).map (fun c => wrap64 (c * -1))] ((k - 1) :: t) ↔
      ∃ σ : Nat → Int, rowHolds (k :: t) σ ∧
        rowHolds ((k :: t).map (fun c => wrap64 (c * -1))) σ := by
  have hk : wrap64 (k * -1) = -k := h k (by simp)
  have ht : ∀ σ, dotFrom 1 (t.map (fun c => wrap64 (c * -1))) σ = - dotFrom 1 t σ :=
    fun σ => dotFrom_map_neg 1 t σ (fun c hc => h c (List.mem_cons_of_mem _ hc))
  constructor
  · intro hn
    unfold RowsImply at hn
    push_neg at hn
    obtain ⟨σ, hσ, _⟩ := hn
    exact ⟨σ, hσ _ (by simp), hσ _ (by simp)⟩
  · rintro ⟨σ, h1, h2⟩ hi
    have h3 := hi σ (by
      intro r hr
      simp only [List.mem_cons, List.mem_singleton, List.not_mem_nil, or_false] at hr
      rcases hr with rfl | rfl
      · exact h1
      · exact h2)
    simp only [rowHolds, List.map_cons, List.tail_cons, List.headD_cons, hk, ht] at h1 h2 h3
    omega

/-- A row of `getConstraint` against the atom table to which the new indices of
a decomposition `V` were committed, for operands whose variables are among
those of `V`: no new index, and the coefficients are those computed with the
old table and the new indices. -/
theorem leRow_after_commit (Info2 : ConstraintInfo) (T : DenseMap) (sgn strict IsEq : Bool)
    (x0 y0 : Int) (V VX VY : Decomposition) (Pre : List PreconditionTy)
    (hT2 : Info2.getValue2Index sgn = insertAll T (addIndices T V []))
    (hsub : ∀ w, (∃ c, (c, some w) ∈ VX ++ VY) → ∃ c, (c, some w) ∈ V) :
    leRow Info2 sgn strict IsEq x0 y0 VX VY Pre [] =
      (if (AddOverflow (wrap64 (x0 * -1)) y0).1 then {}
       else if strict && (AddOverflow (AddOverflow (wrap64 (x0 * -1)) y0).2 (-1)).1 then {}
       else
        { Coefficients :=
            updateAt
              (addCoefficients T (addIndices T V []) (-1) VY
                (addCoefficients T (addIndices T V []) 1 VX
                  (List.replicate (T.length + (addIndices T V []).length + 1) 0)))
              0 (fun _ => if strict then (AddOverflow (AddOverflow (wrap64 (x0 * -1)) y0).2 (-1)).2
                          else (AddOverflow (wrap64 (x0 * -1)) y0).2),
          Preconditions := Pre, IsSigned := sgn, IsEq := IsEq }, []) := by
  have hci := committed_indices T V
  have hknown : ∀ w, (∃ c, (c, some w) ∈ VX ++ VY) →
      (insertAll T (addIndices T V [])).find w ≠ none :=
    fun w hw => (hci.1 w (hsub w hw)).2
  have hNI : addIndices (insertAll T (addIndices T V [])) (VX ++ VY) [] = [] :=
    addIndices_all_known _ _ [] hknown
  have hX : ∀ R, addCoefficients (insertAll T (addIndices T V [])) [] 1 VX R =
      addCoefficients T (addIndices T V []) 1 VX R := fun R =>
    addCoefficients_congr _ _ _ _ _ _ R
      (fun w ⟨c, hc⟩ => (hci.1 w (hsub w ⟨c, List.mem_append_left _ hc⟩)).1)
  have hY : ∀ R, addCoefficients (insertAll T (addIndices T V [])) [] (-1) VY R =
      addCoefficients T (addIndices T V []) (-1) VY R := fun R =>
    addCoefficients_congr _ _ _ _ _ _ R
      (fun w ⟨c, hc⟩ => (hci.1 w (hsub w ⟨c, List.mem_append_right _ hc⟩)).1)
  unfold leRow
  rw [hT2, hNI]
  split
  · rfl
  · split
    · rfl
    · simp only [hX, hY, hci.2, List.length_nil, Nat.add_zero]

theorem wrap64_neg_offsets (a0 b0 : Int) :
    wrap64 (wrap64 (wrap64 (a0 * -1) + b0) * -1) = wrap64 (wrap64 (b0 * -1) + a0) := by
  unfold wrap64
  omega

/-- The store after `addFact` took an equality row. -/
theorem addFact_eq_store (O : Oracle) (Info : ConstraintInfo) (defs : Defs) (P : Predicate)
    (A B : Value) (IsNegated : Bool) (NumIn NumOut : Nat) (st : List StackEntry)
    (R : ConstraintTy) (NI : DenseMap)
    (hr : Info.getConstraint defs P A B [] = (R, NI))
    (hvalid : R.isValid O Info defs = true) (heq : R.IsEq = true)
    (hadds : O.addsRow (Info.getCS R.IsSigned) R.Coefficients = true) :
    (Info.addFact O defs P A B IsNegated NumIn NumOut st).1 =
      (Info.setCS R.IsSigned
          (addVariableRowFill O
            ((Info.getCS R.IsSigned).map
                (fun row => row ++ List.replicate (R.Coefficients.length - row.length) 0) ++
              [R.Coefficients])
            (R.Coefficients.map (fun c => wrap64 (c * -1)))).2).setValue2Index R.IsSigned
        (insertAll (Info.getValue2Index R.IsSigned) NI) := by
  have hne : R.Coefficients ≠ [] := by
    intro h
    simp [ConstraintTy.isValid, h] at hvalid
  obtain ⟨Co, Pre, Sg, Eqf⟩ := R
  simp only at hne heq hadds
  subst heq
  cases Sg
  · simp only [ConstraintInfo.getCS, Bool.false_eq_true, ↓reduceIte] at hadds
    simp only [ConstraintInfo.addFact, hr, hvalid, Bool.not_true, Bool.false_eq_true, ↓reduceIte,
      List.isEmpty_eq_true, hne, addVariableRowFill, hadds, ConstraintInfo.getCS,
      ConstraintInfo.setCS, ConstraintInfo.setValue2Index, ConstraintInfo.getValue2Index]
  · simp only [ConstraintInfo.getCS, ↓reduceIte] at hadds
    simp only [ConstraintInfo.addFact, hr, hvalid, Bool.not_true, Bool.false_eq_true, ↓reduceIte,
      List.isEmpty_eq_true, hne, addVariableRowFill, hadds, ConstraintInfo.getCS,
      ConstraintInfo.setCS, ConstraintInfo.setValue2Index, ConstraintInfo.getValue2Index]

theorem updateAt_zero_eq (R : List Int) (k : Int) (h : R ≠ []) :
    updateAt R 0 (fun _ => k) = k :: R.tail := by
  cases R with
  | nil => exact absurd rfl h
  | cons x xs => rfl

/-- Where `getConstraint` builds a row for `a u>= b` at all, the two rows an
accepted equality `a == b` offers to the engine are exactly the rows
`getConstraint` builds, in the store after `addFact`, for `a u<= b` and for
`a u>= b`, and neither needs a new index; the row of `a u< b` differs from the
first in the constant term, which is one less. -/
theorem equality_rows_exact (O : Oracle) (Info : ConstraintInfo) (defs : Defs) (a b : Value)
    (IsNegated : Bool) (NumIn NumOut : Nat) (st : List StackEntry)
    (hvalid : (Info.getConstraint defs .ICMP_EQ a b []).1.isValid O Info defs = true)
    (heq : (Info.getConstraint defs .ICMP_EQ a b []).1.IsEq = true)
    (hadd : O.addsRow Info.UnsignedCS (Info.getConstraint defs .ICMP_EQ a b []).1.Coefficients =
      true)
    (huge : (Info.getConstraint defs .ICMP_UGE a b []).1.Coefficients ≠ []) :
    (Info.addFact O defs .ICMP_EQ a b IsNegated NumIn NumOut st).1.UnsignedCS =
      (addVariableRowFill O
        (Info.UnsignedCS.map (fun row => row ++ List.replicate
            ((Info.getConstraint defs .ICMP_EQ a b []).1.Coefficients.length - row.length) 0) ++
          [(Info.getConstraint defs .ICMP_EQ a b []).1.Coefficients])
        ((Info.getConstraint defs .ICMP_EQ a b []).1.Coefficients.map
          (fun c => wrap64 (c * -1)))).2 ∧
    ((Info.addFact O defs .ICMP_EQ a b IsNegated NumIn NumOut st).1.getConstraint defs
        .ICMP_ULE a b []) =
      ({ Coefficients := (Info.getConstraint defs .ICMP_EQ a b []).1.Coefficients,
         Preconditions := (Info.getConstraint defs .ICMP_EQ a b []).1.Preconditions,
         IsSigned := false, IsEq := false }, []) ∧
    ((Info.addFact O defs .ICMP_EQ a b IsNegated NumIn NumOut st).1.getConstraint defs
        .ICMP_UGE a b []).1.Coefficients =
      (Info.getConstraint defs .ICMP_EQ a b []).1.Coefficients.map (fun c => wrap64 (c * -1)) ∧
    ((Info.addFact O defs .ICMP_EQ a b IsNegated NumIn NumOut st).1.getConstraint defs
        .ICMP_UGE a b []).2 = [] ∧
    ((Info.getConstraint defs .ICMP_EQ a b []).1.Coefficients.headD 0 ≠
        MinSignedConstraintValue →
      ((Info.addFact O defs .ICMP_EQ a b IsNegated NumIn NumOut st).1.getConstraint defs
          .ICMP_ULT a b []).1.Coefficients =
        ((Info.getConstraint defs .ICMP_EQ a b []).1.Coefficients.headD 0 - 1) ::
          (Info.getConstraint defs .ICMP_EQ a b []).1.Coefficients.tail) := by
  have hne : (Info.getConstraint defs .ICMP_EQ a b []).1.Coefficients ≠ [] := by
    intro h
    simp [ConstraintTy.isValid, h] at hvalid
  obtain ⟨a0, oa, VA, PA, b0, ob, VB, PB, hA, hB⟩ := getConstraint_eq_nonempty Info defs a b [] hne
  have hclosed := getConstraint_eq_closed Info defs a b a0 b0 oa ob VA VB PA PB [] hA hB
  have hswap := (getConstraint_uge_swap Info defs a b []).trans
    (getConstraint_le_closed Info defs false false b a b0 a0 ob oa VB VA PB PA [] hB hA)
  simp only [Bool.false_eq_true, ↓reduceIte] at hswap
  -- neither direction overflows
  have hov1 : (AddOverflow (wrap64 (a0 * -1)) b0).1 = false := by
    cases h : (AddOverflow (wrap64 (a0 * -1)) b0).1
    · rfl
    · exfalso; apply hne; rw [hclosed]; simp only [leRow, h, ↓reduceIte]
  have hov2 : (AddOverflow (wrap64 (b0 * -1)) a0).1 = false := by
    cases h : (AddOverflow (wrap64 (b0 * -1)) a0).1
    · rfl
    · exfalso; apply huge; rw [hswap]; simp only [leRow, h, ↓reduceIte]
  have hNI : (Info.getConstraint defs .ICMP_EQ a b []).2 =
      addIndices Info.UnsignedValue2Index (VA ++ VB) [] := by
    rw [hclosed]
    simp only [leRow, hov1, Bool.false_eq_true, ↓reduceIte, Bool.false_and,
      ConstraintInfo.getValue2Index]
  have hSg : (Info.getConstraint defs .ICMP_EQ a b []).1.IsSigned = false := by
    rw [hclosed]
    simp only [leRow, hov1, Bool.false_eq_true, ↓reduceIte, Bool.false_and]
  have hPre : (Info.getConstraint defs .ICMP_EQ a b []).1.Preconditions = PA ++ PB := by
    rw [hclosed]
    simp only [leRow, hov1, Bool.false_eq_true, ↓reduceIte, Bool.false_and]
  have hCo : (Info.getConstraint defs .ICMP_EQ a b []).1.Coefficients =
      updateAt
        (addCoefficients Info.UnsignedValue2Index
          (addIndices Info.UnsignedValue2Index (VA ++ VB) []) (-1) VB
          (addCoefficients Info.UnsignedValue2Index
            (addIndices Info.UnsignedValue2Index (VA ++ VB) []) 1 VA
            (List.replicate (Info.UnsignedValue2Index.length +
              (addIndices Info.UnsignedValue2Index (VA ++ VB) []).length + 1) 0)))
        0 (fun _ => (AddOverflow (wrap64 (a0 * -1)) b0).2) := by
    rw [hclosed]
    simp only [leRow, hov1, Bool.false_eq_true, ↓reduceIte, Bool.false_and,
      ConstraintInfo.getValue2Index]
  have hpost := addFact_eq_store O Info defs .ICMP_EQ a b IsNegated NumIn NumOut st
    (Info.getConstraint defs .ICMP_EQ a b []).1 (Info.getConstraint defs .ICMP_EQ a b []).2 rfl
    hvalid heq (by rw [hSg]; exact hadd)
  rw [hSg, hNI] at hpost
  simp only [ConstraintInfo.getCS, ConstraintInfo.setCS, ConstraintInfo.setValue2Index,
    ConstraintInfo.getValue2Index, Bool.false_eq_true, ↓reduceIte] at hpost
  have hT2 : (Info.addFact O defs .ICMP_EQ a b IsNegated NumIn NumOut st).1.getValue2Index false =
      insertAll Info.UnsignedValue2Index
        (addIndices Info.UnsignedValue2Index (VA ++ VB) []) := by
    rw [hpost]; rfl
  have hrows : (Info.addFact O defs .ICMP_EQ a b IsNegated NumIn NumOut st).1.UnsignedCS =
      (addVariableRowFill O
        (Info.UnsignedCS.map (fun row => row ++ List.replicate
            ((Info.getConstraint defs .ICMP_EQ a b []).1.Coefficients.length - row.length) 0) ++
          [(Info.getConstraint defs .ICMP_EQ a b []).1.Coefficients])
        ((Info.getConstraint defs .ICMP_EQ a b []).1.Coefficients.map
          (fun c => wrap64 (c * -1)))).2 := by
    rw [hpost]
  have hsw : ∀ w, (∃ c, (c, some w) ∈ VB ++ VA) → ∃ c, (c, some w) ∈ VA ++ VB := by
    intro w ⟨c, hc⟩
    refine ⟨c, ?_⟩
    rcases List.mem_append.1 hc with h | h
    · exact List.mem_append_right _ h
    · exact List.mem_append_left _ h
  have hule := (getConstraint_le_closed _ defs false false a b a0 b0 oa ob VA VB PA PB [] hA hB).trans
    (leRow_after_commit _ Info.UnsignedValue2Index false false false a0 b0
      (VA ++ VB) VA VB (PA ++ PB) hT2 (fun w h => h))
  have huge2 := ((getConstraint_uge_swap _ defs a b []).trans
    (getConstraint_le_closed _ defs false false b a b0 a0 ob oa VB VA PB PA [] hB hA)).trans
    (leRow_after_commit _ Info.UnsignedValue2Index false false false b0 a0
      (VA ++ VB) VB VA (PB ++ PA) hT2 hsw)
  simp only [Bool.false_eq_true, ↓reduceIte, hov1, hov2, Bool.false_and] at hule huge2
  have hult := (getConstraint_le_closed _ defs false true a b a0 b0 oa ob VA VB PA PB [] hA hB).trans
    (leRow_after_commit _ Info.UnsignedValue2Index false true false a0 b0
      (VA ++ VB) VA VB (PA ++ PB) hT2 (fun w h => h))
  simp only [Bool.false_eq_true, ↓reduceIte, hov1, Bool.true_and] at hult
  refine ⟨hrows, ?_, ?_, ?_, ?_⟩
  · rw [hule, hCo, hPre]
  · rw [huge2, hCo]
    simp only
    rw [map_updateAt (fun c => wrap64 (c * -1)) (fun _ => (AddOverflow (wrap64 (a0 * -1)) b0).2)
      (fun _ => wrap64 ((AddOverflow (wrap64 (a0 * -1)) b0).2 * -1)) (fun _ => rfl),
      map_neg_addCoefficients_neg, map_neg_addCoefficients_pos, map_neg_replicate_zero,
      addCoefficients_comm]
    congr 1
    funext _
    simp only [AddOverflow]
    exact (wrap64_neg_offsets a0 b0).symm
  · rw [huge2]
  · intro hk
    have hbody : addCoefficients Info.UnsignedValue2Index
        (addIndices Info.UnsignedValue2Index (VA ++ VB) []) (-1) VB
        (addCoefficients Info.UnsignedValue2Index
          (addIndices Info.UnsignedValue2Index (VA ++ VB) []) 1 VA
          (List.replicate (Info.UnsignedValue2Index.length +
            (addIndices Info.UnsignedValue2Index (VA ++ VB) []).length + 1) 0)) ≠ [] := by
      intro h
      have := congrArg List.length h
      simp [addCoefficients_length] at this
    rw [hCo, updateAt_zero_eq _ _ hbody] at hk ⊢
    simp only [List.headD_cons, List.tail_cons] at hk ⊢
    have hr := wrap64_range (wrap64 (a0 * -1) + b0)
    have hk2 : (AddOverflow (wrap64 (a0 * -1)) b0).2 = wrap64 (wrap64 (a0 * -1) + b0) := rfl
    rw [hk2] at hk ⊢
    have hfit : AddOverflow (wrap64 (wrap64 (a0 * -1) + b0)) (-1) =
        (false, wrap64 (wrap64 (a0 * -1) + b0) - 1) := by
      have := addOverflow_of_fits (wrap64 (wrap64 (a0 * -1) + b0)) (-1)
        (by unfold MinSignedConstraintValue MaxConstraintValue at *; omega)
        (by unfold MinSignedConstraintValue MaxConstraintValue at *; omega)
      rw [this]
      rfl
    rw [hult, hk2, hfit]
    simp only [Bool.false_eq_true, ↓reduceIte]
    rw [updateAt_zero_eq _ _ hbody]

theorem eq_row_range (Info : ConstraintInfo) (defs : Defs) (a b : Value) (c : Int)
    (h : c ∈ (Info.getConstraint defs .ICMP_EQ a b []).1.Coefficients) :
    MinSignedConstraintValue ≤ c ∧ c ≤ MaxConstraintValue := by
  have hne : (Info.getConstraint defs .ICMP_EQ a b []).1.Coefficients ≠ [] :=
    List.ne_nil_of_mem h
  obtain ⟨a0, oa, VA, PA, b0, ob, VB, PB, hA, hB⟩ := getConstraint_eq_nonempty Info defs a b [] hne
  rw [getConstraint_eq_closed Info defs a b a0 b0 oa ob VA VB PA PB [] hA hB] at h
  unfold leRow at h
  split at h
  · simp at h
  · split at h
    · simp at h
    · simp only at h
      rcases mem_updateAt _ _ _ _ h with h1 | ⟨x, h1⟩
      · rcases mem_addCoefficients _ _ _ _ _ _ h1 with h2 | ⟨x, h2⟩
        · rcases mem_addCoefficients _ _ _ _ _ _ h2 with h3 | ⟨x, h3⟩
          · rw [List.eq_of_mem_replicate h3]
            decide
          · rw [h3]; exact wrap64_range x
        · rw [h2]; exact wrap64_range x
      · simp only [Bool.false_eq_true, ↓reduceIte] at h1
        rw [h1]
        exact wrap64_range _

theorem pad_of_padded (rows : List (List Int)) (R : List Int) :
    (rows.map (fun row => row ++ List.replicate (R.length - row.length) 0) ++ [R]).map
        (fun row => row ++ List.replicate
          ((R.map (fun c => wrap64 (c * -1))).length - row.length) 0) =
      rows.map (fun row => row ++ List.replicate (R.length - row.length) 0) ++ [R] := by
  conv => rhs; rw [← List.map_id (rows.map _ ++ [R])]
  apply List.map_congr_left
  intro r hr
  have hlen : R.length ≤ r.length := by
    rcases List.mem_append.1 hr with h | h
    · obtain ⟨row, _, rfl⟩ := List.mem_map.1 h
      simp only [List.length_append, List.length_replicate]
      omega
    · rw [List.mem_singleton.1 h]
  simp [Nat.sub_eq_zero_of_le hlen]

/-- C5, amended.  Let `addFact(EQ, a, b)` be accepted: the row of the equality
is valid, flagged as an equality, and the engine takes it and its inverse.
Where `getConstraint` also builds a row for `a u>= b` and no coefficient of the
equality's row is the minimum 64-bit value, the unsigned system then holds, as
its last two rows, exactly the rows `getConstraint` builds in the new store for
`a u<= b` and for `a u>= b`, neither needing a new index; and the row for
`a u< b` is not implied by these two rows if and only if the two rows have a
common integer solution. -/
theorem equality_duality (O : Oracle) (Info : ConstraintInfo) (defs : Defs) (a b : Value)
    (IsNegated : Bool) (NumIn NumOut : Nat) (st : List StackEntry)
    (hvalid : (Info.getConstraint defs .ICMP_EQ a b []).1.isValid O Info defs = true)
    (heq : (Info.getConstraint defs .ICMP_EQ a b []).1.IsEq = true)
    (hadd : O.addsRow Info.UnsignedCS (Info.getConstraint defs .ICMP_EQ a b []).1.Coefficients =
      true)
    (hadd2 : O.addsRow
      (Info.UnsignedCS.map (fun row => row ++ List.replicate
          ((Info.getConstraint defs .ICMP_EQ a b []).1.Coefficients.length - row.length) 0) ++
        [(Info.getConstraint defs .ICMP_EQ a b []).1.Coefficients])
      ((Info.getConstraint defs .ICMP_EQ a b []).1.Coefficients.map
        (fun c => wrap64 (c * -1))) = true)
    (huge : (Info.getConstraint defs .ICMP_UGE a b []).1.Coefficients ≠ [])
    (hmin : ∀ c ∈ (Info.getConstraint defs .ICMP_EQ a b []).1.Coefficients,
      c ≠ MinSignedConstraintValue) :
    (Info.addFact O defs .ICMP_EQ a b IsNegated NumIn NumOut st).1.UnsignedCS =
      Info.UnsignedCS.map (fun row => row ++ List.replicate
          ((Info.getConstraint defs .ICMP_EQ a b []).1.Coefficients.length - row.length) 0) ++
        [(Info.getConstraint defs .ICMP_EQ a b []).1.Coefficients,
         (Info.getConstraint defs .ICMP_EQ a b []).1.Coefficients.map
           (fun c => wrap64 (c * -1))] ∧
    ((Info.addFact O defs .ICMP_EQ a b IsNegated NumIn NumOut st).1.getConstraint defs
        .ICMP_ULE a b []).1.Coefficients =
      (Info.getConstraint defs .ICMP_EQ a b []).1.Coefficients ∧
    ((Info.addFact O defs .ICMP_EQ a b IsNegated NumIn NumOut st).1.getConstraint defs
        .ICMP_ULE a b []).2 = [] ∧
    ((Info.addFact O defs .ICMP_EQ a b IsNegated NumIn NumOut st).1.getConstraint defs
        .ICMP_UGE a b []).1.Coefficients =
      (Info.getConstraint defs .ICMP_EQ a b []).1.Coefficients.map (fun c => wrap64 (c * -1)) ∧
    ((Info.addFact O defs .ICMP_EQ a b IsNegated NumIn NumOut st).1.getConstraint defs
        .ICMP_UGE a b []).2 = [] ∧
    (¬ RowsImply
        [(Info.getConstraint defs .ICMP_EQ a b []).1.Coefficients,
         (Info.getConstraint defs .ICMP_EQ a b []).1.Coefficients.map
           (fun c => wrap64 (c * -1))]
        ((Info.addFact O defs .ICMP_EQ a b IsNegated NumIn NumOut st).1.getConstraint defs
          .ICMP_ULT a b []).1.Coefficients ↔
      ∃ σ : Nat → Int,
        rowHolds (Info.getConstraint defs .ICMP_EQ a b []).1.Coefficients σ ∧
        rowHolds ((Info.getConstraint defs .ICMP_EQ a b []).1.Coefficients.map
          (fun c => wrap64 (c * -1))) σ) := by
  obtain ⟨h1, h2, h3, h4, h5⟩ := equality_rows_exact O Info defs a b IsNegated NumIn NumOut st
    hvalid heq hadd huge
  have hrange := eq_row_range Info defs a b
  have hne : (Info.getConstraint defs .ICMP_EQ a b []).1.Coefficients ≠ [] := by
    intro h
    simp [ConstraintTy.isValid, h] at hvalid
  refine ⟨?_, by rw [h2], by rw [h2], h3, h4, ?_⟩
  · rw [h1]
    simp only [addVariableRowFill, hadd2, ↓reduceIte]
    rw [pad_of_padded]
    simp
  · generalize (Info.getConstraint defs .ICMP_EQ a b []).1.Coefficients = R at *
    cases R with
    | nil => exact absurd rfl hne
    | cons k t =>
      have hk : k ≠ MinSignedConstraintValue := hmin k (by simp)
      rw [h5 hk]
      simp only [List.headD_cons, List.tail_cons]
      apply strict_row_not_implied
      intro c hc
      have := hrange c hc
      have := hmin c hc
      apply wrap64_neg_of_range
      · omega
      · omega

/-- Witness of `equality_duality`: the equality of two 32-bit arguments, added
to the empty store. -/
theorem equality_duality_witness :
    (({} : ConstraintInfo).addFact syntacticOracle twoArguments .ICMP_EQ (.ref 0) (.ref 1)
        false 0 1 []).1.UnsignedCS = [[0, 1, -1], [0, -1, 1]] ∧
    ((({} : ConstraintInfo).addFact syntacticOracle twoArguments .ICMP_EQ (.ref 0) (.ref 1)
        false 0 1 []).1.getConstraint twoArguments .ICMP_ULE (.ref 0) (.ref 1) []).1.Coefficients =
      [0, 1, -1] ∧
    ((({} : ConstraintInfo).addFact syntacticOracle twoArguments .ICMP_EQ (.ref 0) (.ref 1)
        false 0 1 []).1.getConstraint twoArguments .ICMP_UGE (.ref 0) (.ref 1) []).1.Coefficients =
      [0, -1, 1] ∧
    ((({} : ConstraintInfo).addFact syntacticOracle twoArguments .ICMP_EQ (.ref 0) (.ref 1)
        false 0 1 []).1.getConstraint twoArguments .ICMP_ULT (.ref 0) (.ref 1) []).1.Coefficients =
      [-1, 1, -1] ∧
    ¬ RowsImply [[0, 1, -1], [0, -1, 1]] [-1, 1, -1] := by
  have h := equality_duality syntacticOracle {} twoArguments (.ref 0) (.ref 1) false 0 1 []
    (by decide) (by decide) (by decide) (by decide) (by decide) (by decide)
  have e1 : (({} : ConstraintInfo).getConstraint twoArguments .ICMP_EQ (.ref 0) (.ref 1)
      []).1.Coefficients = [0, 1, -1] := by decide
  have e2 : ((({} : ConstraintInfo).addFact syntacticOracle twoArguments .ICMP_EQ (.ref 0)
      (.ref 1) false 0 1 []).1.getConstraint twoArguments .ICMP_ULT (.ref 0) (.ref 1)
      []).1.Coefficients = [-1, 1, -1] := by decide
  rw [e1, e2] at h
  refine ⟨by decide, by decide, by decide, by decide, ?_⟩
  exact h.2.2.2.2.2.2 ⟨fun _ => 0, by unfold rowHolds; decide, by unfold rowHolds; decide⟩

/-- C5 as stated fails: for `a = gep inbounds p, zext(shl nuw x, 1)` and
`b = gep inbounds p, 1` the equality is accepted and its two rows are the rows
of `a u<= b` and `a u>= b`, namely `2x <= 1` and `-2x <= -1`; they have no
common integer solution, so the row `2x <= 0` of `a u< b` is implied by
them. -/
theorem equality_rows_without_solution :
    (({} : ConstraintInfo).addFact syntacticOracle parityOffsets .ICMP_EQ (.ref 4) (.ref 5)
        false 0 1 []).1.UnsignedCS = [[1, 0, 2], [-1, 0, -2]] ∧
    (({} : ConstraintInfo).addFact syntacticOracle parityOffsets .ICMP_EQ (.ref 4) (.ref 5)
        false 0 1 []).2.length = 2 ∧
    ((({} : ConstraintInfo).addFact syntacticOracle parityOffsets .ICMP_EQ (.ref 4) (.ref 5)
        false 0 1 []).1.getConstraint parityOffsets .ICMP_ULE (.ref 4) (.ref 5)
        []).1.Coefficients = [1, 0, 2] ∧
    ((({} : ConstraintInfo).addFact syntacticOracle parityOffsets .ICMP_EQ (.ref 4) (.ref 5)
        false 0 1 []).1.getConstraint parityOffsets .ICMP_UGE (.ref 4) (.ref 5)
        []).1.Coefficients = [-1, 0, -2] ∧
    ((({} : ConstraintInfo).addFact syntacticOracle parityOffsets .ICMP_EQ (.ref 4) (.ref 5)
        false 0 1 []).1.getConstraint parityOffsets .ICMP_ULT (.ref 4) (.ref 5)
        []).1.Coefficients = [0, 0, 2] ∧
    RowsImply [[1, 0, 2], [-1, 0, -2]] [0, 0, 2] := by
  refine ⟨by decide, by decide, by decide, by decide, by decide, ?_⟩
  intro σ hσ
  have ha := hσ [1, 0, 2] (by simp)
  have hb := hσ [-1, 0, -2] (by simp)
  simp only [rowHolds, dotFrom, List.tail_cons, List.headD_cons] at ha hb ⊢
  omega

/-! ## C7: the overflow simplification -/

/-- The lambda `DoesConditionHold` when the row needs no new index. -/
theorem doesConditionHold_of_known (O : Oracle) (Info : ConstraintInfo) (defs : Defs)
    (P : Predicate) (A B : Value) (R : ConstraintTy)
    (h : Info.getConstraint defs P A B [] = (R, [])) (hp : R.Preconditions = []) :
    DoesConditionHold O P A B Info defs =
      (decide (2 ≤ R.Coefficients.length) &&
        O.isConditionImplied (Info.getCS P.isSigned) R.Coefficients) := by
  obtain ⟨Co, Pre, Sg, Eqf⟩ := R
  simp only at hp
  subst hp
  by_cases h2 : 2 ≤ Co.length
  · have h0 : 0 < Co.length := by omega
    simp [DoesConditionHold, h, ConstraintTy.size, ConstraintTy.needsNewIndices,
      needsNewIndicesLoop, ConstraintTy.isValid, h2, h0, Nat.not_lt.2 h2]
  · simp [DoesConditionHold, h, ConstraintTy.size, h2, Nat.lt_of_not_le h2]

/-- The method `doesHold` when the row needs no new index. -/
theorem doesHold_of_known (O : Oracle) (Info : ConstraintInfo) (defs : Defs)
    (P : Predicate) (A B : Value) (R : ConstraintTy)
    (h : Info.getConstraint defs P A B [] = (R, [])) (hp : R.Preconditions = [])
    (heq : R.IsEq = false) :
    Info.doesHold O defs P A B =
      (!R.Coefficients.isEmpty &&
        O.isConditionImplied (Info.getCS P.isSigned) R.Coefficients) := by
  simp [ConstraintInfo.doesHold, h, hp, heq, ConstraintTy.empty]

/-- The lambda `DoesConditionHold` and the method `doesHold` when the row has a
new index with a non-zero coefficient, or is empty. -/
theorem not_holds_of_new (O : Oracle) (Info : ConstraintInfo) (defs : Defs)
    (P : Predicate) (A B : Value) (R : ConstraintTy) (NI : DenseMap)
    (h : Info.getConstraint defs P A B [] = (R, NI)) (hNI : NI ≠ [])
    (hlast : R.Coefficients = [] ∨ (R.Coefficients.getLast?).getD 0 ≠ 0) :
    DoesConditionHold O P A B Info defs = false ∧ Info.doesHold O defs P A B = false := by
  constructor
  · rcases hlast with h0 | hl
    · simp [DoesConditionHold, h, ConstraintTy.size, h0]
    · obtain ⟨kv, rest, rfl⟩ := List.exists_cons_of_ne_nil hNI
      simp [DoesConditionHold, h, ConstraintTy.needsNewIndices, needsNewIndicesLoop, hl]
  · obtain ⟨kv, rest, rfl⟩ := List.exists_cons_of_ne_nil hNI
    simp [ConstraintInfo.doesHold, h]

/-- The signed decomposition of a value: an in-range constant alone, or the
value as an atom. -/
theorem decompose_signed_shape (defs : Defs) (v : Value) :
    (∃ c, decompose defs v true = ([(c, none)], []) ∧
      MinSignedConstraintValue < c ∧ c < MaxConstraintValue) ∨
    decompose defs v true = ([(0, none), (1, some v)], []) := by
  cases v with
  | constInt bits val =>
    by_cases hc : CanUseSExt bits val = true
    · left
      exact ⟨getSExtValue bits val, by simp [decompose, hc], (canUseSExt_iff _ _).1 hc⟩
    · right
      simp [decompose, hc]
  | constNull => right; simp [decompose]
  | poison ty => right; simp [decompose]
  | ref id => right; simp [decompose]

theorem getD_addCoefficients_other (T NI : DenseMap) (s : Int) (V : Decomposition)
    (R : List Int) (j : Nat)
    (h : ∀ w, (∃ c, (c, some w) ∈ V) → (GetOrAddIndex T NI w).1 ≠ j) :
    ((addCoefficients T NI s V R)[j]?).getD 0 = (R[j]?).getD 0 := by
  induction V generalizing R with
  | nil => rfl
  | cons p rest ih =>
    obtain ⟨c, v⟩ := p
    cases v with
    | none =>
      simp only [addCoefficients]
      exact ih R (fun w ⟨k, hk⟩ => h w ⟨k, List.mem_cons_of_mem _ hk⟩)
    | some v =>
      simp only [addCoefficients]
      rw [ih _ (fun w ⟨k, hk⟩ => h w ⟨k, List.mem_cons_of_mem _ hk⟩), getD_updateAt]
      have := h v ⟨c, by simp⟩
      simp [Ne.symm this]

theorem addIndices_append (T : DenseMap) (V W : Decomposition) (NI : DenseMap) :
    addIndices T (V ++ W) NI = addIndices T W (addIndices T V NI) := by
  induction V generalizing NI with
  | nil => rfl
  | cons p rest ih =>
    obtain ⟨c, v⟩ := p
    cases v <;> simp [addIndices, ih]

/-- A row of `getConstraint` all of whose variables are in the atom table: no
new index, and the row is empty or one longer than the table. -/
theorem leRow_known (Info : ConstraintInfo) (sgn strict : Bool) (x0 y0 : Int)
    (VX VY : Decomposition)
    (hk : ∀ w, (∃ c, (c, some w) ∈ VX ++ VY) → (Info.getValue2Index sgn).find w ≠ none) :
    (leRow Info sgn strict false x0 y0 VX VY [] []).2 = [] ∧
    (leRow Info sgn strict false x0 y0 VX VY [] []).1.Preconditions = [] ∧
    (leRow Info sgn strict false x0 y0 VX VY [] []).1.IsEq = false ∧
    ((leRow Info sgn strict false x0 y0 VX VY [] []).1.Coefficients = [] ∨
      (leRow Info sgn strict false x0 y0 VX VY [] []).1.Coefficients.length =
        (Info.getValue2Index sgn).length + 1) := by
  have hNI := addIndices_all_known (Info.getValue2Index sgn) (VX ++ VY) [] hk
  unfold leRow
  split
  · exact ⟨hNI, rfl, rfl, Or.inl rfl⟩
  · split
    · exact ⟨hNI, rfl, rfl, Or.inl rfl⟩
    · refine ⟨hNI, rfl, rfl, Or.inr ?_⟩
      simp [updateAt_length, addCoefficients_length, hNI]

/-- A row of `getConstraint` whose right operand is an atom the table does not
know, the variables of the left operand being known: there is a new index, and
the row is empty or its last coefficient is not zero. -/
theorem leRow_new (Info : ConstraintInfo) (sgn strict : Bool) (x0 y0 : Int)
    (VX : Decomposition) (v : Value)
    (hT : (Info.getValue2Index sgn).IndicesInRange)
    (hk : ∀ w, (∃ c, (c, some w) ∈ VX) → (Info.getValue2Index sgn).find w ≠ none)
    (hv : (Info.getValue2Index sgn).find v = none) :
    (leRow Info sgn strict false x0 y0 VX [(1, some v)] [] []).2 ≠ [] ∧
    ((leRow Info sgn strict false x0 y0 VX [(1, some v)] [] []).1.Coefficients = [] ∨
      ((leRow Info sgn strict false x0 y0 VX [(1, some v)] [] []).1.Coefficients.getLast?).getD 0
        ≠ 0) := by
  have hNI : addIndices (Info.getValue2Index sgn) (VX ++ [(1, some v)]) [] =
      [(v, (Info.getValue2Index sgn).length + 1)] := by
    rw [addIndices_append, addIndices_all_known _ VX [] hk]
    simp [addIndices, GetOrAddIndex, hv, DenseMap.find]
  have hidx : (GetOrAddIndex (Info.getValue2Index sgn)
      [(v, (Info.getValue2Index sgn).length + 1)] v).1 = (Info.getValue2Index sgn).length + 1 := by
    simp [GetOrAddIndex, hv, DenseMap.find]
  have hother : ∀ w, (∃ c, (c, some w) ∈ VX) →
      (GetOrAddIndex (Info.getValue2Index sgn)
        [(v, (Info.getValue2Index sgn).length + 1)] w).1 ≠ (Info.getValue2Index sgn).length + 1 := by
    intro w hw
    have hf := hk w hw
    obtain ⟨i, hi⟩ := Option.ne_none_iff_exists'.1 hf
    have hr := hT _ (find_mem _ w i hi)
    simp only [GetOrAddIndex, hi]
    simp only at hr
    omega
  unfold leRow
  rw [hNI]
  split
  · exact ⟨by simp, Or.inl rfl⟩
  · split
    · exact ⟨by simp, Or.inl rfl⟩
    · refine ⟨by simp, Or.inr ?_⟩
      simp only [List.getLast?_eq_getElem?, updateAt_length, addCoefficients_length,
        List.length_replicate, List.length_singleton, Nat.add_sub_cancel]
      rw [getD_updateAt]
      simp only [Nat.add_eq_zero, one_ne_zero, and_false, false_and, ↓reduceIte]
      simp only [addCoefficients, hidx]
      rw [getD_updateAt]
      simp only [addCoefficients_length, List.length_replicate, true_and,
        Nat.lt_add_one, ↓reduceIte]
      rw [getD_addCoefficients_other _ _ _ _ _ _ hother, getD_replicate_zero]
      decide

theorem canUseSExt_zero (bits : Nat) : CanUseSExt bits 0 = true := by
  have h : isNegative bits 0 = false := by
    simp [isNegative]
  simp [CanUseSExt, getSExtValue, h, getZExtValue, MinSignedConstraintValue, MaxConstraintValue]

/-- The signed row of `X s<= Y` asked for by the overflow simplification: either
the lambda and `doesHold` both answer no, or no new index is needed and both
are the engine's answer, the lambda also asking for a row of two entries. -/
theorem signed_le_guard (O : Oracle) (Info : ConstraintInfo) (defs : Defs) (X Y : Value)
    (hT : Info.SignedValue2Index.IndicesInRange)
    (hX : ∀ w, (∃ c, (c, some w) ∈
        (decompose defs (stripPointerCastsSameRepresentation defs X) true).1.tail) →
      Info.SignedValue2Index.find w ≠ none) :
    (DoesConditionHold O .ICMP_SGE Y X Info defs = false ∧
      Info.doesHold O defs .ICMP_SGE Y X = false) ∨
    ((∀ w, (∃ c, (c, some w) ∈
        (decompose defs (stripPointerCastsSameRepresentation defs Y) true).1.tail) →
      Info.SignedValue2Index.find w ≠ none) ∧
      DoesConditionHold O .ICMP_SGE Y X Info defs =
        (Info.doesHold O defs .ICMP_SGE Y X && !Info.SignedValue2Index.isEmpty)) := by
  have hTs : (Info.getValue2Index true).IndicesInRange := hT
  have hsw := getConstraint_sge_swap Info defs Y X []
  obtain ⟨x0, VX, hdX, hVX⟩ : ∃ x0 VX,
      decompose defs (stripPointerCastsSameRepresentation defs X) true = ((x0, none) :: VX, []) ∧
      ∀ w, (∃ c, (c, some w) ∈ VX) → (Info.getValue2Index true).find w ≠ none := by
    rcases decompose_signed_shape defs (stripPointerCastsSameRepresentation defs X) with
      ⟨c, hc, _⟩ | hc
    · exact ⟨c, [], hc, by simp⟩
    · refine ⟨0, _, hc, ?_⟩
      rw [hc] at hX
      exact hX
  rcases decompose_signed_shape defs (stripPointerCastsSameRepresentation defs Y) with
    ⟨c, hdY, _⟩ | hdY
  · -- a constant on the right
    right
    have hclosed := getConstraint_le_closed Info defs true false X Y x0 c none none VX [] [] [] []
      hdX hdY
    simp only [↓reduceIte, Bool.false_eq_true, List.append_nil] at hclosed
    have hk := leRow_known Info true false x0 c VX [] (by simpa using hVX)
    generalize leRow Info true false false x0 c VX [] [] [] = r at hk hclosed
    obtain ⟨R, NI⟩ := r
    simp only at hk
    obtain ⟨hNI, hp, heq, hlen⟩ := hk
    subst hNI
    have hg : Info.getConstraint defs .ICMP_SGE Y X [] = (R, []) := by rw [hsw, hclosed]
    rw [doesConditionHold_of_known O Info defs _ Y X R hg hp,
      doesHold_of_known O Info defs _ Y X R hg hp heq]
    refine ⟨by rw [hdY]; simp, ?_⟩
    rcases hlen with h0 | hl
    · simp [h0]
    · have hne : R.Coefficients ≠ [] := by
        intro h; rw [h] at hl; simp at hl
      cases hTl : Info.SignedValue2Index with
      | nil =>
        simp [ConstraintInfo.getValue2Index, hTl] at hl
        simp [hl, hne]
      | cons kv rest =>
        simp [ConstraintInfo.getValue2Index, hTl] at hl
        simp [hl, hne]
  · -- an atom on the right
    have hclosed := getConstraint_le_closed Info defs true false X Y x0 0 none none VX
      [(1, some (stripPointerCastsSameRepresentation defs Y))] [] [] [] hdX hdY
    simp only [↓reduceIte, Bool.false_eq_true, List.append_nil] at hclosed
    cases hf : (Info.getValue2Index true).find (stripPointerCastsSameRepresentation defs Y) with
    | none =>
      left
      have hn := leRow_new Info true false x0 0 VX _ hTs hVX hf
      generalize leRow Info true false false x0 0 VX
        [(1, some (stripPointerCastsSameRepresentation defs Y))] [] [] = r at hn hclosed
      obtain ⟨R, NI⟩ := r
      simp only at hn
      have hg : Info.getConstraint defs .ICMP_SGE Y X [] = (R, NI) := by rw [hsw, hclosed]
      exact not_holds_of_new O Info defs _ Y X R NI hg hn.1 hn.2
    | some i =>
      right
      have hkY : ∀ w, (∃ c, (c, some w) ∈
          VX ++ [(1, some (stripPointerCastsSameRepresentation defs Y))]) →
          (Info.getValue2Index true).find w ≠ none := by
        intro w ⟨c, hc⟩
        rcases List.mem_append.1 hc with h | h
        · exact hVX w ⟨c, h⟩
        · simp only [List.mem_singleton, Prod.mk.injEq, Option.some.injEq] at h
          rw [h.2, hf]; simp
      have hk := leRow_known Info true false x0 0 VX _ hkY
      generalize leRow Info true false false x0 0 VX
        [(1, some (stripPointerCastsSameRepresentation defs Y))] [] [] = r at hk hclosed
      obtain ⟨R, NI⟩ := r
      simp only at hk
      obtain ⟨hNI, hp, heq, hlen⟩ := hk
      subst hNI
      have hg : Info.getConstraint defs .ICMP_SGE Y X [] = (R, []) := by rw [hsw, hclosed]
      rw [doesConditionHold_of_known O Info defs _ Y X R hg hp,
        doesHold_of_known O Info defs _ Y X R hg hp heq]
      refine ⟨?_, ?_⟩
      · rw [hdY]
        intro w ⟨c, hc⟩
        simp only [List.tail_cons, List.mem_singleton, Prod.mk.injEq, Option.some.injEq] at hc
        have hf2 : Info.SignedValue2Index.find (stripPointerCastsSameRepresentation defs Y) =
          some i := hf
        rw [hc.2, hf2]; simp
      · have hmem := find_mem _ _ _ hf
        cases hTl : Info.SignedValue2Index with
        | nil => simp [ConstraintInfo.getValue2Index, hTl] at hmem
        | cons kv rest =>
          rcases hlen with h0 | hl
          · simp [h0]
          · have hne : R.Coefficients ≠ [] := by
              intro h; rw [h] at hl; simp at hl
            simp [ConstraintInfo.getValue2Index, hTl] at hl
            simp [hl, hne]

/-- The guard of the overflow simplification, in terms of `doesHold`: both
conditions hold, and the signed atom table is not empty. -/
theorem overflow_guard (O : Oracle) (Info : ConstraintInfo) (defs : Defs) (A B : Value)
    (bits : Nat) (hty : getType defs A = .int bits)
    (hT : Info.SignedValue2Index.IndicesInRange) :
    (DoesConditionHold O .ICMP_SGE A B Info defs &&
      DoesConditionHold O .ICMP_SGE B (ConstantInt.get (getType defs A) 0) Info defs) =
    (Info.doesHold O defs .ICMP_SGE A B &&
      Info.doesHold O defs .ICMP_SGE B (ConstantInt.get (getType defs A) 0) &&
      !Info.SignedValue2Index.isEmpty) := by
  have hz : ConstantInt.get (getType defs A) 0 = .constInt bits 0 := by
    rw [hty]; simp [ConstantInt.get]
  rw [hz]
  have hdz : decompose defs (stripPointerCastsSameRepresentation defs (.constInt bits 0)) true =
      ([(0, none)], []) := by
    rw [strip_constInt, decompose_signed_const defs bits 0 (canUseSExt_zero bits)]
    simp [getSExtValue, isNegative, getZExtValue]
  rcases signed_le_guard O Info defs (.constInt bits 0) B hT (by rw [hdz]; simp) with
    ⟨h1, h2⟩ | ⟨hB, h2⟩
  · rw [h1, h2]; simp
  · rcases signed_le_guard O Info defs B A hT hB with ⟨h3, h4⟩ | ⟨_, h4⟩
    · rw [h3, h4]; simp
    · rw [h2, h4]
      cases Info.doesHold O defs .ICMP_SGE A B <;>
        cases Info.doesHold O defs .ICMP_SGE B (.constInt bits 0) <;>
        cases Info.SignedValue2Index.isEmpty <;> rfl

/-! ### The definition table under rewriting -/

theorem get_map (defs : Defs) (g : Nat × Instruction → Nat × Instruction)
    (hg : ∀ e, (g e).1 = e.1) (i : Nat) :
    Defs.get (defs.map g) i = (Defs.get defs i).map (fun ins => (g (i, ins)).2) := by
  induction defs with
  | nil => rfl
  | cons p rest ih =>
    obtain ⟨k, ins⟩ := p
    have h1 : g (k, ins) = (k, (g (k, ins)).2) := Prod.ext (hg (k, ins)) rfl
    simp only [List.map_cons]
    rw [h1]
    simp only [Defs.get]
    by_cases hk : k = i
    · subst hk; simp
    · simp [hk, ih]

theorem get_append_of_some (defs extra : Defs) (i : Nat) (x : Instruction)
    (h : Defs.get defs i = some x) : Defs.get (defs ++ extra) i = some x := by
  induction defs with
  | nil => simp [Defs.get] at h
  | cons p rest ih =>
    obtain ⟨k, ins⟩ := p
    simp only [List.cons_append, Defs.get] at h ⊢
    by_cases hk : k = i
    · simpa [hk] using h
    · simp only [hk, ↓reduceIte] at h ⊢
      exact ih h

theorem get_of_mem_nodup (defs : Defs) (i : Nat) (ins : Instruction)
    (hnd : (defs.map (·.1)).Nodup) (h : (i, ins) ∈ defs) : Defs.get defs i = some ins := by
  induction defs with
  | nil => simp at h
  | cons p rest ih =>
    obtain ⟨k, x⟩ := p
    simp only [List.map_cons, List.nodup_cons] at hnd
    simp only [List.mem_cons, Prod.mk.injEq] at h
    simp only [Defs.get]
    rcases h with ⟨h1, h2⟩ | h
    · simp [h1, h2]
    · have hne : k ≠ i := by
        intro hk
        apply hnd.1
        rw [hk]
        exact List.mem_map_of_mem (·.1) h
      simp only [hne, ↓reduceIte]
      exact ih hnd.2 h

theorem get_ne_none_of_mem (defs : Defs) (i : Nat) (h : i ∈ defs.map (·.1)) :
    Defs.get defs i ≠ none := by
  induction defs with
  | nil => simp at h
  | cons p rest ih =>
    obtain ⟨k, x⟩ := p
    simp only [List.map_cons, List.mem_cons] at h
    simp only [Defs.get]
    by_cases hk : k = i
    · simp [hk]
    · simp only [hk, ↓reduceIte]
      rcases h with h | h
      · exact absurd h.symm hk
      · exact ih h

theorem get_none_of_not_mem (defs : Defs) (i : Nat) (h : i ∉ defs.map (·.1)) :
    Defs.get defs i = none := by
  induction defs with
  | nil => rfl
  | cons p rest ih =>
    obtain ⟨k, x⟩ := p
    simp only [List.map_cons, List.mem_cons, not_or] at h
    simp only [Defs.get]
    have hk : k ≠ i := fun hk => h.1 hk.symm
    simp only [hk, ↓reduceIte]
    exact ih h.2

theorem mapOperands_comp (k : InstKind) (f g : Value → Value) :
    (k.mapOperands f).mapOperands g = k.mapOperands (fun v => g (f v)) := by
  cases k <;> simp [InstKind.mapOperands, List.map_map, Function.comp_def]

theorem mapOperands_congr (k : InstKind) (f g : Value → Value) (h : ∀ v, f v = g v) :
    k.mapOperands f = k.mapOperands g := by
  have : f = g := funext h
  rw [this]

theorem mapOperands_id (k : InstKind) : k.mapOperands (fun v => v) = k := by
  cases k <;> simp [InstKind.mapOperands]

theorem operands_mapOperands (k : InstKind) (f : Value → Value) :
    (k.mapOperands f).operands = k.operands.map f := by
  cases k <;> simp [InstKind.mapOperands, InstKind.operands]

theorem extractedField_mapOperands (k : Option InstKind) (f : Value → Value) :
    extractedField (k.map (fun x => x.mapOperands f)) = extractedField k := by
  cases k with
  | none => rfl
  | some k =>
    cases k with
    | extractvalue agg idx =>
      rcases idx with _ | ⟨(_ | _ | j), (_ | ⟨_, _⟩)⟩ <;> rfl
    | _ => rfl

theorem extractedField_some (k : InstKind) (b : Bool) (h : extractedField (some k) = some b) :
    ∃ agg idx, k = .extractvalue agg idx := by
  cases k <;> simp [extractedField] at h
  exact ⟨_, _, rfl⟩

theorem users_replaceAllUsesWith (defs : Defs) (U : Nat) (v : Value) (hv : v ≠ .ref U) :
    users (replaceAllUsesWith defs U v) U = [] := by
  simp only [users, replaceAllUsesWith, replaceUsesWithIf, ↓reduceIte, List.map_eq_nil_iff,
    List.filter_eq_nil_iff, List.mem_map, decide_eq_true_eq, forall_exists_index, and_imp]
  intro e x _ hx
  subst hx
  simp only [operands_mapOperands, List.mem_map, not_exists, not_and]
  intro w _
  split
  · exact hv
  · assumption

theorem foldl_max_ge (l : List Nat) (a : Nat) : a ≤ l.foldl max a ∧ ∀ i ∈ l, i ≤ l.foldl max a := by
  induction l generalizing a with
  | nil => simp
  | cons x xs ih =>
    simp only [List.foldl_cons, List.mem_cons, forall_eq_or_imp]
    have h := ih (max a x)
    refine ⟨le_trans (le_max_left a x) h.1, le_trans (le_max_right a x) h.1, h.2⟩

theorem lt_freshId (F : Function) (i : Nat) (h : i ∈ F.defs.map (·.1)) : i < F.freshId := by
  have := (foldl_max_ge (F.defs.map (·.1)) 0).2 i h
  unfold Function.freshId
  omega

theorem overflowSubst_step (F : Function) (done : List Nat) (U : Nat) (Sub : Value) (b : Bool)
    (hU : U ∉ done) (hSub : Sub ≠ .ref U) (hext : extractedField (F.kind U) = some b)
    (v : Value) :
    (if overflowSubst F done Sub v = .ref U then (if b then getFalse else Sub)
      else overflowSubst F done Sub v) = overflowSubst F (done ++ [U]) Sub v := by
  cases v with
  | ref u =>
    by_cases huU : u = U
    · subst huU
      cases b <;> simp [overflowSubst, hU, hext]
    · by_cases hud : u ∈ done
      · simp only [overflowSubst, hud, ↓reduceIte, List.mem_append, List.mem_singleton, huU,
          or_false]
        rcases extractedField (F.kind u) with _ | _ | _
        · simp [huU]
        · simp [hSub]
        · simp [getFalse]
      · simp [overflowSubst, hud, huU]
  | constInt bits val => simp [overflowSubst]
  | constNull => simp [overflowSubst]
  | poison ty => simp [overflowSubst]

theorem overflowSubst_skip (F : Function) (done : List Nat) (U : Nat) (Sub : Value)
    (hext : extractedField (F.kind U) = none) (v : Value) :
    overflowSubst F (done ++ [U]) Sub v = overflowSubst F done Sub v := by
  cases v with
  | ref u =>
    by_cases huU : u = U
    · subst huU
      by_cases hud : u ∈ done <;> simp [overflowSubst, hud, hext]
    · simp [overflowSubst, huU]
  | constInt bits val => rfl
  | constNull => rfl
  | poison ty => rfl

theorem rewriteEntry_skip (F : Function) (done : List Nat) (U : Nat) (Sub : Value) (ty : Ty)
    (hext : extractedField (F.kind U) = none) :
    rewriteEntry F (done ++ [U]) Sub ty = rewriteEntry F done Sub ty := by
  funext e
  have hs : overflowSubst F (done ++ [U]) Sub = overflowSubst F done Sub :=
    funext (overflowSubst_skip F done U Sub hext)
  by_cases heU : e.1 = U
  · have : extractedField (F.kind e.1) = none := by rw [heU]; exact hext
    simp [rewriteEntry, this, hs]
  · simp [rewriteEntry, heU, hs]

/-- One turn of the loop on an extraction `U`, on the definition table: the
uses of `U` are replaced and `U` loses its aggregate operand. -/
theorem rewriteEntry_step (F : Function) (done : List Nat) (U : Nat) (Sub : Value) (ty : Ty)
    (b : Bool) (L : Defs)
    (hU : U ∉ done) (hSub : Sub ≠ .ref U) (hext : extractedField (F.kind U) = some b)
    (hL : ∀ e ∈ L, e.1 ∈ U :: done → F.kind e.1 = some e.2.kind) :
    setAggregateOperand
        (replaceAllUsesWith (L.map (rewriteEntry F done Sub ty)) U (if b then getFalse else Sub))
        U (.poison ty) =
      L.map (rewriteEntry F (done ++ [U]) Sub ty) := by
  simp only [setAggregateOperand, replaceAllUsesWith, replaceUsesWithIf, ↓reduceIte,
    List.map_map]
  apply List.map_congr_left
  intro e he
  have hk := hL e he
  obtain ⟨i, ety, ek⟩ := e
  simp only at hk
  simp only [Function.comp_apply]
  by_cases heU : i = U
  · -- the extraction itself
    subst heU
    have hke : F.kind i = some ek := hk (by simp)
    have hx : extractedField (some ek) = some b := by rw [← hke]; exact hext
    obtain ⟨agg, idx, hagg⟩ := extractedField_some _ _ hx
    subst hagg
    simp [rewriteEntry, hU, hext, InstKind.mapOperands]
  · by_cases hd : i ∈ done ∧ (extractedField (F.kind i)).isSome = true
    · -- an extraction met before
      have hke : F.kind i = some ek := hk (by simp [hd.1])
      obtain ⟨b2, hb2⟩ := Option.isSome_iff_exists.1 hd.2
      have hx : extractedField (some ek) = some b2 := by rw [← hke]; exact hb2
      obtain ⟨agg, idx, hagg⟩ := extractedField_some _ _ hx
      subst hagg
      simp [rewriteEntry, hd.1, hd.2, heU, InstKind.mapOperands]
    · -- any other instruction
      have hd2 : ¬ (i ∈ done ++ [U] ∧ (extractedField (F.kind i)).isSome = true) := by
        intro h
        apply hd
        refine ⟨?_, h.2⟩
        rcases List.mem_append.1 h.1 with h1 | h1
        · exact h1
        · exact absurd (List.mem_singleton.1 h1) heU
      simp only [rewriteEntry, hd, hd2, ↓reduceIte, heU, mapOperands_comp]
      congr 2
      exact mapOperands_congr _ _ _ (overflowSubst_step F done U Sub b hU hSub hext)

theorem extractedField_flag (k : Option InstKind) (h : extractedField k = some true) :
    ∃ agg, k = some (.extractvalue agg [1]) := by
  cases k with
  | none => simp [extractedField] at h
  | some k =>
    cases k with
    | extractvalue agg idx =>
      rcases idx with _ | ⟨(_ | _ | j), (_ | ⟨_, _⟩)⟩ <;> simp [extractedField] at h
      exact ⟨agg, rfl⟩
    | _ => simp [extractedField] at h

theorem extractedField_result (k : Option InstKind) (h : extractedField k = some false) :
    ∃ agg, k = some (.extractvalue agg [0]) := by
  cases k with
  | none => simp [extractedField] at h
  | some k =>
    cases k with
    | extractvalue agg idx =>
      rcases idx with _ | ⟨(_ | _ | j), (_ | ⟨_, _⟩)⟩ <;> simp [extractedField] at h
      exact ⟨agg, rfl⟩
    | _ => simp [extractedField] at h

/-- A turn of the loop of `tryToSimplifyOverflowMath` on a user that is no
extraction of the result or of the flag. -/
theorem simplifyUsers_skip (II : Nat) (ty : Ty) (A B : Value) (U : Nat) (rest : List Nat)
    (Fc : Function) (Sub : Option Value) (TR : List Nat)
    (h : extractedField (Fc.kind U) = none) :
    simplifyUsers II ty A B (U :: rest) Fc Sub TR = simplifyUsers II ty A B rest Fc Sub TR := by
  cases hk : Fc.kind U with
  | none => simp [simplifyUsers, hk]
  | some k =>
    rw [hk] at h
    cases k with
    | extractvalue agg idx =>
      rcases idx with _ | ⟨(_ | _ | j), (_ | ⟨_, _⟩)⟩ <;> simp [extractedField] at h <;>
        simp [simplifyUsers, hk]
    | _ => simp [simplifyUsers, hk]

/-- A turn of the loop on an extraction of the overflow flag. -/
theorem simplifyUsers_flag (II : Nat) (ty : Ty) (A B : Value) (U : Nat) (rest : List Nat)
    (Fc : Function) (Sub : Option Value) (TR : List Nat)
    (h : extractedField (Fc.kind U) = some true) :
    simplifyUsers II ty A B (U :: rest) Fc Sub TR =
      simplifyUsers II ty A B rest
        { Fc with defs :=
            setAggregateOperand (replaceAllUsesWith Fc.defs U getFalse) U (.poison ty) }
        Sub (TR ++ [U]) := by
  obtain ⟨agg, hk⟩ := extractedField_flag _ h
  have hu := users_replaceAllUsesWith Fc.defs U getFalse (by simp [getFalse])
  simp only [getFalse] at hu
  simp [simplifyUsers, hk, hu, getFalse]

/-- A turn of the loop on an extraction of the result, the subtraction being
there already. -/
theorem simplifyUsers_result_some (II : Nat) (ty : Ty) (A B : Value) (U : Nat)
    (rest : List Nat) (Fc : Function) (v : Value) (TR : List Nat)
    (h : extractedField (Fc.kind U) = some false) (hv : v ≠ .ref U) :
    simplifyUsers II ty A B (U :: rest) Fc (some v) TR =
      simplifyUsers II ty A B rest
        { Fc with defs := setAggregateOperand (replaceAllUsesWith Fc.defs U v) U (.poison ty) }
        (some v) (TR ++ [U]) := by
  obtain ⟨agg, hk⟩ := extractedField_result _ h
  have hu := users_replaceAllUsesWith Fc.defs U v hv
  simp [simplifyUsers, hk, hu]

/-- A turn of the loop on the first extraction of the result: the subtraction
is created. -/
theorem simplifyUsers_result_none (II : Nat) (ty : Ty) (A B : Value) (U : Nat)
    (rest : List Nat) (Fc : Function) (TR : List Nat)
    (h : extractedField (Fc.kind U) = some false)
    (hv : (CreateSub Fc II A B).2 ≠ .ref U) :
    simplifyUsers II ty A B (U :: rest) Fc none TR =
      simplifyUsers II ty A B rest
        { defs :=
            setAggregateOperand
              (replaceAllUsesWith (CreateSub Fc II A B).1.defs U (CreateSub Fc II A B).2)
              U (.poison ty),
          blocks := (CreateSub Fc II A B).1.blocks }
        (some (CreateSub Fc II A B).2) (TR ++ [U]) := by
  obtain ⟨agg, hk⟩ := extractedField_result _ h
  have hu := users_replaceAllUsesWith (CreateSub Fc II A B).1.defs U _ hv
  simp [simplifyUsers, hk, hu]

theorem createSub_cases (II : Nat) (A B : Value) :
    (∃ v, (∀ u, v ≠ .ref u) ∧ ∀ G : Function, CreateSub G II A B = (G, v)) ∨
    (∀ G : Function, CreateSub G II A B =
      (G.insertBefore II G.freshId ⟨getType G.defs A, .sub false false A B⟩, .ref G.freshId)) := by
  cases A <;> cases B <;>
    first
    | (right; intro G; rfl)
    | (left; exact ⟨_, fun u => by simp, fun G => rfl⟩)

/-- The call `CreateSub` appends at most one definition, the subtraction under
a fresh identifier, and gives the same value on a function that differs in
operands only. -/
theorem createSub_shape (F : Function) (II : Nat) (A B : Value) :
    ∃ extra : Defs,
      (∀ e ∈ extra, e = (F.freshId, ⟨getType F.defs A, .sub false false A B⟩)) ∧
      (∀ u, u ∈ F.defs.map (·.1) → (CreateSub F II A B).2 ≠ .ref u) ∧
      ∀ Fc : Function, Fc.blocks = F.blocks → Fc.defs.map (·.1) = F.defs.map (·.1) →
        getType Fc.defs A = getType F.defs A →
        CreateSub Fc II A B =
          ({ defs := Fc.defs ++ extra, blocks := (CreateSub F II A B).1.blocks },
            (CreateSub F II A B).2) := by
  rcases createSub_cases II A B with ⟨v, hv, hG⟩ | hG
  · refine ⟨[], by simp, ?_, ?_⟩
    · intro u _
      rw [hG F]
      exact hv u
    · intro Fc hb _ _
      rw [hG Fc, hG F]
      cases Fc
      simp at hb
      simp [hb]
  · refine ⟨[(F.freshId, ⟨getType F.defs A, .sub false false A B⟩)], by simp, ?_, ?_⟩
    · intro u hu h
      rw [hG F] at h
      have := lt_freshId F u hu
      simp only [Value.ref.injEq] at h
      omega
    · intro Fc hb hi ht
      have hf : Fc.freshId = F.freshId := by simp [Function.freshId, hi]
      rw [hG Fc, hG F]
      simp [Function.insertBefore, hf, ht, hb]

theorem rewriteEntry_fst (F : Function) (us : List Nat) (Sub : Value) (ty : Ty)
    (e : Nat × Instruction) : (rewriteEntry F us Sub ty e).1 = e.1 := by
  unfold rewriteEntry
  split <;> rfl

theorem rewriteEntry_ty (F : Function) (us : List Nat) (Sub : Value) (ty : Ty)
    (e : Nat × Instruction) : (rewriteEntry F us Sub ty e).2.ty = e.2.ty := by
  unfold rewriteEntry
  split <;> rfl

theorem map_fst_rewriteEntry (F : Function) (us : List Nat) (Sub : Value) (ty : Ty) (L : Defs) :
    (L.map (rewriteEntry F us Sub ty)).map (·.1) = L.map (·.1) := by
  simp [List.map_map, Function.comp_def, rewriteEntry_fst]

theorem getType_rewritten (F : Function) (us : List Nat) (Sub : Value) (ty : Ty) (L : Defs)
    (v : Value) : getType (L.map (rewriteEntry F us Sub ty)) v = getType L v := by
  cases v with
  | ref id =>
    simp only [getType]
    rw [get_map L _ (rewriteEntry_fst F us Sub ty)]
    cases Defs.get L id <;> simp [rewriteEntry_ty]
  | _ => rfl

theorem kind_rewritten (F : Function) (done : List Nat) (Sub : Value) (ty : Ty) (L : Defs)
    (U : Nat) (hU : U ∉ done) :
    extractedField (Option.map (·.kind) (Defs.get (L.map (rewriteEntry F done Sub ty)) U)) =
      extractedField (Option.map (·.kind) (Defs.get L U)) := by
  rw [get_map L _ (rewriteEntry_fst F done Sub ty)]
  cases Defs.get L U with
  | none => rfl
  | some x =>
    simp only [Option.map_some', rewriteEntry, hU, false_and, ↓reduceIte]
    exact extractedField_mapOperands (some x.kind) _

theorem overflowSubst_fixed (F : Function) (done : List Nat) (Sub : Value) (A : Value)
    (h : ∀ u ∈ done, (extractedField (F.kind u)).isSome = true → A ≠ .ref u) :
    overflowSubst F done Sub A = A := by
  cases A with
  | ref u =>
    by_cases hu : u ∈ done
    · cases hx : extractedField (F.kind u) with
      | none => simp [overflowSubst, hu, hx]
      | some b => exact absurd rfl (h u hu (by rw [hx]; rfl))
    · simp [overflowSubst, hu]
  | _ => rfl

theorem rewriteEntry_rewriteEntry_nil (F : Function) (Sub : Value) (ty : Ty) (L : Defs) :
    L.map (rewriteEntry F [] Sub ty) = L := by
  have : rewriteEntry F [] Sub ty = id := by
    funext e
    have hs : overflowSubst F [] Sub = fun v => v := by
      funext v
      cases v <;> simp [overflowSubst]
    simp [rewriteEntry, hs, mapOperands_id]
  rw [this, List.map_id]

/-- The loop of `tryToSimplifyOverflowMath` in closed form: from the state after
the users `done` it reaches the state after `done ++ rest`. -/
theorem simplifyUsers_closed (F : Function) (II : Nat) (A B : Value) (TR : List Nat)
    (hids : (F.defs.map (·.1)).Nodup) :
    ∀ rest done : List Nat, (done ++ rest).Nodup →
      (∀ u ∈ done ++ rest, u ∈ F.defs.map (·.1)) →
      (∀ u ∈ done ++ rest, (extractedField (F.kind u)).isSome = true →
        A ≠ .ref u ∧ B ≠ .ref u) →
      simplifyUsers II (getType F.defs (.ref II)) A B rest
          (overflowState F II A B TR done).1 (overflowState F II A B TR done).2.1
          (overflowState F II A B TR done).2.2 =
        overflowState F II A B TR (done ++ rest) := by
  obtain ⟨extra, hextra, hcv, hcs⟩ := createSub_shape F II A B
  have hc : CreateSub F II A B =
      ({ defs := F.defs ++ extra, blocks := (CreateSub F II A B).1.blocks },
        (CreateSub F II A B).2) := hcs F rfl rfl rfl
  have hcd : (CreateSub F II A B).1.defs = F.defs ++ extra := by
    rw [hc]
  intro rest
  induction rest with
  | nil =>
    intro done _ _ _
    simp [simplifyUsers]
  | cons U rest ih =>
    intro done hnd hmem hops
    have hU : U ∉ done := by
      intro h
      have := List.nodup_append.1 hnd
      exact this.2.2 h (by simp)
    have hUmem : U ∈ F.defs.map (·.1) := hmem U (by simp)
    have hdmem : ∀ u ∈ done, u ∈ F.defs.map (·.1) := fun u hu => hmem u (by simp [hu])
    have hvU : (CreateSub F II A B).2 ≠ .ref U := hcv U hUmem
    -- the entries of the table carry the kind the table gives for their identifier
    have hL : ∀ e ∈ F.defs ++ extra, e.1 ∈ U :: done → F.kind e.1 = some e.2.kind := by
      intro e he hin
      rcases List.mem_append.1 he with h | h
      · have := get_of_mem_nodup F.defs e.1 e.2 hids h
        simp [Function.kind, this]
      · exfalso
        have he1 : e.1 = F.freshId := by rw [hextra e h]
        have hlt : e.1 < F.freshId := by
          rcases List.mem_cons.1 hin with h1 | h1
          · rw [h1]; exact lt_freshId F U hUmem
          · exact lt_freshId F e.1 (hdmem e.1 h1)
        omega
    have hLF : ∀ e ∈ F.defs, e.1 ∈ U :: done → F.kind e.1 = some e.2.kind :=
      fun e he => hL e (List.mem_append_left _ he)
    -- the subtraction is not touched by the replacements
    have hfix : extra.map (rewriteEntry F done (CreateSub F II A B).2 (getType F.defs (.ref II))) =
        extra := by
      conv => rhs; rw [← List.map_id extra]
      apply List.map_congr_left
      intro e he
      rw [hextra e he]
      have hnot : F.freshId ∉ done := by
        intro h
        have := lt_freshId F _ (hdmem _ h)
        omega
      have hA := overflowSubst_fixed F done (CreateSub F II A B).2 A
        (fun u hu hs => (hops u (by simp [hu]) hs).1)
      have hB := overflowSubst_fixed F done (CreateSub F II A B).2 B
        (fun u hu hs => (hops u (by simp [hu]) hs).2)
      simp [rewriteEntry, hnot, InstKind.mapOperands, hA, hB]
    have hxU : ∃ x, Defs.get F.defs U = some x :=
      Option.ne_none_iff_exists'.1 (get_ne_none_of_mem F.defs U hUmem)
    obtain ⟨x, hx⟩ := hxU
    have key : simplifyUsers II (getType F.defs (.ref II)) A B (U :: rest)
          (overflowState F II A B TR done).1 (overflowState F II A B TR done).2.1
          (overflowState F II A B TR done).2.2 =
        simplifyUsers II (getType F.defs (.ref II)) A B rest
          (overflowState F II A B TR (done ++ [U])).1
          (overflowState F II A B TR (done ++ [U])).2.1
          (overflowState F II A B TR (done ++ [U])).2.2 := by
      by_cases hres : done.any (fun u => extractedField (F.kind u) == some false) = true
      · -- the subtraction exists
        have hk : extractedField ((overflowState F II A B TR done).1.kind U) =
            extractedField (F.kind U) := by
          have hd : (overflowState F II A B TR done).1.defs = (F.defs ++ extra).map
              (rewriteEntry F done (CreateSub F II A B).2 (getType F.defs (.ref II))) := by
            simp only [overflowState, hres, ↓reduceIte, hcd]
          show extractedField (Option.map (·.kind)
              (Defs.get (overflowState F II A B TR done).1.defs U)) =
            extractedField (Option.map (·.kind) (Defs.get F.defs U))
          rw [hd, kind_rewritten F done _ _ _ U hU, get_append_of_some _ _ _ _ hx, hx]
        have hres2 : (done ++ [U]).any (fun u => extractedField (F.kind u) == some false) =
            true := by
          simp only [List.any_append, hres, Bool.true_or]
        cases hext : extractedField (F.kind U) with
        | none =>
          rw [simplifyUsers_skip _ _ _ _ _ _ _ _ _ (hk.trans hext)]
          simp only [overflowState, hres, hres2, ↓reduceIte, rewriteEntry_skip F done U _ _ hext,
            List.filter_append, List.filter_cons, hext, Option.isSome_none, Bool.false_eq_true,
            List.filter_nil, List.append_nil]
        | some b =>
          cases b with
          | true =>
            rw [simplifyUsers_flag _ _ _ _ _ _ _ _ _ (hk.trans hext)]
            have hstep := rewriteEntry_step F done U (CreateSub F II A B).2
              (getType F.defs (.ref II)) true (F.defs ++ extra) hU hvU hext hL
            simp only [↓reduceIte] at hstep
            simp only [overflowState, hres, hres2, ↓reduceIte, hcd, hstep,
              List.filter_append, List.filter_cons, hext, Option.isSome_some,
              List.filter_nil, List.append_assoc]
          | false =>
            have hS : (overflowState F II A B TR done).2.1 = some (CreateSub F II A B).2 := by
              simp only [overflowState, hres, ↓reduceIte]
            rw [hS, simplifyUsers_result_some _ _ _ _ _ _ _ _ _ (hk.trans hext) hvU]
            have hstep := rewriteEntry_step F done U (CreateSub F II A B).2
              (getType F.defs (.ref II)) false (F.defs ++ extra) hU hvU hext hL
            simp only [Bool.false_eq_true, ↓reduceIte] at hstep
            simp only [overflowState, hres, hres2, ↓reduceIte, hcd, hstep,
              List.filter_append, List.filter_cons, hext, Option.isSome_some,
              List.filter_nil, List.append_assoc]
      · -- no subtraction yet
        have hres' : done.any (fun u => extractedField (F.kind u) == some false) = false := by
          simpa using hres
        have hk : extractedField ((overflowState F II A B TR done).1.kind U) =
            extractedField (F.kind U) := by
          have hd : (overflowState F II A B TR done).1.defs = F.defs.map
              (rewriteEntry F done (CreateSub F II A B).2 (getType F.defs (.ref II))) := by
            simp only [overflowState, hres', Bool.false_eq_true, ↓reduceIte]
          show extractedField (Option.map (·.kind)
              (Defs.get (overflowState F II A B TR done).1.defs U)) =
            extractedField (Option.map (·.kind) (Defs.get F.defs U))
          rw [hd, kind_rewritten F done _ _ _ U hU]
        cases hext : extractedField (F.kind U) with
        | none =>
          have hres2 : (done ++ [U]).any (fun u => extractedField (F.kind u) == some false) =
              false := by
            simp [List.any_append, hres', hext]
          rw [simplifyUsers_skip _ _ _ _ _ _ _ _ _ (hk.trans hext)]
          simp only [overflowState, hres', hres2, Bool.false_eq_true, ↓reduceIte,
            rewriteEntry_skip F done U _ _ hext,
            List.filter_append, List.filter_cons, hext, Option.isSome_none,
            List.filter_nil, List.append_nil]
        | some b =>
          cases b with
          | true =>
            have hres2 : (done ++ [U]).any (fun u => extractedField (F.kind u) == some false) =
                false := by
              simp [List.any_append, hres', hext]
            rw [simplifyUsers_flag _ _ _ _ _ _ _ _ _ (hk.trans hext)]
            have hstep := rewriteEntry_step F done U (CreateSub F II A B).2
              (getType F.defs (.ref II)) true F.defs hU hvU hext hLF
            simp only [↓reduceIte] at hstep
            simp only [overflowState, hres', hres2, Bool.false_eq_true, ↓reduceIte, hstep,
              List.filter_append, List.filter_cons, hext, Option.isSome_some,
              List.filter_nil, List.append_assoc]
          | false =>
            have hres2 : (done ++ [U]).any (fun u => extractedField (F.kind u) == some false) =
                true := by
              simp [List.any_append, hext]
            have hS : (overflowState F II A B TR done).2.1 = none := by
              simp only [overflowState, hres', Bool.false_eq_true, ↓reduceIte]
            have hcreate := hcs (overflowState F II A B TR done).1
              (by simp only [overflowState, hres', Bool.false_eq_true, ↓reduceIte])
              (by simp only [overflowState, hres', Bool.false_eq_true, ↓reduceIte,
                    map_fst_rewriteEntry])
              (by simp only [overflowState, hres', Bool.false_eq_true, ↓reduceIte,
                    getType_rewritten])
            rw [hS, simplifyUsers_result_none _ _ _ _ _ _ _ _ (hk.trans hext)
              (by rw [hcreate]; exact hvU), hcreate]
            have hstep := rewriteEntry_step F done U (CreateSub F II A B).2
              (getType F.defs (.ref II)) false (F.defs ++ extra) hU hvU hext hL
            simp only [Bool.false_eq_true, ↓reduceIte] at hstep
            have hdefs : (overflowState F II A B TR done).1.defs ++ extra =
                (F.defs ++ extra).map
                  (rewriteEntry F done (CreateSub F II A B).2 (getType F.defs (.ref II))) := by
              simp only [overflowState, hres', Bool.false_eq_true, ↓reduceIte, List.map_append,
                hfix]
            simp only [hdefs, hstep]
            simp only [overflowState, hres', hres2, Bool.false_eq_true, ↓reduceIte, hcd,
              List.filter_append, List.filter_cons, hext, Option.isSome_some,
              List.filter_nil, List.append_assoc]
    rw [key]
    have := ih (done ++ [U]) (by simpa using hnd) (by simpa using hmem) (by simpa using hops)
    simpa using this

theorem users_sublist (defs : Defs) (V : Nat) : (users defs V).Sublist (defs.map (·.1)) := by
  unfold users
  exact List.Sublist.map _ (List.filter_sublist _)

/-- The function `tryToSimplifyOverflowMath` on a signed subtraction with
overflow, in closed form. -/
theorem tryToSimplifyOverflowMath_closed (O : Oracle) (Info : ConstraintInfo) (F : Function)
    (II : Nat) (A B : Value) (TR : List Nat)
    (hII : F.kind II = some (.ssubWithOverflow A B))
    (hids : (F.defs.map (·.1)).Nodup)
    (hops : ∀ u ∈ users F.defs II, (extractedField (F.kind u)).isSome = true →
      A ≠ .ref u ∧ B ≠ .ref u) :
    tryToSimplifyOverflowMath O II Info F TR =
      if (DoesConditionHold O .ICMP_SGE A B Info F.defs &&
          DoesConditionHold O .ICMP_SGE B (ConstantInt.get (getType F.defs A) 0) Info F.defs) =
          true then
        rewrittenOverflow F II A B TR
      else (F, TR) := by
  have hsub := users_sublist F.defs II
  have hloop := simplifyUsers_closed F II A B TR hids (users F.defs II) []
    (by simpa using hsub.nodup hids) (by simpa using fun u hu => hsub.subset hu)
    (by simpa using hops)
  have h0 : overflowState F II A B TR [] = (F, none, TR) := by
    simp [overflowState, rewriteEntry_rewriteEntry_nil]
  rw [h0] at hloop
  simp only [List.nil_append] at hloop
  by_cases hg : (DoesConditionHold O .ICMP_SGE A B Info F.defs &&
      DoesConditionHold O .ICMP_SGE B (ConstantInt.get (getType F.defs A) 0) Info F.defs) = true
  · have hg' := hg
    simp only [Bool.and_eq_true] at hg'
    simp only [tryToSimplifyOverflowMath, hII, hg'.1, hg'.2, Bool.not_true, Bool.or_self,
      Bool.false_eq_true, ↓reduceIte, hloop, rewrittenOverflow, Bool.and_self]
  · have hg' : (!DoesConditionHold O .ICMP_SGE A B Info F.defs ||
        !DoesConditionHold O .ICMP_SGE B (ConstantInt.get (getType F.defs A) 0) Info F.defs) =
        true := by
      cases h1 : DoesConditionHold O .ICMP_SGE A B Info F.defs <;>
        cases h2 : DoesConditionHold O .ICMP_SGE B (ConstantInt.get (getType F.defs A) 0)
          Info F.defs <;> simp_all
    simp only [tryToSimplifyOverflowMath, hII, hg', ↓reduceIte, hg]
    simp

/-- C7 as stated fails: with an empty store, `doesHold` reports `7 s>= 5` and
`5 s>= 0` (their rows are the tautologies `0 <= 2` and `0 <= 5`), but
`tryToSimplifyOverflowMath` leaves `ssub.with.overflow(7, 5)` and its users as
they are, because its own test refuses a row without a variable column. -/
theorem overflow_of_constants_not_rewritten :
    ({} : ConstraintInfo).doesHold syntacticOracle overflowOfConstants.defs .ICMP_SGE
      (.constInt 32 7) (.constInt 32 5) = true ∧
    ({} : ConstraintInfo).doesHold syntacticOracle overflowOfConstants.defs .ICMP_SGE
      (.constInt 32 5) (ConstantInt.get (getType overflowOfConstants.defs (.constInt 32 7)) 0) =
      true ∧
    overflowOfConstants.kind 0 = some (.ssubWithOverflow (.constInt 32 7) (.constInt 32 5)) ∧
    tryToSimplifyOverflowMath syntacticOracle 0 {} overflowOfConstants [] =
      (overflowOfConstants, []) ∧
    (eliminateConstraints syntacticOracle counterUnset overflowOfConstants oneBlockDT).2 =
      overflowOfConstants := by
  decide

/-- C7, amended: for `ssub.with.overflow(A, B)` with integer operands, in a
function with distinct identifiers whose intrinsic does not take its own
extractions as operands, and with the indices of the signed atom table within
its size, `tryToSimplifyOverflowMath` rewrites exactly when `doesHold` reports
both `A s>= B` and `B s>= 0` and the signed atom table is not empty.  The
rewrite is `rewrittenOverflow`: every use of an extraction of the result is
replaced by one subtraction `A - B` created before the intrinsic, every use of
an extraction of the flag by false, the extractions are queued for removal, and
the intrinsic is erased if it has no other user.  Otherwise the function and
the removal list are returned as they were. -/
theorem overflow_simplification (O : Oracle) (Info : ConstraintInfo) (F : Function)
    (II : Nat) (A B : Value) (bits : Nat) (TR : List Nat)
    (hII : F.kind II = some (.ssubWithOverflow A B))
    (hty : getType F.defs A = .int bits)
    (hT : Info.SignedValue2Index.IndicesInRange)
    (hids : (F.defs.map (·.1)).Nodup)
    (hops : ∀ u ∈ users F.defs II, (extractedField (F.kind u)).isSome = true →
      A ≠ .ref u ∧ B ≠ .ref u) :
    tryToSimplifyOverflowMath O II Info F TR =
      if (Info.doesHold O F.defs .ICMP_SGE A B &&
          Info.doesHold O F.defs .ICMP_SGE B (ConstantInt.get (getType F.defs A) 0) &&
          !Info.SignedValue2Index.isEmpty) = true then
        rewrittenOverflow F II A B TR
      else (F, TR) := by
  rw [tryToSimplifyOverflowMath_closed O Info F II A B TR hII hids hops,
    overflow_guard O Info F.defs A B bits hty hT]

/-- Witness of `overflow_simplification`: block 1 of `overflowOnly` with the
store the walk has there; the rewrite takes place. -/
theorem overflow_simplification_witness :
    tryToSimplifyOverflowMath syntacticOracle 6 overflowOnlyStore overflowOnly [] =
      rewrittenOverflow overflowOnly 6 (.ref 0) (.ref 1) [] ∧
    (rewrittenOverflow overflowOnly 6 (.ref 0) (.ref 1) []).1.kind 9 =
      some (.other true [.ref 12, getFalse]) ∧
    (rewrittenOverflow overflowOnly 6 (.ref 0) (.ref 1) []).1.kind 12 =
      some (.sub false false (.ref 0) (.ref 1)) ∧
    (rewrittenOverflow overflowOnly 6 (.ref 0) (.ref 1) []).1.kind 6 = none ∧
    (rewrittenOverflow overflowOnly 6 (.ref 0) (.ref 1) []).2 = [7, 8] :=
  ⟨(overflow_simplification syntacticOracle overflowOnlyStore overflowOnly 6 (.ref 0) (.ref 1)
      32 [] (by decide) (by decide)
      (by intro kv h
          have h2 : kv ∈ [(Value.ref 1, 1), (Value.ref 0, 2)] := h
          simp only [List.mem_cons, List.mem_singleton, List.not_mem_nil, or_false] at h2
          rcases h2 with rfl | rfl <;> decide)
      (by decide) (by decide)).trans (by decide),
    by decide, by decide, by decide, by decide⟩

/-! ## C11: predicate normalisation -/

/-- C11 (predicate normalisation): for all operands, every store and every
new-index table, `getConstraint` of `UGT`, `UGE`, `SGT`, `SGE` on `(a, b)` is
`getConstraint` of `ULT`, `ULE`, `SLT`, `SLE` on `(b, a)`, row and new-index
table alike; and for a right operand `z` that is a zero (`m_Zero`),
`getConstraint(NE, a, z)` is `getConstraint(UGT, a, z)`. -/
theorem normalization_swaps (Info : ConstraintInfo) (defs : Defs) (a b z : Value)
    (NI : DenseMap) (hz : isZero z = true) :
    Info.getConstraint defs .ICMP_UGT a b NI = Info.getConstraint defs .ICMP_ULT b a NI ∧
    Info.getConstraint defs .ICMP_UGE a b NI = Info.getConstraint defs .ICMP_ULE b a NI ∧
    Info.getConstraint defs .ICMP_SGT a b NI = Info.getConstraint defs .ICMP_SLT b a NI ∧
    Info.getConstraint defs .ICMP_SGE a b NI = Info.getConstraint defs .ICMP_SLE b a NI ∧
    Info.getConstraint defs .ICMP_NE a z NI = Info.getConstraint defs .ICMP_UGT a z NI := by
  refine ⟨?_, ?_, ?_, ?_, ?_⟩ <;>
    simp [ConstraintInfo.getConstraint, normalizePredicate, Predicate.getSwappedPredicate, hz]

/-- Witness of `normalization_swaps`: two 32-bit arguments and the 32-bit
zero, against the store that knows `%0`. -/
theorem normalization_swaps_witness :
    isZero (.constInt 32 0) = true ∧
    nonNegativeStore.getConstraint twoArguments .ICMP_UGT (.ref 0) (.ref 1) [] =
      nonNegativeStore.getConstraint twoArguments .ICMP_ULT (.ref 1) (.ref 0) [] ∧
    nonNegativeStore.getConstraint twoArguments .ICMP_UGE (.ref 0) (.ref 1) [] =
      nonNegativeStore.getConstraint twoArguments .ICMP_ULE (.ref 1) (.ref 0) [] ∧
    nonNegativeStore.getConstraint twoArguments .ICMP_SGT (.ref 0) (.ref 1) [] =
      nonNegativeStore.getConstraint twoArguments .ICMP_SLT (.ref 1) (.ref 0) [] ∧
    nonNegativeStore.getConstraint twoArguments .ICMP_SGE (.ref 0) (.ref 1) [] =
      nonNegativeStore.getConstraint twoArguments .ICMP_SLE (.ref 1) (.ref 0) [] ∧
    nonNegativeStore.getConstraint twoArguments .ICMP_NE (.ref 0) (.constInt 32 0) [] =
      nonNegativeStore.getConstraint twoArguments .ICMP_UGT (.ref 0) (.constInt 32 0) [] ∧
    (nonNegativeStore.getConstraint twoArguments .ICMP_NE (.ref 0) (.constInt 32 0) []).1.Coefficients =
      [-1, -1] :=
  ⟨by decide,
   (normalization_swaps nonNegativeStore twoArguments (.ref 0) (.ref 1) (.constInt 32 0) []
      (by decide)).1,
   (normalization_swaps nonNegativeStore twoArguments (.ref 0) (.ref 1) (.constInt 32 0) []
      (by decide)).2.1,
   (normalization_swaps nonNegativeStore twoArguments (.ref 0) (.ref 1) (.constInt 32 0) []
      (by decide)).2.2.1,
   (normalization_swaps nonNegativeStore twoArguments (.ref 0) (.ref 1) (.constInt 32 0) []
      (by decide)).2.2.2.1,
   (normalization_swaps nonNegativeStore twoArguments (.ref 0) (.ref 1) (.constInt 32 0) []
      (by decide)).2.2.2.2,
   by decide⟩

/-! ## C12: equality rows -/

/-- C12 as stated fails: `9223372036854775807` is not a zero, but the row of
`%0 == 9223372036854775807` is the empty row (the constant is not below
`MaxConstraintValue`), whose equality flag is the default, false. -/
theorem equality_flag_of_empty_row :
    isZero (.constInt 64 9223372036854775807) = false ∧
    (({} : ConstraintInfo).getConstraint minOffsets .ICMP_EQ (.ref 0)
      (.constInt 64 9223372036854775807) []).1.Coefficients = [] ∧
    (({} : ConstraintInfo).getConstraint minOffsets .ICMP_EQ (.ref 0)
      (.constInt 64 9223372036854775807) []).1.IsEq = false := by
  decide

/-- C12, amended: for all operands, every store and every new-index table,
`getConstraint(EQ, a, b)` has the coefficients, the domain (unsigned), the
preconditions and the new-index table of `getConstraint(ULE, a, b)`; its
equality flag is true exactly when `b` is not a zero and the row is not
empty. -/
theorem equality_row_is_ule_row (Info : ConstraintInfo) (defs : Defs) (a b : Value)
    (NI : DenseMap) :
    (Info.getConstraint defs .ICMP_EQ a b NI).1.Coefficients =
      (Info.getConstraint defs .ICMP_ULE a b NI).1.Coefficients ∧
    (Info.getConstraint defs .ICMP_EQ a b NI).1.IsSigned = false ∧
    (Info.getConstraint defs .ICMP_ULE a b NI).1.IsSigned = false ∧
    (Info.getConstraint defs .ICMP_EQ a b NI).1.Preconditions =
      (Info.getConstraint defs .ICMP_ULE a b NI).1.Preconditions ∧
    (Info.getConstraint defs .ICMP_EQ a b NI).2 = (Info.getConstraint defs .ICMP_ULE a b NI).2 ∧
    (Info.getConstraint defs .ICMP_ULE a b NI).1.IsEq = false ∧
    (Info.getConstraint defs .ICMP_EQ a b NI).1.IsEq =
      (!isZero b && !(Info.getConstraint defs .ICMP_EQ a b NI).1.Coefficients.isEmpty) := by
  rcases hA : decompose defs (stripPointerCastsSameRepresentation defs a) false with
    ⟨_ | ⟨⟨a0, oa⟩, VA⟩, PA⟩
  · cases hz : isZero b <;>
      simp [ConstraintInfo.getConstraint, normalizePredicate, Predicate.isSigned, hA, hz]
  · rcases hB : decompose defs (stripPointerCastsSameRepresentation defs b) false with
      ⟨_ | ⟨⟨b0, ob⟩, VB⟩, PB⟩
    · cases hz : isZero b <;>
        simp [ConstraintInfo.getConstraint, normalizePredicate, Predicate.isSigned, hA, hB, hz]
    · rw [getConstraint_eq_closed Info defs a b a0 b0 oa ob VA VB PA PB NI hA hB]
      have hle := getConstraint_le_closed Info defs false false a b a0 b0 oa ob VA VB PA PB NI
        hA hB
      simp only [Bool.false_eq_true, ↓reduceIte] at hle
      rw [hle]
      unfold leRow
      split
      · simp
      · simp only [Bool.false_and, Bool.false_eq_true, ↓reduceIte, true_and]
        have hne : (updateAt
            (addCoefficients (Info.getValue2Index false)
              (addIndices (Info.getValue2Index false) (VA ++ VB) NI) (-1) VB
              (addCoefficients (Info.getValue2Index false)
                (addIndices (Info.getValue2Index false) (VA ++ VB) NI) 1 VA
                (List.replicate ((Info.getValue2Index false).length +
                  (addIndices (Info.getValue2Index false) (VA ++ VB) NI).length + 1) 0)))
            0 (fun _ => (AddOverflow (wrap64 (a0 * -1)) b0).2)).isEmpty = false := by
          rw [List.isEmpty_eq_false]
          intro h
          have := congrArg List.length h
          simp [updateAt_length, addCoefficients_length] at this
        rw [hne]
        simp

/-! ## C13: unsupported predicates -/

/-- C13 (unsupported predicates): for `NE` against a right operand that is not
a zero, and for every predicate that is not one of the ten integer predicates,
`getConstraint` returns the empty row and the new-index table it was given;
`addFact` and `transferToOtherSystem` return store and stack as they were, and
the driver leaves its state as it was at such a comparison. -/
theorem unsupported_predicate_skipped (O : Oracle) (g : Nat → Bool) (S : DriverState)
    (I : Nat) (P : Predicate) (a b : Value) (NI : DenseMap) (IsNegated : Bool)
    (NumIn NumOut : Nat) (st : List StackEntry)
    (hP : (P = .ICMP_NE ∧ isZero b = false) ∨ ∃ c, P = .FCMP c)
    (hI : S.F.kind I = some (.icmp P a b)) :
    S.Info.getConstraint S.F.defs P a b NI = ({}, NI) ∧
    S.Info.addFact O S.F.defs P a b IsNegated NumIn NumOut st = (S.Info, st) ∧
    S.Info.transferToOtherSystem O S.F.defs P a b IsNegated NumIn NumOut st = (S.Info, st) ∧
    processInstruction O g S I = S := by
  have hg : ∀ NI, S.Info.getConstraint S.F.defs P a b NI = ({}, NI) := by
    intro NI
    rcases hP with ⟨rfl, hz⟩ | ⟨c, rfl⟩
    · simp [ConstraintInfo.getConstraint, normalizePredicate, hz]
    · simp [ConstraintInfo.getConstraint, normalizePredicate]
  refine ⟨hg NI, ?_, ?_, ?_⟩
  · simp [ConstraintInfo.addFact, hg, ConstraintTy.isValid]
  · rcases hP with ⟨rfl, _⟩ | ⟨c, rfl⟩ <;>
      simp [ConstraintInfo.transferToOtherSystem]
  · simp [processInstruction, hI, hg, ConstraintTy.empty]

/-- Witness of `unsupported_predicate_skipped`: the comparison
`icmp ne i8 %0, 5` of `neCompare`; the pass leaves the function as it is. -/
theorem unsupported_predicate_skipped_witness :
    (({} : ConstraintInfo).getConstraint neCompare.defs .ICMP_NE (.ref 0) (.constInt 8 5) [] =
      ({}, [])) ∧
    ({} : ConstraintInfo).addFact syntacticOracle neCompare.defs .ICMP_NE (.ref 0)
      (.constInt 8 5) false 0 1 [] = ({}, []) ∧
    ({} : ConstraintInfo).transferToOtherSystem syntacticOracle neCompare.defs .ICMP_NE (.ref 0)
      (.constInt 8 5) false 0 1 [] = ({}, []) ∧
    processInstruction syntacticOracle counterUnset { F := neCompare } 1 = { F := neCompare } :=
  unsupported_predicate_skipped syntacticOracle counterUnset { F := neCompare } 1 .ICMP_NE
    (.ref 0) (.constInt 8 5) [] false 0 1 [] (Or.inl ⟨rfl, by decide⟩) (by decide)

/-! ## C14: the constant term of a row -/

theorem filter_eq_some_of {α : Type} (o : Option α) (p : α → Bool) (x : α)
    (h : o.filter p = some x) : o = some x ∧ p x = true := by
  cases o with
  | none => simp [Option.filter] at h
  | some y =>
    simp only [Option.filter] at h
    split at h
    · simp only [Option.some.injEq] at h
      subst h
      exact ⟨rfl, by assumption⟩
    · simp at h

theorem sext_range_of_canUse (bits val : Nat) (h : CanUseSExt bits val = true) :
    MinSignedConstraintValue < getSExtValue bits val ∧
      getSExtValue bits val ≤ MaxConstraintValue := by
  have := (canUseSExt_iff bits val).1 h
  exact ⟨this.1, le_of_lt this.2⟩

theorem zext_range_of_not_ugeMax (bits val : Nat) (h : ugeMax bits val = false) :
    MinSignedConstraintValue < getZExtValue bits val ∧
      getZExtValue bits val ≤ MaxConstraintValue := by
  simp only [ugeMax, decide_eq_false_iff_not, not_le] at h
  have h0 : (0 : Int) ≤ getZExtValue bits val := by
    unfold getZExtValue; exact Int.ofNat_nonneg _
  constructor
  · unfold MinSignedConstraintValue; omega
  · omega

theorem zero_in_range : MinSignedConstraintValue < 0 ∧ (0 : Int) ≤ MaxConstraintValue := by
  decide

theorem range_of_filter_sext (o : Option (Value × Nat × Nat)) (x : Value) (bits val : Nat)
    (h : Option.filter (fun m => CanUseSExt m.2.1 m.2.2) o = some (x, bits, val)) :
    MinSignedConstraintValue < getSExtValue bits val ∧
      getSExtValue bits val ≤ MaxConstraintValue ∧ (none : Option Value) = none :=
  ⟨(sext_range_of_canUse _ _ (filter_eq_some_of _ _ _ h).2).1,
    (sext_range_of_canUse _ _ (filter_eq_some_of _ _ _ h).2).2, rfl⟩

theorem range_of_nonneg_sext (bits val : Nat)
    (h : (!isNegative bits val && CanUseSExt bits val) = true) :
    MinSignedConstraintValue < getSExtValue bits val ∧
      getSExtValue bits val ≤ MaxConstraintValue ∧ (none : Option Value) = none := by
  simp only [Bool.and_eq_true] at h
  exact ⟨(sext_range_of_canUse _ _ h.2).1, (sext_range_of_canUse _ _ h.2).2, rfl⟩

theorem range_of_filter_zext (o : Option (Value × Nat × Nat)) (x : Value) (bits val : Nat)
    (h : Option.filter (fun m => !ugeMax m.2.1 m.2.2) o = some (x, bits, val)) :
    MinSignedConstraintValue < getZExtValue bits val ∧
      getZExtValue bits val ≤ MaxConstraintValue ∧ (none : Option Value) = none := by
  have h2 := (filter_eq_some_of _ _ _ h).2
  simp only [Bool.not_eq_true'] at h2
  exact ⟨(zext_range_of_not_ugeMax _ _ h2).1, (zext_range_of_not_ugeMax _ _ h2).2, rfl⟩

theorem range_of_filter_neg_sext (o : Option (Value × Nat × Nat)) (x : Value) (bits val : Nat)
    (h : Option.filter (fun m => isNegative m.2.1 m.2.2 && CanUseSExt m.2.1 m.2.2) o =
      some (x, bits, val)) :
    MinSignedConstraintValue < getSExtValue bits val ∧
      getSExtValue bits val ≤ MaxConstraintValue ∧ (none : Option Value) = none := by
  have h2 := (filter_eq_some_of _ _ _ h).2
  simp only [Bool.and_eq_true] at h2
  exact ⟨(sext_range_of_canUse _ _ h2.2).1, (sext_range_of_canUse _ _ h2.2).2, rfl⟩

theorem range_of_filter_sub (o : Option (Value × Nat × Nat)) (x : Value) (bits val : Nat)
    (h : Option.filter (fun m => CanUseSExt m.2.1 m.2.2) o = some (x, bits, val)) :
    MinSignedConstraintValue < wrap64 (-1 * getSExtValue bits val) ∧
      wrap64 (-1 * getSExtValue bits val) ≤ MaxConstraintValue ∧
      (none : Option Value) = none ∧
      wrap64 (-1 * getSExtValue bits val) = - getSExtValue bits val := by
  have h1 : CanUseSExt bits val = true := (filter_eq_some_of _ _ _ h).2
  have h2 := (canUseSExt_iff _ _).1 h1
  unfold wrap64 MinSignedConstraintValue MaxConstraintValue at *
  refine ⟨?_, ?_, rfl, ?_⟩ <;> omega

theorem decomposeGEP_head (defs : Defs) (ptr idx : Value) (c : Int) (o : Option Value)
    (V : Decomposition) (P : List PreconditionTy)
    (h : decomposeGEP defs ptr idx = ((c, o) :: V, P)) :
    MinSignedConstraintValue < c ∧ c ≤ MaxConstraintValue ∧ o = none := by
  unfold decomposeGEP at h
  repeat' split at h
  all_goals
    simp only [Prod.mk.injEq, List.cons.injEq] at h
    obtain ⟨⟨⟨rfl, rfl⟩, _⟩, _⟩ := h
  all_goals first
    | exact ⟨zero_in_range.1, zero_in_range.2, rfl⟩
    | exact range_of_filter_sext _ _ _ _ (by assumption)
    | exact range_of_nonneg_sext _ _ (by assumption)

theorem decomposeArith_head (defs : Defs) (v : Value) (c : Int) (o : Option Value)
    (V : Decomposition) (P : List PreconditionTy)
    (h : decomposeArith defs v = ((c, o) :: V, P)) :
    MinSignedConstraintValue < c ∧ c ≤ MaxConstraintValue ∧ o = none := by
  unfold decomposeArith at h
  simp only at h
  repeat' split at h
  all_goals
    simp only [Prod.mk.injEq, List.cons.injEq] at h
    obtain ⟨⟨⟨rfl, rfl⟩, _⟩, _⟩ := h
  all_goals first
    | exact ⟨zero_in_range.1, zero_in_range.2, rfl⟩
    | exact range_of_filter_zext _ _ _ _ (by assumption)
    | exact range_of_filter_neg_sext _ _ _ _ (by assumption)
    | exact ⟨(range_of_filter_sub _ _ _ _ (by assumption)).1,
        (range_of_filter_sub _ _ _ _ (by assumption)).2.1, rfl⟩

/-- The constant term of a decomposition lies strictly above the minimum
64-bit value and has no atom. -/
theorem decompose_head (defs : Defs) (v : Value) (sgn : Bool) (c : Int) (o : Option Value)
    (V : Decomposition) (P : List PreconditionTy)
    (h : decompose defs v sgn = ((c, o) :: V, P)) :
    MinSignedConstraintValue < c ∧ c ≤ MaxConstraintValue ∧ o = none := by
  unfold decompose at h
  split at h
  · split at h
    · split at h
      · simp only [Prod.mk.injEq, List.cons.injEq] at h
        obtain ⟨⟨⟨rfl, rfl⟩, _⟩, _⟩ := h
        refine ⟨(sext_range_of_canUse _ _ ?_).1, (sext_range_of_canUse _ _ ?_).2, rfl⟩ <;>
          assumption
      · simp only [Prod.mk.injEq, List.cons.injEq] at h
        obtain ⟨⟨⟨rfl, rfl⟩, _⟩, _⟩ := h
        exact ⟨zero_in_range.1, zero_in_range.2, rfl⟩
    · simp only [Prod.mk.injEq, List.cons.injEq] at h
      obtain ⟨⟨⟨rfl, rfl⟩, _⟩, _⟩ := h
      exact ⟨zero_in_range.1, zero_in_range.2, rfl⟩
  · split at h
    · split at h
      · simp at h
      · simp only [Prod.mk.injEq, List.cons.injEq] at h
        obtain ⟨⟨⟨rfl, rfl⟩, _⟩, _⟩ := h
        refine ⟨(zext_range_of_not_ugeMax _ _ (Bool.eq_false_iff.2 ?_)).1,
          (zext_range_of_not_ugeMax _ _ (Bool.eq_false_iff.2 ?_)).2, rfl⟩ <;> assumption
    · split at h
      · exact decomposeGEP_head defs _ _ c o V P h
      · exact decomposeArith_head defs _ c o V P h

/-- C14 (constant term): let the operands of a normalised predicate (`<` when
`strict`, else `<=`, in either domain) decompose with constant terms `a0`
(left) and `b0` (right).  The negation of `a0` does not wrap; if `b0 - a0`
and `b0 - a0 - s` both fit in 64 bits, `s` being 1 for `<` and 0 for `<=`, the
row is not empty and its entry of index 0 is the exact integer `b0 - a0 - s`;
otherwise the row is empty. -/
theorem constant_term_exact (Info : ConstraintInfo) (defs : Defs) (sgn strict : Bool)
    (X Y : Value) (NI : DenseMap) (a0 b0 : Int) (oa ob : Option Value)
    (VA VB : Decomposition) (PA PB : List PreconditionTy)
    (hX : decompose defs (stripPointerCastsSameRepresentation defs X) sgn = ((a0, oa) :: VA, PA))
    (hY : decompose defs (stripPointerCastsSameRepresentation defs Y) sgn =
      ((b0, ob) :: VB, PB)) :
    wrap64 (a0 * -1) = -a0 ∧
    (if fitsInt64 (b0 - a0) && fitsInt64 (b0 - a0 - (if strict then 1 else 0)) then
      (Info.getConstraint defs
          (if sgn then (if strict then .ICMP_SLT else .ICMP_SLE)
           else (if strict then .ICMP_ULT else .ICMP_ULE)) X Y NI).1.Coefficients.head? =
        some (b0 - a0 - (if strict then 1 else 0))
    else
      (Info.getConstraint defs
          (if sgn then (if strict then .ICMP_SLT else .ICMP_SLE)
           else (if strict then .ICMP_ULT else .ICMP_ULE)) X Y NI).1.Coefficients = []) := by
  have ha := decompose_head defs _ sgn a0 oa VA PA hX
  have hneg : wrap64 (a0 * -1) = -a0 := wrap64_neg_of_range a0 ha.1 ha.2.1
  refine ⟨hneg, ?_⟩
  rw [getConstraint_le_closed Info defs sgn strict X Y a0 b0 oa ob VA VB PA PB NI hX hY]
  have hsum : -a0 + b0 = b0 - a0 := by ring
  have hbody : ∀ k : Int, (updateAt
      (addCoefficients (Info.getValue2Index sgn)
        (addIndices (Info.getValue2Index sgn) (VA ++ VB) NI) (-1) VB
        (addCoefficients (Info.getValue2Index sgn)
          (addIndices (Info.getValue2Index sgn) (VA ++ VB) NI) 1 VA
          (List.replicate ((Info.getValue2Index sgn).length +
            (addIndices (Info.getValue2Index sgn) (VA ++ VB) NI).length + 1) 0)))
      0 (fun _ => k)).head? = some k := by
    intro k
    rw [updateAt_zero_eq]
    · rfl
    · intro h
      have := congrArg List.length h
      simp [addCoefficients_length] at this
  unfold leRow
  rw [hneg]
  simp only [AddOverflow, hsum]
  by_cases h1 : fitsInt64 (b0 - a0) = true
  · have h1' := (fitsInt64_iff _).1 h1
    have hw : wrap64 (b0 - a0) = b0 - a0 := wrap64_of_fits _ h1'.1 h1'.2
    cases strict
    · simp only [h1, Bool.not_true, Bool.false_eq_true, ↓reduceIte, Bool.false_and, sub_zero,
        Bool.and_self, hw]
      exact hbody _
    · by_cases h2 : fitsInt64 (b0 - a0 - 1) = true
      · have h2' := (fitsInt64_iff _).1 h2
        have hw2 : wrap64 (b0 - a0 + -1) = b0 - a0 - 1 := by
          rw [wrap64_of_fits] <;> omega
        have h3 : fitsInt64 (b0 - a0 + -1) = true := by
          rw [show b0 - a0 + -1 = b0 - a0 - 1 by ring]; exact h2
        simp only [h1, Bool.not_true, Bool.false_eq_true, ↓reduceIte, hw, h3, Bool.and_false,
          h2, Bool.and_self, hw2]
        exact hbody _
      · have h3 : fitsInt64 (b0 - a0 + -1) = false := by
          rw [show b0 - a0 + -1 = b0 - a0 - 1 by ring]; simpa using h2
        simp only [h1, Bool.not_true, Bool.false_eq_true, ↓reduceIte, hw, h3, Bool.not_false,
          Bool.and_self, h2, Bool.and_false]
  · have h1f : fitsInt64 (b0 - a0) = false := by simpa using h1
    simp only [h1f, Bool.not_false, ↓reduceIte, Bool.false_and, Bool.false_eq_true]

/-- Witness of `constant_term_exact`: the operands of `minOffsets`, with
constant terms `2^63 - 2` and `-2`; the `<=` row has the constant term
`-2^63`, and the `<` row is empty. -/
theorem constant_term_exact_witness :
    (({} : ConstraintInfo).getConstraint minOffsets .ICMP_ULE (.ref 2) (.ref 3)
      []).1.Coefficients.head? = some (-9223372036854775808) ∧
    (({} : ConstraintInfo).getConstraint minOffsets .ICMP_ULT (.ref 2) (.ref 3)
      []).1.Coefficients = [] := by
  have h1 := constant_term_exact {} minOffsets false false (.ref 2) (.ref 3) []
    9223372036854775806 (-2) none none [(1, some (.ref 0))] [(1, some (.ref 1))] [] []
    (by decide) (by decide)
  have h2 := constant_term_exact {} minOffsets false true (.ref 2) (.ref 3) []
    9223372036854775806 (-2) none none [(1, some (.ref 0))] [(1, some (.ref 1))] [] []
    (by decide) (by decide)
  exact ⟨by simpa [fitsInt64, MinSignedConstraintValue, MaxConstraintValue] using h1.2,
    by simpa [fitsInt64, MinSignedConstraintValue, MaxConstraintValue] using h2.2⟩

/-! ## C15: the decomposition of constants -/

/-- C15 as stated fails at the ends of the working range and beyond it: in the
unsigned domain the 64-bit constant `MaxConstraintValue` gives the empty
result; in the signed domain the 64-bit constants `MaxConstraintValue` and
`MinSignedConstraintValue`, and the 128-bit constant `2^100`, which lies
outside the range, are not refused but taken as atoms. -/
theorem constant_at_range_end :
    getZExtValue 64 9223372036854775807 = MaxConstraintValue ∧
    decompose [] (.constInt 64 9223372036854775807) false = ([], []) ∧
    getSExtValue 64 9223372036854775807 = MaxConstraintValue ∧
    decompose [] (.constInt 64 9223372036854775807) true =
      ([(0, none), (1, some (.constInt 64 9223372036854775807))], []) ∧
    getSExtValue 64 9223372036854775808 = MinSignedConstraintValue ∧
    decompose [] (.constInt 64 9223372036854775808) true =
      ([(0, none), (1, some (.constInt 64 9223372036854775808))], []) ∧
    MaxConstraintValue < getSExtValue 128 (2 ^ 100) ∧
    decompose [] (.constInt 128 (2 ^ 100)) true =
      ([(0, none), (1, some (.constInt 128 (2 ^ 100)))], []) := by
  decide

/-- C15, amended: in the signed domain an integer constant decomposes to
`[(c, null)]`, `c` its signed value, when `c` lies strictly between
`MinSignedConstraintValue` and `MaxConstraintValue`, and to the atom
`[(0, null), (1, constant)]` otherwise; in the unsigned domain it decomposes to
`[(c, null)]`, `c` its unsigned value, when `c` is below `MaxConstraintValue`,
and to the empty result otherwise.  No precondition is emitted. -/
theorem constant_decomposition (defs : Defs) (bits val : Nat) :
    decompose defs (.constInt bits val) true =
      (if MinSignedConstraintValue < getSExtValue bits val ∧
          getSExtValue bits val < MaxConstraintValue then
        ([(getSExtValue bits val, none)], [])
       else ([(0, none), (1, some (.constInt bits val))], [])) ∧
    decompose defs (.constInt bits val) false =
      (if getZExtValue bits val < MaxConstraintValue then
        ([(getZExtValue bits val, none)], [])
       else ([], [])) := by
  constructor
  · by_cases h : CanUseSExt bits val = true
    · have h2 := (canUseSExt_iff bits val).1 h
      simp [decompose, h, h2]
    · have h2 : ¬ (MinSignedConstraintValue < getSExtValue bits val ∧
          getSExtValue bits val < MaxConstraintValue) := fun hc =>
        h ((canUseSExt_iff bits val).2 hc)
      simp [decompose, h, h2]
  · by_cases h : getZExtValue bits val < MaxConstraintValue
    · have h2 : ugeMax bits val = false := by simp [ugeMax, h]
      simp [decompose, h, h2]
    · have h2 : ugeMax bits val = true := by
        simp only [ugeMax, decide_eq_true_eq]; omega
      simp [decompose, h, h2]

/-! ## C16: the shape of a decomposition -/

theorem decomposeGEP_shape (defs : Defs) (ptr idx : Value) :
    ∃ c V, (decomposeGEP defs ptr idx).1 = (c, none) :: V ∧ ∀ p ∈ V, p.2 ≠ none := by
  unfold decomposeGEP
  repeat' split
  all_goals exact ⟨_, _, rfl, by simp⟩

theorem decomposeArith_shape (defs : Defs) (v : Value) :
    ∃ c V, (decomposeArith defs v).1 = (c, none) :: V ∧ ∀ p ∈ V, p.2 ≠ none := by
  unfold decomposeArith
  simp only
  repeat' split
  all_goals exact ⟨_, _, rfl, by simp⟩

theorem decomposeArith_unrecognized (defs : Defs) (v : Value)
    (h : recognized defs v = false) :
    decomposeArith defs v = ([(0, none), (1, some v)], []) := by
  have hk : ∀ k, kindOf defs v = some k →
      (∀ a b c, k ≠ .gep a b c) ∧ (∀ a, k ≠ .zext a) ∧ (∀ a b c d, k ≠ .add a b c d) ∧
      (∀ a b c d, k ≠ .sub a b c d) := by
    intro k hk
    unfold recognized at h
    cases v <;> simp only [hk] at h <;> cases k <;> simp_all
  cases hkv : kindOf defs v with
  | none =>
    simp [decomposeArith, matchZExt, matchNUWAddConst, matchAddConst, matchNUWAdd,
      matchNUWSubConst, matchNUWSub, hkv, Option.filter]
  | some k =>
    have := hk k hkv
    cases k <;>
      simp_all [decomposeArith, matchZExt, matchNUWAddConst, matchAddConst, matchNUWAdd,
        matchNUWSubConst, matchNUWSub, Option.filter]

/-- C16 (shape and totality): for every value and domain the result of
`decompose` is empty exactly for an integer constant that is not below
`MaxConstraintValue` in the unsigned domain; a non-empty result starts with a
pair without atom and continues with pairs that have one; and a value
`decompose` does not look into gives `[(0, null), (1, value)]` and no
precondition. -/
theorem decomposition_shape (defs : Defs) (V : Value) (sgn : Bool) :
    ((decompose defs V sgn).1 = [] ↔
      sgn = false ∧ ∃ bits val, V = .constInt bits val ∧ ugeMax bits val = true) ∧
    (∀ c o rest, (decompose defs V sgn).1 = (c, o) :: rest →
      o = none ∧ ∀ p ∈ rest, p.2 ≠ none) ∧
    (recognized defs V = false → decompose defs V sgn = ([(0, none), (1, some V)], [])) := by
  have hshape : (sgn = false ∧ ∃ bits val, V = .constInt bits val ∧ ugeMax bits val = true ∧
        (decompose defs V sgn).1 = []) ∨
      (¬ (sgn = false ∧ ∃ bits val, V = .constInt bits val ∧ ugeMax bits val = true) ∧
        ∃ c rest, (decompose defs V sgn).1 = (c, none) :: rest ∧ ∀ p ∈ rest, p.2 ≠ none) := by
    cases sgn with
    | true =>
      right
      refine ⟨by simp, ?_⟩
      cases V with
      | constInt bits val =>
        by_cases hc : CanUseSExt bits val = true
        · exact ⟨getSExtValue bits val, [], by simp [decompose, hc], by simp⟩
        · exact ⟨0, [(1, some (.constInt bits val))], by simp [decompose, hc], by simp⟩
      | constNull => exact ⟨0, [(1, some .constNull)], by simp [decompose], by simp⟩
      | poison ty => exact ⟨0, [(1, some (.poison ty))], by simp [decompose], by simp⟩
      | ref id => exact ⟨0, [(1, some (.ref id))], by simp [decompose], by simp⟩
    | false =>
      have hrest : (∀ bits val, V ≠ .constInt bits val) →
          ∃ c rest, (decompose defs V false).1 = (c, none) :: rest ∧ ∀ p ∈ rest, p.2 ≠ none := by
        intro hV
        have hd : decompose defs V false =
            match matchInBoundsGEP defs V with
            | some (ptr, idx) => decomposeGEP defs ptr idx
            | none => decomposeArith defs V := by
          cases V with
          | constInt bits val => exact absurd rfl (hV bits val)
          | _ => simp [decompose]
        rw [hd]
        split
        · exact decomposeGEP_shape defs _ _
        · exact decomposeArith_shape defs V
      cases V with
      | constInt bits val =>
        by_cases hu : ugeMax bits val = true
        · left
          exact ⟨rfl, bits, val, rfl, hu, by simp [decompose, hu]⟩
        · right
          refine ⟨?_, getZExtValue bits val, [], by simp [decompose, hu], by simp⟩
          rintro ⟨_, b, v, hbv, hb⟩
          simp only [Value.constInt.injEq] at hbv
          rw [← hbv.1, ← hbv.2] at hb
          exact hu hb
      | constNull => exact Or.inr ⟨by simp, hrest (by simp)⟩
      | poison ty => exact Or.inr ⟨by simp, hrest (by simp)⟩
      | ref id => exact Or.inr ⟨by simp, hrest (by simp)⟩
  refine ⟨?_, ?_, ?_⟩
  · rcases hshape with ⟨h1, b, v, h2, h3, h4⟩ | ⟨h1, c, rest, h2, _⟩
    · exact ⟨fun _ => ⟨h1, b, v, h2, h3⟩, fun _ => h4⟩
    · constructor
      · intro h; rw [h2] at h; simp at h
      · intro h; exact absurd h h1
  · intro c o rest h
    rcases hshape with ⟨_, _, _, _, _, h4⟩ | ⟨_, c2, rest2, h2, h3⟩
    · rw [h4] at h; simp at h
    · rw [h2] at h
      simp only [List.cons.injEq, Prod.mk.injEq] at h
      obtain ⟨⟨_, rfl⟩, rfl⟩ := h
      exact ⟨rfl, h3⟩
  · intro hr
    cases sgn with
    | true =>
      cases V with
      | constInt bits val => simp [recognized] at hr
      | _ => simp [decompose]
    | false =>
      cases V with
      | constInt bits val => simp [recognized] at hr
      | constNull =>
        have hg : matchInBoundsGEP defs .constNull = none := by
          simp [matchInBoundsGEP, kindOf]
        simp only [decompose, Bool.false_eq_true, ↓reduceIte, hg]
        exact decomposeArith_unrecognized defs _ hr
      | poison ty =>
        have hg : matchInBoundsGEP defs (.poison ty) = none := by
          simp [matchInBoundsGEP, kindOf]
        simp only [decompose, Bool.false_eq_true, ↓reduceIte, hg]
        exact decomposeArith_unrecognized defs _ hr
      | ref id =>
        have hg : matchInBoundsGEP defs (.ref id) = none := by
          unfold recognized at hr
          simp only at hr
          unfold matchInBoundsGEP
          split
          · rename_i h
            rw [h] at hr
            simp at hr
          · rfl
        simp only [decompose, Bool.false_eq_true, ↓reduceIte, hg]
        exact decomposeArith_unrecognized defs _ hr

/-! ## C17: the value of a decomposition -/

/-- C17 fails on the code: the unsigned decomposition of
`%1 = sub nuw i8 %0, 200` is `56 + %0`, without precondition; for `%0 = 250`
the subtraction is not poison and has the value 50, while the decomposition
sums to 306. -/
theorem sub_nuw_decomposition_value_off :
    decompose subNuwCompare.defs (.ref 1) false = ([(56, none), (1, some (.ref 0))], []) ∧
    evalInt subNuwCompare.defs (fun _ => 250) 1 (.ref 0) = some 250 ∧
    evalInt subNuwCompare.defs (fun _ => 250) 2 (.ref 1) = some 50 ∧
    (56 : Int) + 1 * 250 ≠ 50 := by
  decide

/-! ## C18: zero-extension -/

/-- C18 as stated fails: the decomposition of `zext i8 7 to i32` is the atom
`7`, not the constant term 7; and the decomposition of a zero-extension of a
zero-extension is the inner zero-extension as an atom, while the inner one
decomposes to its own operand. -/
theorem zext_of_constant_or_zext :
    kindOf zextChain (.ref 3) = some (.zext (.constInt 8 7)) ∧
    decompose zextChain (.ref 3) false = ([(0, none), (1, some (.constInt 8 7))], []) ∧
    decompose zextChain (.constInt 8 7) false = ([(7, none)], []) ∧
    kindOf zextChain (.ref 2) = some (.zext (.ref 1)) ∧
    decompose zextChain (.ref 2) false = ([(0, none), (1, some (.ref 1))], []) ∧
    decompose zextChain (.ref 1) false = ([(0, none), (1, some (.ref 0))], []) := by
  decide

/-- C18, amended: in the unsigned domain, for every value `x` that is not an
integer constant, not an in-bounds GEP of one index and not itself a
zero-extension, `decompose(zext x)` returns the pairs and the preconditions of
`decompose(x)`. -/
theorem zext_transparent (defs : Defs) (z x : Value)
    (hz : kindOf defs z = some (.zext x))
    (hc : ∀ bits val, x ≠ .constInt bits val)
    (hg : matchInBoundsGEP defs x = none)
    (hx : matchZExt defs x = none) :
    decompose defs z false = decompose defs x false := by
  have hzg : matchInBoundsGEP defs z = none := by simp [matchInBoundsGEP, hz]
  have hzz : matchZExt defs z = some x := by simp [matchZExt, hz]
  have hzc : ∀ bits val, z ≠ .constInt bits val := by
    intro bits val h
    rw [h] at hz
    simp [kindOf] at hz
  have hdz : decompose defs z false = decomposeArith defs z := by
    cases z with
    | constInt bits val => exact absurd rfl (hzc bits val)
    | _ => simp [decompose, hzg]
  have hdx : decompose defs x false = decomposeArith defs x := by
    cases x with
    | constInt bits val => exact absurd rfl (hc bits val)
    | _ => simp [decompose, hg]
  rw [hdz, hdx]
  simp only [decomposeArith, hzz, hx, Option.getD_some, Option.getD_none]

/-- Witness of `zext_transparent`: `%5 = zext i8 %4 to i32` with
`%4 = add nuw i8 %0, 3`. -/
theorem zext_transparent_witness :
    decompose zextChain (.ref 5) false = decompose zextChain (.ref 4) false ∧
    decompose zextChain (.ref 4) false = ([(3, none), (1, some (.ref 0))], []) :=
  ⟨zext_transparent zextChain (.ref 5) (.ref 4) (by decide) (by intro b v h; cases h)
    (by decide) (by decide), by decide⟩

/-! ## C19: the query `doesHold` -/

theorem addIndices_ne_nil_of_unknown (T : DenseMap) (V : Decomposition) (c : Int) (w : Value)
    (hw : (c, some w) ∈ V) (hf : T.find w = none) : addIndices T V [] ≠ [] := by
  have hk := addIndices_known T V [] w (Or.inr ⟨c, hw⟩)
  intro h
  rw [h] at hk
  rcases hk with hk | hk
  · exact hk hf
  · exact hk rfl

/-- C19 (`doesHold`): the query is a function of the store, which it does not
change (the method is `const`); it answers true exactly when the row needs no
new index, is not empty, has no precondition, is not an equality, and the
engine of the predicate's domain reports it implied.  In particular it answers
false, whatever the engine says, when a variable of the decomposition of
either operand (in the order the normalised predicate takes them) is not in
the atom table of that domain. -/
theorem doesHold_characterization (O : Oracle) (Info : ConstraintInfo) (defs : Defs)
    (P : Predicate) (A B : Value) :
    (Info.doesHold O defs P A B = true ↔
      (Info.getConstraint defs P A B []).2 = [] ∧
      (Info.getConstraint defs P A B []).1.Coefficients ≠ [] ∧
      (Info.getConstraint defs P A B []).1.Preconditions = [] ∧
      (Info.getConstraint defs P A B []).1.IsEq = false ∧
      O.isConditionImplied (Info.getCS P.isSigned)
        (Info.getConstraint defs P A B []).1.Coefficients = true) ∧
    (∀ (Q : Predicate) (X Y : Value) (e : Bool) (c : Int) (w : Value),
      normalizePredicate P A B = some (Q, X, Y, e) →
      (c, some w) ∈
        (decompose defs (stripPointerCastsSameRepresentation defs X) Q.isSigned).1.tail ++
        (decompose defs (stripPointerCastsSameRepresentation defs Y) Q.isSigned).1.tail →
      (Info.getValue2Index Q.isSigned).find w = none →
      Info.doesHold O defs P A B = false) := by
  have hchar : Info.doesHold O defs P A B = true ↔
      (Info.getConstraint defs P A B []).2 = [] ∧
      (Info.getConstraint defs P A B []).1.Coefficients ≠ [] ∧
      (Info.getConstraint defs P A B []).1.Preconditions = [] ∧
      (Info.getConstraint defs P A B []).1.IsEq = false ∧
      O.isConditionImplied (Info.getCS P.isSigned)
        (Info.getConstraint defs P A B []).1.Coefficients = true := by
    unfold ConstraintInfo.doesHold
    simp only
    rcases (Info.getConstraint defs P A B []) with ⟨R, NI⟩
    cases NI with
    | nil =>
      simp only [List.isEmpty_nil, Bool.not_true, Bool.false_eq_true, ↓reduceIte,
        ConstraintTy.empty, Bool.true_and, Bool.and_eq_true, List.isEmpty_eq_true,
        Bool.not_eq_true', true_and]
      cases hI : R.IsEq <;> cases hC : R.Coefficients <;> simp
    | cons kv rest => simp
  refine ⟨hchar, ?_⟩
  intro Q X Y e c w hn hw hf
  have hrow : (Info.getConstraint defs P A B []).2 ≠ [] ∨
      (Info.getConstraint defs P A B []).1.Coefficients = [] := by
    unfold ConstraintInfo.getConstraint
    rw [hn]
    simp only
    split
    · exact Or.inr rfl
    · rcases hX : decompose defs (stripPointerCastsSameRepresentation defs X) Q.isSigned with
        ⟨_ | ⟨⟨a0, oa⟩, VA⟩, PA⟩
      · exact Or.inr rfl
      · rcases hY : decompose defs (stripPointerCastsSameRepresentation defs Y) Q.isSigned with
          ⟨_ | ⟨⟨b0, ob⟩, VB⟩, PB⟩
        · exact Or.inr rfl
        · rw [hX, hY] at hw
          simp only [List.tail_cons] at hw
          have hne := addIndices_ne_nil_of_unknown (Info.getValue2Index Q.isSigned) (VA ++ VB)
            c w hw hf
          simp only
          repeat' split
          all_goals exact Or.inl hne
  cases hd : Info.doesHold O defs P A B with
  | false => rfl
  | true =>
    have := hchar.1 hd
    rcases hrow with h | h
    · exact absurd this.1 h
    · exact absurd h this.2.1

/-! ## C20: `addFact` when nothing is added -/

theorem setCS_getCS (Info : ConstraintInfo) (sgn : Bool) :
    Info.setCS sgn (Info.getCS sgn) = Info := by
  cases sgn <;> rfl

/-- C20 (atomicity of `addFact`): if the row `addFact` builds is not valid (it
is empty, or `doesHold` is false for one of its preconditions), or if it is
valid but the engine reports that adding it changed nothing, then `addFact`
returns the store (both atom tables, both systems) and the scope stack as they
were: no atom is committed and no frame is pushed. -/
theorem addFact_atomicity (O : Oracle) (Info : ConstraintInfo) (defs : Defs) (P : Predicate)
    (A B : Value) (IsNegated : Bool) (NumIn NumOut : Nat) (st : List StackEntry)
    (h : (Info.getConstraint defs P A B []).1.isValid O Info defs = false ∨
      O.addsRow (Info.getCS (Info.getConstraint defs P A B []).1.IsSigned)
        (Info.getConstraint defs P A B []).1.Coefficients = false) :
    Info.addFact O defs P A B IsNegated NumIn NumOut st = (Info, st) := by
  unfold ConstraintInfo.addFact
  simp only
  rcases h with h | h
  · simp [h]
  · split
    · rfl
    · split
      · rfl
      · simp only [addVariableRowFill, h, Bool.false_eq_true, ↓reduceIte, setCS_getCS]

/-- Witness of `addFact_atomicity`: the row of `%2 u< %1` with
`%2 = add i8 %0, -1` has the precondition `%0 u>= 1`, which does not hold in
the empty store; and the row of `%0 u<= %0` has no variable, so that the
engine `syntacticOracle` does not take it. -/
theorem addFact_atomicity_witness :
    (({} : ConstraintInfo).getConstraint minusOne .ICMP_ULT (.ref 2) (.ref 1) []).1 =
      { Coefficients := [0, 1, -1],
        Preconditions := [⟨.ICMP_UGE, .ref 0, .constInt 8 1⟩],
        IsSigned := false, IsEq := false } ∧
    ({} : ConstraintInfo).addFact syntacticOracle minusOne .ICMP_ULT (.ref 2) (.ref 1)
      false 0 1 [] = ({}, []) ∧
    (({} : ConstraintInfo).getConstraint minusOne .ICMP_ULE (.ref 0) (.ref 0) []) =
      ({ Coefficients := [0, 0], Preconditions := [], IsSigned := false, IsEq := false },
        [(.ref 0, 1)]) ∧
    ({} : ConstraintInfo).addFact syntacticOracle minusOne .ICMP_ULE (.ref 0) (.ref 0)
      false 0 1 [] = ({}, []) :=
  ⟨by decide,
   addFact_atomicity syntacticOracle {} minusOne .ICMP_ULT (.ref 2) (.ref 1) false 0 1 []
     (Or.inl (by decide)),
   by decide,
   addFact_atomicity syntacticOracle {} minusOne .ICMP_ULE (.ref 0) (.ref 0) false 0 1 []
     (Or.inr (by decide))⟩

/-! ## C21: `addFact` when the row is taken -/

theorem find_of_mem_nodup (T : DenseMap) (v : Value) (i : Nat) (h : (v, i) ∈ T)
    (hnd : (T.map (·.1)).Nodup) : T.find v = some i := by
  induction T with
  | nil => cases h
  | cons p rest ih =>
    obtain ⟨k, j⟩ := p
    simp only [List.map_cons, List.nodup_cons] at hnd
    rcases List.mem_cons.1 h with h | h
    · cases h
      simp [DenseMap.find]
    · have hne : k ≠ v := by
        intro hk
        apply hnd.1
        rw [hk]
        exact List.mem_map_of_mem (·.1) h
      simp only [DenseMap.find, hne, ↓reduceIte]
      exact ih h hnd.2

/-- The result of `getConstraint` is the empty row or a row in closed form. -/
theorem getConstraint_shape (Info : ConstraintInfo) (defs : Defs) (P : Predicate)
    (A B : Value) (NI : DenseMap) :
    (Info.getConstraint defs P A B NI).1.Coefficients = [] ∨
    ∃ sgn strict e a0 b0 VA VB Pre,
      Info.getConstraint defs P A B NI = leRow Info sgn strict e a0 b0 VA VB Pre NI := by
  rcases hn : normalizePredicate P A B with _ | ⟨Q, X, Y, e⟩
  · left
    simp [ConstraintInfo.getConstraint, hn]
  · rcases hA : decompose defs (stripPointerCastsSameRepresentation defs X) Q.isSigned with
      ⟨_ | ⟨⟨a0, oa⟩, VA⟩, PA⟩
    · left
      simp only [ConstraintInfo.getConstraint, hn, hA]
      split <;> rfl
    · rcases hB : decompose defs (stripPointerCastsSameRepresentation defs Y) Q.isSigned with
        ⟨_ | ⟨⟨b0, ob⟩, VB⟩, PB⟩
      · left
        simp only [ConstraintInfo.getConstraint, hn, hA, hB]
        split <;> rfl
      · by_cases hQ : Q ≠ .ICMP_ULE ∧ Q ≠ .ICMP_ULT ∧ Q ≠ .ICMP_SLE ∧ Q ≠ .ICMP_SLT
        · left
          simp only [ConstraintInfo.getConstraint, hn]
          rw [if_pos hQ]
        · right
          refine ⟨Q.isSigned, decide (Q = (if Q.isSigned then .ICMP_SLT else .ICMP_ULT)), e,
            a0, b0, VA, VB, PA ++ PB, ?_⟩
          simp only [ConstraintInfo.getConstraint, hn]
          rw [if_neg hQ]
          simp only [hA, hB, leRow]

theorem leRow_fresh (Info : ConstraintInfo) (sgn strict e : Bool) (a0 b0 : Int)
    (VA VB : Decomposition) (Pre : List PreconditionTy)
    (h : (leRow Info sgn strict e a0 b0 VA VB Pre []).1.Coefficients ≠ []) :
    (leRow Info sgn strict e a0 b0 VA VB Pre []).1.IsSigned = sgn ∧
    NewIndicesFresh (Info.getValue2Index sgn) (leRow Info sgn strict e a0 b0 VA VB Pre []).2 := by
  have hf : NewIndicesFresh (Info.getValue2Index sgn)
      (addIndices (Info.getValue2Index sgn) (VA ++ VB) []) :=
    addIndices_fresh _ _ [] ⟨by simp, by simp⟩
  unfold leRow at h ⊢
  split_ifs at h ⊢
  all_goals first
    | exact absurd rfl h
    | exact ⟨rfl, hf⟩

/-- The new indices `getConstraint` returns with a row that is not empty are
for values the atom table of the row's domain does not know, one entry for
each. -/
theorem getConstraint_fresh (Info : ConstraintInfo) (defs : Defs) (P : Predicate)
    (A B : Value)
    (h : (Info.getConstraint defs P A B []).1.Coefficients ≠ []) :
    NewIndicesFresh (Info.getValue2Index (Info.getConstraint defs P A B []).1.IsSigned)
      (Info.getConstraint defs P A B []).2 := by
  rcases getConstraint_shape Info defs P A B [] with h0 | ⟨sgn, strict, e, a0, b0, VA, VB, Pre, hr⟩
  · exact absurd h0 h
  · rw [hr] at h ⊢
    obtain ⟨h1, h2⟩ := leRow_fresh Info sgn strict e a0 b0 VA VB Pre h
    rw [h1]
    exact h2

/-- What `addFact` does with a valid row that is not an equality, when the
engine takes it. -/
theorem addFact_of_valid_row (O : Oracle) (Info : ConstraintInfo) (defs : Defs) (P : Predicate)
    (A B : Value) (IsNegated : Bool) (NumIn NumOut : Nat) (st : List StackEntry)
    (R : ConstraintTy) (NI : DenseMap)
    (hr : Info.getConstraint defs P A B [] = (R, NI))
    (hvalid : R.isValid O Info defs = true) (heq : R.IsEq = false)
    (hadds : O.addsRow (Info.getCS R.IsSigned) R.Coefficients = true) :
    Info.addFact O defs P A B IsNegated NumIn NumOut st =
      ((Info.setCS R.IsSigned
          ((Info.getCS R.IsSigned).map
            (fun row => row ++ List.replicate (R.Coefficients.length - row.length) 0) ++
            [R.Coefficients])).setValue2Index R.IsSigned
          (insertAll (Info.getValue2Index R.IsSigned) NI),
        ⟨NumIn, NumOut, IsNegated, R.IsSigned, NI.map (·.1)⟩ :: st) := by
  have hne : R.Coefficients ≠ [] := by
    intro h
    simp [ConstraintTy.isValid, h] at hvalid
  obtain ⟨Co, Pre, Sg, Eqf⟩ := R
  simp only at hne heq hadds
  subst heq
  simp only [ConstraintInfo.addFact, hr, hvalid, Bool.not_true, Bool.false_eq_true, ↓reduceIte,
    List.isEmpty_eq_true, hne, addVariableRowFill, hadds]
  cases Sg <;> rfl

/-- C21 (acceptance by `addFact`): when the row is valid, is not an equality and
the engine reports the insertion, `addFact` appends the row, and only it, to
the system of the row's domain (the rows held before are filled with zeros to
its width); the atom table of that domain becomes the old table followed by
the entries of the new-index table, so that every new value is found under
the index it has in the row and every old value under its old index; one
frame is pushed, with the given interval and negation flag, the row's domain
and the new values as the values to release; and the table and the system of
the other domain are as they were. -/
theorem addFact_acceptance (O : Oracle) (Info : ConstraintInfo) (defs : Defs) (P : Predicate)
    (A B : Value) (IsNegated : Bool) (NumIn NumOut : Nat) (st : List StackEntry)
    (hvalid : (Info.getConstraint defs P A B []).1.isValid O Info defs = true)
    (heq : (Info.getConstraint defs P A B []).1.IsEq = false)
    (hadds : O.addsRow (Info.getCS (Info.getConstraint defs P A B []).1.IsSigned)
      (Info.getConstraint defs P A B []).1.Coefficients = true) :
    (Info.addFact O defs P A B IsNegated NumIn NumOut st).1.getCS
        (Info.getConstraint defs P A B []).1.IsSigned =
      (Info.getCS (Info.getConstraint defs P A B []).1.IsSigned).map
          (fun row => row ++ List.replicate
            ((Info.getConstraint defs P A B []).1.Coefficients.length - row.length) 0) ++
        [(Info.getConstraint defs P A B []).1.Coefficients] ∧
    (Info.addFact O defs P A B IsNegated NumIn NumOut st).1.getValue2Index
        (Info.getConstraint defs P A B []).1.IsSigned =
      Info.getValue2Index (Info.getConstraint defs P A B []).1.IsSigned ++
        (Info.getConstraint defs P A B []).2 ∧
    (∀ v i, (v, i) ∈ (Info.getConstraint defs P A B []).2 →
      (Info.getValue2Index (Info.getConstraint defs P A B []).1.IsSigned).find v = none ∧
      (GetOrAddIndex (Info.getValue2Index (Info.getConstraint defs P A B []).1.IsSigned)
        (Info.getConstraint defs P A B []).2 v).1 = i ∧
      ((Info.addFact O defs P A B IsNegated NumIn NumOut st).1.getValue2Index
        (Info.getConstraint defs P A B []).1.IsSigned).find v = some i) ∧
    (∀ v i, (Info.getValue2Index (Info.getConstraint defs P A B []).1.IsSigned).find v = some i →
      ((Info.addFact O defs P A B IsNegated NumIn NumOut st).1.getValue2Index
        (Info.getConstraint defs P A B []).1.IsSigned).find v = some i) ∧
    (Info.addFact O defs P A B IsNegated NumIn NumOut st).2 =
      ⟨NumIn, NumOut, IsNegated, (Info.getConstraint defs P A B []).1.IsSigned,
        (Info.getConstraint defs P A B []).2.map (·.1)⟩ :: st ∧
    (Info.addFact O defs P A B IsNegated NumIn NumOut st).1.getCS
        (!(Info.getConstraint defs P A B []).1.IsSigned) =
      Info.getCS (!(Info.getConstraint defs P A B []).1.IsSigned) ∧
    (Info.addFact O defs P A B IsNegated NumIn NumOut st).1.getValue2Index
        (!(Info.getConstraint defs P A B []).1.IsSigned) =
      Info.getValue2Index (!(Info.getConstraint defs P A B []).1.IsSigned) := by
  have hne : (Info.getConstraint defs P A B []).1.Coefficients ≠ [] := by
    intro h
    simp [ConstraintTy.isValid, h] at hvalid
  have hfresh := getConstraint_fresh Info defs P A B hne
  generalize hr : Info.getConstraint defs P A B [] = r at *
  obtain ⟨R, NI⟩ := r
  rw [addFact_of_valid_row O Info defs P A B IsNegated NumIn NumOut st R NI hr hvalid heq hadds]
  obtain ⟨C, Pre, s, Eqf⟩ := R
  simp only at hfresh hne heq hadds ⊢
  have hT : insertAll (Info.getValue2Index s) NI = Info.getValue2Index s ++ NI :=
    insertAll_fresh _ _ hfresh
  have hget : ((Info.setCS s ((Info.getCS s).map
        (fun row => row ++ List.replicate (C.length - row.length) 0) ++ [C])).setValue2Index s
        (insertAll (Info.getValue2Index s) NI)).getValue2Index s =
      Info.getValue2Index s ++ NI := by
    rw [hT]
    cases s <;> rfl
  refine ⟨by cases s <;> rfl, hget, ?_, ?_, trivial, by cases s <;> rfl, by cases s <;> rfl⟩
  · intro v i hvi
    have h1 : (Info.getValue2Index s).find v = none := hfresh.1 (v, i) hvi
    have h2 : NI.find v = some i := find_of_mem_nodup NI v i hvi hfresh.2
    refine ⟨h1, ?_, ?_⟩
    · simp [GetOrAddIndex, h1, h2]
    · rw [hget, find_append, h1]
      simpa using h2
  · intro v i hvi
    rw [hget, find_append, hvi]

/-- Witness of `addFact_acceptance`: the fact `%0 u< %1` on the store that
knows `%0` in the signed domain only. -/
theorem addFact_acceptance_witness :
    nonNegativeStore.getConstraint twoArguments .ICMP_ULT (.ref 0) (.ref 1) [] =
      (⟨[-1, 1, -1], [], false, false⟩, [(.ref 0, 1), (.ref 1, 2)]) ∧
    nonNegativeStore.addFact syntacticOracle twoArguments .ICMP_ULT (.ref 0) (.ref 1) true 3 4 [] =
      ({ nonNegativeStore with
          UnsignedValue2Index := [(.ref 0, 1), (.ref 1, 2)], UnsignedCS := [[-1, 1, -1]] },
        [⟨3, 4, true, false, [.ref 0, .ref 1]⟩]) ∧
    (nonNegativeStore.addFact syntacticOracle twoArguments .ICMP_ULT (.ref 0) (.ref 1) true 3 4
        []).2 =
      [⟨3, 4, true,
        (nonNegativeStore.getConstraint twoArguments .ICMP_ULT (.ref 0) (.ref 1) []).1.IsSigned,
        (nonNegativeStore.getConstraint twoArguments .ICMP_ULT (.ref 0) (.ref 1) []).2.map
          (·.1)⟩] :=
  ⟨by decide, by decide,
   (addFact_acceptance syntacticOracle nonNegativeStore twoArguments .ICMP_ULT (.ref 0) (.ref 1)
      true 3 4 [] (by decide) (by decide) (by decide)).2.2.2.2.1⟩

/-! ## C22: `addFact` with an equality -/

/-- What `addFact` does with a valid equality row when the engine takes the
row: two frames are pushed for the entry's interval, the first with the new
values, the second with none; the new indices are committed; and the engine is
given a second row, each coefficient of the first multiplied by -1 in 64
bits. -/
theorem addFact_of_valid_eq_row (O : Oracle) (Info : ConstraintInfo) (defs : Defs)
    (P : Predicate) (A B : Value) (IsNegated : Bool) (NumIn NumOut : Nat)
    (st : List StackEntry) (R : ConstraintTy) (NI : DenseMap)
    (hr : Info.getConstraint defs P A B [] = (R, NI))
    (hvalid : R.isValid O Info defs = true) (heq : R.IsEq = true)
    (hadds : O.addsRow (Info.getCS R.IsSigned) R.Coefficients = true) :
    Info.addFact O defs P A B IsNegated NumIn NumOut st =
      ((Info.setCS R.IsSigned
          (addVariableRowFill O
            ((Info.getCS R.IsSigned).map
                (fun row => row ++ List.replicate (R.Coefficients.length - row.length) 0) ++
              [R.Coefficients])
            (R.Coefficients.map (fun c => wrap64 (c * -1)))).2).setValue2Index R.IsSigned
        (insertAll (Info.getValue2Index R.IsSigned) NI),
       ⟨NumIn, NumOut, IsNegated, R.IsSigned, []⟩ ::
         ⟨NumIn, NumOut, IsNegated, R.IsSigned, NI.map (·.1)⟩ :: st) := by
  have hne : R.Coefficients ≠ [] := by
    intro h
    simp [ConstraintTy.isValid, h] at hvalid
  obtain ⟨Co, Pre, Sg, Eqf⟩ := R
  simp only at hne heq hadds
  subst heq
  cases Sg
  · simp only [ConstraintInfo.getCS, Bool.false_eq_true, ↓reduceIte] at hadds
    simp only [ConstraintInfo.addFact, hr, hvalid, Bool.not_true, Bool.false_eq_true, ↓reduceIte,
      List.isEmpty_eq_true, hne, addVariableRowFill, hadds, ConstraintInfo.getCS,
      ConstraintInfo.setCS, ConstraintInfo.setValue2Index, ConstraintInfo.getValue2Index]
  · simp only [ConstraintInfo.getCS, ↓reduceIte] at hadds
    simp only [ConstraintInfo.addFact, hr, hvalid, Bool.not_true, Bool.false_eq_true, ↓reduceIte,
      List.isEmpty_eq_true, hne, addVariableRowFill, hadds, ConstraintInfo.getCS,
      ConstraintInfo.setCS, ConstraintInfo.setValue2Index, ConstraintInfo.getValue2Index]

/-- Multiplying the coefficients by -1 in 64 bits negates each of them, as
long as none is the minimum 64-bit value. -/
theorem inverse_row_exact (C : List Int)
    (h : ∀ c ∈ C, MinSignedConstraintValue < c ∧ c ≤ MaxConstraintValue) :
    C.map (fun c => wrap64 (c * -1)) = C.map (fun c => -c) := by
  apply List.map_congr_left
  intro c hc
  obtain ⟨h1, h2⟩ := h c hc
  simp only [MinSignedConstraintValue, MaxConstraintValue] at h1 h2
  unfold wrap64
  omega

/-- C22 fails on the code: the row of
`add nuw i64 %0, 9223372036854775806 == sub nuw i64 %1, 2` is
`[-2^63, 1, -1]`, valid and taken by the engine; the second row `addFact`
inserts is `[-2^63, -1, 1]`, whose constant term is that of the first row and
not its negation `2^63`.  The two frames are pushed as the claim says. -/
theorem equality_second_row_not_negated :
    ({} : ConstraintInfo).getConstraint minOffsets .ICMP_EQ (.ref 2) (.ref 3) [] =
      (⟨[-9223372036854775808, 1, -1], [], false, true⟩, [(.ref 0, 1), (.ref 1, 2)]) ∧
    ({} : ConstraintInfo).addFact syntacticOracle minOffsets .ICMP_EQ (.ref 2) (.ref 3)
        false 0 1 [] =
      ({ UnsignedValue2Index := [(.ref 0, 1), (.ref 1, 2)],
         UnsignedCS := [[-9223372036854775808, 1, -1], [-9223372036854775808, -1, 1]] },
       [⟨0, 1, false, false, []⟩, ⟨0, 1, false, false, [.ref 0, .ref 1]⟩]) ∧
    [-9223372036854775808, -1, 1] ≠ [-9223372036854775808, 1, -1].map (fun c : Int => -c) := by
  refine ⟨by decide, by decide, by decide⟩

/-- Apart from that overflow the second row is the negation of the first: for
a valid equality row with all coefficients above the minimum 64-bit value, which
the engine takes together with its inverse, `addFact` leaves the system of the
row's domain with the row and its exact negation appended, and pushes a second
frame that has the interval, domain and negation flag of the first and no
value to release. -/
theorem addFact_equality_rows (O : Oracle) (Info : ConstraintInfo) (defs : Defs)
    (P : Predicate) (A B : Value) (IsNegated : Bool) (NumIn NumOut : Nat)
    (st : List StackEntry) (R : ConstraintTy) (NI : DenseMap)
    (hr : Info.getConstraint defs P A B [] = (R, NI))
    (hvalid : R.isValid O Info defs = true) (heq : R.IsEq = true)
    (hadds : O.addsRow (Info.getCS R.IsSigned) R.Coefficients = true)
    (hrange : ∀ c ∈ R.Coefficients, MinSignedConstraintValue < c ∧ c ≤ MaxConstraintValue)
    (hadds2 : O.addsRow
      ((Info.getCS R.IsSigned).map
          (fun row => row ++ List.replicate (R.Coefficients.length - row.length) 0) ++
        [R.Coefficients])
      (R.Coefficients.map (fun c => -c)) = true) :
    (Info.addFact O defs P A B IsNegated NumIn NumOut st).1.getCS R.IsSigned =
      (Info.getCS R.IsSigned).map
          (fun row => row ++ List.replicate (R.Coefficients.length - row.length) 0) ++
        [R.Coefficients, R.Coefficients.map (fun c => -c)] ∧
    (Info.addFact O defs P A B IsNegated NumIn NumOut st).2 =
      ⟨NumIn, NumOut, IsNegated, R.IsSigned, []⟩ ::
        ⟨NumIn, NumOut, IsNegated, R.IsSigned, NI.map (·.1)⟩ :: st := by
  rw [addFact_of_valid_eq_row O Info defs P A B IsNegated NumIn NumOut st R NI hr hvalid heq
    hadds, inverse_row_exact _ hrange]
  refine ⟨?_, rfl⟩
  simp only [addVariableRowFill, hadds2, ↓reduceIte]
  have hpad : ∀ rows : List (List Int), (rows.map
        (fun row => row ++ List.replicate (R.Coefficients.length - row.length) 0) ++
        [R.Coefficients]).map
        (fun row => row ++ List.replicate
          ((R.Coefficients.map (fun c => -c)).length - row.length) 0) =
      rows.map (fun row => row ++ List.replicate (R.Coefficients.length - row.length) 0) ++
        [R.Coefficients] := by
    intro rows
    simp only [List.map_append, List.map_map, List.length_map, List.map_cons, List.map_nil,
      Nat.sub_self, List.replicate_zero, List.append_nil]
    congr 1
    apply List.map_congr_left
    intro row _
    simp only [Function.comp, List.length_append, List.length_replicate, List.append_assoc]
    have : R.Coefficients.length - (row.length + (R.Coefficients.length - row.length)) = 0 := by
      omega
    rw [this]
    simp
  cases hs : R.IsSigned <;>
    simp only [ConstraintInfo.getCS, ConstraintInfo.setCS, ConstraintInfo.setValue2Index,
      Bool.false_eq_true, ↓reduceIte, hpad, List.append_assoc, List.singleton_append]

/-! ## C23: transfer of a signed `>` and `>=` -/

/-- C23 (transfer of signed `>` and `>=`): for an integer-typed left operand,
`transferToOtherSystem(SGT, A, B, …)` is `addFact(UGE, A, 0, …)` when
`doesHold(SGE, B, -1)` is true, and `transferToOtherSystem(SGE, A, B, …)` is
`addFact(UGE, A, B, …)` when `doesHold(SGE, B, 0)` is true, each with the
caller's negation flag and interval; when the query is false, store and stack
are returned as they were. -/
theorem transfer_sgt_sge (O : Oracle) (Info : ConstraintInfo) (defs : Defs)
    (A B : Value) (IsNegated : Bool) (NumIn NumOut : Nat) (DFSInStack : List StackEntry)
    (hty : isIntegerTy (getType defs A) = true) :
    Info.transferToOtherSystem O defs .ICMP_SGT A B IsNegated NumIn NumOut DFSInStack =
      (if Info.doesHold O defs .ICMP_SGE B (ConstantInt.get (getType defs B) (-1)) then
        Info.addFact O defs .ICMP_UGE A (ConstantInt.get (getType defs B) 0)
          IsNegated NumIn NumOut DFSInStack
       else (Info, DFSInStack)) ∧
    Info.transferToOtherSystem O defs .ICMP_SGE A B IsNegated NumIn NumOut DFSInStack =
      (if Info.doesHold O defs .ICMP_SGE B (ConstantInt.get (getType defs B) 0) then
        Info.addFact O defs .ICMP_UGE A B IsNegated NumIn NumOut DFSInStack
       else (Info, DFSInStack)) := by
  constructor <;> simp [ConstraintInfo.transferToOtherSystem, hty]

/-- Witness of `transfer_sgt_sge`: with `%0 s>= 0` in the store, the fact
`%1 s>= %0` puts the row of `%1 u>= %0` into the unsigned system, and the fact
`%1 s> %0` adds nothing, `%0 s>= -1` not being held. -/
theorem transfer_sgt_sge_witness :
    isIntegerTy (getType twoArguments (.ref 1)) = true ∧
    nonNegativeStore.doesHold syntacticOracle twoArguments .ICMP_SGE (.ref 0)
      (.constInt 32 0) = true ∧
    nonNegativeStore.doesHold syntacticOracle twoArguments .ICMP_SGE (.ref 0)
      (ConstantInt.get (.int 32) (-1)) = false ∧
    (nonNegativeStore.transferToOtherSystem syntacticOracle twoArguments .ICMP_SGE (.ref 1)
      (.ref 0) false 0 1 []).1.UnsignedCS = [[0, 1, -1]] ∧
    nonNegativeStore.transferToOtherSystem syntacticOracle twoArguments .ICMP_SGT (.ref 1)
      (.ref 0) false 0 1 [] = (nonNegativeStore, []) :=
  ⟨by decide, by decide, by decide,
   by
    rw [(transfer_sgt_sge syntacticOracle nonNegativeStore twoArguments (.ref 1) (.ref 0)
      false 0 1 [] (by decide)).2]
    decide,
   by
    rw [(transfer_sgt_sge syntacticOracle nonNegativeStore twoArguments (.ref 1) (.ref 0)
      false 0 1 [] (by decide)).1]
    decide⟩

/-! ## C24: the admissibility rule -/

/-- C24 (admissibility rule): `canAddSuccessor(BB, Succ)` is true exactly when
either `BB` has a single successor and `BB` properly dominates `Succ`, or `BB`
has no single successor, some successor of `BB` differs from `Succ`, and every
predecessor of `Succ` is `BB` itself or is dominated by `Succ`.  With a single
successor, a successor `Succ` of `BB` is that successor (the assertion of the
source); and a conditional branch whose two successors are the same block is
not admissible for that block. -/
theorem canAddSuccessor_rule (F : Function) (DT : DominatorTree) (BB : BasicBlock)
    (Succ : Nat) :
    (canAddSuccessor F DT BB Succ = true ↔
      ((∃ s, F.getSingleSuccessor BB = some s) ∧ DT.properlyDominates BB.id Succ = true) ∨
      (F.getSingleSuccessor BB = none ∧ (∃ S ∈ F.successors BB, S ≠ Succ) ∧
        ∀ Pred ∈ F.predecessors Succ, Pred = BB.id ∨ DT.dominates Succ Pred = true)) ∧
    (∀ s, F.getSingleSuccessor BB = some s → Succ ∈ F.successors BB → Succ = s) ∧
    (∀ c, F.getTerminator BB = some (.condBr c Succ Succ) →
      canAddSuccessor F DT BB Succ = false) := by
  refine ⟨?_, ?_, ?_⟩
  · unfold canAddSuccessor
    cases hs : F.getSingleSuccessor BB with
    | some s => simp
    | none =>
      simp only [Bool.and_eq_true, List.any_eq_true, decide_eq_true_eq, List.all_eq_true,
        Bool.or_eq_true, reduceCtorEq, exists_false, false_and, true_and, false_or]
  · intro s hs hmem
    unfold Function.getSingleSuccessor at hs
    split at hs
    · rename_i s2 heq
      rw [heq] at hmem
      simp only [Option.some.injEq] at hs
      simp only [List.mem_singleton] at hmem
      rw [hmem, hs]
    · cases hs
  · intro c hc
    simp [canAddSuccessor, Function.getSingleSuccessor, Function.successors, hc]

/-! ## C25: the facts of a conditional branch -/

/-- C25 (branch facts): for a block `BB` that ends in a conditional branch on
`Cond` to `T` and `Fs`, both with a node in the dominator tree, `addInfoFor`
queues the block marker, the facts of the assumes, and then exactly these
facts: if `Cond` is a logical OR of two compares, both compares negated with
the interval of `Fs`, when `Fs` is admissible, and nothing else; else if
`Cond` is a logical AND of two compares, both compares un-negated with the
interval of `T`, when `T` is admissible, and nothing else; else if `Cond` is
a compare, it un-negated with the interval of `T` when `T` is admissible, and
negated with the interval of `Fs` when `Fs` is admissible; and nothing in any
other case. -/
theorem branch_facts (F : Function) (DT : DominatorTree) (BB : BasicBlock) (Cond : Value)
    (T Fs : Nat) (nT nF : DomTreeNode)
    (hterm : F.getTerminator BB = some (.condBr Cond T Fs))
    (hT : DT.getNode T = some nT) (hF : DT.getNode Fs = some nF) :
    addInfoFor F DT BB =
      (match DT.getNode BB.id with
        | some DTN => [ConstraintOrBlock.ofBlock DTN]
        | none => []) ++
      scanAssumes F DT BB BB.insts true ++ branchFacts F DT BB Cond T Fs ∧
    (∀ a b c0 c1, matchLogicalOr F Cond = some (a, b) → asICmp F a = some c0 →
      asICmp F b = some c1 →
      branchFacts F DT BB Cond T Fs =
        if canAddSuccessor F DT BB Fs then
          [⟨nF.DFSNumIn, nF.DFSNumOut, false, true, 0, c0⟩,
           ⟨nF.DFSNumIn, nF.DFSNumOut, false, true, 0, c1⟩]
        else []) ∧
    (∀ a b c0 c1,
      (∀ x y, matchLogicalOr F Cond = some (x, y) → asICmp F x = none ∨ asICmp F y = none) →
      matchLogicalAnd F Cond = some (a, b) → asICmp F a = some c0 → asICmp F b = some c1 →
      branchFacts F DT BB Cond T Fs =
        if canAddSuccessor F DT BB T then
          [⟨nT.DFSNumIn, nT.DFSNumOut, false, false, 0, c0⟩,
           ⟨nT.DFSNumIn, nT.DFSNumOut, false, false, 0, c1⟩]
        else []) ∧
    (∀ CmpI,
      (∀ x y, matchLogicalOr F Cond = some (x, y) → asICmp F x = none ∨ asICmp F y = none) →
      (∀ x y, matchLogicalAnd F Cond = some (x, y) → asICmp F x = none ∨ asICmp F y = none) →
      asICmp F Cond = some CmpI →
      branchFacts F DT BB Cond T Fs =
        (if canAddSuccessor F DT BB T then [⟨nT.DFSNumIn, nT.DFSNumOut, false, false, 0, CmpI⟩]
          else []) ++
        (if canAddSuccessor F DT BB Fs then [⟨nF.DFSNumIn, nF.DFSNumOut, false, true, 0, CmpI⟩]
          else [])) ∧
    ((∀ x y, matchLogicalOr F Cond = some (x, y) → asICmp F x = none ∨ asICmp F y = none) →
      (∀ x y, matchLogicalAnd F Cond = some (x, y) → asICmp F x = none ∨ asICmp F y = none) →
      asICmp F Cond = none →
      branchFacts F DT BB Cond T Fs = []) := by
  have hor : ∀ (m : Value → Option (Value × Value)),
      (∀ x y, m Cond = some (x, y) → asICmp F x = none ∨ asICmp F y = none) →
      ((m Cond).bind (fun m => (asICmp F m.1).bind (fun c0 =>
        (asICmp F m.2).map (fun c1 => (c0, c1))))) = none := by
    intro m h
    cases hm : m Cond with
    | none => rfl
    | some p =>
      obtain ⟨x, y⟩ := p
      rcases h x y hm with h1 | h1 <;> simp [h1]
  refine ⟨?_, ?_, ?_, ?_, ?_⟩
  · simp only [addInfoFor, hterm]
  · intro a b c0 c1 hm h0 h1
    simp [branchFacts, hm, h0, h1, emplaceCondition, hF, ConstraintOrBlock.ofCondition]
  · intro a b c0 c1 hno hm h0 h1
    have h2 := hor (matchLogicalOr F) hno
    simp only [branchFacts, h2]
    simp [hm, h0, h1, emplaceCondition, hT, ConstraintOrBlock.ofCondition]
  · intro CmpI hno hna hc
    simp only [branchFacts, hor (matchLogicalOr F) hno, hor (matchLogicalAnd F) hna, hc,
      emplaceCondition, hT, hF, ConstraintOrBlock.ofCondition]
  · intro hno hna hc
    simp only [branchFacts, hor (matchLogicalOr F) hno, hor (matchLogicalAnd F) hna, hc]

/-- Witness of `branch_facts`: the entry block of `scenario` branches on the
compare `%1` to the blocks 1 and 2, both admissible. -/
theorem branch_facts_witness :
    addInfoFor scenario scenarioDT ⟨0, [1, 2]⟩ =
      [⟨0, 5, true, false, 0, 0⟩, ⟨1, 2, false, false, 0, 1⟩, ⟨3, 4, false, true, 0, 1⟩] ∧
    branchFacts scenario scenarioDT ⟨0, [1, 2]⟩ (.ref 1) 1 2 =
      (if canAddSuccessor scenario scenarioDT ⟨0, [1, 2]⟩ 1 then
          [⟨1, 2, false, false, 0, 1⟩] else []) ++
        (if canAddSuccessor scenario scenarioDT ⟨0, [1, 2]⟩ 2 then
          [⟨3, 4, false, true, 0, 1⟩] else []) :=
  ⟨by decide,
   (branch_facts scenario scenarioDT ⟨0, [1, 2]⟩ (.ref 1) 1 2 ⟨1, 1, 2⟩ ⟨2, 3, 4⟩
      (by decide) (by decide) (by decide)).2.2.2.1 1
      (by intro x y h; cases h) (by intro x y h; cases h) (by decide)⟩

/-! ## C26: the facts of assumes -/

theorem scanAssumes_append (F : Function) (DT : DominatorTree) (BB : BasicBlock)
    (pre rest : List Nat) (g : Bool) :
    scanAssumes F DT BB (pre ++ rest) g =
      scanAssumes F DT BB pre g ++
        scanAssumes F DT BB rest
          (g && pre.all (fun J => ((F.kind J).map transfersExecution).getD true)) := by
  induction pre generalizing g with
  | nil => simp [scanAssumes]
  | cons I pre ih =>
    show _ ++ scanAssumes F DT BB (pre ++ rest) _ = (_ ++ scanAssumes F DT BB pre _) ++ _
    rw [ih, List.append_assoc, List.all_cons, Bool.and_assoc]

/-- C26 (assume facts): let the instructions of a block `BB` with a node in the
dominator tree be `pre`, then the instruction `I`, then `post`.  If `I` is an
assume of a compare, the scan of `addInfoFor` queues for it, between the
entries of `pre` and those of `post`: when every instruction of `pre` is
guaranteed to transfer execution to its successor, one un-negated fact with
the interval of `BB`; otherwise one un-negated fact for each successor edge of
`BB` whose target is admissible under `canAddSuccessor`, with the interval of
that target, and nothing else.  An instruction that is not an assume of a
compare queues nothing. -/
theorem assume_facts (F : Function) (DT : DominatorTree) (BB : BasicBlock)
    (pre post : List Nat) (I : Nat) (n : DomTreeNode)
    (hinsts : BB.insts = pre ++ I :: post)
    (hn : DT.getNode BB.id = some n) :
    (∀ Cond cmp, F.kind I = some (.assume Cond) → asICmp F Cond = some cmp →
      scanAssumes F DT BB BB.insts true =
        scanAssumes F DT BB pre true ++
        (if pre.all (fun J => ((F.kind J).map transfersExecution).getD true) then
          [⟨n.DFSNumIn, n.DFSNumOut, false, false, 0, cmp⟩]
         else
          ((F.successors BB).filter (fun Succ => canAddSuccessor F DT BB Succ)).flatMap
            (fun Succ => emplaceCondition DT Succ cmp false)) ++
        scanAssumes F DT BB post
          (pre.all (fun J => ((F.kind J).map transfersExecution).getD true)) ∧
      ∀ e, e ∈ ((F.successors BB).filter (fun Succ => canAddSuccessor F DT BB Succ)).flatMap
            (fun Succ => emplaceCondition DT Succ cmp false) ↔
        ∃ Succ nS, Succ ∈ F.successors BB ∧ canAddSuccessor F DT BB Succ = true ∧
          DT.getNode Succ = some nS ∧ e = ⟨nS.DFSNumIn, nS.DFSNumOut, false, false, 0, cmp⟩) ∧
    ((∀ Cond, F.kind I = some (.assume Cond) → asICmp F Cond = none) →
      scanAssumes F DT BB BB.insts true =
        scanAssumes F DT BB pre true ++
        scanAssumes F DT BB post
          (pre.all (fun J => ((F.kind J).map transfersExecution).getD true) &&
            ((F.kind I).map transfersExecution).getD true)) := by
  constructor
  · intro Cond cmp hk hc
    constructor
    · rw [hinsts, scanAssumes_append]
      simp only [Bool.true_and, scanAssumes, hk, hc, emplaceCondition, hn,
        ConstraintOrBlock.ofCondition, Option.map_some', transfersExecution, Option.getD_some,
        Bool.and_true, List.append_assoc]
    · intro e
      simp only [List.mem_flatMap, List.mem_filter, emplaceCondition]
      constructor
      · rintro ⟨Succ, ⟨hs, hadm⟩, he⟩
        cases hnode : DT.getNode Succ with
        | none => simp [hnode] at he
        | some nS =>
          simp only [hnode, List.mem_singleton, ConstraintOrBlock.ofCondition] at he
          exact ⟨Succ, nS, hs, hadm, hnode, he⟩
      · rintro ⟨Succ, nS, hs, hadm, hnode, he⟩
        exact ⟨Succ, ⟨hs, hadm⟩, by simp [hnode, ConstraintOrBlock.ofCondition, he]⟩
  · intro hno
    rw [hinsts, scanAssumes_append]
    congr 1
    simp only [Bool.true_and, scanAssumes]
    have hq : (match F.kind I with
        | some (.assume Cond) =>
          match asICmp F Cond with
          | some cmp =>
            if pre.all (fun J => ((F.kind J).map transfersExecution).getD true) = true then
              emplaceCondition DT BB.id cmp false
            else
              ((F.successors BB).filter (fun Succ => canAddSuccessor F DT BB Succ)).flatMap
                (fun Succ => emplaceCondition DT Succ cmp false)
          | none => []
        | _ => []) = [] := by
      split
      · rename_i Cond hk
        rw [hno Cond hk]
      · rfl
    rw [hq]
    rfl

/-- Witness of `assume_facts`: in the entry block of `assumeBlock` the first
assume gives a fact for the block itself, and the second, which follows a call
that may not return, one fact for each of the two successors. -/
theorem assume_facts_witness :
    scanAssumes assumeBlock scenarioDT ⟨0, [1, 2, 3, 4, 5, 6]⟩ [1, 2, 3, 4, 5, 6] true =
      scanAssumes assumeBlock scenarioDT ⟨0, [1, 2, 3, 4, 5, 6]⟩ [1, 2, 3, 4] true ++
        (if [1, 2, 3, 4].all
            (fun J => ((assumeBlock.kind J).map transfersExecution).getD true) then
          [⟨0, 5, false, false, 0, 4⟩]
         else
          ((assumeBlock.successors ⟨0, [1, 2, 3, 4, 5, 6]⟩).filter
            (fun Succ => canAddSuccessor assumeBlock scenarioDT ⟨0, [1, 2, 3, 4, 5, 6]⟩ Succ)).flatMap
            (fun Succ => emplaceCondition scenarioDT Succ 4 false)) ++
        scanAssumes assumeBlock scenarioDT ⟨0, [1, 2, 3, 4, 5, 6]⟩ [6]
          ([1, 2, 3, 4].all
            (fun J => ((assumeBlock.kind J).map transfersExecution).getD true)) ∧
    scanAssumes assumeBlock scenarioDT ⟨0, [1, 2, 3, 4, 5, 6]⟩ [1, 2, 3, 4, 5, 6] true =
      [⟨0, 5, false, false, 0, 1⟩, ⟨1, 2, false, false, 0, 4⟩, ⟨3, 4, false, false, 0, 4⟩] :=
  ⟨((assume_facts assumeBlock scenarioDT ⟨0, [1, 2, 3, 4, 5, 6]⟩ [1, 2, 3, 4] [6] 5 ⟨0, 0, 5⟩
      rfl (by decide)).1 (.ref 4) 4 (by decide) (by decide)).1,
   by decide⟩

/-! ## C27: the order of the work-list -/

theorem insertSorted_perm (x : ConstraintOrBlock) (l : List ConstraintOrBlock) :
    (insertSorted x l).Perm (x :: l) := by
  induction l with
  | nil => exact List.Perm.refl _
  | cons y ys ih =>
    unfold insertSorted
    split
    · exact (List.Perm.cons y ih).trans (List.Perm.swap x y ys)
    · exact List.Perm.refl _

theorem stableSort_perm (l : List ConstraintOrBlock) : (stableSort l).Perm l := by
  induction l with
  | nil => exact List.Perm.refl _
  | cons x xs ih =>
    exact (insertSorted_perm x (stableSort xs)).trans (List.Perm.cons x ih)

theorem not_less_trans (a b c : ConstraintOrBlock)
    (h1 : worklistLess b a = false) (h2 : worklistLess c b = false) :
    worklistLess c a = false := by
  unfold worklistLess at *
  cases ha : a.IsBlock <;> cases hb : b.IsBlock <;> cases hc : c.IsBlock <;>
    simp_all <;> omega

theorem not_less_of_less (a b : ConstraintOrBlock) (h : worklistLess a b = true) :
    worklistLess b a = false := by
  unfold worklistLess at *
  cases ha : a.IsBlock <;> cases hb : b.IsBlock <;> simp_all <;> omega

theorem insertSorted_sorted (x : ConstraintOrBlock) (l : List ConstraintOrBlock)
    (h : l.Pairwise (fun a b => worklistLess b a = false)) :
    (insertSorted x l).Pairwise (fun a b => worklistLess b a = false) := by
  induction l with
  | nil => simp [insertSorted]
  | cons y ys ih =>
    rw [List.pairwise_cons] at h
    unfold insertSorted
    split
    · rename_i hlt
      rw [List.pairwise_cons]
      refine ⟨?_, ih h.2⟩
      intro z hz
      rcases List.mem_cons.1 ((insertSorted_perm x ys).subset hz) with hz | hz
      · rw [hz]
        exact not_less_of_less y x hlt
      · exact h.1 z hz
    · rename_i hlt
      have hxy : worklistLess y x = false := by simpa using hlt
      rw [List.pairwise_cons]
      refine ⟨?_, List.pairwise_cons.2 h⟩
      intro z hz
      rcases List.mem_cons.1 hz with hz | hz
      · rw [hz]; exact hxy
      · exact not_less_trans x y z hxy (h.1 z hz)

theorem stableSort_sorted (l : List ConstraintOrBlock) :
    (stableSort l).Pairwise (fun a b => worklistLess b a = false) := by
  induction l with
  | nil => simp [stableSort]
  | cons x xs ih => exact insertSorted_sorted x _ ih

theorem insertSorted_filter (x : ConstraintOrBlock) (l : List ConstraintOrBlock) (n : Nat)
    (k : Bool) :
    (insertSorted x l).filter (fun e => decide (e.NumIn = n) && (e.IsBlock == k)) =
      (x :: l).filter (fun e => decide (e.NumIn = n) && (e.IsBlock == k)) := by
  induction l with
  | nil => rfl
  | cons y ys ih =>
    unfold insertSorted
    split
    · rename_i hlt
      rw [List.filter_cons, ih]
      have hkey : ¬ ((decide (x.NumIn = n) && (x.IsBlock == k)) = true ∧
          (decide (y.NumIn = n) && (y.IsBlock == k)) = true) := by
        unfold worklistLess at hlt
        cases hx : x.IsBlock <;> cases hy : y.IsBlock <;> cases k <;> simp_all <;> omega
      by_cases hy : (decide (y.NumIn = n) && (y.IsBlock == k)) = true
      · have hx : ¬ (decide (x.NumIn = n) && (x.IsBlock == k)) = true := fun hx => hkey ⟨hx, hy⟩
        simp [hy, List.filter_cons, hx]
      · simp [hy, List.filter_cons]
    · rfl

theorem stableSort_filter (l : List ConstraintOrBlock) (n : Nat) (k : Bool) :
    (stableSort l).filter (fun e => decide (e.NumIn = n) && (e.IsBlock == k)) =
      l.filter (fun e => decide (e.NumIn = n) && (e.IsBlock == k)) := by
  induction l with
  | nil => rfl
  | cons x xs ih =>
    show (insertSorted x (stableSort xs)).filter _ = _
    rw [insertSorted_filter, List.filter_cons, ih, List.filter_cons]

theorem emplaceCondition_isFact (DT : DominatorTree) (b c : Nat) (n : Bool) :
    ∀ e ∈ emplaceCondition DT b c n, e.IsBlock = false := by
  intro e he
  unfold emplaceCondition at he
  split at he
  · simp only [List.mem_singleton] at he
    rw [he]
    rfl
  · cases he

theorem scanAssumes_isFact (F : Function) (DT : DominatorTree) (BB : BasicBlock)
    (insts : List Nat) (g : Bool) : ∀ e ∈ scanAssumes F DT BB insts g, e.IsBlock = false := by
  induction insts generalizing g with
  | nil => intro e he; cases he
  | cons I rest ih =>
    intro e he
    unfold scanAssumes at he
    rcases List.mem_append.1 he with h | h
    · split at h
      · split at h
        · split at h
          · exact emplaceCondition_isFact _ _ _ _ e h
          · obtain ⟨S, _, hS⟩ := List.mem_flatMap.1 h
            exact emplaceCondition_isFact _ _ _ _ e hS
        · cases h
      · cases h
    · exact ih _ e h

theorem branchFacts_isFact (F : Function) (DT : DominatorTree) (BB : BasicBlock) (Cond : Value)
    (T Fs : Nat) : ∀ e ∈ branchFacts F DT BB Cond T Fs, e.IsBlock = false := by
  intro e he
  unfold branchFacts at he
  repeat' split at he
  all_goals first
    | cases he
    | (rcases List.mem_append.1 he with h | h <;> first
        | exact emplaceCondition_isFact _ _ _ _ e h
        | cases h)

theorem addInfoFor_markers (F : Function) (DT : DominatorTree) (BB : BasicBlock) :
    (addInfoFor F DT BB).filter (fun e => e.IsBlock) =
      ((DT.getNode BB.id).map ConstraintOrBlock.ofBlock).toList := by
  have hnone : ∀ l : List ConstraintOrBlock, (∀ e ∈ l, e.IsBlock = false) →
      l.filter (fun e => e.IsBlock) = [] := by
    intro l hl
    rw [List.filter_eq_nil_iff]
    intro e he
    simp [hl e he]
  have hb : (match F.getTerminator BB with
      | some (.condBr Cond ifTrue ifFalse) => branchFacts F DT BB Cond ifTrue ifFalse
      | _ => []).filter (fun e : ConstraintOrBlock => e.IsBlock) = [] := by
    split
    · exact hnone _ (branchFacts_isFact F DT BB _ _ _)
    · rfl
  unfold addInfoFor
  simp only [List.filter_append, hb, hnone _ (scanAssumes_isFact F DT BB BB.insts true),
    List.append_nil]
  cases DT.getNode BB.id with
  | none => rfl
  | some DTN => rfl

/-- C27 (work-list order): the sorted work-list is a permutation of the
collected entries, which hold one block marker for each block with a node in
the dominator tree; along the sorted list `NumIn` does not decrease, of two
entries with the same `NumIn` a block marker never comes before a fact, and
the entries with a given `NumIn` and kind are in the order in which they were
collected. -/
theorem worklist_order (F : Function) (DT : DominatorTree) :
    (stableSort (collectWorkList F DT)).Perm (collectWorkList F DT) ∧
    (collectWorkList F DT).filter (fun e => e.IsBlock) =
      F.blocks.filterMap (fun BB => (DT.getNode BB.id).map ConstraintOrBlock.ofBlock) ∧
    (stableSort (collectWorkList F DT)).Pairwise (fun a b => a.NumIn ≤ b.NumIn) ∧
    (stableSort (collectWorkList F DT)).Pairwise
      (fun a b => a.NumIn = b.NumIn → a.IsBlock = true → b.IsBlock = true) ∧
    ∀ (n : Nat) (k : Bool),
      (stableSort (collectWorkList F DT)).filter
          (fun e => decide (e.NumIn = n) && (e.IsBlock == k)) =
        (collectWorkList F DT).filter (fun e => decide (e.NumIn = n) && (e.IsBlock == k)) := by
  refine ⟨stableSort_perm _, ?_, ?_, ?_, fun n k => stableSort_filter _ n k⟩
  · unfold collectWorkList
    generalize F.blocks = blocks
    induction blocks with
    | nil => rfl
    | cons BB rest ih =>
      cases hn : DT.getNode BB.id with
      | none => simpa [List.filter_cons, hn, List.filterMap_cons] using ih
      | some DTN =>
        simp only [List.filter_cons, hn, Option.isSome_some, ↓reduceIte, List.flatMap_cons,
          List.filter_append, addInfoFor_markers, Option.map_some', Option.toList_some,
          List.filterMap_cons, List.singleton_append, List.cons.injEq, true_and]
        simpa [List.filter_cons] using ih
  · refine (stableSort_sorted _).imp ?_
    intro a b h
    unfold worklistLess at h
    cases ha : a.IsBlock <;> cases hb : b.IsBlock <;> simp_all
  · refine (stableSort_sorted _).imp ?_
    intro a b h heq ha
    unfold worklistLess at h
    cases hb : b.IsBlock <;> simp_all

/-! ## C28: the elimination of a comparison -/

/-- C28 as stated fails when the engine reports both the row and its negation
implied: in block 1 of `bothImplied`, which the facts `%0 u<= %1` and
`%0 u> %1` dominate, the pass first replaces the use of `%6` in the return by
true and then the use that is left, the one in the assume, by false; the use
in the assume is not kept, and not every use has become false. -/
theorem both_rows_implied :
    stableSort (collectWorkList bothImplied scenarioDT) =
      [⟨0, 5, true, false, 0, 0⟩, ⟨1, 2, false, false, 0, 2⟩, ⟨1, 2, false, false, 0, 3⟩,
       ⟨1, 2, false, false, 0, 6⟩, ⟨1, 2, true, false, 1, 0⟩, ⟨3, 4, true, false, 2, 0⟩] ∧
    (runWorkList syntacticOracle counterUnset { F := bothImplied }
      ((stableSort (collectWorkList bothImplied scenarioDT)).take 4)).Info.UnsignedCS =
      [[0, 1, -1], [-1, -1, 1], [0, 1, -1]] ∧
    isTestable syntacticOracle
      (runWorkList syntacticOracle counterUnset { F := bothImplied }
        ((stableSort (collectWorkList bothImplied scenarioDT)).take 4)).Info
      bothImplied.defs .ICMP_ULE (.ref 0) (.ref 1) = true ∧
    (testedRow
      (runWorkList syntacticOracle counterUnset { F := bothImplied }
        ((stableSort (collectWorkList bothImplied scenarioDT)).take 4)).Info
      bothImplied.defs .ICMP_ULE (.ref 0) (.ref 1)).2.Coefficients = [0, 1, -1] ∧
    negate [0, 1, -1] = [-1, -1, 1] ∧
    syntacticOracle.isConditionImplied [[0, 1, -1], [-1, -1, 1], [0, 1, -1]] [0, 1, -1] = true ∧
    syntacticOracle.isConditionImplied [[0, 1, -1], [-1, -1, 1], [0, 1, -1]] [-1, -1, 1] = true ∧
    (eliminateConstraints syntacticOracle counterUnset bothImplied scenarioDT).2.kind 7 =
      some (.assume getFalse) ∧
    (eliminateConstraints syntacticOracle counterUnset bothImplied scenarioDT).2.kind 8 =
      some (.otherTerminator [] [getTrue]) := by
  decide

/-- In the definition table after `replaceUsesWithIf`, an instruction the test
accepts has every operand that was the old value replaced by the new one, and
an instruction the test rejects is as it was. -/
theorem replaceUsesWithIf_get (defs : Defs) (Old : Nat) (New : Value) (p : InstKind → Bool)
    (j : Nat) :
    (replaceUsesWithIf defs Old New p).get j =
      (defs.get j).map (fun ins =>
        if p ins.kind then
          { ins with kind := ins.kind.mapOperands (fun v => if v = .ref Old then New else v) }
        else ins) := by
  unfold replaceUsesWithIf
  rw [get_map _ _ (by intro e; split <;> rfl) j]
  cases defs.get j with
  | none => rfl
  | some ins =>
    simp only [Option.map_some']
    split <;> rfl

/-- C28, amended: for a comparison `I` of a visited block, with the debug
counter unset.  If the row of the comparison is an equality, is empty, needs a
new index with a non-zero coefficient or is not valid, the state is left as it
is.  Otherwise atom tables, systems, scope stack and blocks are left as they
are, and, `implied` and `impliedNot` being the answers of the engine of the
row's domain for the row and for its negation: if only the row is implied,
every use of `I` outside assumes is replaced by true and the assumes are as
they were; if only the negated row is implied, every use of `I` is replaced by
false; if both are implied, the uses outside assumes are replaced by true and
then the uses that are left, those in assumes, by false; if neither is
implied, the state is left as it is. -/
theorem comparison_elimination (O : Oracle) (S : DriverState) (I : Nat) (P : Predicate)
    (A B : Value) (hk : S.F.kind I = some (.icmp P A B)) :
    (isTestable O S.Info S.F.defs P A B = false → processInstruction O counterUnset S I = S) ∧
    (isTestable O S.Info S.F.defs P A B = true →
      (processInstruction O counterUnset S I).Info = S.Info ∧
      (processInstruction O counterUnset S I).DFSInStack = S.DFSInStack ∧
      (processInstruction O counterUnset S I).F.blocks = S.F.blocks ∧
      (processInstruction O counterUnset S I).F.defs =
        (if O.isConditionImplied (S.Info.getCS (testedRow S.Info S.F.defs P A B).2.IsSigned)
            (testedRow S.Info S.F.defs P A B).2.Coefficients then
          if O.isConditionImplied (S.Info.getCS (testedRow S.Info S.F.defs P A B).2.IsSigned)
              (negate (testedRow S.Info S.F.defs P A B).2.Coefficients) then
            replaceAllUsesWith
              (replaceUsesWithIf S.F.defs I getTrue (fun k => !isAssume k)) I getFalse
          else replaceUsesWithIf S.F.defs I getTrue (fun k => !isAssume k)
         else
          if O.isConditionImplied (S.Info.getCS (testedRow S.Info S.F.defs P A B).2.IsSigned)
              (negate (testedRow S.Info S.F.defs P A B).2.Coefficients) then
            replaceAllUsesWith S.F.defs I getFalse
          else S.F.defs) ∧
      (O.isConditionImplied (S.Info.getCS (testedRow S.Info S.F.defs P A B).2.IsSigned)
          (testedRow S.Info S.F.defs P A B).2.Coefficients = false →
        O.isConditionImplied (S.Info.getCS (testedRow S.Info S.F.defs P A B).2.IsSigned)
          (negate (testedRow S.Info S.F.defs P A B).2.Coefficients) = false →
        processInstruction O counterUnset S I = S)) := by
  unfold isTestable testedRow
  constructor
  · intro h
    unfold processInstruction
    simp only [hk]
    split
    · rfl
    · rename_i h1
      split
      · rfl
      · rename_i h2
        simp only [h1, h2, Bool.not_false, Bool.and_self] at h
        cases h
  · intro h
    simp only [Bool.and_eq_true, Bool.not_eq_true', Bool.or_eq_false_iff] at h
    obtain ⟨⟨h1, h2⟩, h3, h4⟩ := h
    simp only [Bool.not_eq_false'] at h4
    unfold processInstruction
    simp only [hk, h1, h2, h3, h4, Bool.or_self, Bool.false_eq_true, ↓reduceIte, Bool.not_true,
      counterUnset, Bool.and_false]
    cases O.isConditionImplied _ _ <;> cases O.isConditionImplied _ _ <;> simp

/-- Witness of `comparison_elimination`: the comparison of `neCompare` has the
empty row and is passed over; the comparison `%3` of
block 1 of `scenario`, tested in the store that holds the fact `%0 s> 0`, is
implied, and its use in the return becomes true. -/
theorem comparison_elimination_witness :
    processInstruction syntacticOracle counterUnset { F := neCompare } 1 =
      { F := neCompare } ∧
    (processInstruction syntacticOracle counterUnset
      { F := scenario,
        Info := (({} : ConstraintInfo).addFact syntacticOracle scenario.defs .ICMP_SGT (.ref 0)
          (.constInt 32 0) false 1 2 []).1 } 3).F.blocks = scenario.blocks ∧
    (processInstruction syntacticOracle counterUnset
      { F := scenario,
        Info := (({} : ConstraintInfo).addFact syntacticOracle scenario.defs .ICMP_SGT (.ref 0)
          (.constInt 32 0) false 1 2 []).1 } 3).F.kind 4 =
      some (.otherTerminator [] [getTrue]) :=
  ⟨(comparison_elimination syntacticOracle { F := neCompare } 1 .ICMP_NE (.ref 0)
      (.constInt 8 5) (by decide)).1 (by decide),
   ((comparison_elimination syntacticOracle
      { F := scenario,
        Info := (({} : ConstraintInfo).addFact syntacticOracle scenario.defs .ICMP_SGT (.ref 0)
          (.constInt 32 0) false 1 2 []).1 } 3 .ICMP_SGE (.ref 0) (.constInt 32 1)
      (by decide)).2 (by decide)).2.2.1,
   by decide⟩

/-! ## C29: admissibility implies dominance -/

theorem first_occurrence (a : Nat) (l : List Nat) (h : a ∈ l) :
    ∃ pre post, l = pre ++ a :: post ∧ a ∉ pre := by
  induction l with
  | nil => cases h
  | cons x xs ih =>
    by_cases hx : x = a
    · exact ⟨[], xs, by rw [hx]; rfl, by simp⟩
    · rcases List.mem_cons.1 h with h | h
      · exact absurd h.symm hx
      · obtain ⟨pre, post, h1, h2⟩ := ih h
        refine ⟨x :: pre, post, by rw [h1]; rfl, ?_⟩
        intro hmem
        rcases List.mem_cons.1 hmem with h3 | h3
        · exact hx h3.symm
        · exact h2 h3

theorem isPath_of_append (F : Function) (entry : Nat) (pre rest : List Nat) (hne : pre ≠ [])
    (h : IsPath F entry (pre ++ rest)) : IsPath F entry pre := by
  obtain ⟨h1, h2⟩ := h
  refine ⟨?_, (List.chain'_append.1 h2).1⟩
  cases pre with
  | nil => exact absurd rfl hne
  | cons x xs => simpa using h1

/-- C29 (admissibility implies dominance): let the dominator tree be sound for
the function with entry block `entry`, let `BB` have at least two successor
edges and let `Succ`, not the entry block, be admissible for `BB`.  Then on
every path from the entry the first arrival at `Succ` is from `BB`, through an
edge from `BB` to `Succ`; and every path from the entry that reaches `Succ`
passes through `BB`. -/
theorem admissible_implies_dominance (F : Function) (DT : DominatorTree) (BB : BasicBlock)
    (Succ entry : Nat) (hDT : DT.SoundFor F entry)
    (h2 : 2 ≤ (F.successors BB).length)
    (hadm : canAddSuccessor F DT BB Succ = true) (hne : Succ ≠ entry) :
    (∀ pre post, IsPath F entry (pre ++ Succ :: post) → Succ ∉ pre →
      pre.getLast? = some BB.id ∧ BB.id ∈ F.predecessors Succ) ∧
    (∀ path, IsPath F entry path → Succ ∈ path → BB.id ∈ path) := by
  have hsingle : F.getSingleSuccessor BB = none := by
    unfold Function.getSingleSuccessor
    split
    · rename_i s hs
      rw [hs] at h2
      simp at h2
    · rfl
  have hpreds : ∀ Pred ∈ F.predecessors Succ, Pred = BB.id ∨ DT.dominates Succ Pred = true := by
    unfold canAddSuccessor at hadm
    rw [hsingle] at hadm
    simp only [Bool.and_eq_true, List.all_eq_true, Bool.or_eq_true, decide_eq_true_eq] at hadm
    exact hadm.2
  have hfirst : ∀ pre post, IsPath F entry (pre ++ Succ :: post) → Succ ∉ pre →
      pre.getLast? = some BB.id ∧ BB.id ∈ F.predecessors Succ := by
    intro pre post hpath hnot
    have hpre : pre ≠ [] := by
      intro h
      rw [h] at hpath
      have := hpath.1
      simp only [List.nil_append, List.head?_cons, Option.some.injEq] at this
      exact hne this
    obtain ⟨init, p, hp⟩ : ∃ init p, pre = init ++ [p] :=
      ⟨pre.dropLast, pre.getLast hpre, (List.dropLast_append_getLast hpre).symm⟩
    have hedge : p ∈ F.predecessors Succ := by
      have hc := hpath.2
      rw [hp, List.append_assoc] at hc
      have hc2 := (List.chain'_append.1 hc).2.1
      simp only [List.singleton_append] at hc2
      exact (List.chain'_cons.1 hc2).1
    have hlast : pre.getLast? = some p := by
      rw [hp]
      simp
    rcases hpreds p hedge with h | h
    · rw [hlast, ← h]
      exact ⟨rfl, hedge⟩
    · exfalso
      exact hnot (hDT Succ p pre (isPath_of_append F entry pre _ hpre hpath) hlast h)
  refine ⟨hfirst, ?_⟩
  intro path hpath hmem
  obtain ⟨pre, post, hsplit, hnot⟩ := first_occurrence Succ path hmem
  rw [hsplit] at hpath
  have hl := (hfirst pre post hpath hnot).1
  rw [hsplit]
  exact List.mem_append_left _ (List.mem_of_mem_getLast? hl)

theorem scenario_predecessors (a b : Nat) :
    a ∈ scenario.predecessors b ↔ a = 0 ∧ (b = 1 ∨ b = 2) := by
  have h0 : scenario.successors ⟨0, [1, 2]⟩ = [1, 2] := by decide
  have h1 : scenario.successors ⟨1, [3, 4]⟩ = [] := by decide
  have h2 : scenario.successors ⟨2, [5, 6]⟩ = [] := by decide
  have hb : scenario.blocks = [⟨0, [1, 2]⟩, ⟨1, [3, 4]⟩, ⟨2, [5, 6]⟩] := rfl
  simp only [Function.predecessors, hb, List.filter_cons, h0, h1, h2, List.filter_nil,
    List.not_mem_nil, decide_False, Bool.false_eq_true, ↓reduceIte, List.mem_cons,
    or_false, decide_eq_true_eq]
  by_cases h : b = 1 ∨ b = 2
  · simp [h]
  · simp [h]

theorem scenario_paths (path : List Nat) (h : IsPath scenario 0 path) :
    path = [0] ∨ path = [0, 1] ∨ path = [0, 2] := by
  obtain ⟨hh, hc⟩ := h
  match path, hh, hc with
  | [x], hh, _ =>
    simp only [List.head?_cons, Option.some.injEq] at hh
    left; rw [hh]
  | [x, y], hh, hc =>
    simp only [List.head?_cons, Option.some.injEq] at hh
    have he := (List.chain'_cons.1 hc).1
    rw [scenario_predecessors] at he
    rcases he.2 with h | h
    · right; left; rw [hh, h]
    · right; right; rw [hh, h]
  | x :: y :: z :: rest, _, hc =>
    exfalso
    have h1 := (List.chain'_cons.1 hc).1
    have h2 := (List.chain'_cons.1 (List.chain'_cons.1 hc).2).1
    rw [scenario_predecessors] at h1 h2
    omega

theorem scenarioDT_dominates (A B : Nat) (hB : B = 0 ∨ B = 1 ∨ B = 2)
    (h : scenarioDT.dominates A B = true) : A = B ∨ A = 0 := by
  by_cases hAB : A = B
  · exact Or.inl hAB
  · right
    by_cases h0 : A = 0
    · exact h0
    · exfalso
      by_cases h1 : A = 1
      · subst h1
        rcases hB with hB | hB | hB <;> subst hB <;> first
          | exact hAB rfl
          | (revert h; decide)
      · by_cases h2 : A = 2
        · subst h2
          rcases hB with hB | hB | hB <;> subst hB <;> first
            | exact hAB rfl
            | (revert h; decide)
        · have hn : scenarioDT.getNode A = none := by
            unfold DominatorTree.getNode scenarioDT
            simp only [List.find?_cons, List.find?_nil]
            rw [decide_eq_false (Ne.symm h0), decide_eq_false (Ne.symm h1),
              decide_eq_false (Ne.symm h2)]
          have hB0 : scenarioDT.getNode 0 = some ⟨0, 0, 5⟩ := by decide
          have hB1 : scenarioDT.getNode 1 = some ⟨1, 1, 2⟩ := by decide
          have hB2 : scenarioDT.getNode 2 = some ⟨2, 3, 4⟩ := by decide
          rcases hB with hB | hB | hB <;> subst hB <;>
            simp only [DominatorTree.dominates, hAB, ↓reduceIte, hB0, hB1, hB2, hn,
              Bool.false_eq_true] at h

/-- The dominator tree of `scenario` is sound. -/
theorem scenarioDT_sound : scenarioDT.SoundFor scenario 0 := by
  intro A B path hpath hlast hdom
  rcases scenario_paths path hpath with hp | hp | hp <;> subst hp <;>
    simp only [List.getLast?_cons_cons, List.getLast?_singleton, Option.some.injEq] at hlast <;>
    subst hlast
  · rcases scenarioDT_dominates A 0 (Or.inl rfl) hdom with h | h <;> simp [h]
  · rcases scenarioDT_dominates A 1 (Or.inr (Or.inl rfl)) hdom with h | h <;> simp [h]
  · rcases scenarioDT_dominates A 2 (Or.inr (Or.inr rfl)) hdom with h | h <;> simp [h]

/-- Witness of `admissible_implies_dominance`: in `scenario` block 1 is
admissible for the entry block, which has two successors; the path from the
entry to block 1 arrives from the entry block. -/
theorem admissible_implies_dominance_witness :
    canAddSuccessor scenario scenarioDT ⟨0, [1, 2]⟩ 1 = true ∧
    IsPath scenario 0 [0, 1] ∧
    (([0] : List Nat).getLast? = some 0 ∧ 0 ∈ scenario.predecessors 1) :=
  ⟨by decide, ⟨rfl, by simp [scenario_predecessors]⟩,
   (admissible_implies_dominance scenario scenarioDT ⟨0, [1, 2]⟩ 1 0 scenarioDT_sound
      (by decide) (by decide) (by decide)).1 [0] [] ⟨rfl, by simp [scenario_predecessors]⟩
      (by decide)⟩

/-! ## C30: the scope stack is a chain of nested intervals -/

/-- The pop loop removes frames from the top only, and stops at a frame whose
out-number is not below the given one. -/
theorem popOutOfScope_suffix (n : Nat) (Info : ConstraintInfo) (st : List StackEntry) :
    (∃ dropped, st = dropped ++ (popOutOfScope n Info st).2) ∧
    ∀ E rest, (popOutOfScope n Info st).2 = E :: rest → n ≤ E.NumOut := by
  induction st generalizing Info with
  | nil => exact ⟨⟨[], rfl⟩, fun E rest h => by simp [popOutOfScope] at h⟩
  | cons X xs ih =>
    unfold popOutOfScope
    split
    · rename_i hle
      refine ⟨⟨[], rfl⟩, ?_⟩
      intro E rest h
      simp only [List.cons.injEq] at h
      rw [← h.1]
      exact hle
    · dsimp only
      generalize ConstraintInfo.setCS _ X.IsSigned (popLastNVariables _ _) = Info2
      obtain ⟨⟨d, hd⟩, h2⟩ := ih Info2
      exact ⟨⟨X :: d, by rw [List.cons_append, ← hd]⟩, h2⟩

/-- The invariant of the walk over a work-list sorted by `NumIn`: every frame
on the stack carries the interval of an entry processed, and the intervals of
the frames are nested, each contained in those beneath it. -/
theorem nesting_invariant (O : Oracle) (g : Nat → Bool) (S0 : DriverState)
    (h0 : S0.DFSInStack = []) (pre : List ConstraintOrBlock)
    (hs : pre.Pairwise (fun a b => a.NumIn ≤ b.NumIn)) :
    (∀ X ∈ (runWorkList O g S0 pre).DFSInStack,
      ∃ Q ∈ pre, X.NumIn = Q.NumIn ∧ X.NumOut = Q.NumOut) ∧
    (runWorkList O g S0 pre).DFSInStack.Pairwise
      (fun top beneath => beneath.NumIn ≤ top.NumIn ∧ top.NumOut ≤ beneath.NumOut) := by
  induction pre using List.reverseRecOn with
  | nil =>
    simp [runWorkList, h0]
  | append_singleton pre P ih =>
    obtain ⟨iha, ihb⟩ := ih (List.pairwise_append.1 hs).1
    have hsP : ∀ Q ∈ pre, Q.NumIn ≤ P.NumIn := fun Q hQ =>
      (List.pairwise_append.1 hs).2.2 Q hQ P (by simp)
    rw [runWorkList_append]
    obtain ⟨new, hst, hnew, _⟩ := processEntry_stack O g (runWorkList O g S0 pre) P
    obtain ⟨⟨d, hd⟩, hstop⟩ := popOutOfScope_suffix P.NumOut (runWorkList O g S0 pre).Info
      (runWorkList O g S0 pre).DFSInStack
    have hsub : ∀ X ∈ (popOutOfScope P.NumOut (runWorkList O g S0 pre).Info
        (runWorkList O g S0 pre).DFSInStack).2, X ∈ (runWorkList O g S0 pre).DFSInStack := by
      intro X hX
      rw [hd]
      exact List.mem_append_right _ hX
    have hchain : (popOutOfScope P.NumOut (runWorkList O g S0 pre).Info
        (runWorkList O g S0 pre).DFSInStack).2.Pairwise
        (fun top beneath => beneath.NumIn ≤ top.NumIn ∧ top.NumOut ≤ beneath.NumOut) := by
      rw [hd] at ihb
      exact (List.pairwise_append.1 ihb).2.1
    have hcontain : ∀ X ∈ (popOutOfScope P.NumOut (runWorkList O g S0 pre).Info
        (runWorkList O g S0 pre).DFSInStack).2, X.NumIn ≤ P.NumIn ∧ P.NumOut ≤ X.NumOut := by
      intro X hX
      obtain ⟨Q, hQ, hq1, _⟩ := iha X (hsub X hX)
      refine ⟨by rw [hq1]; exact hsP Q hQ, ?_⟩
      rcases hrest : (popOutOfScope P.NumOut (runWorkList O g S0 pre).Info
        (runWorkList O g S0 pre).DFSInStack).2 with _ | ⟨E, rest⟩
      · rw [hrest] at hX; cases hX
      · have hE := hstop E rest hrest
        rw [hrest] at hX hchain
        rcases List.mem_cons.1 hX with h | h
        · rw [h]; exact hE
        · have := (List.pairwise_cons.1 hchain).1 X h
          omega
    rw [hst]
    constructor
    · intro X hX
      rcases List.mem_append.1 hX with h | h
      · exact ⟨P, by simp, hnew X h⟩
      · obtain ⟨Q, hQ, hq⟩ := iha X (hsub X h)
        exact ⟨Q, List.mem_append_left _ hQ, hq⟩
    · rw [List.pairwise_append]
      refine ⟨?_, hchain, ?_⟩
      · rw [List.pairwise_iff_forall_sublist]
        intro a b hab
        have ha := hnew a (hab.subset (by simp))
        have hb := hnew b (hab.subset (by simp))
        omega
      · intro a ha b hb
        have h1 := hnew a ha
        have h2 := hcontain b hb
        omega

/-- C30 (scope-stack nesting): for every work-list sorted by `NumIn` (its
intervals need not even be nested or disjoint), walked from an empty stack, and
every entry `E` of it: the frames on the stack before `E` form a chain of
nested intervals, each contained in that of every frame beneath it; each has
`NumIn` not above that of `E`, so that the assertion of the pop loop holds for
every frame the loop looks at; the frames the pop loop leaves all contain the
interval of `E`; and the stack after `E` is again such a chain. -/
theorem scope_stack_nesting (O : Oracle) (g : Nat → Bool) (S0 : DriverState)
    (h0 : S0.DFSInStack = []) (pre post : List ConstraintOrBlock) (E : ConstraintOrBlock)
    (hs : (pre ++ E :: post).Pairwise (fun a b => a.NumIn ≤ b.NumIn)) :
    (runWorkList O g S0 pre).DFSInStack.Pairwise
      (fun top beneath => beneath.NumIn ≤ top.NumIn ∧ top.NumOut ≤ beneath.NumOut) ∧
    (∀ X ∈ (runWorkList O g S0 pre).DFSInStack, X.NumIn ≤ E.NumIn) ∧
    (∀ X ∈ (popOutOfScope E.NumOut (runWorkList O g S0 pre).Info
        (runWorkList O g S0 pre).DFSInStack).2, frameContains X E = true) ∧
    (popOutOfScope E.NumOut (runWorkList O g S0 pre).Info
        (runWorkList O g S0 pre).DFSInStack).2.Pairwise
      (fun top beneath => beneath.NumIn ≤ top.NumIn ∧ top.NumOut ≤ beneath.NumOut) ∧
    (processEntry O g (runWorkList O g S0 pre) E).DFSInStack.Pairwise
      (fun top beneath => beneath.NumIn ≤ top.NumIn ∧ top.NumOut ≤ beneath.NumOut) := by
  have hs1 : (pre ++ [E]).Pairwise (fun a b => a.NumIn ≤ b.NumIn) := by
    have : pre ++ E :: post = (pre ++ [E]) ++ post := by simp
    rw [this] at hs
    exact (List.pairwise_append.1 hs).1
  have hpre := List.pairwise_append.1 hs1
  obtain ⟨iha, ihb⟩ := nesting_invariant O g S0 h0 pre hpre.1
  obtain ⟨_, hafter⟩ := nesting_invariant O g S0 h0 (pre ++ [E]) hs1
  rw [runWorkList_append] at hafter
  obtain ⟨⟨d, hd⟩, hstop⟩ := popOutOfScope_suffix E.NumOut (runWorkList O g S0 pre).Info
    (runWorkList O g S0 pre).DFSInStack
  have hin : ∀ X ∈ (runWorkList O g S0 pre).DFSInStack, X.NumIn ≤ E.NumIn := by
    intro X hX
    obtain ⟨Q, hQ, hq1, _⟩ := iha X hX
    rw [hq1]
    exact hpre.2.2 Q hQ E (by simp)
  have hchain : (popOutOfScope E.NumOut (runWorkList O g S0 pre).Info
      (runWorkList O g S0 pre).DFSInStack).2.Pairwise
      (fun top beneath => beneath.NumIn ≤ top.NumIn ∧ top.NumOut ≤ beneath.NumOut) := by
    rw [hd] at ihb
    exact (List.pairwise_append.1 ihb).2.1
  refine ⟨ihb, hin, ?_, hchain, hafter⟩
  intro X hX
  have hX2 : X ∈ (runWorkList O g S0 pre).DFSInStack := by
    rw [hd]
    exact List.mem_append_right _ hX
  simp only [frameContains, Bool.and_eq_true, decide_eq_true_eq]
  refine ⟨hin X hX2, ?_⟩
  rcases hrest : (popOutOfScope E.NumOut (runWorkList O g S0 pre).Info
    (runWorkList O g S0 pre).DFSInStack).2 with _ | ⟨T, rest⟩
  · rw [hrest] at hX; cases hX
  · have hT := hstop T rest hrest
    rw [hrest] at hX hchain
    rcases List.mem_cons.1 hX with h | h
    · rw [h]; exact hT
    · have := (List.pairwise_cons.1 hchain).1 X h
      omega

/-- Witness of `scope_stack_nesting`: the work-list of the scenario at the
marker of the `Then` block, before which the stack holds the two frames of the
branch fact; the pop loop leaves both, and both contain the interval of the
block. -/
theorem scope_stack_nesting_witness :
    (runWorkList syntacticOracle counterUnset { F := scenario }
        [⟨0, 5, true, false, 0, 0⟩, ⟨1, 2, false, false, 0, 1⟩]).DFSInStack =
      [⟨1, 2, false, false, [.ref 0]⟩, ⟨1, 2, false, true, [.ref 0]⟩] ∧
    (popOutOfScope 2
        (runWorkList syntacticOracle counterUnset { F := scenario }
          [⟨0, 5, true, false, 0, 0⟩, ⟨1, 2, false, false, 0, 1⟩]).Info
        (runWorkList syntacticOracle counterUnset { F := scenario }
          [⟨0, 5, true, false, 0, 0⟩, ⟨1, 2, false, false, 0, 1⟩]).DFSInStack).2 =
      [⟨1, 2, false, false, [.ref 0]⟩, ⟨1, 2, false, true, [.ref 0]⟩] ∧
    (popOutOfScope (ConstraintOrBlock.NumOut ⟨1, 2, true, false, 1, 0⟩)
        (runWorkList syntacticOracle counterUnset { F := scenario }
          [⟨0, 5, true, false, 0, 0⟩, ⟨1, 2, false, false, 0, 1⟩]).Info
        (runWorkList syntacticOracle counterUnset { F := scenario }
          [⟨0, 5, true, false, 0, 0⟩, ⟨1, 2, false, false, 0, 1⟩]).DFSInStack).2.all
      (fun X => frameContains X ⟨1, 2, true, false, 1, 0⟩) = true :=
  ⟨by decide, by decide,
   List.all_eq_true.2
    (scope_stack_nesting syntacticOracle counterUnset { F := scenario } rfl
      [⟨0, 5, true, false, 0, 0⟩, ⟨1, 2, false, false, 0, 1⟩]
      [⟨3, 4, false, true, 0, 1⟩, ⟨3, 4, true, false, 2, 0⟩]
      ⟨1, 2, true, false, 1, 0⟩ (by decide)).2.2.1⟩

/-! ## C33: the transfer rules on bit patterns -/

theorem two_pow_pred (w : Nat) (hw : 0 < w) : 2 ^ w = 2 * 2 ^ (w - 1) := by
  obtain ⟨k, rfl⟩ : ∃ k, w = k + 1 := ⟨w - 1, by omega⟩
  simp [pow_succ, Nat.mul_comm]

/-- The two's complement reading of a pattern below `2 ^ w`: the pattern
itself below half the range, and the pattern less `2 ^ w` from there on. -/
theorem toSigned_cases (w x : Nat) (hx : x < 2 ^ w) :
    (x < 2 ^ (w - 1) ∧ toSigned w x = ((x : Nat) : Int)) ∨
    (2 ^ w = 2 * 2 ^ (w - 1) ∧ 2 ^ (w - 1) ≤ x ∧
      toSigned w x = ((x : Nat) : Int) - ((2 ^ w : Nat) : Int)) := by
  unfold toSigned
  rw [Nat.mod_eq_of_lt hx]
  by_cases h : 2 ^ (w - 1) ≤ x
  · right
    refine ⟨?_, h, ?_⟩
    · rcases Nat.eq_zero_or_pos w with h0 | h0
      · subst h0
        simp at hx h
        omega
      · exact two_pow_pred w h0
    · simp only [h, ↓reduceIte]
      push_cast
      ring
  · left
    exact ⟨by omega, by simp [h]⟩

theorem toSigned_zero (w : Nat) : toSigned w 0 = 0 := by
  have hp : 0 < 2 ^ (w - 1) := Nat.two_pow_pos _
  rcases toSigned_cases w 0 (Nat.two_pow_pos w) with h | h
  · simpa using h.2
  · omega

/-! ## C34: the guard of the checked subtraction -/

/-- C34 (the subtraction guard is sufficient): for every width `w` and all
`w`-bit patterns `a` and `b` with `a s>= b` and `b s>= 0`, the exact difference
of the signed values lies in the signed range of the width; the overflow flag
of `ssub.with.overflow(a, b)` is false; and its result is the wrapping
difference, the pattern a plain `sub` computes, whose signed value is the exact
difference. -/
theorem subtraction_guard_sufficient (w a b : Nat) (ha : a < 2 ^ w) (hb : b < 2 ^ w)
    (h1 : evalPredicate .ICMP_SGE w a b = some true)
    (h2 : evalPredicate .ICMP_SGE w b 0 = some true) :
    -(2 ^ (w - 1) : Int) ≤ toSigned w a - toSigned w b ∧
    toSigned w a - toSigned w b < 2 ^ (w - 1) ∧
    ssubWithOverflow w a b = ((a + (2 ^ w - b)) % 2 ^ w, false) ∧
    toSigned w ((a + (2 ^ w - b)) % 2 ^ w) = toSigned w a - toSigned w b := by
  simp only [evalPredicate, Option.some.injEq, decide_eq_true_eq, toSigned_zero, ge_iff_le]
    at h1 h2
  have hca := toSigned_cases w a ha
  have hcb := toSigned_cases w b hb
  have hlt : (a + (2 ^ w - b)) % 2 ^ w < 2 ^ w := Nat.mod_lt _ (Nat.two_pow_pos w)
  have hcr := toSigned_cases w _ hlt
  have hp : 0 < 2 ^ (w - 1) := Nat.two_pow_pos _
  have hP : ((2 : Int) ^ (w - 1)) = ((2 ^ (w - 1) : Nat) : Int) := by push_cast; rfl
  have hrange : -(2 ^ (w - 1) : Int) ≤ toSigned w a - toSigned w b ∧
      toSigned w a - toSigned w b < 2 ^ (w - 1) := by
    rw [hP]
    rcases hca with ⟨ha1, ha2⟩ | ⟨hw, ha1, ha2⟩ <;>
      rcases hcb with ⟨hb1, hb2⟩ | ⟨hw2, hb1, hb2⟩ <;> omega
  have hba : b ≤ a := by
    rcases hca with ⟨ha1, ha2⟩ | ⟨hw, ha1, ha2⟩ <;>
      rcases hcb with ⟨hb1, hb2⟩ | ⟨hw2, hb1, hb2⟩ <;> omega
  have hres : (a + (2 ^ w - b)) % 2 ^ w = a - b := by
    have : a + (2 ^ w - b) = (a - b) + 2 ^ w := by omega
    rw [this, Nat.add_mod_right, Nat.mod_eq_of_lt (by omega)]
  refine ⟨hrange.1, hrange.2, ?_, ?_⟩
  · unfold ssubWithOverflow
    rw [Nat.mod_eq_of_lt ha, Nat.mod_eq_of_lt hb]
    simp [hrange.1, hrange.2]
  · rw [hres] at hcr ⊢
    rcases hca with ⟨ha1, ha2⟩ | ⟨hw, ha1, ha2⟩ <;>
      rcases hcb with ⟨hb1, hb2⟩ | ⟨hw2, hb1, hb2⟩ <;>
      rcases hcr with ⟨hr1, hr2⟩ | ⟨hw3, hr1, hr2⟩ <;> omega

/-- Witness of `subtraction_guard_sufficient`: the 8-bit patterns 100 and 3. -/
theorem subtraction_guard_sufficient_witness :
    evalPredicate .ICMP_SGE 8 100 3 = some true ∧ evalPredicate .ICMP_SGE 8 3 0 = some true ∧
    ssubWithOverflow 8 100 3 = ((100 + (2 ^ 8 - 3)) % 2 ^ 8, false) ∧
    ssubWithOverflow 8 100 3 = (97, false) ∧
    ssubWithOverflow 8 100 200 = (156, true) :=
  ⟨by decide, by decide,
   (subtraction_guard_sufficient 8 100 3 (by decide) (by decide) (by decide) (by decide)).2.2.1,
   by decide, by decide⟩

/-! ## C37: the transfer touches only the unsigned system -/

theorem normalizePredicate_isSigned (P Q : Predicate) (A B X Y : Value) (e : Bool)
    (h : normalizePredicate P A B = some (Q, X, Y, e)) : Q.isSigned = P.isSigned := by
  unfold normalizePredicate at h
  cases P <;> simp only [Predicate.getSwappedPredicate] at h <;> (try split_ifs at h) <;>
    simp only [Option.some.injEq, Prod.mk.injEq, reduceCtorEq] at h <;>
    (obtain ⟨h1, _⟩ := h; subst h1; rfl)

/-- The result of `getConstraint` is the empty row, or a row in closed form in
the domain of the predicate. -/
theorem getConstraint_shape_signed (Info : ConstraintInfo) (defs : Defs) (P : Predicate)
    (A B : Value) (NI : DenseMap) :
    (Info.getConstraint defs P A B NI).1 = {} ∨
    ∃ strict e a0 b0 VA VB Pre,
      Info.getConstraint defs P A B NI = leRow Info P.isSigned strict e a0 b0 VA VB Pre NI := by
  rcases hn : normalizePredicate P A B with _ | ⟨Q, X, Y, e⟩
  · left
    simp [ConstraintInfo.getConstraint, hn]
  · have hs := normalizePredicate_isSigned P Q A B X Y e hn
    rcases hA : decompose defs (stripPointerCastsSameRepresentation defs X) Q.isSigned with
      ⟨_ | ⟨⟨a0, oa⟩, VA⟩, PA⟩
    · left
      simp only [ConstraintInfo.getConstraint, hn, hA]
      split <;> rfl
    · rcases hB : decompose defs (stripPointerCastsSameRepresentation defs Y) Q.isSigned with
        ⟨_ | ⟨⟨b0, ob⟩, VB⟩, PB⟩
      · left
        simp only [ConstraintInfo.getConstraint, hn, hA, hB]
        split <;> rfl
      · by_cases hQ : Q ≠ .ICMP_ULE ∧ Q ≠ .ICMP_ULT ∧ Q ≠ .ICMP_SLE ∧ Q ≠ .ICMP_SLT
        · left
          simp only [ConstraintInfo.getConstraint, hn]
          rw [if_pos hQ]
        · right
          refine ⟨decide (Q = (if Q.isSigned then .ICMP_SLT else .ICMP_ULT)), e,
            a0, b0, VA, VB, PA ++ PB, ?_⟩
          rw [← hs]
          simp only [ConstraintInfo.getConstraint, hn]
          rw [if_neg hQ]
          simp only [hA, hB, leRow]

theorem leRow_isSigned (Info : ConstraintInfo) (sgn strict e : Bool) (a0 b0 : Int)
    (VA VB : Decomposition) (Pre : List PreconditionTy) (NI : DenseMap) :
    (leRow Info sgn strict e a0 b0 VA VB Pre NI).1.IsSigned = false ∨
    (leRow Info sgn strict e a0 b0 VA VB Pre NI).1.IsSigned = sgn := by
  unfold leRow
  split_ifs
  all_goals first
    | exact Or.inl rfl
    | exact Or.inr rfl

/-- The row of an unsigned predicate is tagged unsigned. -/
theorem getConstraint_unsigned (Info : ConstraintInfo) (defs : Defs) (P : Predicate)
    (A B : Value) (NI : DenseMap) (hP : P.isSigned = false) :
    (Info.getConstraint defs P A B NI).1.IsSigned = false := by
  rcases getConstraint_shape_signed Info defs P A B NI with h | ⟨st, e, a0, b0, VA, VB, Pre, h⟩
  · rw [h]
  · rw [h]
    rcases leRow_isSigned Info P.isSigned st e a0 b0 VA VB Pre NI with h2 | h2
    · exact h2
    · rw [h2, hP]

/-- The method `addFact` leaves the table and the system of the other domain as
they were, and tags every frame it pushes with the domain of the row. -/
theorem addFact_domain (O : Oracle) (Info : ConstraintInfo) (defs : Defs) (P : Predicate)
    (A B : Value) (neg : Bool) (i o : Nat) (st : List StackEntry) :
    (Info.addFact O defs P A B neg i o st).1.getCS
        (!(Info.getConstraint defs P A B []).1.IsSigned) =
      Info.getCS (!(Info.getConstraint defs P A B []).1.IsSigned) ∧
    (Info.addFact O defs P A B neg i o st).1.getValue2Index
        (!(Info.getConstraint defs P A B []).1.IsSigned) =
      Info.getValue2Index (!(Info.getConstraint defs P A B []).1.IsSigned) ∧
    ∃ new, (Info.addFact O defs P A B neg i o st).2 = new ++ st ∧
      ∀ E ∈ new, E.IsSigned = (Info.getConstraint defs P A B []).1.IsSigned := by
  unfold ConstraintInfo.addFact
  generalize Info.getConstraint defs P A B [] = r
  obtain ⟨⟨C, Pre, s, e⟩, NI⟩ := r
  dsimp only
  split_ifs
  · exact ⟨rfl, rfl, [], rfl, by simp⟩
  · exact ⟨rfl, rfl, [], rfl, by simp⟩
  · exact ⟨by cases s <;> rfl, by cases s <;> rfl, [_, _], rfl, by simp⟩
  · exact ⟨by cases s <;> rfl, by cases s <;> rfl, [_], rfl, by simp⟩
  · exact ⟨by cases s <;> rfl, by cases s <;> rfl, [], rfl, by simp⟩

/-- C37 (the transfer touches only the unsigned system): for every store and
all arguments, `transferToOtherSystem` leaves the signed atom table and the
signed system as they were, every frame it pushes is tagged unsigned, and it
returns store and stack as they were when the left operand is not
integer-typed or the predicate is none of `SLT`, `SGT`, `SGE`. -/
theorem transfer_unsigned_only (O : Oracle) (Info : ConstraintInfo) (defs : Defs)
    (P : Predicate) (A B : Value) (neg : Bool) (i o : Nat) (st : List StackEntry) :
    (Info.transferToOtherSystem O defs P A B neg i o st).1.SignedValue2Index =
      Info.SignedValue2Index ∧
    (Info.transferToOtherSystem O defs P A B neg i o st).1.SignedCS = Info.SignedCS ∧
    (∃ new, (Info.transferToOtherSystem O defs P A B neg i o st).2 = new ++ st ∧
      ∀ E ∈ new, E.IsSigned = false) ∧
    (isIntegerTy (getType defs A) = false →
      Info.transferToOtherSystem O defs P A B neg i o st = (Info, st)) ∧
    (P ≠ .ICMP_SLT → P ≠ .ICMP_SGT → P ≠ .ICMP_SGE →
      Info.transferToOtherSystem O defs P A B neg i o st = (Info, st)) := by
  have key : ∀ (Q : Predicate) (X Y : Value), Q.isSigned = false →
      (Info.addFact O defs Q X Y neg i o st).1.SignedValue2Index = Info.SignedValue2Index ∧
      (Info.addFact O defs Q X Y neg i o st).1.SignedCS = Info.SignedCS ∧
      ∃ new, (Info.addFact O defs Q X Y neg i o st).2 = new ++ st ∧
        ∀ E ∈ new, E.IsSigned = false := by
    intro Q X Y hQ
    have h := addFact_domain O Info defs Q X Y neg i o st
    rw [getConstraint_unsigned Info defs Q X Y [] hQ] at h
    exact ⟨h.2.1, h.1, h.2.2⟩
  have hno : (Info, st).1.SignedValue2Index = Info.SignedValue2Index ∧
      (Info, st).1.SignedCS = Info.SignedCS ∧
      ∃ new, (Info, st).2 = new ++ st ∧ ∀ E ∈ new, E.IsSigned = false :=
    ⟨rfl, rfl, [], rfl, by simp⟩
  have hall : (Info.transferToOtherSystem O defs P A B neg i o st).1.SignedValue2Index =
        Info.SignedValue2Index ∧
      (Info.transferToOtherSystem O defs P A B neg i o st).1.SignedCS = Info.SignedCS ∧
      ∃ new, (Info.transferToOtherSystem O defs P A B neg i o st).2 = new ++ st ∧
        ∀ E ∈ new, E.IsSigned = false := by
    unfold ConstraintInfo.transferToOtherSystem
    split
    · exact hno
    · split
      · split
        · exact key _ _ _ rfl
        · exact hno
      · split
        · exact key _ _ _ rfl
        · exact hno
      · split
        · exact key _ _ _ rfl
        · exact hno
      · exact hno
  refine ⟨hall.1, hall.2.1, hall.2.2, ?_, ?_⟩
  · intro h
    simp [ConstraintInfo.transferToOtherSystem, h]
  · intro h1 h2 h3
    unfold ConstraintInfo.transferToOtherSystem
    split
    · rfl
    · split
      · exact absurd rfl h1
      · exact absurd rfl h2
      · exact absurd rfl h3
      · rfl

/-! ## C38: the negation of an equality row -/

/-- C38 fails on the code: `addFact` accepts the equality row of
`add nuw i64 %0, 9223372036854775806 == sub nuw i64 %1, 2` (it is valid, the
engine takes it, two frames are pushed), and the constant term of that row is
the minimum 64-bit value, which multiplication by -1 wraps onto itself. -/
theorem equality_row_at_minimum :
    (({} : ConstraintInfo).getConstraint minOffsets .ICMP_EQ (.ref 2) (.ref 3) []).1.IsEq = true ∧
    (({} : ConstraintInfo).getConstraint minOffsets .ICMP_EQ (.ref 2) (.ref 3) []).1.isValid
      syntacticOracle {} minOffsets = true ∧
    (({} : ConstraintInfo).addFact syntacticOracle minOffsets .ICMP_EQ (.ref 2) (.ref 3)
      false 0 1 []).2.length = 2 ∧
    (({} : ConstraintInfo).getConstraint minOffsets .ICMP_EQ (.ref 2) (.ref 3)
      []).1.Coefficients.head? = some MinSignedConstraintValue ∧
    wrap64 (MinSignedConstraintValue * -1) = MinSignedConstraintValue ∧
    wrap64 (MinSignedConstraintValue * -1) ≠ -MinSignedConstraintValue := by
  refine ⟨by decide, by decide, by decide, by decide, by decide, by decide⟩

/-! ## C39: the indices of a row are in bounds -/

theorem leRow_length (Info : ConstraintInfo) (sgn strict e : Bool) (a0 b0 : Int)
    (VA VB : Decomposition) (Pre : List PreconditionTy) (NI : DenseMap)
    (h : (leRow Info sgn strict e a0 b0 VA VB Pre NI).1.Coefficients ≠ []) :
    (leRow Info sgn strict e a0 b0 VA VB Pre NI).1.IsSigned = sgn ∧
    (leRow Info sgn strict e a0 b0 VA VB Pre NI).2 =
      addIndices (Info.getValue2Index sgn) (VA ++ VB) NI ∧
    (leRow Info sgn strict e a0 b0 VA VB Pre NI).1.Coefficients.length =
      (Info.getValue2Index sgn).length +
        (addIndices (Info.getValue2Index sgn) (VA ++ VB) NI).length + 1 := by
  unfold leRow at h ⊢
  split_ifs at h ⊢
  all_goals first
    | exact absurd rfl h
    | exact ⟨rfl, rfl, by
        simp only [updateAt_length, addCoefficients_length, List.length_replicate]⟩

/-- The length of a row that is not empty: one entry for the constant term,
one for each value of the atom table of the row's domain, and one for each new
index. -/
theorem getConstraint_length (Info : ConstraintInfo) (defs : Defs) (P : Predicate)
    (A B : Value) (NI : DenseMap)
    (h : (Info.getConstraint defs P A B NI).1.Coefficients ≠ []) :
    (Info.getConstraint defs P A B NI).1.Coefficients.length =
      (Info.getValue2Index (Info.getConstraint defs P A B NI).1.IsSigned).length +
        (Info.getConstraint defs P A B NI).2.length + 1 := by
  rcases getConstraint_shape Info defs P A B NI with h0 | ⟨sgn, strict, e, a0, b0, VA, VB, Pre, hr⟩
  · exact absurd h0 h
  · rw [hr] at h ⊢
    obtain ⟨h1, h2, h3⟩ := leRow_length Info sgn strict e a0 b0 VA VB Pre NI h
    rw [h1, h3, h2]

/-- C39 (row indexing is in bounds): let the indices of the atom table `T` lie
in `1..n`, `n` its size, and those of the new-index table handed in right
above (none in the calls the pass makes), and let `V` be the variables of the
two decompositions.  After the loop that gives every variable an index, with
`k` new indices in all, the index `GetOrAddIndex` returns for each variable
lies in `1..n+k`, which is inside the row of length `n+k+1` and is not 0, and
the call adds no further index.  A row `getConstraint` returns non-empty has
that length. -/
theorem row_indexing_in_bounds (T NI0 : DenseMap) (V : Decomposition)
    (hT : T.IndicesInRange) (hN : DenseMap.NewInRange T.length NI0) :
    (∀ c v, (c, some v) ∈ V →
      1 ≤ (GetOrAddIndex T (addIndices T V NI0) v).1 ∧
      (GetOrAddIndex T (addIndices T V NI0) v).1 ≤ T.length + (addIndices T V NI0).length ∧
      (GetOrAddIndex T (addIndices T V NI0) v).1 <
        (List.replicate (T.length + (addIndices T V NI0).length + 1) (0 : Int)).length ∧
      (GetOrAddIndex T (addIndices T V NI0) v).2 = addIndices T V NI0) ∧
    (∀ (Info : ConstraintInfo) (defs : Defs) (P : Predicate) (A B : Value),
      (Info.getConstraint defs P A B NI0).1.Coefficients ≠ [] →
      (Info.getConstraint defs P A B NI0).1.Coefficients.length =
        (Info.getValue2Index (Info.getConstraint defs P A B NI0).1.IsSigned).length +
          (Info.getConstraint defs P A B NI0).2.length + 1) := by
  refine ⟨?_, fun Info defs P A B h => getConstraint_length Info defs P A B NI0 h⟩
  intro c v hv
  have hk := addIndices_known T V NI0 v (Or.inr ⟨c, hv⟩)
  have hb := getOrAddIndex_bounds T (addIndices T V NI0) v hT
    (addIndices_newInRange T V NI0 hN) hk
  refine ⟨hb.1, hb.2, ?_, getOrAddIndex_known T _ v hk⟩
  rw [List.length_replicate]
  omega

/-- Witness of `row_indexing_in_bounds`: the table that knows `%0`, and the
variables `%0` and `%1`; `%1` gets the new index 2. -/
theorem row_indexing_in_bounds_witness :
    addIndices [(.ref 0, 1)] [(1, some (.ref 0)), (1, some (.ref 1))] [] = [(.ref 1, 2)] ∧
    (1 ≤ (GetOrAddIndex [(.ref 0, 1)]
        (addIndices [(.ref 0, 1)] [(1, some (.ref 0)), (1, some (.ref 1))] []) (.ref 1)).1 ∧
      (GetOrAddIndex [(.ref 0, 1)]
        (addIndices [(.ref 0, 1)] [(1, some (.ref 0)), (1, some (.ref 1))] []) (.ref 1)).1 ≤
        ([(.ref 0, 1)] : DenseMap).length +
          (addIndices [(.ref 0, 1)] [(1, some (.ref 0)), (1, some (.ref 1))] []).length) :=
  ⟨by decide,
   ((row_indexing_in_bounds [(.ref 0, 1)] [] [(1, some (.ref 0)), (1, some (.ref 1))]
      (by intro kv h; simp only [List.mem_singleton] at h; subst h; decide)
      (by intro kv h; cases h)).1 1 (.ref 1) (by decide)).1,
   ((row_indexing_in_bounds [(.ref 0, 1)] [] [(1, some (.ref 0)), (1, some (.ref 1))]
      (by intro kv h; simp only [List.mem_singleton] at h; subst h; decide)
      (by intro kv h; cases h)).1 1 (.ref 1) (by decide)).2.1⟩

/-! ## C40: `needsNewIndices` -/

/-- The loop of `needsNewIndices` on a vector with at least `k` entries: it
answers true exactly when one of the last `k` entries is not zero, and when it
answers false it leaves the vector without its last `k` entries. -/
theorem needsNewIndicesLoop_spec (k : Nat) (coeffs : List Int) (hk : k ≤ coeffs.length) :
    ((needsNewIndicesLoop k coeffs).1 = true ↔
      ∃ i, coeffs.length - k ≤ i ∧ i < coeffs.length ∧ coeffs.getD i 0 ≠ 0) ∧
    ((needsNewIndicesLoop k coeffs).1 = false →
      (needsNewIndicesLoop k coeffs).2 = coeffs.take (coeffs.length - k)) := by
  induction k generalizing coeffs with
  | zero =>
    refine ⟨?_, fun _ => by simp [needsNewIndicesLoop]⟩
    simp only [needsNewIndicesLoop, Bool.false_eq_true, Nat.sub_zero, false_iff, not_exists,
      not_and]
    intro i h1 h2
    omega
  | succ k ih =>
    rcases List.eq_nil_or_concat coeffs with h | ⟨init, last, h⟩
    · subst h
      simp at hk
    · rw [List.concat_eq_append] at h
      subst h
      have hlen : (init ++ [last]).length = init.length + 1 := by simp
      have hk2 : k ≤ init.length := by rw [hlen] at hk; omega
      have hget : ∀ i, i < init.length → (init ++ [last]).getD i 0 = init.getD i 0 := by
        intro i hi
        simp [List.getD_eq_getElem?_getD, List.getElem?_append_left hi]
      have hlast : (init ++ [last]).getD init.length 0 = last := by
        simp [List.getD_eq_getElem?_getD]
      have hgl : (init ++ [last]).getLast? = some last := by simp
      have hdl : (init ++ [last]).dropLast = init := by simp
      unfold needsNewIndicesLoop
      rw [hgl, hdl]
      simp only [Option.getD_some, ne_eq, ite_not]
      by_cases hl : last = 0
      · subst hl
        simp only [↓reduceIte]
        obtain ⟨ih1, ih2⟩ := ih init hk2
        constructor
        · rw [ih1]
          constructor
          · rintro ⟨i, h1, h2, h3⟩
            exact ⟨i, by rw [hlen]; omega, by rw [hlen]; omega, by
              rw [hget i h2]; exact h3⟩
          · rintro ⟨i, h1, h2, h3⟩
            rw [hlen] at h1 h2
            by_cases hi : i < init.length
            · exact ⟨i, by omega, hi, by rw [hget i hi] at h3; exact h3⟩
            · exfalso
              have : i = init.length := by omega
              subst this
              rw [hlast] at h3
              exact h3 rfl
        · intro hf
          rw [ih2 hf, hlen]
          have : init.length + 1 - (k + 1) = init.length - k := by omega
          rw [this, List.take_append_of_le_length (by omega)]
      · simp only [hl, ↓reduceIte, true_iff, Bool.true_eq_false, false_implies, and_true]
        exact ⟨init.length, by rw [hlen]; omega, by rw [hlen]; omega, by rw [hlast]; exact hl⟩

/-- C40 (`needsNewIndices`): for a row `getConstraint` returns non-empty, with
its new-index table of size `k`, built over an atom table of size `n`: the row
has `n + k + 1` coefficients, more than the `k` the loop pops at most;
`needsNewIndices` answers true exactly when a coefficient at an index above
`n` is not zero; and when it answers false it leaves the first `n + 1`
coefficients. -/
theorem needsNewIndices_spec (Info : ConstraintInfo) (defs : Defs) (P : Predicate)
    (A B : Value)
    (hne : (Info.getConstraint defs P A B []).1.Coefficients ≠ []) :
    (Info.getConstraint defs P A B []).1.Coefficients.length =
      (Info.getValue2Index (Info.getConstraint defs P A B []).1.IsSigned).length +
        (Info.getConstraint defs P A B []).2.length + 1 ∧
    (Info.getConstraint defs P A B []).2.length <
      (Info.getConstraint defs P A B []).1.Coefficients.length ∧
    (((Info.getConstraint defs P A B []).1.needsNewIndices
        (Info.getConstraint defs P A B []).2).1 = true ↔
      ∃ i, (Info.getValue2Index (Info.getConstraint defs P A B []).1.IsSigned).length < i ∧
        i < (Info.getConstraint defs P A B []).1.Coefficients.length ∧
        (Info.getConstraint defs P A B []).1.Coefficients.getD i 0 ≠ 0) ∧
    (((Info.getConstraint defs P A B []).1.needsNewIndices
        (Info.getConstraint defs P A B []).2).1 = false →
      ((Info.getConstraint defs P A B []).1.needsNewIndices
        (Info.getConstraint defs P A B []).2).2.Coefficients =
        (Info.getConstraint defs P A B []).1.Coefficients.take
          ((Info.getValue2Index (Info.getConstraint defs P A B []).1.IsSigned).length + 1)) := by
  have hlen := getConstraint_length Info defs P A B [] hne
  generalize Info.getConstraint defs P A B [] = r at *
  obtain ⟨⟨C, Pre, s, e⟩, NI⟩ := r
  simp only at hlen hne ⊢
  have hk : NI.length ≤ C.length := by omega
  obtain ⟨h1, h2⟩ := needsNewIndicesLoop_spec NI.length C hk
  have hsub : C.length - NI.length = (Info.getValue2Index s).length + 1 := by omega
  refine ⟨hlen, by omega, ?_, ?_⟩
  · simp only [ConstraintTy.needsNewIndices]
    rw [h1, hsub]
    constructor
    · rintro ⟨i, h3, h4, h5⟩
      exact ⟨i, by omega, h4, h5⟩
    · rintro ⟨i, h3, h4, h5⟩
      exact ⟨i, by omega, h4, h5⟩
  · simp only [ConstraintTy.needsNewIndices]
    intro hf
    rw [h2 hf, hsub]

/-- Witness of `needsNewIndices_spec`: the row of `%0 u<= %0` in the empty
store has the new index of `%0` with coefficient zero, and is cut to its
constant term; the row of `%0 u< %1` needs its new indices. -/
theorem needsNewIndices_spec_witness :
    (({} : ConstraintInfo).getConstraint twoArguments .ICMP_ULE (.ref 0) (.ref 0) []) =
      (⟨[0, 0], [], false, false⟩, [(.ref 0, 1)]) ∧
    ((({} : ConstraintInfo).getConstraint twoArguments .ICMP_ULE (.ref 0) (.ref 0)
        []).1.needsNewIndices
      (({} : ConstraintInfo).getConstraint twoArguments .ICMP_ULE (.ref 0) (.ref 0) []).2).1 =
      false ∧
    ((({} : ConstraintInfo).getConstraint twoArguments .ICMP_ULE (.ref 0) (.ref 0)
        []).1.needsNewIndices
      (({} : ConstraintInfo).getConstraint twoArguments .ICMP_ULE (.ref 0) (.ref 0)
        []).2).2.Coefficients =
      (({} : ConstraintInfo).getConstraint twoArguments .ICMP_ULE (.ref 0) (.ref 0)
        []).1.Coefficients.take
        ((({} : ConstraintInfo).getValue2Index
          (({} : ConstraintInfo).getConstraint twoArguments .ICMP_ULE (.ref 0) (.ref 0)
            []).1.IsSigned).length + 1) ∧
    ((({} : ConstraintInfo).getConstraint twoArguments .ICMP_ULT (.ref 0) (.ref 1)
        []).1.needsNewIndices
      (({} : ConstraintInfo).getConstraint twoArguments .ICMP_ULT (.ref 0) (.ref 1) []).2).1 =
      true :=
  ⟨by decide, by decide,
   (needsNewIndices_spec {} twoArguments .ICMP_ULE (.ref 0) (.ref 0) (by decide)).2.2.2
      (by decide),
   by decide⟩

/-! ## C31: rows and frames in step -/

theorem popOutOfScope_cons (n : Nat) (Info : ConstraintInfo) (E : StackEntry)
    (rest : List StackEntry) :
    popOutOfScope n Info (E :: rest) =
      if n ≤ E.NumOut then (Info, E :: rest) else popOutOfScope n (popFrame Info E) rest := rfl

/-- C31 as stated fails for an engine that reports no change for a row it
already holds, which the contract of the engine allows: in
`equalityAfterBound` the fact `%0 u>= %1` puts the row `[0, 1, -1]` into the
unsigned system; the fact `%0 == %1` then adds the row `[0, -1, 1]` and a
frame, and for the inverse row, which the system holds already, a second frame
but no row.  The unsigned system then holds two rows for three frames. -/
theorem frame_without_row :
    stableSort (collectWorkList equalityAfterBound equalityAfterBoundDT) =
      [⟨0, 9, true, false, 0, 0⟩, ⟨1, 6, false, false, 0, 2⟩, ⟨1, 6, true, false, 1, 0⟩,
       ⟨2, 3, false, false, 0, 4⟩, ⟨2, 3, true, false, 3, 0⟩, ⟨4, 5, false, true, 0, 4⟩,
       ⟨4, 5, true, false, 4, 0⟩, ⟨7, 8, false, true, 0, 2⟩, ⟨7, 8, true, false, 2, 0⟩] ∧
    (runWorkList dedupOracle counterUnset { F := equalityAfterBound }
      ((stableSort (collectWorkList equalityAfterBound equalityAfterBoundDT)).take 4)).Info.UnsignedCS =
      [[0, 1, -1], [0, -1, 1]] ∧
    (runWorkList dedupOracle counterUnset { F := equalityAfterBound }
      ((stableSort (collectWorkList equalityAfterBound equalityAfterBoundDT)).take 4)).DFSInStack =
      [⟨2, 3, false, false, []⟩, ⟨2, 3, false, false, []⟩, ⟨1, 6, false, false, [.ref 1, .ref 0]⟩] ∧
    ¬ RowsInSync
      (runWorkList dedupOracle counterUnset { F := equalityAfterBound }
        ((stableSort (collectWorkList equalityAfterBound equalityAfterBoundDT)).take 4)).Info
      (runWorkList dedupOracle counterUnset { F := equalityAfterBound }
        ((stableSort (collectWorkList equalityAfterBound equalityAfterBoundDT)).take 4)).DFSInStack := by
  refine ⟨by decide, by decide, by decide, ?_⟩
  unfold RowsInSync
  decide

theorem addFact_of_refused (O : Oracle) (Info : ConstraintInfo) (defs : Defs) (P : Predicate)
    (A B : Value) (IsNegated : Bool) (NumIn NumOut : Nat) (st : List StackEntry)
    (h : (Info.getConstraint defs P A B []).1.isValid O Info defs = false ∨
      O.addsRow (Info.getCS (Info.getConstraint defs P A B []).1.IsSigned)
        (Info.getConstraint defs P A B []).1.Coefficients = false) :
    Info.addFact O defs P A B IsNegated NumIn NumOut st = (Info, st) := by
  unfold ConstraintInfo.addFact
  simp only
  rcases h with h | h
  · simp [h]
  · split
    · rfl
    · split
      · rfl
      · simp only [addVariableRowFill, h, Bool.false_eq_true, ↓reduceIte, setCS_getCS]

/-- The three outcomes of `addFact`: nothing changes; one row and one frame;
or, for an equality, the row, a frame, the insertion of the inverse row and a
second frame. -/
theorem addFact_cases (O : Oracle) (Info : ConstraintInfo) (defs : Defs) (P : Predicate)
    (A B : Value) (neg : Bool) (i o : Nat) (st : List StackEntry) :
    Info.addFact O defs P A B neg i o st = (Info, st) ∨
    ((Info.getConstraint defs P A B []).1.Coefficients ≠ [] ∧
      Info.addFact O defs P A B neg i o st =
        ((Info.setCS (Info.getConstraint defs P A B []).1.IsSigned
            ((Info.getCS (Info.getConstraint defs P A B []).1.IsSigned).map
              (fun row => row ++ List.replicate
                ((Info.getConstraint defs P A B []).1.Coefficients.length - row.length) 0) ++
              [(Info.getConstraint defs P A B []).1.Coefficients])).setValue2Index
            (Info.getConstraint defs P A B []).1.IsSigned
            (insertAll (Info.getValue2Index (Info.getConstraint defs P A B []).1.IsSigned)
              (Info.getConstraint defs P A B []).2),
          ⟨i, o, neg, (Info.getConstraint defs P A B []).1.IsSigned,
            (Info.getConstraint defs P A B []).2.map (·.1)⟩ :: st)) ∨
    ((Info.getConstraint defs P A B []).1.Coefficients ≠ [] ∧
      O.addsRow (Info.getCS (Info.getConstraint defs P A B []).1.IsSigned)
        (Info.getConstraint defs P A B []).1.Coefficients = true ∧
      Info.addFact O defs P A B neg i o st =
        ((Info.setCS (Info.getConstraint defs P A B []).1.IsSigned
            (addVariableRowFill O
              ((Info.getCS (Info.getConstraint defs P A B []).1.IsSigned).map
                  (fun row => row ++ List.replicate
                    ((Info.getConstraint defs P A B []).1.Coefficients.length - row.length) 0) ++
                [(Info.getConstraint defs P A B []).1.Coefficients])
              ((Info.getConstraint defs P A B []).1.Coefficients.map
                (fun c => wrap64 (c * -1)))).2).setValue2Index
            (Info.getConstraint defs P A B []).1.IsSigned
            (insertAll (Info.getValue2Index (Info.getConstraint defs P A B []).1.IsSigned)
              (Info.getConstraint defs P A B []).2),
          ⟨i, o, neg, (Info.getConstraint defs P A B []).1.IsSigned, []⟩ ::
            ⟨i, o, neg, (Info.getConstraint defs P A B []).1.IsSigned,
              (Info.getConstraint defs P A B []).2.map (·.1)⟩ :: st)) := by
  cases hv : (Info.getConstraint defs P A B []).1.isValid O Info defs with
  | false => exact Or.inl (addFact_of_refused O Info defs P A B neg i o st (Or.inl hv))
  | true =>
    have hne : (Info.getConstraint defs P A B []).1.Coefficients ≠ [] := by
      intro h
      simp [ConstraintTy.isValid, h] at hv
    cases ha : O.addsRow (Info.getCS (Info.getConstraint defs P A B []).1.IsSigned)
        (Info.getConstraint defs P A B []).1.Coefficients with
    | false => exact Or.inl (addFact_of_refused O Info defs P A B neg i o st (Or.inr ha))
    | true =>
      cases he : (Info.getConstraint defs P A B []).1.IsEq with
      | false =>
        exact Or.inr (Or.inl ⟨hne,
          addFact_of_valid_row O Info defs P A B neg i o st _ _ rfl hv he ha⟩)
      | true =>
        exact Or.inr (Or.inr ⟨hne, rfl,
          addFact_of_valid_eq_row O Info defs P A B neg i o st _ _ rfl hv he ha⟩)

theorem processInstruction_info (O : Oracle) (g : Nat → Bool) (S : DriverState) (I : Nat) :
    (processInstruction O g S I).Info = S.Info := by
  unfold processInstruction
  split
  · rfl
  · rfl
  · dsimp only
    split_ifs <;> rfl
  · rfl

theorem foldl_processInstruction_info (O : Oracle) (g : Nat → Bool) (insts : List Nat)
    (S : DriverState) :
    (insts.foldl (processInstruction O g) S).Info = S.Info := by
  induction insts generalizing S with
  | nil => rfl
  | cons I rest ih => simp only [List.foldl, ih, processInstruction_info]

/-- A property of store and stack that `addFact` keeps is kept by
`transferToOtherSystem`. -/
theorem transfer_preserves (Inv : ConstraintInfo → List StackEntry → Prop) (O : Oracle)
    (hadd : ∀ Info st defs P A B neg i o, Inv Info st →
      Inv (Info.addFact O defs P A B neg i o st).1 (Info.addFact O defs P A B neg i o st).2)
    (Info : ConstraintInfo) (st : List StackEntry) (defs : Defs) (P : Predicate) (A B : Value)
    (neg : Bool) (i o : Nat) (h : Inv Info st) :
    Inv (Info.transferToOtherSystem O defs P A B neg i o st).1
      (Info.transferToOtherSystem O defs P A B neg i o st).2 := by
  unfold ConstraintInfo.transferToOtherSystem
  split
  · exact h
  · split
    · split
      · exact hadd _ _ _ _ _ _ _ _ _ h
      · exact h
    · split
      · exact hadd _ _ _ _ _ _ _ _ _ h
      · exact h
    · split
      · exact hadd _ _ _ _ _ _ _ _ _ h
      · exact h
    · exact h

/-- A property of store and stack that the pop of one frame keeps is kept by
the pop loop. -/
theorem popOutOfScope_preserves (Inv : ConstraintInfo → List StackEntry → Prop)
    (hpop : ∀ Info E rest, Inv Info (E :: rest) → Inv (popFrame Info E) rest)
    (n : Nat) (Info : ConstraintInfo) (st : List StackEntry) (h : Inv Info st) :
    Inv (popOutOfScope n Info st).1 (popOutOfScope n Info st).2 := by
  induction st generalizing Info with
  | nil => exact h
  | cons E rest ih =>
    rw [popOutOfScope_cons]
    split
    · exact h
    · exact ih _ (hpop Info E rest h)

/-- A property of store and stack that `addFact` and the pop of one frame keep
is kept by every step of the walk. -/
theorem processEntry_preserves (Inv : ConstraintInfo → List StackEntry → Prop) (O : Oracle)
    (g : Nat → Bool)
    (hadd : ∀ Info st defs P A B neg i o, Inv Info st →
      Inv (Info.addFact O defs P A B neg i o st).1 (Info.addFact O defs P A B neg i o st).2)
    (hpop : ∀ Info E rest, Inv Info (E :: rest) → Inv (popFrame Info E) rest)
    (S : DriverState) (CB : ConstraintOrBlock) (h : Inv S.Info S.DFSInStack) :
    Inv (processEntry O g S CB).Info (processEntry O g S CB).DFSInStack := by
  have hp := popOutOfScope_preserves Inv hpop CB.NumOut S.Info S.DFSInStack h
  unfold processEntry
  dsimp only
  split
  · split
    · rw [foldl_processInstruction_info, foldl_processInstruction_stack]
      exact hp
    · exact hp
  · unfold processCondition
    dsimp only
    split
    · split
      · exact transfer_preserves Inv O hadd _ _ _ _ _ _ _ _ _ (hadd _ _ _ _ _ _ _ _ _ hp)
      · exact hp
    · exact hp

theorem runWorkList_preserves (Inv : ConstraintInfo → List StackEntry → Prop) (O : Oracle)
    (g : Nat → Bool)
    (hadd : ∀ Info st defs P A B neg i o, Inv Info st →
      Inv (Info.addFact O defs P A B neg i o st).1 (Info.addFact O defs P A B neg i o st).2)
    (hpop : ∀ Info E rest, Inv Info (E :: rest) → Inv (popFrame Info E) rest)
    (WL : List ConstraintOrBlock) (S : DriverState) (h : Inv S.Info S.DFSInStack) :
    Inv (runWorkList O g S WL).Info (runWorkList O g S WL).DFSInStack := by
  induction WL generalizing S with
  | nil => exact h
  | cons CB rest ih =>
    exact ih _ (processEntry_preserves Inv O g hadd hpop S CB h)

theorem leRow_range (Info : ConstraintInfo) (sgn strict e : Bool) (a0 b0 : Int)
    (VA VB : Decomposition) (Pre : List PreconditionTy) (NI : DenseMap) (c : Int)
    (h : c ∈ (leRow Info sgn strict e a0 b0 VA VB Pre NI).1.Coefficients) :
    MinSignedConstraintValue ≤ c ∧ c ≤ MaxConstraintValue := by
  unfold leRow at h
  split at h
  · simp at h
  · split at h
    · simp at h
    · simp only at h
      rcases mem_updateAt _ _ _ _ h with h1 | ⟨x, h1⟩
      · rcases mem_addCoefficients _ _ _ _ _ _ h1 with h2 | ⟨x, h2⟩
        · rcases mem_addCoefficients _ _ _ _ _ _ h2 with h3 | ⟨x, h3⟩
          · rw [List.eq_of_mem_replicate h3]
            decide
          · rw [h3]; exact wrap64_range x
        · rw [h2]; exact wrap64_range x
      · rw [h1]
        split <;> exact wrap64_range _

/-- Every coefficient of a row of `getConstraint` is a 64-bit value. -/
theorem getConstraint_range (Info : ConstraintInfo) (defs : Defs) (P : Predicate)
    (A B : Value) (NI : DenseMap) (c : Int)
    (h : c ∈ (Info.getConstraint defs P A B NI).1.Coefficients) :
    MinSignedConstraintValue ≤ c ∧ c ≤ MaxConstraintValue := by
  rcases getConstraint_shape Info defs P A B NI with h0 | ⟨sgn, strict, e, a0, b0, VA, VB, Pre, hr⟩
  · rw [h0] at h; cases h
  · rw [hr] at h
    exact leRow_range Info sgn strict e a0 b0 VA VB Pre NI c h

theorem addFact_sync (O : Oracle) (hO : O.TakesInverse) (Info : ConstraintInfo)
    (st : List StackEntry) (defs : Defs) (P : Predicate) (A B : Value) (neg : Bool) (i o : Nat)
    (h : RowsInSync Info st) :
    RowsInSync (Info.addFact O defs P A B neg i o st).1
      (Info.addFact O defs P A B neg i o st).2 := by
  rcases addFact_cases O Info defs P A B neg i o st with h1 | ⟨_, h1⟩ | ⟨_, ha, h1⟩
  · rw [h1]; exact h
  · rw [h1]
    obtain ⟨hs, hu⟩ := h
    cases hsg : (Info.getConstraint defs P A B []).1.IsSigned <;>
      simp [RowsInSync, ConstraintInfo.setCS, ConstraintInfo.setValue2Index,
        ConstraintInfo.getCS, List.filter_cons, hs, hu]
  · have h2 := hO (Info.getCS (Info.getConstraint defs P A B []).1.IsSigned)
      ((Info.getCS (Info.getConstraint defs P A B []).1.IsSigned).map
          (fun row => row ++ List.replicate
            ((Info.getConstraint defs P A B []).1.Coefficients.length - row.length) 0) ++
        [(Info.getConstraint defs P A B []).1.Coefficients])
      (Info.getConstraint defs P A B []).1.Coefficients
      (fun c hc => getConstraint_range Info defs P A B [] c hc) ha
    have hlen1 : ((Info.getCS (Info.getConstraint defs P A B []).1.IsSigned).map
          (fun row => row ++ List.replicate
            ((Info.getConstraint defs P A B []).1.Coefficients.length - row.length) 0) ++
        [(Info.getConstraint defs P A B []).1.Coefficients]).length =
        (Info.getCS (Info.getConstraint defs P A B []).1.IsSigned).length + 1 := by simp
    generalize ((Info.getCS (Info.getConstraint defs P A B []).1.IsSigned).map
          (fun row => row ++ List.replicate
            ((Info.getConstraint defs P A B []).1.Coefficients.length - row.length) 0) ++
        [(Info.getConstraint defs P A B []).1.Coefficients]) = rows1 at h1 h2 hlen1
    generalize (Info.getConstraint defs P A B []).1.Coefficients.map
      (fun c => wrap64 (c * -1)) = inv at h1 h2
    have h3 : (addVariableRowFill O rows1 inv).2.length =
        (Info.getCS (Info.getConstraint defs P A B []).1.IsSigned).length + 2 := by
      simp [addVariableRowFill, h2, hlen1]
    generalize addVariableRowFill O rows1 inv = res at h1 h3
    rw [h1]
    obtain ⟨hs, hu⟩ := h
    cases hsg : (Info.getConstraint defs P A B []).1.IsSigned <;>
      rw [hsg] at h3 <;>
      simp only [ConstraintInfo.getCS, Bool.false_eq_true, ↓reduceIte] at h3 <;>
      simp [RowsInSync, ConstraintInfo.setCS, ConstraintInfo.setValue2Index,
        List.filter_cons, hs, hu, h3]

theorem popFrame_sync (Info : ConstraintInfo) (E : StackEntry) (rest : List StackEntry)
    (h : RowsInSync Info (E :: rest)) : RowsInSync (popFrame Info E) rest := by
  obtain ⟨hs, hu⟩ := h
  cases hE : E.IsSigned <;>
    simp only [List.filter_cons, hE, Bool.not_false, Bool.not_true, Bool.false_eq_true,
      ↓reduceIte, List.length_cons] at hs hu <;>
    simp [RowsInSync, popFrame, hE, ConstraintInfo.setCS, ConstraintInfo.setValue2Index,
      ConstraintInfo.getCS, popLastConstraint, popLastNVariables, hs, hu]

theorem syntacticOracle_takesInverse : syntacticOracle.TakesInverse := by
  intro rows rows2 R hR h
  simp only [syntacticOracle, List.any_eq_true, decide_eq_true_eq] at h ⊢
  obtain ⟨c, hc, hne⟩ := h
  refine ⟨wrap64 (c * -1), ?_, ?_⟩
  · cases R with
    | nil => cases hc
    | cons x xs =>
      simp only [List.map_cons, List.tail_cons] at hc ⊢
      exact List.mem_map_of_mem _ hc
  · have hr := hR c (List.mem_of_mem_tail hc)
    simp only [MinSignedConstraintValue, MaxConstraintValue] at hr
    unfold wrap64
    omega

/-- C31, amended: for an engine that takes the inverse of every row it takes,
and every work-list, walked from the empty store and the empty stack: the
signed system holds as many rows as the stack has signed frames, and the
unsigned system as many as it has unsigned frames, after every entry of the
walk (so at its end, where the source asserts it), after every `addFact`,
every `transferToOtherSystem` and every pop of a frame made in such a
state. -/
theorem rows_in_sync (O : Oracle) (g : Nat → Bool) (hO : O.TakesInverse) (F : Function)
    (WL : List ConstraintOrBlock) :
    RowsInSync (runWorkList O g { F := F } WL).Info (runWorkList O g { F := F } WL).DFSInStack ∧
    (∀ Info st defs P A B neg i o, RowsInSync Info st →
      RowsInSync (Info.addFact O defs P A B neg i o st).1
        (Info.addFact O defs P A B neg i o st).2) ∧
    (∀ Info st defs P A B neg i o, RowsInSync Info st →
      RowsInSync (Info.transferToOtherSystem O defs P A B neg i o st).1
        (Info.transferToOtherSystem O defs P A B neg i o st).2) ∧
    (∀ Info E rest, RowsInSync Info (E :: rest) → RowsInSync (popFrame Info E) rest) ∧
    (∀ n Info st, RowsInSync Info st →
      RowsInSync (popOutOfScope n Info st).1 (popOutOfScope n Info st).2) := by
  have hadd : ∀ Info st defs P A B neg i o, RowsInSync Info st →
      RowsInSync (Info.addFact O defs P A B neg i o st).1
        (Info.addFact O defs P A B neg i o st).2 :=
    fun Info st defs P A B neg i o h => addFact_sync O hO Info st defs P A B neg i o h
  refine ⟨?_, hadd, ?_, popFrame_sync, ?_⟩
  · exact runWorkList_preserves RowsInSync O g hadd popFrame_sync WL { F := F } ⟨rfl, rfl⟩
  · intro Info st defs P A B neg i o h
    exact transfer_preserves RowsInSync O hadd Info st defs P A B neg i o h
  · intro n Info st h
    exact popOutOfScope_preserves RowsInSync popFrame_sync n Info st h

/-- Witness of `rows_in_sync`: the engine `syntacticOracle` takes inverses; in
the walk of `equalityAfterBound`, after the fact `%0 == %1`, the unsigned
system holds three rows for the three frames. -/
theorem rows_in_sync_witness :
    (runWorkList syntacticOracle counterUnset { F := equalityAfterBound }
      ((stableSort (collectWorkList equalityAfterBound equalityAfterBoundDT)).take 4)).Info.UnsignedCS =
      [[0, 1, -1], [0, -1, 1], [0, 1, -1]] ∧
    (runWorkList syntacticOracle counterUnset { F := equalityAfterBound }
      ((stableSort (collectWorkList equalityAfterBound equalityAfterBoundDT)).take 4)).DFSInStack.length =
      3 ∧
    RowsInSync
      (runWorkList syntacticOracle counterUnset { F := equalityAfterBound }
        ((stableSort (collectWorkList equalityAfterBound equalityAfterBoundDT)).take 4)).Info
      (runWorkList syntacticOracle counterUnset { F := equalityAfterBound }
        ((stableSort (collectWorkList equalityAfterBound equalityAfterBoundDT)).take 4)).DFSInStack :=
  ⟨by decide, by decide,
   (rows_in_sync syntacticOracle counterUnset syntacticOracle_takesInverse equalityAfterBound
      ((stableSort (collectWorkList equalityAfterBound equalityAfterBoundDT)).take 4)).1⟩

/-! ## C32: dense atom indices -/

theorem ownedValues_cons (s : Bool) (E : StackEntry) (rest : List StackEntry) :
    ownedValues s (E :: rest) =
      ownedValues s rest ++ (if E.IsSigned = s then E.ValuesToRelease else []) := by
  unfold ownedValues
  simp only [List.reverse_cons, List.filter_append, List.flatMap_append]
  congr 1
  by_cases h : E.IsSigned = s
  · simp [h]
  · simp [h]

theorem range_append (s m n t : Nat) (h : t = s + m) :
    List.range' s m ++ List.range' t n = List.range' s (m + n) := by
  subst h
  induction m generalizing s with
  | zero => simp
  | succ m ih =>
    have : s + (m + 1) = (s + 1) + m := by omega
    rw [this, Nat.add_right_comm m 1 n, List.range'_succ, List.range'_succ, List.cons_append,
      ih (s + 1)]

theorem getOrAddIndex_inOrder (T NI : DenseMap) (v : Value) :
    ∃ extra, (GetOrAddIndex T NI v).2 = NI ++ extra ∧
      extra.map (·.2) = List.range' (T.length + NI.length + 1) extra.length := by
  unfold GetOrAddIndex
  cases T.find v with
  | some i => exact ⟨[], by simp, rfl⟩
  | none =>
    cases NI.find v with
    | some i => exact ⟨[], by simp, rfl⟩
    | none => exact ⟨[(v, T.length + NI.length + 1)], rfl, rfl⟩

/-- The new indices `addIndices` appends are consecutive, starting right above
the indices in use. -/
theorem addIndices_inOrder (T : DenseMap) (V : Decomposition) (NI : DenseMap) :
    ∃ extra, addIndices T V NI = NI ++ extra ∧
      extra.map (·.2) = List.range' (T.length + NI.length + 1) extra.length := by
  induction V generalizing NI with
  | nil => exact ⟨[], by simp [addIndices], rfl⟩
  | cons p rest ih =>
    obtain ⟨c, v⟩ := p
    cases v with
    | none => simpa [addIndices] using ih NI
    | some v =>
      obtain ⟨e1, h1, h2⟩ := getOrAddIndex_inOrder T NI v
      obtain ⟨e2, h3, h4⟩ := ih (GetOrAddIndex T NI v).2
      refine ⟨e1 ++ e2, ?_, ?_⟩
      · simp only [addIndices]
        rw [h3, h1, List.append_assoc]
      · rw [h1] at h4
        simp only [List.length_append] at h4
        rw [List.map_append, h2, h4, List.length_append]
        exact range_append _ _ _ _ (by omega)

theorem leRow_newIndices (Info : ConstraintInfo) (sgn strict e : Bool) (a0 b0 : Int)
    (VA VB : Decomposition) (Pre : List PreconditionTy) :
    (leRow Info sgn strict e a0 b0 VA VB Pre []).2 =
      addIndices (Info.getValue2Index sgn) (VA ++ VB) [] := by
  unfold leRow
  split_ifs <;> rfl

/-- The new indices of a row that is not empty are consecutive, starting right
above the size of the atom table of the row's domain. -/
theorem getConstraint_inOrder (Info : ConstraintInfo) (defs : Defs) (P : Predicate)
    (A B : Value)
    (h : (Info.getConstraint defs P A B []).1.Coefficients ≠ []) :
    (Info.getConstraint defs P A B []).2.map (·.2) =
      List.range'
        ((Info.getValue2Index (Info.getConstraint defs P A B []).1.IsSigned).length + 1)
        (Info.getConstraint defs P A B []).2.length := by
  rcases getConstraint_shape Info defs P A B [] with h0 | ⟨sgn, strict, e, a0, b0, VA, VB, Pre, hr⟩
  · exact absurd h0 h
  · rw [hr] at h ⊢
    obtain ⟨h1, _⟩ := leRow_fresh Info sgn strict e a0 b0 VA VB Pre h
    rw [h1, leRow_newIndices]
    obtain ⟨extra, h2, h3⟩ := addIndices_inOrder (Info.getValue2Index sgn) (VA ++ VB) []
    rw [h2]
    simpa using h3

/-- Committing fresh, consecutive new indices to a table in order gives a
table in order. -/
theorem inOrder_append (T NI : DenseMap) (hT : T.InOrder) (hf : NewIndicesFresh T NI)
    (hN : NI.map (·.2) = List.range' (T.length + 1) NI.length) : DenseMap.InOrder (T ++ NI) := by
  constructor
  · rw [List.map_append, List.nodup_append]
    refine ⟨hT.1, hf.2, ?_⟩
    intro k hk1 hk2
    obtain ⟨kv, hkv, hkeq⟩ := List.mem_map.1 hk2
    have := hf.1 kv hkv
    rw [find_eq_none_iff] at this
    rw [hkeq] at this
    exact this hk1
  · rw [List.map_append, hT.2, hN, List.length_append]
    exact range_append _ _ _ _ (by omega)

theorem getValue2Index_set (Info : ConstraintInfo) (s s2 : Bool) (X : List (List Int))
    (T : DenseMap) :
    ((Info.setCS s X).setValue2Index s T).getValue2Index s2 =
      if s2 = s then T else Info.getValue2Index s2 := by
  cases s <;> cases s2 <;> rfl

theorem getValue2Index_popFrame (Info : ConstraintInfo) (E : StackEntry) (s2 : Bool) :
    (popFrame Info E).getValue2Index s2 =
      if s2 = E.IsSigned then
        E.ValuesToRelease.foldl DenseMap.erase (Info.getValue2Index E.IsSigned)
      else Info.getValue2Index s2 := by
  unfold popFrame
  cases E.IsSigned <;> cases s2 <;> rfl

theorem foldl_erase (vals : List Value) (T : DenseMap) :
    vals.foldl DenseMap.erase T = T.filter (fun kv => decide (kv.1 ∉ vals)) := by
  induction vals generalizing T with
  | nil => simp
  | cons v rest ih =>
    simp only [List.foldl, ih, DenseMap.erase, List.filter_filter]
    apply List.filter_congr
    intro kv _
    simp only [List.mem_cons, not_or, ne_eq, Bool.decide_and, Bool.and_comm]

/-- Erasing the values committed last from a table of distinct values leaves
the values committed before. -/
theorem filter_owned (T : DenseMap) (K0 vals : List Value)
    (hk : T.map (·.1) = K0 ++ vals) (hnd : (T.map (·.1)).Nodup) :
    T.filter (fun kv => decide (kv.1 ∉ vals)) = T.take K0.length := by
  induction T generalizing K0 with
  | nil => simp
  | cons p rest ih =>
    cases K0 with
    | nil =>
      simp only [List.nil_append] at hk
      simp only [List.length_nil, List.take_zero, List.filter_eq_nil_iff, decide_eq_true_eq,
        not_not]
      intro kv hkv
      rw [← hk]
      exact List.mem_map_of_mem _ hkv
    | cons k K0 =>
      simp only [List.map_cons, List.cons_append, List.cons.injEq] at hk
      simp only [List.map_cons, List.nodup_cons] at hnd
      have hp : p.1 ∉ vals := by
        intro hmem
        apply hnd.1
        rw [hk.2]
        exact List.mem_append_right _ hmem
      simp only [List.filter_cons, hp, not_false_eq_true, decide_True, ↓reduceIte,
        List.length_cons, List.take_succ_cons, List.cons.injEq, true_and]
      exact ih K0 hk.2 hnd.2

theorem addFact_tablesOwned (O : Oracle) (Info : ConstraintInfo) (st : List StackEntry)
    (defs : Defs) (P : Predicate) (A B : Value) (neg : Bool) (i o : Nat)
    (h : TablesOwned Info st) :
    TablesOwned (Info.addFact O defs P A B neg i o st).1
      (Info.addFact O defs P A B neg i o st).2 := by
  have key : ∀ (X : List (List Int)) (frames : List StackEntry),
      (Info.getConstraint defs P A B []).1.Coefficients ≠ [] →
      (∀ s2, ownedValues s2 (frames ++ st) = ownedValues s2 st ++
        (if (Info.getConstraint defs P A B []).1.IsSigned = s2 then
          (Info.getConstraint defs P A B []).2.map (·.1) else [])) →
      TablesOwned
        ((Info.setCS (Info.getConstraint defs P A B []).1.IsSigned X).setValue2Index
          (Info.getConstraint defs P A B []).1.IsSigned
          (insertAll (Info.getValue2Index (Info.getConstraint defs P A B []).1.IsSigned)
            (Info.getConstraint defs P A B []).2))
        (frames ++ st) := by
    intro X frames hne hown s2
    have hfresh := getConstraint_fresh Info defs P A B hne
    have hord := getConstraint_inOrder Info defs P A B hne
    rw [getValue2Index_set, hown s2, insertAll_fresh _ _ hfresh]
    by_cases hs : s2 = (Info.getConstraint defs P A B []).1.IsSigned
    · rw [if_pos hs, if_pos hs.symm]
      rw [← hs] at hfresh hord ⊢
      exact ⟨inOrder_append _ _ (h s2).1 hfresh hord, by rw [List.map_append, (h s2).2]⟩
    · rw [if_neg hs, if_neg (fun h2 => hs h2.symm), List.append_nil]
      exact h s2
  rcases addFact_cases O Info defs P A B neg i o st with h1 | ⟨hne, h1⟩ | ⟨hne, _, h1⟩
  · rw [h1]; exact h
  · rw [h1]
    exact key _ [_] hne (fun s2 => by
      simp only [List.singleton_append, ownedValues_cons])
  · rw [h1]
    exact key _ [_, _] hne (fun s2 => by
      simp only [List.cons_append, List.nil_append, ownedValues_cons]
      split_ifs <;> simp)

theorem popFrame_tablesOwned (Info : ConstraintInfo) (E : StackEntry) (rest : List StackEntry)
    (h : TablesOwned Info (E :: rest)) : TablesOwned (popFrame Info E) rest := by
  intro s2
  obtain ⟨⟨hnd, hidx⟩, hown⟩ := h s2
  rw [ownedValues_cons] at hown
  rw [getValue2Index_popFrame]
  by_cases hs : s2 = E.IsSigned
  · rw [if_pos hs, ← hs]
    rw [if_pos hs.symm] at hown
    rw [foldl_erase, filter_owned _ _ _ hown hnd]
    have hlen : (ownedValues s2 rest).length ≤ (Info.getValue2Index s2).length := by
      have := congrArg List.length hown
      simp only [List.length_map, List.length_append] at this
      omega
    have hkeys : ((Info.getValue2Index s2).take (ownedValues s2 rest).length).map (·.1) =
        ownedValues s2 rest := by
      rw [List.map_take, hown, List.take_left]
    refine ⟨⟨?_, ?_⟩, hkeys⟩
    · rw [hkeys]
      rw [hown] at hnd
      exact (List.nodup_append.1 hnd).1
    · rw [List.map_take, hidx, List.length_take, Nat.min_eq_left hlen]
      obtain ⟨d, hd⟩ : ∃ d, (Info.getValue2Index s2).length = (ownedValues s2 rest).length + d :=
        ⟨(Info.getValue2Index s2).length - (ownedValues s2 rest).length, by omega⟩
      rw [hd, ← range_append 1 _ d (1 + (ownedValues s2 rest).length) rfl]
      exact List.take_left' (by simp)
  · rw [if_neg hs]
    rw [if_neg (fun h2 => hs h2.symm), List.append_nil] at hown
    exact ⟨⟨hnd, hidx⟩, hown⟩

theorem inOrder_dense (m : DenseMap) (h : m.InOrder) : m.Dense := by
  refine ⟨h.1, ?_, ?_⟩
  · rw [h.2]
    exact List.nodup_range' 1 m.length
  · intro kv hkv
    have hmem : kv.2 ∈ m.map (·.2) := List.mem_map_of_mem _ hkv
    rw [h.2, List.mem_range'_1] at hmem
    omega

/-- C32 (dense atom indices): after the walk of any work-list from the empty
store and the empty stack, each atom table holds distinct values with the
indices `1, 2, …, n` in the order of commitment, `n` its size, and holds
exactly the values owned by the frames of its domain; and an `addFact` made
in that state either leaves the table of the row's domain as it is or appends
the new values with the next indices `n+1, n+2, …`. -/
theorem dense_atom_indices (O : Oracle) (g : Nat → Bool) (F : Function)
    (WL : List ConstraintOrBlock) :
    (∀ s : Bool, ((runWorkList O g { F := F } WL).Info.getValue2Index s).InOrder ∧
      ((runWorkList O g { F := F } WL).Info.getValue2Index s).Dense ∧
      ((runWorkList O g { F := F } WL).Info.getValue2Index s).map (·.1) =
        ownedValues s (runWorkList O g { F := F } WL).DFSInStack) ∧
    (∀ (defs : Defs) (P : Predicate) (A B : Value) (neg : Bool) (i o : Nat),
      (((runWorkList O g { F := F } WL).Info.addFact O defs P A B neg i o
          (runWorkList O g { F := F } WL).DFSInStack).1.getValue2Index
          ((runWorkList O g { F := F } WL).Info.getConstraint defs P A B []).1.IsSigned =
        (runWorkList O g { F := F } WL).Info.getValue2Index
          ((runWorkList O g { F := F } WL).Info.getConstraint defs P A B []).1.IsSigned) ∨
      (((runWorkList O g { F := F } WL).Info.addFact O defs P A B neg i o
          (runWorkList O g { F := F } WL).DFSInStack).1.getValue2Index
          ((runWorkList O g { F := F } WL).Info.getConstraint defs P A B []).1.IsSigned =
        (runWorkList O g { F := F } WL).Info.getValue2Index
            ((runWorkList O g { F := F } WL).Info.getConstraint defs P A B []).1.IsSigned ++
          ((runWorkList O g { F := F } WL).Info.getConstraint defs P A B []).2 ∧
        ((runWorkList O g { F := F } WL).Info.getConstraint defs P A B []).2.map (·.2) =
          List.range'
            (((runWorkList O g { F := F } WL).Info.getValue2Index
              ((runWorkList O g { F := F } WL).Info.getConstraint defs P A B []).1.IsSigned).length
              + 1)
            ((runWorkList O g { F := F } WL).Info.getConstraint defs P A B []).2.length)) := by
  have hinv : TablesOwned (runWorkList O g { F := F } WL).Info
      (runWorkList O g { F := F } WL).DFSInStack := by
    apply runWorkList_preserves TablesOwned O g
      (fun Info st defs P A B neg i o h => addFact_tablesOwned O Info st defs P A B neg i o h)
      popFrame_tablesOwned WL { F := F }
    intro s
    cases s <;> exact ⟨⟨by simp [ConstraintInfo.getValue2Index], by
      simp [ConstraintInfo.getValue2Index]⟩, by simp [ConstraintInfo.getValue2Index, ownedValues]⟩
  refine ⟨fun s => ⟨(hinv s).1, inOrder_dense _ (hinv s).1, (hinv s).2⟩, ?_⟩
  intro defs P A B neg i o
  generalize (runWorkList O g { F := F } WL).Info = Info
  generalize (runWorkList O g { F := F } WL).DFSInStack = st
  rcases addFact_cases O Info defs P A B neg i o st with h1 | ⟨hne, h1⟩ | ⟨hne, _, h1⟩
  · left; rw [h1]
  · right
    rw [h1, getValue2Index_set, if_pos rfl,
      insertAll_fresh _ _ (getConstraint_fresh Info defs P A B hne)]
    exact ⟨rfl, getConstraint_inOrder Info defs P A B hne⟩
  · right
    rw [h1, getValue2Index_set, if_pos rfl,
      insertAll_fresh _ _ (getConstraint_fresh Info defs P A B hne)]
    exact ⟨rfl, getConstraint_inOrder Info defs P A B hne⟩

/-! ## C35: the pop undoes `addFact` -/

theorem getCS_set (Info : ConstraintInfo) (s s2 : Bool) (X : List (List Int)) (T : DenseMap) :
    ((Info.setCS s X).setValue2Index s T).getCS s2 = if s2 = s then X else Info.getCS s2 := by
  cases s <;> cases s2 <;> rfl

theorem getCS_popFrame (Info : ConstraintInfo) (E : StackEntry) (s2 : Bool) :
    (popFrame Info E).getCS s2 =
      if s2 = E.IsSigned then
        popLastNVariables (popLastConstraint (Info.getCS E.IsSigned)) E.ValuesToRelease.length
      else Info.getCS s2 := by
  unfold popFrame
  cases E.IsSigned <;> cases s2 <;> rfl

/-- Erasing the values of fresh new indices from the table they were committed
to gives the table back. -/
theorem erase_committed (T NI : DenseMap) (h : NewIndicesFresh T NI) :
    (NI.map (·.1)).foldl DenseMap.erase (T ++ NI) = T := by
  rw [foldl_erase, List.filter_append]
  have h1 : T.filter (fun kv => decide (kv.1 ∉ NI.map (·.1))) = T := by
    rw [List.filter_eq_self]
    intro kv hkv
    simp only [decide_eq_true_eq]
    intro hmem
    obtain ⟨kv2, hkv2, heq⟩ := List.mem_map.1 hmem
    have := h.1 kv2 hkv2
    rw [find_eq_none_iff, heq] at this
    exact this (List.mem_map_of_mem _ hkv)
  have h2 : NI.filter (fun kv => decide (kv.1 ∉ NI.map (·.1))) = [] := by
    rw [List.filter_eq_nil_iff]
    intro kv hkv
    simp only [decide_eq_true_eq, not_not]
    exact List.mem_map_of_mem _ hkv
  rw [h1, h2, List.append_nil]

/-- C35 as stated fails for an engine that reports no change for a row it
already holds: on the store that holds the fact `%0 u>= %1` (one row, tables
dense), `addFact` for `%0 == %1` pushes two frames but adds one row only, the
inverse row being held already; popping the two frames retires two rows, and
the unsigned system is left with no row instead of one. -/
theorem pop_retires_an_older_row :
    (({} : ConstraintInfo).addFact dedupOracle twoArguments .ICMP_UGE (.ref 0) (.ref 1)
      false 1 6 []) =
      ({ UnsignedValue2Index := [(.ref 1, 1), (.ref 0, 2)], UnsignedCS := [[0, 1, -1]] },
        [⟨1, 6, false, false, [.ref 1, .ref 0]⟩]) ∧
    (({ UnsignedValue2Index := [(.ref 1, 1), (.ref 0, 2)], UnsignedCS := [[0, 1, -1]] } :
        ConstraintInfo).addFact dedupOracle twoArguments .ICMP_EQ (.ref 0) (.ref 1) false 2 3
        [⟨1, 6, false, false, [.ref 1, .ref 0]⟩]) =
      ({ UnsignedValue2Index := [(.ref 1, 1), (.ref 0, 2)],
         UnsignedCS := [[0, 1, -1], [0, -1, 1]] },
        [⟨2, 3, false, false, []⟩, ⟨2, 3, false, false, []⟩,
         ⟨1, 6, false, false, [.ref 1, .ref 0]⟩]) ∧
    (popFrame
      (popFrame
        ({ UnsignedValue2Index := [(.ref 1, 1), (.ref 0, 2)],
           UnsignedCS := [[0, 1, -1], [0, -1, 1]] } : ConstraintInfo)
        ⟨2, 3, false, false, []⟩)
      ⟨2, 3, false, false, []⟩).UnsignedCS = [] := by
  refine ⟨by decide, by decide, by decide⟩

theorem popFrame_rows (Info : ConstraintInfo) (E : StackEntry) (s2 : Bool) :
    ((popFrame Info E).getCS s2).length =
      if s2 = E.IsSigned then (Info.getCS s2).length - 1 else (Info.getCS s2).length := by
  rw [getCS_popFrame]
  by_cases h : s2 = E.IsSigned
  · rw [if_pos h, if_pos h, ← h]
    simp [popLastNVariables, popLastConstraint]
  · rw [if_neg h, if_neg h]

/-- C35, amended: for an engine that takes the inverse of every row it takes,
every store and every `addFact` call: the call pushes at most two frames, and
popping them with the body of the driver's pop loop (`popFrame`: retire the
last row, erase the frame's values, retire as many variables) gives back both
atom tables exactly as they were before the call and leaves each system with
as many rows as it had. -/
theorem pop_undoes_addFact (O : Oracle) (hO : O.TakesInverse) (Info : ConstraintInfo)
    (defs : Defs) (P : Predicate) (A B : Value) (neg : Bool) (i o : Nat)
    (st : List StackEntry) :
    ∃ new, (Info.addFact O defs P A B neg i o st).2 = new ++ st ∧ new.length ≤ 2 ∧
      ∀ s2 : Bool,
        (new.foldl popFrame (Info.addFact O defs P A B neg i o st).1).getValue2Index s2 =
          Info.getValue2Index s2 ∧
        ((new.foldl popFrame (Info.addFact O defs P A B neg i o st).1).getCS s2).length =
          (Info.getCS s2).length := by
  rcases addFact_cases O Info defs P A B neg i o st with h1 | ⟨hne, h1⟩ | ⟨hne, ha, h1⟩
  · exact ⟨[], by rw [h1]; rfl, by simp, fun s2 => by rw [h1]; exact ⟨rfl, rfl⟩⟩
  · have hfresh := getConstraint_fresh Info defs P A B hne
    refine ⟨[_], by rw [h1]; rfl, by simp, ?_⟩
    intro s2
    rw [h1]
    simp only [List.foldl]
    constructor
    · rw [getValue2Index_popFrame]
      by_cases hs : s2 = (Info.getConstraint defs P A B []).1.IsSigned
      · rw [if_pos hs, getValue2Index_set, if_pos rfl, insertAll_fresh _ _ hfresh,
          erase_committed _ _ hfresh, hs]
      · rw [if_neg hs, getValue2Index_set, if_neg hs]
    · rw [popFrame_rows]
      by_cases hs : s2 = (Info.getConstraint defs P A B []).1.IsSigned
      · rw [if_pos hs, getCS_set, if_pos hs, hs]
        simp
      · rw [if_neg hs, getCS_set, if_neg hs]
  · have hfresh := getConstraint_fresh Info defs P A B hne
    have h2 := hO (Info.getCS (Info.getConstraint defs P A B []).1.IsSigned)
      ((Info.getCS (Info.getConstraint defs P A B []).1.IsSigned).map
          (fun row => row ++ List.replicate
            ((Info.getConstraint defs P A B []).1.Coefficients.length - row.length) 0) ++
        [(Info.getConstraint defs P A B []).1.Coefficients])
      (Info.getConstraint defs P A B []).1.Coefficients
      (fun c hc => getConstraint_range Info defs P A B [] c hc) ha
    have hlen1 : ((Info.getCS (Info.getConstraint defs P A B []).1.IsSigned).map
          (fun row => row ++ List.replicate
            ((Info.getConstraint defs P A B []).1.Coefficients.length - row.length) 0) ++
        [(Info.getConstraint defs P A B []).1.Coefficients]).length =
        (Info.getCS (Info.getConstraint defs P A B []).1.IsSigned).length + 1 := by simp
    generalize ((Info.getCS (Info.getConstraint defs P A B []).1.IsSigned).map
          (fun row => row ++ List.replicate
            ((Info.getConstraint defs P A B []).1.Coefficients.length - row.length) 0) ++
        [(Info.getConstraint defs P A B []).1.Coefficients]) = rows1 at h1 h2 hlen1
    generalize (Info.getConstraint defs P A B []).1.Coefficients.map
      (fun c => wrap64 (c * -1)) = inv at h1 h2
    have h3 : (addVariableRowFill O rows1 inv).2.length =
        (Info.getCS (Info.getConstraint defs P A B []).1.IsSigned).length + 2 := by
      simp [addVariableRowFill, h2, hlen1]
    generalize addVariableRowFill O rows1 inv = res at h1 h3
    refine ⟨[_, _], by rw [h1]; rfl, by simp, ?_⟩
    intro s2
    rw [h1]
    simp only [List.foldl]
    constructor
    · rw [getValue2Index_popFrame]
      by_cases hs : s2 = (Info.getConstraint defs P A B []).1.IsSigned
      · rw [if_pos hs, getValue2Index_popFrame, if_pos rfl]
        simp only [List.foldl]
        rw [getValue2Index_set, if_pos rfl, insertAll_fresh _ _ hfresh,
          erase_committed _ _ hfresh, hs]
      · rw [if_neg hs, getValue2Index_popFrame, if_neg hs, getValue2Index_set, if_neg hs]
    · rw [popFrame_rows, popFrame_rows]
      by_cases hs : s2 = (Info.getConstraint defs P A B []).1.IsSigned
      · rw [if_pos hs, if_pos hs, getCS_set, if_pos hs, h3, hs]
        omega
      · rw [if_neg hs, if_neg hs, getCS_set, if_neg hs]

/-- Witness of `pop_undoes_addFact`: with the engine `syntacticOracle` the
equality `%0 == %1`, added to the store that holds `%0 u>= %1`, brings two
rows and two frames, and the two pops leave the one row the system had. -/
theorem pop_undoes_addFact_witness :
    (({ UnsignedValue2Index := [(.ref 1, 1), (.ref 0, 2)], UnsignedCS := [[0, 1, -1]] } :
        ConstraintInfo).addFact syntacticOracle twoArguments .ICMP_EQ (.ref 0) (.ref 1) false 2 3
        [⟨1, 6, false, false, [.ref 1, .ref 0]⟩]) =
      ({ UnsignedValue2Index := [(.ref 1, 1), (.ref 0, 2)],
         UnsignedCS := [[0, 1, -1], [0, -1, 1], [0, 1, -1]] },
        [⟨2, 3, false, false, []⟩, ⟨2, 3, false, false, []⟩,
         ⟨1, 6, false, false, [.ref 1, .ref 0]⟩]) ∧
    (popFrame
      (popFrame
        ({ UnsignedValue2Index := [(.ref 1, 1), (.ref 0, 2)],
           UnsignedCS := [[0, 1, -1], [0, -1, 1], [0, 1, -1]] } : ConstraintInfo)
        ⟨2, 3, false, false, []⟩)
      ⟨2, 3, false, false, []⟩).UnsignedCS = [[0, 1, -1]] ∧
    (∃ new,
      (({ UnsignedValue2Index := [(.ref 1, 1), (.ref 0, 2)], UnsignedCS := [[0, 1, -1]] } :
        ConstraintInfo).addFact syntacticOracle twoArguments .ICMP_EQ (.ref 0) (.ref 1) false 2 3
        [⟨1, 6, false, false, [.ref 1, .ref 0]⟩]).2 =
        new ++ [⟨1, 6, false, false, [.ref 1, .ref 0]⟩] ∧ new.length ≤ 2) :=
  ⟨by decide, by decide,
   (pop_undoes_addFact syntacticOracle syntacticOracle_takesInverse
      { UnsignedValue2Index := [(.ref 1, 1), (.ref 0, 2)], UnsignedCS := [[0, 1, -1]] }
      twoArguments .ICMP_EQ (.ref 0) (.ref 1) false 2 3
      [⟨1, 6, false, false, [.ref 1, .ref 0]⟩]).imp (fun new h => ⟨h.1, h.2.1⟩)⟩

/-! ## C36: the predicate of a negated fact is restored -/

theorem get_setPredicate (defs : Defs) (I : Nat) (P : Predicate) (j : Nat) :
    ((setPredicate defs I P).get j).map (·.kind) =
      ((defs.get j).map (·.kind)).map (fun k => if j = I then k.withPredicate P else k) := by
  unfold setPredicate
  rw [get_map _ _ (by intro e; split <;> [split <;> rfl; rfl]) j]
  cases defs.get j with
  | none => rfl
  | some ins =>
    simp only [Option.map_some']
    by_cases h : j = I
    · simp only [h, ↓reduceIte]
      obtain ⟨ty, k⟩ := ins
      cases k <;> rfl
    · simp only [h, ↓reduceIte]

theorem predicateOf_mapOperands (k : InstKind) (f : Value → Value) :
    predicateOf (some (k.mapOperands f)) = predicateOf (some k) := by
  cases k <;> rfl

theorem predicateOf_replaceUsesWithIf (defs : Defs) (Old : Nat) (New : Value)
    (p : InstKind → Bool) (j : Nat) :
    predicateOf (((replaceUsesWithIf defs Old New p).get j).map (·.kind)) =
      predicateOf ((defs.get j).map (·.kind)) := by
  rw [replaceUsesWithIf_get]
  cases defs.get j with
  | none => rfl
  | some ins =>
    simp only [Option.map_some']
    split
    · exact predicateOf_mapOperands _ _
    · rfl

theorem predicateOf_setAggregateOperand (defs : Defs) (I : Nat) (V : Value) (j : Nat) :
    predicateOf (((setAggregateOperand defs I V).get j).map (·.kind)) =
      predicateOf ((defs.get j).map (·.kind)) := by
  unfold setAggregateOperand
  rw [get_map _ _ (by intro e; split <;> [split <;> rfl; rfl]) j]
  cases defs.get j with
  | none => rfl
  | some ins =>
    simp only [Option.map_some']
    by_cases h : j = I
    · simp only [h, ↓reduceIte]
      obtain ⟨ty, k⟩ := ins
      cases k <;> rfl
    · simp only [h, ↓reduceIte]

theorem predicateOf_append (defs : Defs) (id : Nat) (I : Instruction)
    (hI : predicateOf (some I.kind) = none) (j : Nat) :
    predicateOf (((defs ++ [(id, I)]).get j).map (·.kind)) =
      predicateOf ((defs.get j).map (·.kind)) := by
  induction defs with
  | nil =>
    simp only [List.nil_append, Defs.get]
    split
    · exact hI
    · rfl
  | cons p rest ih =>
    obtain ⟨k, ins⟩ := p
    simp only [List.cons_append, Defs.get]
    split
    · rfl
    · exact ih

theorem get_erase (defs : Defs) (I j : Nat) :
    Defs.get (defs.filter (fun e => decide (e.1 ≠ I))) j =
      if j = I then none else Defs.get defs j := by
  induction defs with
  | nil => simp [Defs.get]
  | cons p rest ih =>
    obtain ⟨k, ins⟩ := p
    by_cases hk : k = I
    · have hf : List.filter (fun e : Nat × Instruction => decide (e.1 ≠ I)) ((k, ins) :: rest) =
          List.filter (fun e => decide (e.1 ≠ I)) rest := by
        simp [List.filter, hk]
      rw [hf, ih]
      by_cases hj : j = I
      · rw [if_pos hj, if_pos hj]
      · have hkj : ¬ k = j := fun h => hj (h.symm.trans hk)
        rw [if_neg hj, if_neg hj]
        simp only [Defs.get, hkj, ↓reduceIte]
    · have hf : List.filter (fun e : Nat × Instruction => decide (e.1 ≠ I)) ((k, ins) :: rest) =
          (k, ins) :: List.filter (fun e => decide (e.1 ≠ I)) rest := by
        simp [List.filter, hk]
      rw [hf]
      simp only [Defs.get]
      rw [ih]
      by_cases hj : j = I
      · have hkj : ¬ k = j := fun h => hk (h.trans hj)
        rw [if_pos hj, if_pos hj, if_neg hkj]
      · rw [if_neg hj, if_neg hj]

theorem predicateOf_eraseFromParent (F : Function) (I j : Nat)
    (hI : predicateOf (F.kind I) = none) :
    predicateOf ((F.eraseFromParent I).kind j) = predicateOf (F.kind j) := by
  unfold Function.eraseFromParent Function.kind
  dsimp only
  rw [get_erase]
  by_cases hj : j = I
  · rw [if_pos hj, hj]
    exact hI.symm
  · rw [if_neg hj]

theorem predicateOf_CreateSub (F : Function) (II : Nat) (A B : Value) (j : Nat) :
    predicateOf ((CreateSub F II A B).1.kind j) = predicateOf (F.kind j) := by
  unfold CreateSub
  split <;> first
    | rfl
    | exact predicateOf_append F.defs F.freshId ⟨getType F.defs A, .sub false false A B⟩ rfl j

theorem predicateOf_replaceAllUsesWith (F : Function) (U : Nat) (New : Value) (j : Nat) :
    predicateOf (({ F with defs := replaceAllUsesWith F.defs U New } : Function).kind j) =
      predicateOf (F.kind j) :=
  predicateOf_replaceUsesWithIf F.defs U New (fun _ => true) j

theorem simplifyUsers_kept (F0 : Function) (II : Nat) (ty : Ty) (A B : Value) (us : List Nat)
    (F : Function) (Sub : Option Value) (TR : List Nat) (h : PredicatesKept F0 F TR) :
    PredicatesKept F0 (simplifyUsers II ty A B us F Sub TR).1
      (simplifyUsers II ty A B us F Sub TR).2.2 := by
  induction us generalizing F Sub TR with
  | nil => exact h
  | cons U rest ih =>
    have key : ∀ (F1 : Function) (S1 : Option Value),
        (match F.kind U with
          | some (.extractvalue _ [0]) =>
            let s := match Sub with
              | some v => (F, v)
              | none => CreateSub F II A B
            some ({ s.1 with defs := replaceAllUsesWith s.1.defs U s.2 }, some s.2)
          | some (.extractvalue _ [1]) =>
            some ({ F with defs := replaceAllUsesWith F.defs U (.constInt 1 0) }, Sub)
          | _ => none) = some (F1, S1) →
        (∀ j, predicateOf (F1.kind j) = predicateOf (F0.kind j)) ∧
          predicateOf (F0.kind U) = none := by
      intro F1 S1 heq
      split at heq
      · rename_i agg hk
        have hU : predicateOf (F0.kind U) = none := by rw [← h.1 U, hk]; rfl
        simp only [Option.some.injEq, Prod.mk.injEq] at heq
        refine ⟨fun j => ?_, hU⟩
        rw [← heq.1, ← h.1 j]
        cases Sub with
        | some v => exact predicateOf_replaceAllUsesWith F U v j
        | none =>
          exact (predicateOf_replaceAllUsesWith (CreateSub F II A B).1 U
            (CreateSub F II A B).2 j).trans (predicateOf_CreateSub F II A B j)
      · rename_i agg hk
        have hU : predicateOf (F0.kind U) = none := by rw [← h.1 U, hk]; rfl
        simp only [Option.some.injEq, Prod.mk.injEq] at heq
        refine ⟨fun j => ?_, hU⟩
        rw [← heq.1, ← h.1 j]
        exact predicateOf_replaceAllUsesWith F U (.constInt 1 0) j
      · exact absurd heq (by simp)
    unfold simplifyUsers
    dsimp only
    split
    · exact ih _ _ _ h
    · rename_i F1 S1 heq
      obtain ⟨h1, hU⟩ := key F1 S1 heq
      split
      · refine ih _ _ _ ⟨fun j => ?_, ?_⟩
        · rw [← h1 j]
          exact predicateOf_setAggregateOperand _ _ _ j
        · intro u hu
          rcases List.mem_append.1 hu with hu | hu
          · exact h.2 u hu
          · rw [List.mem_singleton.1 hu]
            exact hU
      · exact ih _ _ _ ⟨h1, h.2⟩

theorem tryToSimplifyOverflowMath_kept (O : Oracle) (F0 : Function) (II : Nat)
    (Info : ConstraintInfo) (F : Function) (TR : List Nat) (h : PredicatesKept F0 F TR) :
    PredicatesKept F0 (tryToSimplifyOverflowMath O II Info F TR).1
      (tryToSimplifyOverflowMath O II Info F TR).2 := by
  unfold tryToSimplifyOverflowMath
  split
  · rename_i A B hk
    split
    · exact h
    · have hs := simplifyUsers_kept F0 II (getType F.defs (.ref II)) A B (users F.defs II)
        F none TR h
      dsimp only
      split
      · refine ⟨fun j => ?_, hs.2⟩
        rw [← hs.1 j]
        apply predicateOf_eraseFromParent
        rw [hs.1 II, ← h.1 II, hk]
        rfl
      · exact hs
  · exact h

theorem processInstruction_kept (O : Oracle) (g : Nat → Bool) (F0 : Function) (S : DriverState)
    (I : Nat) (h : PredicatesKept F0 S.F S.ToRemove) :
    PredicatesKept F0 (processInstruction O g S I).F (processInstruction O g S I).ToRemove := by
  have hrep : ∀ (F : Function) (New : Value) (p : InstKind → Bool),
      (∀ j, predicateOf (F.kind j) = predicateOf (F0.kind j)) →
      ∀ j, predicateOf
        (({ F with defs := replaceUsesWithIf F.defs I New p } : Function).kind j) =
          predicateOf (F0.kind j) := by
    intro F New p hF j
    rw [← hF j]
    exact predicateOf_replaceUsesWithIf _ _ _ _ j
  unfold processInstruction
  split
  · exact tryToSimplifyOverflowMath_kept O F0 I S.Info S.F S.ToRemove h
  · exact tryToSimplifyOverflowMath_kept O F0 I S.Info S.F S.ToRemove h
  · dsimp only
    split_ifs <;>
      first
        | exact h
        | exact ⟨hrep _ _ _ h.1, h.2⟩
        | exact ⟨hrep _ _ _ (hrep _ _ _ h.1), h.2⟩
  · exact h

theorem foldl_processInstruction_kept (O : Oracle) (g : Nat → Bool) (F0 : Function)
    (insts : List Nat) (S : DriverState) (h : PredicatesKept F0 S.F S.ToRemove) :
    PredicatesKept F0 (insts.foldl (processInstruction O g) S).F
      (insts.foldl (processInstruction O g) S).ToRemove := by
  induction insts generalizing S with
  | nil => exact h
  | cons I rest ih => exact ih _ (processInstruction_kept O g F0 S I h)

theorem getInversePredicate_twice (P : Predicate) :
    P.getInversePredicate.getInversePredicate = P := by
  cases P <;> rfl

theorem kindOf_setPredicate (defs : Defs) (I : Nat) (P Q : Predicate) (A B : Value)
    (hk : (defs.get I).map (·.kind) = some (.icmp P A B)) :
    kindOf (setPredicate defs I Q) (.ref I) = some (.icmp Q A B) := by
  show ((setPredicate defs I Q).get I).map (·.kind) = _
  rw [get_setPredicate, hk]
  simp [InstKind.withPredicate]

theorem setPredicate_restored (defs : Defs) (I : Nat) (P : Predicate) (A B : Value)
    (hk : (defs.get I).map (·.kind) = some (.icmp P A B)) (Q : Predicate) (j : Nat) :
    ((setPredicate (setPredicate defs I Q) I P).get j).map (·.kind) =
      (defs.get j).map (·.kind) := by
  rw [get_setPredicate, get_setPredicate]
  by_cases hj : j = I
  · subst hj
    rw [hk]
    simp [InstKind.withPredicate]
  · cases (defs.get j).map (·.kind) with
    | none => rfl
    | some k => simp [hj]

theorem processCondition_kind (O : Oracle) (S : DriverState) (CB : ConstraintOrBlock) (j : Nat) :
    (processCondition O S CB).F.kind j = S.F.kind j := by
  unfold processCondition
  split
  · rename_i P A B hk
    dsimp only
    cases hN : CB.Not with
    | false =>
      simp only [Bool.false_eq_true, ↓reduceIte]
      split <;> rfl
    | true =>
      simp only [↓reduceIte]
      rw [kindOf_setPredicate S.F.defs CB.Condition P P.getInversePredicate A B hk]
      dsimp only
      rw [getInversePredicate_twice]
      exact setPredicate_restored S.F.defs CB.Condition P A B hk _ j
  · rfl

theorem processCondition_toRemove (O : Oracle) (S : DriverState) (CB : ConstraintOrBlock) :
    (processCondition O S CB).ToRemove = S.ToRemove := by
  unfold processCondition
  split
  · dsimp only
    split <;> rfl
  · rfl

theorem processEntry_kept (O : Oracle) (g : Nat → Bool) (F0 : Function) (S : DriverState)
    (CB : ConstraintOrBlock) (h : PredicatesKept F0 S.F S.ToRemove) :
    PredicatesKept F0 (processEntry O g S CB).F (processEntry O g S CB).ToRemove := by
  unfold processEntry
  dsimp only
  split
  · split
    · exact foldl_processInstruction_kept O g F0 _ _ h
    · exact h
  · unfold PredicatesKept
    simp only [processCondition_kind, processCondition_toRemove]
    exact h

theorem runWorkList_kept (O : Oracle) (g : Nat → Bool) (F0 : Function)
    (WL : List ConstraintOrBlock) (S : DriverState) (h : PredicatesKept F0 S.F S.ToRemove) :
    PredicatesKept F0 (runWorkList O g S WL).F (runWorkList O g S WL).ToRemove := by
  induction WL generalizing S with
  | nil => exact h
  | cons CB rest ih => exact ih _ (processEntry_kept O g F0 S CB h)

theorem foldl_eraseFromParent_kept (F0 : Function) (TR : List Nat) (F : Function)
    (h : PredicatesKept F0 F TR) (j : Nat) :
    predicateOf ((TR.foldl Function.eraseFromParent F).kind j) = predicateOf (F0.kind j) := by
  induction TR generalizing F with
  | nil => exact h.1 j
  | cons u rest ih =>
    have hu : predicateOf (F.kind u) = none := by
      rw [h.1 u]
      exact h.2 u (List.mem_cons_self _ _)
    exact ih _ ⟨fun i => (predicateOf_eraseFromParent F u i hu).trans (h.1 i),
      fun v hv => h.2 v (List.mem_cons_of_mem _ hv)⟩

/-- C36: for a work-list fact asserted negated whose condition is the compare
`icmp P A B`: the compare carries the inverse of `P` in the function that
`addFact` and `transferToOtherSystem` are run on, both are run with that
inverse, and after the step every identifier has the instruction kind it had
before it, the compare its predicate `P` again.  A fact entry of the walk
leaves every instruction kind as it was; at every point of the walk, within
the instructions of a block too, every identifier carries the predicate it
carried in the function the pass was given; and so it does in the function
`eliminateConstraints` leaves. -/
theorem predicate_restoration (O : Oracle) (g : Nat → Bool) (S : DriverState)
    (CB : ConstraintOrBlock) (P : Predicate) (A B : Value) (hNot : CB.Not = true)
    (hk : S.F.kind CB.Condition = some (.icmp P A B)) :
    kindOf (setPredicate S.F.defs CB.Condition P.getInversePredicate) (.ref CB.Condition) =
        some (.icmp P.getInversePredicate A B) ∧
      ((processCondition O S CB).Info, (processCondition O S CB).DFSInStack) =
        (S.Info.addFact O (setPredicate S.F.defs CB.Condition P.getInversePredicate)
            P.getInversePredicate A B true CB.NumIn CB.NumOut S.DFSInStack).1.transferToOtherSystem
          O (setPredicate S.F.defs CB.Condition P.getInversePredicate)
          P.getInversePredicate A B true CB.NumIn CB.NumOut
          (S.Info.addFact O (setPredicate S.F.defs CB.Condition P.getInversePredicate)
            P.getInversePredicate A B true CB.NumIn CB.NumOut S.DFSInStack).2 ∧
      (∀ j, (processCondition O S CB).F.kind j = S.F.kind j) ∧
      (∀ (S2 : DriverState) (CB2 : ConstraintOrBlock) (j : Nat), CB2.IsBlock = false →
        (processEntry O g S2 CB2).F.kind j = S2.F.kind j) ∧
      (∀ (F : Function) (WL : List ConstraintOrBlock) (insts : List Nat) (j : Nat),
        predicateOf
            ((insts.foldl (processInstruction O g) (runWorkList O g { F := F } WL)).F.kind j) =
          predicateOf (F.kind j)) ∧
      ∀ (F : Function) (DT : DominatorTree) (j : Nat),
        predicateOf ((eliminateConstraints O g F DT).2.kind j) = predicateOf (F.kind j) := by
  have hk1 := kindOf_setPredicate S.F.defs CB.Condition P P.getInversePredicate A B hk
  have h0 : ∀ F : Function, PredicatesKept F F [] :=
    fun F => ⟨fun _ => rfl, fun u hu => absurd hu (List.not_mem_nil u)⟩
  refine ⟨hk1, ?_, processCondition_kind O S CB, ?_, ?_, ?_⟩
  · unfold processCondition
    rw [hk]
    simp only [hNot, ↓reduceIte]
    rw [hk1]
  · intro S2 CB2 j hB
    unfold processEntry
    simp only [hB, Bool.false_eq_true, ↓reduceIte]
    rw [processCondition_kind]
  · intro F WL insts j
    exact (foldl_processInstruction_kept O g F insts _
      (runWorkList_kept O g F WL { F := F } (h0 F))).1 j
  · intro F DT j
    exact foldl_eraseFromParent_kept F _ _
      (runWorkList_kept O g F (stableSort (collectWorkList F DT)) { F := F } (h0 F)) j

/-- Witness of `predicate_restoration`: in `equalityAfterBound` the fact of
block 2 is the compare `%2 = icmp uge %0, %1` asserted negated; the store is
given the row of `%0 u< %1`, and the compare is `uge` again after the step. -/
theorem predicate_restoration_witness :
    (ConstraintOrBlock.ofCondition ⟨2, 7, 8⟩ 2 true) ∈
        stableSort (collectWorkList equalityAfterBound equalityAfterBoundDT) ∧
      kindOf (setPredicate equalityAfterBound.defs 2 .ICMP_ULT) (.ref 2) =
        some (.icmp .ICMP_ULT (.ref 0) (.ref 1)) ∧
      (processCondition syntacticOracle { F := equalityAfterBound }
        (ConstraintOrBlock.ofCondition ⟨2, 7, 8⟩ 2 true)).Info.UnsignedCS = [[-1, 1, -1]] ∧
      (processCondition syntacticOracle { F := equalityAfterBound }
        (ConstraintOrBlock.ofCondition ⟨2, 7, 8⟩ 2 true)).F.kind 2 =
        some (.icmp .ICMP_UGE (.ref 0) (.ref 1)) :=
  ⟨by decide,
   (predicate_restoration syntacticOracle counterUnset { F := equalityAfterBound }
      (ConstraintOrBlock.ofCondition ⟨2, 7, 8⟩ 2 true) .ICMP_UGE (.ref 0) (.ref 1) rfl rfl).1,
   by decide,
   by decide⟩

/-! ## C3: the check of the `Then` branch is folded to true -/

/-- C3 (scenario, `Then` branch): for a value `x` that is not a constant and a
signed constant `c` with `c` and `c + 1` strictly inside the 64-bit working
range, `getConstraint(SGT, x, c)` and `getConstraint(SGE, x, c + 1)` return the
same row and the same new-index table against any atom table; and once the
engine has taken the row of the fact `x s> c`, a comparison `x s>= c + 1` is
reported implied by an engine that reports held rows implied, and it is
folded: the step reports a change, and in every instruction that is not an
assume each operand that was the comparison is the constant true afterwards
and every other operand is as it was. -/
theorem then_branch_rows_identical (Info : ConstraintInfo) (defs : Defs) (x : Value)
    (w v v1 : Nat) (NI : DenseMap)
    (hx : ∀ bits val, stripPointerCastsSameRepresentation defs x ≠ .constInt bits val)
    (hc : MinSignedConstraintValue < getSExtValue w v)
    (hsucc : getSExtValue w v1 = getSExtValue w v + 1)
    (hc1 : getSExtValue w v1 < MaxConstraintValue) :
    Info.getConstraint defs .ICMP_SGT x (.constInt w v) NI =
        Info.getConstraint defs .ICMP_SGE x (.constInt w v1) NI ∧
    ∀ (O : Oracle) (S : DriverState) (I : Nat) (IsNegated : Bool) (NumIn NumOut : Nat)
      (st : List StackEntry),
      O.ImpliesHeldRows →
      S.F.defs = defs →
      S.F.kind I = some (.icmp .ICMP_SGE x (.constInt w v1)) →
      O.addsRow (Info.getCS true)
        (Info.getConstraint defs .ICMP_SGT x (.constInt w v) []).1.Coefficients = true →
      S.Info.getValue2Index true =
        (Info.addFact O defs .ICMP_SGT x (.constInt w v) IsNegated NumIn NumOut st).1.getValue2Index
          true →
      S.Info.getCS true =
        (Info.addFact O defs .ICMP_SGT x (.constInt w v) IsNegated NumIn NumOut st).1.getCS true →
      (processInstruction O counterUnset S I).Changed = true ∧
      ((processInstruction O counterUnset S I).F.defs =
          replaceUsesWithIf defs I getTrue (fun k => !isAssume k) ∨
        (processInstruction O counterUnset S I).F.defs =
          replaceAllUsesWith (replaceUsesWithIf defs I getTrue (fun k => !isAssume k))
            I getFalse) ∧
      ∀ (j : Nat) (ins : Instruction), defs.get j = some ins → isAssume ins.kind = false →
        (processInstruction O counterUnset S I).F.defs.get j =
          some { ins with
            kind := ins.kind.mapOperands (fun v => if v = .ref I then getTrue else v) } := by
  have hc1' : getSExtValue w v + 1 < MaxConstraintValue := by omega
  have hc2 : MinSignedConstraintValue < getSExtValue w v1 := by omega
  have hk : - getSExtValue w v1 = - getSExtValue w v - 1 := by omega
  constructor
  · rw [getConstraint_sgt_const Info defs x w v NI hx hc hc1',
      getConstraint_sge_const Info defs x w v1 NI hx hc2 hc1, hk]
  · intro O S I IsNegated NumIn NumOut st hmem hdefs hkind hadds hT hCS
    obtain ⟨hT2, hmemRow⟩ :=
      addFact_sgt_const O Info defs x w v IsNegated NumIn NumOut st hx hc hc1' hadds
    rw [← hT] at hT2
    rw [← hCS] at hmemRow
    have hrow := getConstraint_sgt_const Info defs x w v [] hx hc hc1'
    rw [hrow] at hT2 hmemRow
    obtain ⟨hco, hni⟩ := constAtomRow_committed Info S.Info _ _ hT2
    have hrow2 := getConstraint_sge_const S.Info defs x w v1 [] hx hc2 hc1
    rw [hk] at hrow2
    have himp := hmem _ _ hmemRow
    rw [← hco] at himp
    have hne : (constAtomRow S.Info (stripPointerCastsSameRepresentation defs x)
        (- getSExtValue w v - 1) []).1.Coefficients ≠ [] := by
      intro h
      have := congrArg List.length h
      simp [constAtomRow, updateAt_length, addCoefficients_length] at this
    have hlen := List.length_pos.2 hne
    have hvalid : ConstraintTy.isValid O
        { Coefficients := (constAtomRow S.Info (stripPointerCastsSameRepresentation defs x)
            (- getSExtValue w v - 1) []).1.Coefficients,
          Preconditions := (constAtomRow S.Info (stripPointerCastsSameRepresentation defs x)
            (- getSExtValue w v - 1) []).1.Preconditions,
          IsSigned := true, IsEq := false } S.Info defs = true := by
      simp only [ConstraintTy.isValid, gt_iff_lt, hlen, decide_True, Bool.true_and]
      simp [constAtomRow]
    have hsig : (constAtomRow S.Info (stripPointerCastsSameRepresentation defs x)
        (- getSExtValue w v - 1) []).1.IsSigned = true := rfl
    have heq : (constAtomRow S.Info (stripPointerCastsSameRepresentation defs x)
        (- getSExtValue w v - 1) []).1.IsEq = false := rfl
    have hemp : (constAtomRow S.Info (stripPointerCastsSameRepresentation defs x)
        (- getSExtValue w v - 1) []).1.empty = false := by
      simp [ConstraintTy.empty, hne]
    have hmain : (processInstruction O counterUnset S I).Changed = true ∧
        ((processInstruction O counterUnset S I).F.defs =
            replaceUsesWithIf defs I getTrue (fun k => !isAssume k) ∨
          (processInstruction O counterUnset S I).F.defs =
            replaceAllUsesWith (replaceUsesWithIf defs I getTrue (fun k => !isAssume k))
              I getFalse) := by
      simp only [processInstruction, hkind, hdefs, hrow2, heq, hemp, Bool.or_self,
        Bool.false_eq_true, ↓reduceIte, hni, ConstraintTy.needsNewIndices, List.length_nil,
        needsNewIndicesLoop, hvalid, Bool.not_true, hsig, himp, counterUnset, Bool.and_false,
        Bool.and_true, Bool.false_or]
      split <;> simp [replaceAllUsesWith]
    refine ⟨hmain.1, hmain.2, ?_⟩
    intro j ins hget hna
    rcases hmain.2 with h | h
    · rw [h, replaceUsesWithIf_get, hget]
      simp [hna]
    · rw [h]
      unfold replaceAllUsesWith
      rw [replaceUsesWithIf_get, replaceUsesWithIf_get, hget]
      simp only [Option.map_some', hna, Bool.not_false, ↓reduceIte, mapOperands_comp]
      congr 2
      apply mapOperands_congr
      intro v
      by_cases hv : v = .ref I
      · simp [hv, getTrue]
      · simp [hv]

/-- Witness of `then_branch_rows_identical`: the fact `x s> 0` and the check
`x s>= 1` of the scenario; after the step the `Then` block returns the constant
true, `ret %3` having become `ret true`. -/
theorem then_branch_rows_identical_witness :
    (({} : ConstraintInfo).getConstraint scenario.defs .ICMP_SGT (.ref 0) (.constInt 32 0) [] =
      ({} : ConstraintInfo).getConstraint scenario.defs .ICMP_SGE (.ref 0) (.constInt 32 1) []) ∧
    (processInstruction syntacticOracle counterUnset
        { F := scenario,
          Info := (({} : ConstraintInfo).addFact syntacticOracle scenario.defs .ICMP_SGT (.ref 0)
            (.constInt 32 0) false 1 2 []).1 } 3).Changed = true ∧
    (processInstruction syntacticOracle counterUnset
        { F := scenario,
          Info := (({} : ConstraintInfo).addFact syntacticOracle scenario.defs .ICMP_SGT (.ref 0)
            (.constInt 32 0) false 1 2 []).1 } 3).F.defs.get 4 =
      some ⟨.other, .otherTerminator [] [.constInt 1 1]⟩ :=
  have h := then_branch_rows_identical {} scenario.defs (.ref 0) 32 0 1 []
    (by intro b v; simp [stripPointerCastsSameRepresentation, stripCasts, kindOf, Defs.get,
      scenario])
    (by decide) (by decide) (by decide)
  have h2 := h.2 syntacticOracle
    { F := scenario,
      Info := (({} : ConstraintInfo).addFact syntacticOracle scenario.defs .ICMP_SGT (.ref 0)
        (.constInt 32 0) false 1 2 []).1 } 3 false 1 2 []
    syntacticOracle_impliesHeldRows rfl (by decide) (by decide) rfl rfl
  ⟨h.1, h2.1, h2.2.2 4 ⟨.other, .otherTerminator [] [.ref 3]⟩ (by decide) (by decide)⟩

/-! ## C33: the facts of the transfer are true -/

theorem evalInt_constInt (defs : Defs) (ρ : Nat → Nat) (n bits val : Nat) :
    evalInt defs ρ n (.constInt bits val) = some (val % 2 ^ bits) := by
  cases n <;> rfl

theorem factHolds_of_values (defs : Defs) (ρ : Nat → Nat) (n : Nat) (P : Predicate)
    (A B : Value) (w a b : Nat) (hA : getType defs A = .int w)
    (ha : evalInt defs ρ n A = some a) (hb : evalInt defs ρ n B = some b) :
    factHolds defs ρ n P A B = (evalPredicate P w a b == some true) := by
  unfold factHolds
  rw [hA, ha, hb]

theorem constantInt_zero (w : Nat) : ConstantInt.get (.int w) 0 = .constInt w 0 := by
  simp [ConstantInt.get]

/-- C33 (the transfer rules are arithmetically sound): for every width `w` and
all `w`-bit patterns `a` and `b`: `a s< b` and `a s>= 0` imply `a u< b`;
`a s>= b` and `b s>= 0` imply `a u>= b`; and `a u>= 0` holds always.  Hence,
for operands `A` and `B` of type `iw` that have the values `a` and `b` in an
execution in which the fact `A Pred B` is true, a call of
`transferToOtherSystem` for that fact either changes nothing or is one of three
calls of `addFact` for an unsigned fact, made after the query `doesHold` for
its side condition `X s>= C` answered true, and that unsigned fact is true in
the execution whenever the side condition is: `A u< B` for `s<` with
`A s>= 0`, `A u>= 0` for `s>` with `B s>= -1`, `A u>= B` for `s>=` with
`B s>= 0`. -/
theorem transfer_rules_sound (w a b : Nat) (ha : a < 2 ^ w) (hb : b < 2 ^ w) :
    (evalPredicate .ICMP_SLT w a b = some true → evalPredicate .ICMP_SGE w a 0 = some true →
      evalPredicate .ICMP_ULT w a b = some true) ∧
    (evalPredicate .ICMP_SGE w a b = some true → evalPredicate .ICMP_SGE w b 0 = some true →
      evalPredicate .ICMP_UGE w a b = some true) ∧
    evalPredicate .ICMP_UGE w a 0 = some true ∧
    ∀ (O : Oracle) (Info : ConstraintInfo) (defs : Defs) (P : Predicate) (A B : Value)
      (neg : Bool) (i o : Nat) (st : List StackEntry) (ρ : Nat → Nat) (n : Nat),
      getType defs A = .int w → getType defs B = .int w →
      evalInt defs ρ n A = some a → evalInt defs ρ n B = some b →
      factHolds defs ρ n P A B = true →
      Info.transferToOtherSystem O defs P A B neg i o st = (Info, st) ∨
      (P = .ICMP_SLT ∧
        Info.doesHold O defs .ICMP_SGE A (ConstantInt.get (getType defs B) 0) = true ∧
        Info.transferToOtherSystem O defs P A B neg i o st =
          Info.addFact O defs .ICMP_ULT A B neg i o st ∧
        (factHolds defs ρ n .ICMP_SGE A (ConstantInt.get (getType defs B) 0) = true →
          factHolds defs ρ n .ICMP_ULT A B = true)) ∨
      (P = .ICMP_SGT ∧
        Info.doesHold O defs .ICMP_SGE B (ConstantInt.get (getType defs B) (-1)) = true ∧
        Info.transferToOtherSystem O defs P A B neg i o st =
          Info.addFact O defs .ICMP_UGE A (ConstantInt.get (getType defs B) 0) neg i o st ∧
        factHolds defs ρ n .ICMP_UGE A (ConstantInt.get (getType defs B) 0) = true) ∨
      (P = .ICMP_SGE ∧
        Info.doesHold O defs .ICMP_SGE B (ConstantInt.get (getType defs B) 0) = true ∧
        Info.transferToOtherSystem O defs P A B neg i o st =
          Info.addFact O defs .ICMP_UGE A B neg i o st ∧
        (factHolds defs ρ n .ICMP_SGE B (ConstantInt.get (getType defs B) 0) = true →
          factHolds defs ρ n .ICMP_UGE A B = true)) := by
  have harith : (evalPredicate .ICMP_SLT w a b = some true →
        evalPredicate .ICMP_SGE w a 0 = some true → evalPredicate .ICMP_ULT w a b = some true) ∧
      (evalPredicate .ICMP_SGE w a b = some true → evalPredicate .ICMP_SGE w b 0 = some true →
        evalPredicate .ICMP_UGE w a b = some true) ∧
      evalPredicate .ICMP_UGE w a 0 = some true := by
    simp only [evalPredicate, Option.some.injEq, decide_eq_true_eq, toSigned_zero, ge_iff_le,
      gt_iff_lt, Nat.zero_le, decide_True, and_true]
    have hca := toSigned_cases w a ha
    have hcb := toSigned_cases w b hb
    generalize toSigned w a = sa at *
    generalize toSigned w b = sb at *
    generalize 2 ^ (w - 1) = P at *
    generalize 2 ^ w = Q at *
    rcases hca with ⟨ha1, ha2⟩ | ⟨hw, ha1, ha2⟩ <;>
      rcases hcb with ⟨hb1, hb2⟩ | ⟨hw2, hb1, hb2⟩ <;>
      constructor <;> intro h1 h2 <;> omega
  refine ⟨harith.1, harith.2.1, harith.2.2, ?_⟩
  intro O Info defs P A B neg i o st ρ n hA hB hva hvb hfact
  have hz : evalInt defs ρ n (.constInt w 0) = some 0 := by
    rw [evalInt_constInt]; simp
  rw [factHolds_of_values defs ρ n P A B w a b hA hva hvb] at hfact
  have hfact2 : evalPredicate P w a b = some true := by simpa using hfact
  have hty : isIntegerTy (getType defs A) = true := by rw [hA]; rfl
  rw [hB, constantInt_zero]
  rw [factHolds_of_values defs ρ n .ICMP_SGE A (.constInt w 0) w a 0 hA hva hz,
    factHolds_of_values defs ρ n .ICMP_SGE B (.constInt w 0) w b 0 hB hvb hz,
    factHolds_of_values defs ρ n .ICMP_ULT A B w a b hA hva hvb,
    factHolds_of_values defs ρ n .ICMP_UGE A B w a b hA hva hvb,
    factHolds_of_values defs ρ n .ICMP_UGE A (.constInt w 0) w a 0 hA hva hz]
  cases P with
  | ICMP_SLT =>
    cases hd : Info.doesHold O defs .ICMP_SGE A (.constInt w 0) with
    | false =>
      left
      simp [ConstraintInfo.transferToOtherSystem, hty, hB, constantInt_zero, hd]
    | true =>
      right; left
      refine ⟨rfl, rfl, ?_, ?_⟩
      · simp [ConstraintInfo.transferToOtherSystem, hty, hB, constantInt_zero, hd]
      · intro hside
        have := harith.1 hfact2 (by simpa using hside)
        simpa using this
  | ICMP_SGT =>
    cases hd : Info.doesHold O defs .ICMP_SGE B (ConstantInt.get (.int w) (-1)) with
    | false =>
      left
      simp [ConstraintInfo.transferToOtherSystem, hty, hB, hd]
    | true =>
      right; right; left
      refine ⟨rfl, rfl, ?_, ?_⟩
      · simp [ConstraintInfo.transferToOtherSystem, hty, hB, constantInt_zero, hd]
      · simpa using harith.2.2
  | ICMP_SGE =>
    cases hd : Info.doesHold O defs .ICMP_SGE B (.constInt w 0) with
    | false =>
      left
      simp [ConstraintInfo.transferToOtherSystem, hty, hB, constantInt_zero, hd]
    | true =>
      right; right; right
      refine ⟨rfl, rfl, ?_, ?_⟩
      · simp [ConstraintInfo.transferToOtherSystem, hty, hB, constantInt_zero, hd]
      · intro hside
        have := harith.2.1 hfact2 (by simpa using hside)
        simpa using this
  | _ =>
    left
    simp [ConstraintInfo.transferToOtherSystem, hty]

/-- Witness of `transfer_rules_sound`: the 8-bit patterns 3 and 100; and the
store that holds `%0 s>= 0`, in an execution with `%1 = 100` and `%0 = 3`: the
fact `%1 s>= %0` is true, its transfer puts the row of `%1 u>= %0` into the
unsigned system, and `%1 u>= %0` is true in the execution. -/
theorem transfer_rules_sound_witness :
    evalPredicate .ICMP_SLT 8 3 100 = some true ∧ evalPredicate .ICMP_SGE 8 3 0 = some true ∧
    evalPredicate .ICMP_ULT 8 3 100 = some true ∧
    evalInt twoArguments (fun id => if id = 1 then 100 else 3) 1 (.ref 1) = some 100 ∧
    evalInt twoArguments (fun id => if id = 1 then 100 else 3) 1 (.ref 0) = some 3 ∧
    factHolds twoArguments (fun id => if id = 1 then 100 else 3) 1 .ICMP_SGE (.ref 1) (.ref 0) =
      true ∧
    (nonNegativeStore.transferToOtherSystem syntacticOracle twoArguments .ICMP_SGE (.ref 1)
      (.ref 0) false 0 1 []).1.UnsignedCS = [[0, 1, -1]] ∧
    factHolds twoArguments (fun id => if id = 1 then 100 else 3) 1 .ICMP_UGE (.ref 1) (.ref 0) =
      true :=
  ⟨by decide, by decide,
   (transfer_rules_sound 8 3 100 (by decide) (by decide)).1 (by decide) (by decide),
   by decide, by decide, by decide, by decide,
   (Or.resolve_left
      (Or.resolve_left
        (Or.resolve_left
          ((transfer_rules_sound 32 100 3 (by decide) (by decide)).2.2.2 syntacticOracle
            nonNegativeStore twoArguments .ICMP_SGE (.ref 1) (.ref 0) false 0 1 []
            (fun id => if id = 1 then 100 else 3) 1 rfl rfl (by decide) (by decide) (by decide))
          (by decide))
        (fun h => absurd h.1 (by decide)))
      (fun h => absurd h.1 (by decide))).2.2.2 (by decide)⟩

/-! ## C2: the store at a block marker -/

end ConstraintElimination
